import Mathlib

/-!
# Memgraph: garbage collector, transaction engine and the indexed MVCC storage

A shallow embedding of `src/storage/garbage_collector.hpp` and of the storage
engine exercised by `tests/unit/storage_v2_indices.cpp`, followed by the
embeddings of smaller pieces of the server: the Bolt session and the start-up
code of `src/memgraph_init.cpp`, the container state of
`src/database/single_node/dump.hpp`, the profiling scopes of
`src/query/plan/scoped_profile.hpp`, the plan printer of
`src/query/plan/pretty_print.hpp`, the removal of conjuncts in
`src/query/plan/rewrite/index_lookup.cpp` and the JSON conversion of
`src/audit/log.cpp`.

Machine integers are natural numbers or integers; the 64-bit counters of the
garbage collector and of the profiler wrap explicitly (`% 2 ^ 64`), and the
32-bit loop counter of the plan printer has no value beyond its range.
Exceptions are values of `Except`, and state is passed explicitly.
-/

set_option autoImplicit false

namespace tx

/-- Modelled from the spec: state of a transaction in the commit log. -/
inductive Status where
  | Active
  | Committed
  | Aborted
  deriving DecidableEq, Repr

/-- Modelled from the spec: the transaction engine (`transactions/engine.hpp` is
not among the sources).  Section 4.3: a counter of allocated ids, the set of
in-flight ids and the commit log.  `counter` is the value `count()` returns, so
the id the next transaction gets (`next_id` of the spec) is `counter + 1`; ids
start at 1 and 0 is the unset stamp. -/
structure Engine where
  counter : Nat
  active : List Nat
  commit_log : Nat → Status

namespace Engine

/-- Modelled from the spec: the freshly started engine; nothing allocated, every
id still reads as `Active` in the commit log. -/
def init : Engine := ⟨0, [], fun _ => Status.Active⟩

/-- Modelled from the spec: `count()`, the number of ids allocated so far. -/
def count (e : Engine) : Nat := e.counter

/-- Modelled from the spec: `next_id`, the id the next transaction will get. -/
def next_id (e : Engine) : Nat := e.counter + 1

/-- Modelled from the spec: `OldestActive() → id?`, the minimum of `active`,
else none. -/
def oldest_active (e : Engine) : Option Nat := e.active.min?

/-- Modelled from the spec: `GlobalInfo(id)`. -/
def GlobalInfo (e : Engine) (id : Nat) : Status := e.commit_log id

/-- Modelled from the spec: `Begin()`: allocate `id = next_id++`, copy the
current `active` into the snapshot, insert `id` into `active`, record `Active`
in the commit log.  Returns the id, the snapshot and the new engine. -/
def Begin (e : Engine) : Nat × List Nat × Engine :=
  let id := e.next_id
  (id, e.active,
    { counter := id
      active := e.active ++ [id]
      commit_log := Function.update e.commit_log id Status.Active })

/-- Modelled from the spec: `Commit(tx)`: set the commit log entry to
`Committed`, remove from `active`, and allocate the commit timestamp
`commit_ts = next_id++`. -/
def Commit (e : Engine) (id : Nat) : Engine :=
  { counter := e.counter + 1
    active := e.active.filter (fun a => a != id)
    commit_log := Function.update e.commit_log id Status.Committed }

/-- Modelled from the spec: `Abort(tx)`: set to `Aborted`, remove from
`active`. -/
def Abort (e : Engine) (id : Nat) : Engine :=
  { counter := e.counter
    active := e.active.filter (fun a => a != id)
    commit_log := Function.update e.commit_log id Status.Aborted }

/-- Modelled from the spec: operations a client can apply to the engine. -/
inductive Op where
  | begin
  | commit (id : Nat)
  | abort (id : Nat)

/-- Modelled from the spec: one engine operation; commit and abort only apply to in-flight ids. -/
def step (e : Engine) : Op → Engine
  | Op.begin => (e.Begin).2.2
  | Op.commit id => if id ∈ e.active then e.Commit id else e
  | Op.abort id => if id ∈ e.active then e.Abort id else e

/-- Modelled from the spec: the engine after a sequence of operations from the initial state. -/
def run (ops : List Op) : Engine := ops.foldl step init

/-- Every in-flight id has been allocated: it is at most `count()`. -/
def ActiveAllocated (e : Engine) : Prop := ∀ a ∈ e.active, a ≤ e.counter

end Engine

end tx

namespace GarbageCollector

/-- Result of one `Run`: the skiplist and the records afterwards, the local
`count`, the threshold `id`, and (ghost) the log of `GcDeleted` calls in call
order: the version list, the id passed and the value returned. -/
structure RunResult (σ : Type) where
  skiplist : List Nat
  records : σ
  count : Nat
  id : Nat
  calls : List (Nat × Nat × Bool)

/-- The threshold of `Run` (lines 33-34): `next_id = engine_->count() + 1` in
64-bit arithmetic and `id = engine_->oldest_active().get_or(next_id)`. -/
def threshold (engine : tx.Engine) : Nat :=
  let next_id := (engine.count + 1) % 2 ^ 64
  engine.oldest_active.getD next_id

/-- The loop of `Run` (lines 37-41) over the elements the accessor yields.
`GcDeleted id x` acts on the records and returns a flag; when it is set,
`accessor.remove(x)` takes `x` out of the skiplist and `count` grows by what
`remove` returns (1 if `x` was found).  Removing the element the iterator
stands on does not disturb the iteration, so the loop visits the elements the
skiplist held when it started. -/
def loop {σ : Type} (GcDeleted : Nat → Nat → σ → Bool × σ) (id : Nat) :
    List Nat → RunResult σ → RunResult σ
  | [], st => st
  | x :: xs, st =>
    let r := GcDeleted id x st.records
    if r.1 then
      loop GcDeleted id xs
        { skiplist := st.skiplist.erase x
          records := r.2
          count := (st.count + (if x ∈ st.skiplist then 1 else 0)) % 2 ^ 64
          id := st.id
          calls := st.calls ++ [(x, id, true)] }
    else
      loop GcDeleted id xs
        { skiplist := st.skiplist
          records := r.2
          count := st.count
          id := st.id
          calls := st.calls ++ [(x, id, false)] }

/-- `GarbageCollector::Run`.  The skiplist holds the version lists (by
address); `GcDeleted` is the method of `mvcc::VersionList` (not among the
sources), taken as a parameter acting on the records `σ`. -/
def Run {σ : Type} (GcDeleted : Nat → Nat → σ → Bool × σ) (engine : tx.Engine)
    (skiplist : List Nat) (records : σ) : RunResult σ :=
  let id := threshold engine
  loop GcDeleted id skiplist
    { skiplist := skiplist, records := records, count := 0, id := id, calls := [] }

/-- What `GcDeleted(id)` returns when it is called once on each version list
of `xs` in turn, the records being handed from one call to the next. -/
def gcCalls {σ : Type} (GcDeleted : Nat → Nat → σ → Bool × σ) (id : Nat) :
    List Nat → σ → List (Nat × Nat × Bool)
  | [], _ => []
  | x :: xs, records =>
    (x, id, (GcDeleted id x records).1) :: gcCalls GcDeleted id xs (GcDeleted id x records).2

end GarbageCollector

namespace storage

/-- Three-way comparison in a linear order. -/
def ltCmp {α : Type} [LinearOrder α] (a b : α) : Ordering :=
  if a < b then Ordering.lt else if b < a then Ordering.gt else Ordering.eq

/-- The three transitivity facts of a three-way comparison at one triple. -/
def Tri (o1 o2 o3 : Ordering) : Prop :=
  (o1 = Ordering.lt → o2 ≠ Ordering.gt → o3 = Ordering.lt) ∧
  (o1 ≠ Ordering.gt → o2 = Ordering.lt → o3 = Ordering.lt) ∧
  (o1 = Ordering.eq → o2 = Ordering.eq → o3 = Ordering.eq)

/-- Modelled from the spec: `PropertyValue` (`storage/v2/property_value.hpp` is
not among the sources), the tagged union over Null, Bool, Int, Double, String,
List and Map of sections 2 and 3.  A Double is represented by the rational
number it denotes (NaN is rejected at construction, section 4.2); a Map is the
list of its entries in key order. -/
inductive PropertyValue where
  | null
  | bool (b : Bool)
  | int (i : Int)
  | double (d : ℚ)
  | string (s : String)
  | list (xs : List PropertyValue)
  | map (m : List (String × PropertyValue))

namespace PropertyValue

/-- Modelled from the spec: position of the type tag in the order
Null < Bool < Int ≡ Double < String < List < Map of section 3. -/
def rank : PropertyValue → Nat
  | null => 0
  | bool _ => 1
  | int _ => 2
  | double _ => 2
  | string _ => 3
  | list _ => 4
  | map _ => 5

/-- Modelled from the spec: the number an Int or a Double denotes (0 for the other tags). -/
def num : PropertyValue → ℚ
  | int i => (i : ℚ)
  | double d => d
  | _ => 0

/-- Modelled from the spec: whether the value is Null. -/
def isNull : PropertyValue → Bool
  | null => true
  | _ => false

mutual
/-- Modelled from the spec: the ordering of section 3.  Values of unequal type
are ordered by type tag; Int and Double compare numerically with each other;
lists and maps are lexicographic over their elements by the same rules. -/
def cmp (a b : PropertyValue) : Ordering :=
  (ltCmp (rank a) (rank b)).then
    (match a, b with
      | bool x, bool y => ltCmp x y
      | string x, string y => ltCmp x y
      | list xs, list ys => cmpList xs ys
      | map m, map n => cmpMap m n
      | a, b => ltCmp (num a) (num b))
/-- Modelled from the spec: lexicographic comparison of two lists of values. -/
def cmpList : List PropertyValue → List PropertyValue → Ordering
  | [], [] => Ordering.eq
  | [], _ :: _ => Ordering.lt
  | _ :: _, [] => Ordering.gt
  | x :: xs, y :: ys => (cmp x y).then (cmpList xs ys)
/-- Modelled from the spec: lexicographic comparison of two maps, entry by entry (key, then value). -/
def cmpMap : List (String × PropertyValue) → List (String × PropertyValue) → Ordering
  | [], [] => Ordering.eq
  | [], _ :: _ => Ordering.lt
  | _ :: _, [] => Ordering.gt
  | (k, v) :: m, (k2, v2) :: n => (ltCmp k k2).then ((cmp v v2).then (cmpMap m n))
end

/-- Modelled from the spec: equality of property values as used by the index
(section 3: `1` and `1.0` are equal keys). -/
def eqv (a b : PropertyValue) : Bool := decide (cmp a b = Ordering.eq)

/-- Modelled from the spec: the order `a ≤ b` of property values. -/
def le (a b : PropertyValue) : Bool := decide (cmp a b ≠ Ordering.gt)

/-- Modelled from the spec: the strict order `a < b` of property values. -/
def lt (a b : PropertyValue) : Bool := decide (cmp a b = Ordering.lt)

end PropertyValue

end storage

namespace storage

/-- Modelled from the spec: read mode: state as of the start of the current command, or including the
writes in progress. -/
inductive View where
  | OLD
  | NEW
  deriving DecidableEq, Repr

/-- Modelled from the spec: error kinds returned by accessor operations (section 7). -/
inductive Error where
  | SerializationConflict
  | DeletedObject
  | VertexHasEdges
  | TransactionEnded
  deriving DecidableEq, Repr

/-- Modelled from the spec: the vertex payload of section 3; an edge reference
is (edge type, other vertex, edge gid). -/
structure Vertex where
  labels : List Nat
  properties : List (Nat × PropertyValue)
  out_edges : List (Nat × Nat × Nat)
  in_edges : List (Nat × Nat × Nat)

/-- Modelled from the spec: one version of a record with its create and expire
stamps (transaction id, 0 = unset, and command id) and the payload. -/
structure Version where
  tx_created : Nat
  cmd_created : Nat
  tx_expired : Nat
  cmd_expired : Nat
  payload : Vertex

/-- Modelled from the spec: the version chain of one vertex, newest version
first, with the write lock (the id of the holder, if any).  The vertex
reference used by the indexes is the gid. -/
structure VersionChain where
  gid : Nat
  lock : Option Nat
  versions : List Version

/-- Modelled from the spec: what an accessor carries of its transaction: the id,
the snapshot (ids in flight when it began) and the current command. -/
structure Transaction where
  id : Nat
  snapshot : List Nat
  cmd : Nat

/-- Modelled from the spec: `Bound<T>` of section 6, a value with the flag
inclusive or exclusive. -/
structure Bound where
  value : PropertyValue
  inclusive : Bool

/-- Modelled from the spec: the storage engine of sections 3 and 4
(`storage/v2/storage.hpp` is not among the sources): the transaction engine,
the open accessors, the primary table of version chains in gid order, the
label index (entries `(vertex_ref, timestamp)` per label), the registered
label+property indexes and their entries `(value, vertex_ref, timestamp)`. -/
structure Storage where
  engine : tx.Engine
  accessors : List Transaction
  next_gid : Nat
  next_edge_gid : Nat
  vertices : List VersionChain
  label_index : Nat → List (Nat × Nat)
  registered : List (Nat × Nat)
  label_property_index : Nat × Nat → List (PropertyValue × Nat × Nat)

/-- Modelled from the spec: value of a property in a payload; Null when the property is absent. -/
def Vertex.GetProperty (v : Vertex) (property : Nat) : PropertyValue :=
  match v.properties.find? (fun kv => kv.1 == property) with
  | some kv => kv.2
  | none => PropertyValue.null

/-- Modelled from the spec: whether the payload carries the label. -/
def Vertex.HasLabel (v : Vertex) (label : Nat) : Bool := v.labels.contains label

/-- Modelled from the spec: the create half of the visibility rule of section
4.4: `c` is committed, not in the snapshot and `c < tid`, or `c == tid` and the
command rule holds (`OLD`: `cc < cmd`; `NEW`: `cc ≤ cmd`). -/
def createdVisible (e : tx.Engine) (t : Transaction) (view : View) (v : Version) : Bool :=
  (decide (e.GlobalInfo v.tx_created = tx.Status.Committed)
      && !t.snapshot.contains v.tx_created && decide (v.tx_created < t.id))
  || (v.tx_created == t.id
      && (match view with
          | View.OLD => decide (v.cmd_created < t.cmd)
          | View.NEW => decide (v.cmd_created ≤ t.cmd)))

/-- Modelled from the spec: the expire half of the visibility rule of section
4.4, its four cases in order: `e == 0`; expired by another transaction that is
still uncommitted, aborted or in the future; `e == tid` with the command rule
inverted (the expiry shows at `OLD` once `ec < cmd`, at `NEW` once `ec ≤ cmd`, so
that a version expired in the current command stays readable at `OLD`, as
scenarios S1 and S2 and the unit test need); `e` committed, not in the snapshot
and `e ≥ tid`.  A transaction is in the future of `T` when it began after `T`
(`tid < e`) or was in flight when `T` began (`e ∈ S`): either way it commits,
if at all, after `T` began, and by property 2 of section 8 `T` never observes
its writes, an expiry as little as a creation (for which the first half of the
rule says `c ∉ S` in so many words). -/
def notExpired (e : tx.Engine) (t : Transaction) (view : View) (v : Version) : Bool :=
  v.tx_expired == 0
  || (v.tx_expired != t.id
      && (decide (e.GlobalInfo v.tx_expired ≠ tx.Status.Committed)
          || decide (t.id < v.tx_expired) || t.snapshot.contains v.tx_expired))
  || (v.tx_expired == t.id
      && (match view with
          | View.OLD => !decide (v.cmd_expired < t.cmd)
          | View.NEW => !decide (v.cmd_expired ≤ t.cmd)))
  || (decide (e.GlobalInfo v.tx_expired = tx.Status.Committed)
      && !t.snapshot.contains v.tx_expired && decide (t.id ≤ v.tx_expired))

/-- Modelled from the spec: a version is visible iff its creation is visible
and it is not yet expired. -/
def visible (e : tx.Engine) (t : Transaction) (view : View) (v : Version) : Bool :=
  createdVisible e t view v && notExpired e t view v

namespace Storage

/-- Modelled from the spec: the storage before any accessor was opened, with the given label+property
indexes registered. -/
def init (registered : List (Nat × Nat)) : Storage :=
  { engine := tx.Engine.init
    accessors := []
    next_gid := 0
    next_edge_gid := 0
    vertices := []
    label_index := fun _ => []
    registered := registered
    label_property_index := fun _ => [] }

/-- Modelled from the spec: the open accessor with the given transaction id. -/
def accessor (s : Storage) (tid : Nat) : Option Transaction :=
  s.accessors.find? (fun t => t.id == tid)

/-- Modelled from the spec: the version chain a vertex reference resolves to in the primary table. -/
def chain (s : Storage) (gid : Nat) : Option VersionChain :=
  s.vertices.find? (fun ch => ch.gid == gid)

/-- Modelled from the spec: the version of a vertex visible at `view`: the
newest version of its chain that passes the visibility rule. -/
def visibleVersion (s : Storage) (t : Transaction) (view : View) (gid : Nat) :
    Option Version :=
  match s.chain gid with
  | some ch => ch.versions.find? (visible s.engine t view)
  | none => none

/-- Modelled from the spec: `Vertices(view)`, the full scan of the primary
table: the vertices with a version visible at `view`, in gid order. -/
def Vertices (s : Storage) (t : Transaction) (view : View) : List Nat :=
  (s.vertices.filter (fun ch => (ch.versions.find? (visible s.engine t view)).isSome)).map
    (fun ch => ch.gid)

/-- Modelled from the spec: `HasLabel(l, view)` through a vertex reference: false when no version is
visible. -/
def HasLabel (s : Storage) (t : Transaction) (view : View) (gid label : Nat) : Bool :=
  match s.visibleVersion t view gid with
  | some v => v.payload.HasLabel label
  | none => false

/-- Modelled from the spec: `GetProperty(p, view)` through a vertex reference: Null when no version is
visible. -/
def GetProperty (s : Storage) (t : Transaction) (view : View) (gid property : Nat) :
    PropertyValue :=
  match s.visibleVersion t view gid with
  | some v => v.payload.GetProperty property
  | none => PropertyValue.null

end Storage

end storage

namespace storage

/-- Modelled from the spec: insertion into a skiplist kept in the order `le`. -/
def insertSorted {α : Type} (le : α → α → Bool) (a : α) : List α → List α
  | [] => [a]
  | b :: l => if le a b then a :: b :: l else b :: insertSorted le a l

/-- Modelled from the spec: the deduplication step of an index scan (section
4.7, step 4): skip an entry whose `vertex_ref` equals the previous emitted
one. -/
def dedup : Option Nat → List Nat → List Nat
  | _, [] => []
  | prev, g :: gs => if prev = some g then dedup prev gs else g :: dedup (some g) gs

/-- Modelled from the spec: order of the label index entries, by `vertex_ref`
then `timestamp`. -/
def labelEntryLe (a b : Nat × Nat) : Bool :=
  decide (a.1 < b.1) || (a.1 == b.1 && decide (a.2 ≤ b.2))

/-- Modelled from the spec: three-way comparison of label+property index
entries by the composite key `(value, vertex_ref, timestamp)`. -/
def propEntryCmp (a b : PropertyValue × Nat × Nat) : Ordering :=
  (PropertyValue.cmp a.1 b.1).then ((ltCmp a.2.1 b.2.1).then (ltCmp a.2.2 b.2.2))

/-- Modelled from the spec: order of the label+property index entries. -/
def propEntryLe (a b : PropertyValue × Nat × Nat) : Bool :=
  decide (propEntryCmp a b ≠ Ordering.gt)

/-- Modelled from the spec: whether a key satisfies the lower bound of a range
lookup (section 4.8); a bound restricts the lookup to the entries of its type
class. -/
def inLower (lower : Option Bound) (k : PropertyValue) : Bool :=
  match lower with
  | none => true
  | some b => k.rank == b.value.rank
      && (if b.inclusive then PropertyValue.le b.value k else PropertyValue.lt b.value k)

/-- Modelled from the spec: whether a key satisfies the upper bound of a range
lookup. -/
def inUpper (upper : Option Bound) (k : PropertyValue) : Bool :=
  match upper with
  | none => true
  | some b => k.rank == b.value.rank
      && (if b.inclusive then PropertyValue.le k b.value else PropertyValue.lt k b.value)

namespace Storage

/-- Modelled from the spec: `LabelIndex::Vertices(label, view, transaction)`
(section 4.7): iterate the label's entries, materialise the version visible at
`view`, keep the entry if that version has the label, deduplicate. -/
def LabelVertices (s : Storage) (t : Transaction) (label : Nat) (view : View) : List Nat :=
  dedup none
    (((s.label_index label).filter (fun e => s.HasLabel t view e.1 label)).map (fun e => e.1))

/-- Modelled from the spec: the filter of a label+property scan (section 4.8):
the visible version has the label and still has a value equal to the key. -/
def entryMatches (s : Storage) (t : Transaction) (view : View) (label property : Nat)
    (e : PropertyValue × Nat × Nat) : Bool :=
  match s.visibleVersion t view e.2.1 with
  | some v => v.payload.HasLabel label && PropertyValue.eqv (v.payload.GetProperty property) e.1
  | none => false

/-- Modelled from the spec: a label+property index scan over the entries whose
key passes `keep`: visibility filter, then adjacent-duplicate elimination. -/
def PropertyScan (s : Storage) (t : Transaction) (label property : Nat) (view : View)
    (keep : PropertyValue → Bool) : List Nat :=
  dedup none
    (((s.label_property_index (label, property)).filter
        (fun e => keep e.1 && s.entryMatches t view label property e)).map (fun e => e.2.1))

/-- Modelled from the spec: `Vertices(label, property, view)`. -/
def LabelPropertyVertices (s : Storage) (t : Transaction) (label property : Nat)
    (view : View) : List Nat :=
  s.PropertyScan t label property view (fun _ => true)

/-- Modelled from the spec: `Vertices(label, property, value, view)`, the equality lookup. -/
def LabelPropertyValueVertices (s : Storage) (t : Transaction) (label property : Nat)
    (value : PropertyValue) (view : View) : List Nat :=
  s.PropertyScan t label property view (fun k => PropertyValue.eqv k value)

/-- Modelled from the spec: `Vertices(label, property, lower, upper, view)`, the range lookup. -/
def LabelPropertyRangeVertices (s : Storage) (t : Transaction) (label property : Nat)
    (lower upper : Option Bound) (view : View) : List Nat :=
  s.PropertyScan t label property view (fun k => inLower lower k && inUpper upper k)

/-- Modelled from the spec: `LabelPropertyIndexExists(label, property)`. -/
def LabelPropertyIndexExists (s : Storage) (label property : Nat) : Bool :=
  s.registered.contains (label, property)

/-- Modelled from the spec: `UpdateOnSetProperty`: insert the entry
`(value, vertex_ref, tid)`; Null values are not inserted. -/
def UpdateOnSetProperty (s : Storage) (label property : Nat) (value : PropertyValue)
    (gid tid : Nat) : Storage :=
  if value.isNull then s
  else
    { s with
      label_property_index :=
        Function.update s.label_property_index (label, property)
          (insertSorted propEntryLe (value, gid, tid)
            (s.label_property_index (label, property))) }

/-- Modelled from the spec: `UpdateOnAddLabel`: insert `(vertex_ref, tid)`. -/
def UpdateOnAddLabel (s : Storage) (label gid tid : Nat) : Storage :=
  { s with
    label_index :=
      Function.update s.label_index label
        (insertSorted labelEntryLe (gid, tid) (s.label_index label)) }

end Storage

end storage

namespace storage

/-- Modelled from the spec: a stamp that makes a write fail with
`SerializationConflict` (section 4.4, write path, step 1): it was committed by a
transaction not in `T`'s snapshot after `T` began.  The transactions that
commit after `T` began are those that began after `T` and those that were in
flight when `T` began; "not in `T`'s snapshot" is read as "whose writes `T`'s
snapshot does not show", which both are, so that a write never lands on a head
that a commit `T` cannot see has replaced or deleted. -/
def conflictStamp (e : tx.Engine) (t : Transaction) (x : Nat) : Bool :=
  x != t.id && decide (e.GlobalInfo x = tx.Status.Committed)
    && (t.snapshot.contains x || decide (t.id < x))

/-- Modelled from the spec: step 1 of the write path on the head of a chain.
`SerializationConflict` if the head is write-locked by another transaction or
carries a conflicting stamp; `DeletedObject` if the accessor has no visible
head to write to; otherwise the head. -/
def headGuard (e : tx.Engine) (t : Transaction) (ch : VersionChain) : Except Error Version :=
  match ch.versions with
  | [] => Except.error Error.DeletedObject
  | h :: _ =>
    if (match ch.lock with
        | some owner => owner != t.id
        | none => false) then Except.error Error.SerializationConflict
    else if conflictStamp e t h.tx_created || conflictStamp e t h.tx_expired then
      Except.error Error.SerializationConflict
    else if !visible e t View.NEW h then Except.error Error.DeletedObject
    else Except.ok h

/-- Modelled from the spec: steps 2 to 4 of the write path on a chain: take the
lock; if the head was not created by this transaction in the current command,
clone its payload into a new head stamped `(tid, cmd)` and expire the previous
head with `(tid, cmd)`; apply the mutation `f` in place on the head.  (Section
4.4 names `tx_created != tid` alone as the condition of the clone; scenario S1
and lines 97-113 of `storage_v2_indices.cpp` need the writes of an earlier
command to stay readable at `OLD`, so the command takes part in it.) -/
def writeHead (t : Transaction) (f : Vertex → Vertex) (ch : VersionChain) : VersionChain :=
  match ch.versions with
  | [] => ch
  | h :: rest =>
    if h.tx_created == t.id && h.cmd_created == t.cmd then
      { ch with lock := some t.id, versions := { h with payload := f h.payload } :: rest }
    else
      { ch with
        lock := some t.id
        versions :=
          { tx_created := t.id, cmd_created := t.cmd, tx_expired := 0, cmd_expired := 0,
            payload := f h.payload }
            :: { h with tx_expired := t.id, cmd_expired := t.cmd } :: rest }

/-- Modelled from the spec: deletion sets `tx_expired` on the current head. -/
def expireHead (t : Transaction) (ch : VersionChain) : VersionChain :=
  match ch.versions with
  | [] => ch
  | h :: rest =>
    { ch with
      lock := some t.id
      versions := { h with tx_expired := t.id, cmd_expired := t.cmd } :: rest }

/-- Modelled from the spec: apply `f` to the chain of the vertex `gid`. -/
def updateChain (gid : Nat) (f : VersionChain → VersionChain) (chains : List VersionChain) :
    List VersionChain :=
  chains.map (fun ch => if ch.gid == gid then f ch else ch)

/-- Modelled from the spec: the payload with one more label. -/
def Vertex.addLabel (label : Nat) (v : Vertex) : Vertex :=
  { v with labels := v.labels ++ [label] }

/-- Modelled from the spec: the payload without the label. -/
def Vertex.removeLabel (label : Nat) (v : Vertex) : Vertex :=
  { v with labels := v.labels.filter (fun l => l != label) }

/-- Modelled from the spec: the payload with the property set; setting Null clears the property. -/
def Vertex.setProperty (property : Nat) (value : PropertyValue) (v : Vertex) : Vertex :=
  { v with
    properties :=
      if value.isNull then v.properties.filter (fun kv => kv.1 != property)
      else (property, value) :: v.properties.filter (fun kv => kv.1 != property) }

namespace Storage

/-- Modelled from the spec: `Storage::Access()`: begin a transaction and open its accessor at the first
command. -/
def Access (s : Storage) : Transaction × Storage :=
  let b := s.engine.Begin
  let t : Transaction := { id := b.1, snapshot := b.2.1, cmd := 1 }
  (t, { s with engine := b.2.2, accessors := s.accessors ++ [t] })

/-- Modelled from the spec: `CreateVertex`: a new chain whose first version has `tx_created` the current
transaction; the engine issues the gid. -/
def CreateVertex (s : Storage) (tid : Nat) : Except Error (Nat × Storage) :=
  match s.accessor tid with
  | none => Except.error Error.TransactionEnded
  | some t =>
    Except.ok (s.next_gid,
      { s with
        next_gid := s.next_gid + 1
        vertices := s.vertices ++
          [{ gid := s.next_gid, lock := some t.id,
             versions := [{ tx_created := t.id, cmd_created := t.cmd, tx_expired := 0,
                            cmd_expired := 0,
                            payload := { labels := [], properties := [], out_edges := [],
                                         in_edges := [] } }] }] })

/-- Modelled from the spec: `AddLabel(l)`: through the write path; a no-op (false) if the vertex already
has the label; appends the label index entry and the entries of the registered
label+property indexes of this label that now hold. -/
def AddLabel (s : Storage) (tid gid label : Nat) : Except Error (Bool × Storage) :=
  match s.accessor tid with
  | none => Except.error Error.TransactionEnded
  | some t =>
    match s.chain gid with
    | none => Except.error Error.DeletedObject
    | some ch =>
      match headGuard s.engine t ch with
      | Except.error err => Except.error err
      | Except.ok h =>
        if h.payload.HasLabel label then Except.ok (false, s)
        else
          let s1 :=
            { s with
              vertices := updateChain gid (writeHead t (Vertex.addLabel label)) s.vertices }
          let s2 := s1.UpdateOnAddLabel label gid t.id
          Except.ok (true,
            (s.registered.filter (fun lp => lp.1 == label)).foldl
              (fun acc lp =>
                acc.UpdateOnSetProperty lp.1 lp.2 (h.payload.GetProperty lp.2) gid t.id) s2)

/-- Modelled from the spec: `RemoveLabel(l)`: through the write path; a no-op (false) if the vertex does
not have the label.  Index entries are not removed. -/
def RemoveLabel (s : Storage) (tid gid label : Nat) : Except Error (Bool × Storage) :=
  match s.accessor tid with
  | none => Except.error Error.TransactionEnded
  | some t =>
    match s.chain gid with
    | none => Except.error Error.DeletedObject
    | some ch =>
      match headGuard s.engine t ch with
      | Except.error err => Except.error err
      | Except.ok h =>
        if !h.payload.HasLabel label then Except.ok (false, s)
        else
          Except.ok (true,
            { s with
              vertices := updateChain gid (writeHead t (Vertex.removeLabel label)) s.vertices })

/-- Modelled from the spec: `SetProperty(p, v)`: through the write path; a no-op (false) if the value
already equals the new value; appends the entries of the registered
label+property indexes of this property whose label the vertex has. -/
def SetProperty (s : Storage) (tid gid property : Nat) (value : PropertyValue) :
    Except Error (Bool × Storage) :=
  match s.accessor tid with
  | none => Except.error Error.TransactionEnded
  | some t =>
    match s.chain gid with
    | none => Except.error Error.DeletedObject
    | some ch =>
      match headGuard s.engine t ch with
      | Except.error err => Except.error err
      | Except.ok h =>
        if PropertyValue.eqv (h.payload.GetProperty property) value then Except.ok (false, s)
        else
          let s1 :=
            { s with
              vertices :=
                updateChain gid (writeHead t (Vertex.setProperty property value)) s.vertices }
          Except.ok (true,
            (s.registered.filter
                (fun lp => lp.2 == property && h.payload.HasLabel lp.1)).foldl
              (fun acc lp => acc.UpdateOnSetProperty lp.1 lp.2 value gid t.id) s1)

/-- Modelled from the spec: `DeleteVertex`: fails with `VertexHasEdges` if the version visible at `NEW`
still has adjacent edges; otherwise expires the head. -/
def DeleteVertex (s : Storage) (tid gid : Nat) : Except Error (Unit × Storage) :=
  match s.accessor tid with
  | none => Except.error Error.TransactionEnded
  | some t =>
    match s.chain gid with
    | none => Except.error Error.DeletedObject
    | some ch =>
      match headGuard s.engine t ch with
      | Except.error err => Except.error err
      | Except.ok h =>
        if !h.payload.out_edges.isEmpty || !h.payload.in_edges.isEmpty then
          Except.error Error.VertexHasEdges
        else
          Except.ok ((), { s with vertices := updateChain gid (expireHead t) s.vertices })

end Storage

end storage

namespace storage

namespace Storage

/-- Modelled from the spec: `CreateEdge(from, to, type)` as far as the vertices are concerned: both
ends go through the write path and get the edge reference (the chains of edge
records are not part of this development). -/
def CreateEdge (s : Storage) (tid src dst edge_type : Nat) : Except Error (Nat × Storage) :=
  match s.accessor tid with
  | none => Except.error Error.TransactionEnded
  | some t =>
    match s.chain src, s.chain dst with
    | some c1, some c2 =>
      match headGuard s.engine t c1, headGuard s.engine t c2 with
      | Except.ok _, Except.ok _ =>
        let egid := s.next_edge_gid
        let v1 := updateChain src
          (writeHead t (fun v => { v with out_edges := v.out_edges ++ [(edge_type, dst, egid)] }))
          s.vertices
        let v2 := updateChain dst
          (writeHead t (fun v => { v with in_edges := v.in_edges ++ [(edge_type, src, egid)] }))
          v1
        Except.ok (egid, { s with next_edge_gid := egid + 1, vertices := v2 })
      | Except.error err, _ => Except.error err
      | _, Except.error err => Except.error err
    | _, _ => Except.error Error.DeletedObject

/-- Modelled from the spec: `DeleteEdge` as far as the vertices are concerned: both ends go through the
write path and lose the edge reference. -/
def DeleteEdge (s : Storage) (tid src dst egid : Nat) : Except Error (Unit × Storage) :=
  match s.accessor tid with
  | none => Except.error Error.TransactionEnded
  | some t =>
    match s.chain src, s.chain dst with
    | some c1, some c2 =>
      match headGuard s.engine t c1, headGuard s.engine t c2 with
      | Except.ok _, Except.ok _ =>
        let v1 := updateChain src
          (writeHead t (fun v => { v with out_edges := v.out_edges.filter (fun e => e.2.2 != egid) }))
          s.vertices
        let v2 := updateChain dst
          (writeHead t (fun v => { v with in_edges := v.in_edges.filter (fun e => e.2.2 != egid) }))
          v1
        Except.ok ((), { s with vertices := v2 })
      | Except.error err, _ => Except.error err
      | _, Except.error err => Except.error err
    | _, _ => Except.error Error.DeletedObject

/-- Modelled from the spec: `AdvanceCommand`: increment the accessor's `cmd`. -/
def AdvanceCommand (s : Storage) (tid : Nat) : Storage :=
  { s with
    accessors := s.accessors.map (fun t => if t.id == tid then { t with cmd := t.cmd + 1 } else t) }

/-- Modelled from the spec: release the chain locks held by a transaction. -/
def releaseLocks (tid : Nat) (chains : List VersionChain) : List VersionChain :=
  chains.map (fun ch => if ch.lock = some tid then { ch with lock := none } else ch)

/-- Modelled from the spec: `Commit`: the commit log turns to `Committed`, the locks are released and the
accessor ends. -/
def Commit (s : Storage) (tid : Nat) : Except Error (Unit × Storage) :=
  match s.accessor tid with
  | none => Except.error Error.TransactionEnded
  | some _ =>
    Except.ok ((),
      { s with
        engine := s.engine.Commit tid
        accessors := s.accessors.filter (fun t => t.id != tid)
        vertices := releaseLocks tid s.vertices })

/-- Modelled from the spec: `Abort`: the commit log turns to `Aborted`, the locks are released, the
versions the transaction created are detached and the accessor ends. -/
def Abort (s : Storage) (tid : Nat) : Except Error (Unit × Storage) :=
  match s.accessor tid with
  | none => Except.error Error.TransactionEnded
  | some _ =>
    Except.ok ((),
      { s with
        engine := s.engine.Abort tid
        accessors := s.accessors.filter (fun t => t.id != tid)
        vertices :=
          (releaseLocks tid s.vertices).map
            (fun ch => { ch with versions := ch.versions.filter (fun v => v.tx_created != tid) }) })

/-- Modelled from the spec: `CreateIndex(label, property)` (section 4.8): fails
(false) if the index is already present, otherwise registers it and back-fills
it from the latest committed version of every chain. -/
def CreateIndex (s : Storage) (label property : Nat) : Bool × Storage :=
  if s.LabelPropertyIndexExists label property then (false, s)
  else
    (true,
      s.vertices.foldl
        (fun acc ch =>
          match ch.versions.find?
              (fun v => decide (s.engine.GlobalInfo v.tx_created = tx.Status.Committed)) with
          | some v =>
            if v.payload.HasLabel label then
              acc.UpdateOnSetProperty label property (v.payload.GetProperty property) ch.gid
                v.tx_created
            else acc
          | none => acc)
        { s with registered := s.registered ++ [(label, property)] })

/-- Modelled from the spec: `DropIndex(label, property)`: removes the
registration (the entries are left to the garbage collector); false if there
was none. -/
def DropIndex (s : Storage) (label property : Nat) : Bool × Storage :=
  if s.LabelPropertyIndexExists label property then
    (true, { s with registered := s.registered.filter (fun lp => lp != (label, property)) })
  else (false, s)

end Storage

/-- Modelled from the spec: the operations of accessors, each naming the accessor by its transaction
id; `Access` opens a new accessor. -/
inductive Op where
  | Access
  | CreateVertex (tid : Nat)
  | AddLabel (tid gid label : Nat)
  | RemoveLabel (tid gid label : Nat)
  | SetProperty (tid gid property : Nat) (value : PropertyValue)
  | DeleteVertex (tid gid : Nat)
  | CreateEdge (tid src dst edge_type : Nat)
  | DeleteEdge (tid src dst egid : Nat)
  | AdvanceCommand (tid : Nat)
  | Commit (tid : Nat)
  | Abort (tid : Nat)

/-- The storage after an operation succeeded, unchanged when it failed. -/
def after {α : Type} (s : Storage) (r : Except Error (α × Storage)) : Storage :=
  match r with
  | Except.ok p => p.2
  | Except.error _ => s

namespace Storage

/-- The storage after one accessor operation. -/
def step (s : Storage) : Op → Storage
  | Op.Access => s.Access.2
  | Op.CreateVertex tid => after s (s.CreateVertex tid)
  | Op.AddLabel tid gid label => after s (s.AddLabel tid gid label)
  | Op.RemoveLabel tid gid label => after s (s.RemoveLabel tid gid label)
  | Op.SetProperty tid gid property value => after s (s.SetProperty tid gid property value)
  | Op.DeleteVertex tid gid => after s (s.DeleteVertex tid gid)
  | Op.CreateEdge tid src dst edge_type => after s (s.CreateEdge tid src dst edge_type)
  | Op.DeleteEdge tid src dst egid => after s (s.DeleteEdge tid src dst egid)
  | Op.AdvanceCommand tid => s.AdvanceCommand tid
  | Op.Commit tid => after s (s.Commit tid)
  | Op.Abort tid => after s (s.Abort tid)

/-- The storage after a sequence of accessor operations on a fresh storage with
the given indexes registered. -/
def run (registered : List (Nat × Nat)) (ops : List Op) : Storage :=
  ops.foldl step (init registered)

end Storage

end storage

namespace storage

/-- Equal elements of the list are adjacent: an element that occurs again
further on is followed at once by a copy of itself. -/
def Grouped : List Nat → Prop
  | [] => True
  | a :: rest => (rest.head? = some a ∨ a ∉ rest) ∧ Grouped rest

/-- The entries the indexes hold for a payload of the vertex `gid`: one label
entry for each of its labels and, for each registered pair whose label it has
and whose property is not Null, an entry with an equal key. -/
def Covered (s : Storage) (gid : Nat) (p : Vertex) : Prop :=
  (∀ l, l ∈ p.labels → ∃ e, e ∈ s.label_index l ∧ e.1 = gid) ∧
  (∀ lp, lp ∈ s.registered → lp.1 ∈ p.labels → (p.GetProperty lp.2).isNull = false →
    ∃ e, e ∈ s.label_property_index lp ∧ e.2.1 = gid
      ∧ PropertyValue.eqv (p.GetProperty lp.2) e.1 = true)

/-- The invariant that ties the indexes to the primary table: the table is in
strict gid order below `next_gid`, every version is covered by index entries,
the index skiplists are in order and hold no Null key. -/
structure IndexInv (s : Storage) : Prop where
  gids_sorted : s.vertices.Pairwise (fun a b => a.gid < b.gid)
  gids_bound : ∀ ch, ch ∈ s.vertices → ch.gid < s.next_gid
  covered : ∀ ch, ch ∈ s.vertices → ∀ v, v ∈ ch.versions → Covered s ch.gid v.payload
  label_sorted : ∀ l, (s.label_index l).Pairwise (fun a b => labelEntryLe a b = true)
  prop_sorted : ∀ lp, (s.label_property_index lp).Pairwise (fun a b => propEntryLe a b = true)
  prop_nonnull : ∀ lp e, e ∈ s.label_property_index lp → e.1.isNull = false

end storage

namespace storage

/-- The storage `s2` has the primary table of `s1` and its indexes extend those
of `s1`, staying in order and free of Null keys. -/
structure IndexExtends (s1 s2 : Storage) : Prop where
  vertices_eq : s2.vertices = s1.vertices
  next_gid_eq : s2.next_gid = s1.next_gid
  registered_eq : s2.registered = s1.registered
  label_mono : ∀ l e, e ∈ s1.label_index l → e ∈ s2.label_index l
  prop_mono : ∀ lp e, e ∈ s1.label_property_index lp → e ∈ s2.label_property_index lp
  label_sorted : (∀ l, (s1.label_index l).Pairwise (fun a b => labelEntryLe a b = true)) →
    ∀ l, (s2.label_index l).Pairwise (fun a b => labelEntryLe a b = true)
  prop_sorted :
    (∀ lp, (s1.label_property_index lp).Pairwise (fun a b => propEntryLe a b = true)) →
    ∀ lp, (s2.label_property_index lp).Pairwise (fun a b => propEntryLe a b = true)
  prop_nonnull : (∀ lp e, e ∈ s1.label_property_index lp → e.1.isNull = false) →
    ∀ lp e, e ∈ s2.label_property_index lp → e.1.isNull = false
  engine_eq : s2.engine = s1.engine
  accessors_eq : s2.accessors = s1.accessors

end storage

namespace storage

/-- Modelled from the spec: whether the value is an Int or a Double. -/
def PropertyValue.isNumeric : PropertyValue → Bool
  | PropertyValue.int _ => true
  | PropertyValue.double _ => true
  | _ => false

/-- The lower bound of a range read as a condition on the number `x`:
`x ≥ lo` if inclusive, `x > lo` if exclusive, nothing if absent. -/
def lowerHolds (lower : Option Bound) (x : ℚ) : Prop :=
  match lower with
  | none => True
  | some b => if b.inclusive then b.value.num ≤ x else b.value.num < x

/-- The upper bound of a range read as a condition on the number `x`:
`x ≤ hi` if inclusive, `x < hi` if exclusive, nothing if absent. -/
def upperHolds (upper : Option Bound) (x : ℚ) : Prop :=
  match upper with
  | none => True
  | some b => if b.inclusive then x ≤ b.value.num else x < b.value.num

end storage

namespace storage

/-- The operations of the range scenario (S4), shortened to four vertices: one
transaction creates them with `label1` (1) and the values 0.0, 0, 1.0, 1 of
`prop_val` (11) and commits, then a reader opens. -/
def rangeScenario : List Op :=
  [Op.Access,
   Op.CreateVertex 1, Op.AddLabel 1 0 1, Op.SetProperty 1 0 11 (PropertyValue.double 0),
   Op.CreateVertex 1, Op.AddLabel 1 1 1, Op.SetProperty 1 1 11 (PropertyValue.int 0),
   Op.CreateVertex 1, Op.AddLabel 1 2 1, Op.SetProperty 1 2 11 (PropertyValue.double 1),
   Op.CreateVertex 1, Op.AddLabel 1 3 1, Op.SetProperty 1 3 11 (PropertyValue.int 1),
   Op.Commit 1, Op.Access]

/-- The reader of the range scenario: the accessor opened after the commit. -/
def rangeReader : Transaction := { id := 3, snapshot := [], cmd := 1 }

end storage

namespace storage

/-- What a reader sees of a chain at a view: the payload of the newest visible
version, if any. -/
def seen (e : tx.Engine) (t : Transaction) (view : View) (ch : VersionChain) : Option Vertex :=
  (ch.versions.find? (visible e t view)).map (fun v => v.payload)

end storage

namespace storage

/-- A transaction creates a vertex and advances to its second command. -/
def ownWritesScenario : List Op := [Op.Access, Op.CreateVertex 1, Op.AdvanceCommand 1]

/-- The accessor of `ownWritesScenario` at its second command. -/
def ownWriter : Transaction := { id := 1, snapshot := [], cmd := 2 }

end storage

namespace storage

/-- The invariant of the transaction bookkeeping: the open accessors carry
allocated ids that are in flight, the in-flight ids are allocated and `Active`
in the commit log, and an id the log has settled is allocated. -/
structure TxInv (s : Storage) : Prop where
  acc_pos : ∀ t, t ∈ s.accessors → 1 ≤ t.id
  acc_active : ∀ t, t ∈ s.accessors → t.id ∈ s.engine.active
  active_le : ∀ a, a ∈ s.engine.active → a ≤ s.engine.counter
  active_status : ∀ a, a ∈ s.engine.active → s.engine.commit_log a = tx.Status.Active
  log_le : ∀ id, s.engine.commit_log id ≠ tx.Status.Active → id ≤ s.engine.counter

/-- The id `w` is allocated, not in flight and not committed: it never commits. -/
def NeverCommits (w : Nat) (s : Storage) : Prop :=
  w ≤ s.engine.counter ∧ w ∉ s.engine.active ∧ s.engine.GlobalInfo w ≠ tx.Status.Committed

/-- The accessor of transaction `rid`, while open, keeps the snapshot `snap`. -/
def KeepsSnapshot (rid : Nat) (snap : List Nat) (s : Storage) : Prop :=
  rid ≤ s.engine.counter ∧ ∀ t, t ∈ s.accessors → t.id = rid → t.snapshot = snap

end storage

namespace storage

/-- The link between a version `a` and the next older version `b` of a chain:
`b` was expired by the write that created `a`, it is not younger than `a`, and
it was written by the same transaction or by a committed one. -/
def Linked (e : tx.Engine) (a b : Version) : Prop :=
  b.tx_expired = a.tx_created ∧ b.cmd_expired = a.cmd_created ∧
    b.tx_created ≤ a.tx_created ∧
    (b.tx_created = a.tx_created ∨ e.GlobalInfo b.tx_created = tx.Status.Committed)

/-- The invariant of one version chain: creators are allocated ids, the versions
an open accessor created carry commands up to its current one, and
neighbouring versions are linked. -/
structure ChainOk (s : Storage) (ch : VersionChain) : Prop where
  ver_pos : ∀ v, v ∈ ch.versions → 1 ≤ v.tx_created
  ver_le : ∀ v, v ∈ ch.versions → v.tx_created ≤ s.engine.counter
  ver_cmd : ∀ t, t ∈ s.accessors → ∀ v, v ∈ ch.versions → v.tx_created = t.id →
    v.cmd_created ≤ t.cmd
  adj : ch.versions.Chain' (Linked s.engine)

/-- The invariant of the version chains: open accessors have distinct ids and
every chain is in order. -/
structure MvccInv (s : Storage) : Prop where
  acc_unique : ∀ t, t ∈ s.accessors → ∀ t2, t2 ∈ s.accessors → t.id = t2.id → t = t2
  chains : ∀ ch, ch ∈ s.vertices → ChainOk s ch

/-- A version whose creation the reader `t` sees at `NEW` for good: its own
write, or the write of a committed older transaction that was over when `t`
began. -/
def Settled (e : tx.Engine) (t : Transaction) (a : Version) : Prop :=
  (a.tx_created = t.id ∧ a.cmd_created ≤ t.cmd) ∨
    (a.tx_created ≠ t.id ∧ e.GlobalInfo a.tx_created = tx.Status.Committed ∧
      a.tx_created < t.id ∧ a.tx_created ∉ t.snapshot)

/-- The transactions whose writes the reader `t` can see: itself, and those
that were over when it began (an older id that is not in its snapshot). -/
def Sees (t : Transaction) (x : Nat) : Prop :=
  x = t.id ∨ (x < t.id ∧ x ∉ t.snapshot)

/-- The invariant of one chain towards the open accessors: below a version
whose writer an accessor sees, the accessor sees the writers of all older
versions; expiry stamps are allocated ids; and a chain that carries a stamp of
an open accessor is locked by it. -/
structure ChainSnap (s : Storage) (ch : VersionChain) : Prop where
  closed : ∀ t, t ∈ s.accessors →
    ch.versions.Pairwise (fun a b => Sees t a.tx_created → Sees t b.tx_created)
  exp_le : ∀ v, v ∈ ch.versions → v.tx_expired ≤ s.engine.counter
  locked : ∀ t, t ∈ s.accessors → ∀ v, v ∈ ch.versions →
    (v.tx_created = t.id ∨ v.tx_expired = t.id) → ch.lock = some t.id

/-- The invariant that ties the snapshots and the locks to the chains: an older
id that is not in the snapshot of an open accessor is no longer in flight, and
every chain is in order towards the open accessors. -/
structure SnapInv (s : Storage) : Prop where
  finished : ∀ t, t ∈ s.accessors → ∀ x, x < t.id → x ∉ t.snapshot → x ∉ s.engine.active
  chains : ∀ ch, ch ∈ s.vertices → ChainSnap s ch

/-- What step 1 of the write path has established of a chain the transaction
`t` is about to write: nobody else holds the lock, and `t` sees the writer of
the head, which is `t` itself or whose head `t` does not see expired, by a
stamp that is no conflict. -/
def WriterHead (e : tx.Engine) (t : Transaction) (ch : VersionChain) : Prop :=
  (∀ owner, ch.lock = some owner → owner = t.id) ∧
    ∀ h rest, ch.versions = h :: rest →
      Sees t h.tx_created ∧
        (h.tx_created = t.id ∨
          (notExpired e t View.NEW h = true ∧ conflictStamp e t h.tx_expired = false))

/-- The transaction an operation is issued by; `Access` opens a new one. -/
def Op.actor : Op → Option Nat
  | Op.Access => none
  | Op.CreateVertex tid => some tid
  | Op.AddLabel tid _ _ => some tid
  | Op.RemoveLabel tid _ _ => some tid
  | Op.SetProperty tid _ _ _ => some tid
  | Op.DeleteVertex tid _ => some tid
  | Op.CreateEdge tid _ _ _ => some tid
  | Op.DeleteEdge tid _ _ _ => some tid
  | Op.AdvanceCommand tid => some tid
  | Op.Commit tid => some tid
  | Op.Abort tid => some tid

/-- The ways an operation of the transaction `tid` on vertices changes the
primary table: not at all, by one write through a guarded head, by two such
writes (an edge), by expiring a guarded head, or by appending the chain of a
new vertex. -/
inductive VerticesStep (s : Storage) (tid : Nat) : List VersionChain → Prop where
  | same : VerticesStep s tid s.vertices
  | write (t : Transaction) (ch0 : VersionChain) (hd : Version) (gid : Nat)
      (f : Vertex → Vertex) : t ∈ s.accessors → t.id = tid → s.chain gid = some ch0 →
      headGuard s.engine t ch0 = Except.ok hd →
      VerticesStep s tid (updateChain gid (writeHead t f) s.vertices)
  | write2 (t : Transaction) (c1 c2 : VersionChain) (h1 h2 : Version) (g1 g2 : Nat)
      (f1 f2 : Vertex → Vertex) : t ∈ s.accessors → t.id = tid → s.chain g1 = some c1 →
      headGuard s.engine t c1 = Except.ok h1 → s.chain g2 = some c2 →
      headGuard s.engine t c2 = Except.ok h2 →
      VerticesStep s tid
        (updateChain g2 (writeHead t f2) (updateChain g1 (writeHead t f1) s.vertices))
  | expire (t : Transaction) (ch0 : VersionChain) (hd : Version) (gid : Nat) :
      t ∈ s.accessors → t.id = tid → s.chain gid = some ch0 →
      headGuard s.engine t ch0 = Except.ok hd →
      VerticesStep s tid (updateChain gid (expireHead t) s.vertices)
  | create (t : Transaction) : t ∈ s.accessors → t.id = tid →
      VerticesStep s tid
        (s.vertices ++
          [{ gid := s.next_gid, lock := some t.id,
             versions := [{ tx_created := t.id, cmd_created := t.cmd, tx_expired := 0,
                            cmd_expired := 0,
                            payload := { labels := [], properties := [], out_edges := [],
                                         in_edges := [] } }] }])

end storage

namespace storage

/-- Transaction 1 creates the vertex 0, gives it the label 7 and commits. -/
def committedScenario : List Op :=
  [Op.Access, Op.CreateVertex 1, Op.AddLabel 1 0 7, Op.Commit 1]

/-- After `committedScenario`, transaction 3 begins. -/
def isolationScenario : List Op := committedScenario ++ [Op.Access]

/-- Transaction 3 takes the label 7 off the vertex 0, deletes the vertex and
commits. -/
def isolationWrites : List Op := [Op.RemoveLabel 3 0 7, Op.DeleteVertex 3 0, Op.Commit 3]

/-- The accessor opened after `isolationScenario`: transaction 4, which began
while transaction 3 was in flight. -/
def isolationReader : Transaction := { id := 4, snapshot := [3], cmd := 1 }

/-- The version of the vertex 0 that transaction 1 committed. -/
def committedVersion : Version :=
  { tx_created := 1, cmd_created := 1, tx_expired := 0, cmd_expired := 0,
    payload := { labels := [7], properties := [], out_edges := [], in_edges := [] } }

/-- The chain of the vertex 0 after `committedScenario`. -/
def committedChain : VersionChain := { gid := 0, lock := none, versions := [committedVersion] }

/-- The accessor opened after `committedScenario`: transaction 3. -/
def lateReader : Transaction := { id := 3, snapshot := [], cmd := 1 }

/-- Transaction 4 begins, takes the label 7 off the vertex 0 and commits. -/
def laterWrites : List Op := [Op.Access, Op.RemoveLabel 4 0 7, Op.Commit 4]

end storage

/-! ## The Bolt session (`src/memgraph_init.cpp`) -/

namespace BoltSession

/-- The levels `auth::Permissions::Has` answers with (`auth/models.hpp` is not
among the sources; the three levels are those of `auth::PermissionLevel`). -/
inductive PermissionLevel where
  | GRANT
  | NEUTRAL
  | DENY
  deriving DecidableEq, Repr

/-- The exceptions as far as `Interpret` tells them apart: the
`communication::bolt::ClientError` it throws, the `query::QueryException` (and
its subclasses) it catches, and every other exception, which it lets through.
Each carries what `what()` returns. -/
inductive Exception where
  | ClientError (what : String)
  | QueryException (what : String)
  | Other (what : String)
  deriving DecidableEq, Repr

/-- The collaborators of `BoltSession::Interpret` that are not among the
sources, as parameters: `glue::ToPropertyValue`, the two member functions of
`TransactionEngine` that are called (`Interpret` returns the header and the
required privileges or throws, and leaves the engine in a new state either
way; `Abort` does not throw), `glue::PrivilegeToPermission` and
`user.GetPermissions().Has`. -/
structure Env (Engine Privilege Permission User Value PV : Type) where
  ToPropertyValue : Value → Except Exception PV
  engineInterpret : String → List (String × PV) → Engine →
    Except Exception (List String × List Privilege) × Engine
  engineAbort : Engine → Engine
  PrivilegeToPermission : Privilege → Permission
  Has : User → Permission → PermissionLevel

/-- The members of `BoltSession` that `Interpret` uses. -/
structure Session (Engine User : Type) where
  transaction_engine_ : Engine
  user_ : Option User

/-- The text of the `ClientError` of lines 52-54. -/
def notAuthorized : String :=
  "You are not authorized to execute this query! Please contact your database administrator."

/-- Lines 41-43: the parameters are converted one by one, in order, before the
`try` block; an exception of the conversion ends the call. -/
def convertParams {Value PV : Type} (ToPropertyValue : Value → Except Exception PV) :
    List (String × Value) → Except Exception (List (String × PV))
  | [] => Except.ok []
  | (k, v) :: rest =>
    match ToPropertyValue v with
    | Except.error e => Except.error e
    | Except.ok pv =>
      match convertParams ToPropertyValue rest with
      | Except.error e => Except.error e
      | Except.ok out => Except.ok ((k, pv) :: out)

/-- The loop of lines 48-56 up to its exit: `true` when it reaches a privilege
whose permission is not at level `GRANT` (the `throw`), `false` when it runs to
the end of the list. -/
def refused {Privilege : Type} (level : Privilege → PermissionLevel) : List Privilege → Bool
  | [] => false
  | privilege :: rest =>
    if level privilege ≠ PermissionLevel.GRANT then true else refused level rest

/-- `BoltSession::Interpret` (lines 38-65): the value returned or the exception
thrown, and the session afterwards. -/
def Interpret {Engine Privilege Permission User Value PV : Type}
    (env : Env Engine Privilege Permission User Value PV) (s : Session Engine User)
    (query : String) (params : List (String × Value)) :
    Except Exception (List String) × Session Engine User :=
  match convertParams env.ToPropertyValue params with
  | Except.error e => (Except.error e, s)
  | Except.ok params_pv =>
    match env.engineInterpret query params_pv s.transaction_engine_ with
    | (Except.error (Exception.QueryException what), eng) =>
      (Except.error (Exception.ClientError what), { s with transaction_engine_ := eng })
    | (Except.error e, eng) => (Except.error e, { s with transaction_engine_ := eng })
    | (Except.ok result, eng) =>
      match s.user_ with
      | none => (Except.ok result.1, { s with transaction_engine_ := eng })
      | some user =>
        if refused (fun privilege => env.Has user (env.PrivilegeToPermission privilege))
            result.2 then
          (Except.error (Exception.ClientError notAuthorized),
            { s with transaction_engine_ := env.engineAbort eng })
        else (Except.ok result.1, { s with transaction_engine_ := eng })

/-- A small environment to run `Interpret` in: the engine state counts the
queries it interpreted, a query without parameters is rejected with a
`QueryException`, every other query requires the privileges 1 and 2, `Abort`
resets the engine to 0, and user `u` is granted the permissions up to `u`. -/
def demoEnv : Env Nat Nat Nat Nat Nat Nat where
  ToPropertyValue := fun v => Except.ok v
  engineInterpret := fun _ params_pv eng =>
    match params_pv with
    | [] => (Except.error (Exception.QueryException "no parameters"), eng)
    | _ :: _ => (Except.ok (["n"], [1, 2]), eng + 1)
  engineAbort := fun _ => 0
  PrivilegeToPermission := fun privilege => privilege
  Has := fun user permission =>
    if permission ≤ user then PermissionLevel.GRANT else PermissionLevel.NEUTRAL

end BoltSession

/-! ## Start-up code: the shutdown handler (`src/memgraph_init.cpp`) -/

namespace memgraph_init

/-- The program state as far as the shutdown handler is concerned: the global
flag `is_shutting_down` (line 129), the rest of the program state, which
`shutdown_fun` and the other code work on, and a ghost counter of the calls of
`shutdown_fun`. -/
structure SignalState (W : Type) where
  is_shutting_down : Int
  world : W
  shutdown_calls : Nat

/-- One step of a piece of code that runs while the handlers are installed:
ordinary work on the rest of the state, or the arrival of SIGTERM or SIGINT,
on which the registered handler runs to its end before the code goes on.
`shutdown_fun`, a parameter of `InitSignalHandlers`, is such a piece of code,
and so is the program around it. -/
inductive Action (W : Type) where
  | work (f : W → W)
  | signal

/-- Whether a step is the arrival of a signal. -/
def Action.isSignal {W : Type} : Action W → Bool
  | Action.work _ => false
  | Action.signal => true

/-- Runs a piece of code, entering `handler` at every signal. -/
def runActions {W : Type} (handler : SignalState W → Option (SignalState W)) :
    List (Action W) → SignalState W → Option (SignalState W)
  | [], s => some s
  | Action.work f :: rest, s => runActions handler rest { s with world := f s.world }
  | Action.signal :: rest, s =>
    match handler s with
    | none => none
    | some s2 => runActions handler rest s2

/-- The lambda `shutdown` of lines 141-145, which `InitSignalHandlers`
registers for SIGTERM and SIGINT.  A signal that arrives while `shutdown_fun`
runs enters the handler again; `fuel` bounds the depth of that nesting, and
`none` is a run that needs more. -/
def shutdown {W : Type} (shutdown_fun : List (Action W)) :
    Nat → SignalState W → Option (SignalState W)
  | 0, _ => none
  | fuel + 1, s =>
    if s.is_shutting_down ≠ 0 then some s
    else
      runActions (shutdown shutdown_fun fuel) shutdown_fun
        { s with is_shutting_down := 1, shutdown_calls := s.shutdown_calls + 1 }

/-- The state in which the program starts: the flag is 0 (line 129) and
`shutdown_fun` has not been called. -/
def SignalState.initial {W : Type} (w : W) : SignalState W :=
  { is_shutting_down := 0, world := w, shutdown_calls := 0 }

end memgraph_init

/-! ## The dump generator's container state (`src/database/single_node/dump.hpp`) -/

namespace database

/-- `CypherDumpGenerator::ContainerState` (lines 22-50).  The container is the
list of its elements in iteration order and an iterator is a position in it:
`begin()` is 0 and `end()` is the length. -/
structure ContainerState (α : Type) where
  container_ : List α
  current_ : Nat
  end_ : Nat
  empty_ : Bool

namespace ContainerState

/-- The constructor (lines 25-29): the members are initialised in the order
of their declaration, `empty_` from the two iterators. -/
def ctor {α : Type} (container : List α) : ContainerState α :=
  let current := 0
  let endIt := container.length
  { container_ := container, current_ := current, end_ := endIt,
    empty_ := decide (current = endIt) }

/-- `GetCurrentAndAdvance` (lines 31-35): the iterator returned and the state afterwards. -/
def GetCurrentAndAdvance {α : Type} (s : ContainerState α) : Nat × ContainerState α :=
  let to_be_returned := s.current_
  (to_be_returned,
    if s.current_ ≠ s.end_ then { s with current_ := s.current_ + 1 } else s)

/-- `ReachedEnd` (line 37). -/
def ReachedEnd {α : Type} (s : ContainerState α) : Bool := decide (s.current_ = s.end_)

/-- `Empty` (line 40). -/
def Empty {α : Type} (s : ContainerState α) : Bool := s.empty_

/-- The state after `n` calls of `GetCurrentAndAdvance`. -/
def advance {α : Type} : Nat → ContainerState α → ContainerState α
  | 0, s => s
  | n + 1, s => advance n (GetCurrentAndAdvance s).2

end ContainerState

end database

/-! ## Profiling scopes (`src/query/plan/scoped_profile.hpp`) -/

namespace query.plan

/-- The node type of the profiling tree, `ProfilingStats` (`query/plan/profile.hpp`
is not among the sources; these are the members `ScopedProfile` uses):
`actual_hits`, `num_cycles`, `key`, `name` and the vector `children`. -/
inductive ProfilingStats where
  | mk (actual_hits : Int) (num_cycles : Nat) (key : Nat) (name : String)
      (children : List ProfilingStats)

namespace ProfilingStats

/-- The member `key`. -/
def key : ProfilingStats → Nat
  | mk _ _ k _ _ => k

/-- The member `children`. -/
def children : ProfilingStats → List ProfilingStats
  | mk _ _ _ _ ch => ch

/-- The member `actual_hits`. -/
def actual_hits : ProfilingStats → Int
  | mk h _ _ _ _ => h

/-- The member `num_cycles`. -/
def num_cycles : ProfilingStats → Nat
  | mk _ c _ _ _ => c

/-- The node a pointer points to.  A non-null `ProfilingStats *` is the path
from `context.stats` to the node: the positions to take in the successive
`children` vectors.  (`emplace_back` on the children of a node may move those
children, but not the node or its ancestors, so the addresses held by the
scopes alive at that moment, which are of these, stay the same paths.) -/
def get? : ProfilingStats → List Nat → Option ProfilingStats
  | t, [] => some t
  | mk _ _ _ _ ch, i :: path =>
    match ch[i]? with
    | some child => get? child path
    | none => none

/-- The tree after the node at `path` was changed by `f`. -/
def update (f : ProfilingStats → ProfilingStats) : List Nat → ProfilingStats → ProfilingStats
  | [], t => f t
  | i :: path, mk h c k n ch =>
    match ch[i]? with
    | some child => mk h c k n (ch.set i (update f path child))
    | none => mk h c k n ch

/-- The assignments `stats_->key = key; stats_->name = name;`. -/
def setKeyName (key : Nat) (name : String) : ProfilingStats → ProfilingStats
  | mk h c _ _ ch => mk h c key name ch

/-- Lines 39-42 seen from the node `root_` points to: `emplace_back()` appends
a value-initialised child, and the two assignments through `stats_`, which
points to that child, set its key and name. -/
def pushChild (key : Nat) (name : String) : ProfilingStats → ProfilingStats
  | mk h c k n ch => mk h c k n (ch ++ [mk 0 0 key name []])

/-- The increment `stats_->actual_hits++` (the count stays far from the end of
its 64-bit range). -/
def hit : ProfilingStats → ProfilingStats
  | mk h c k n ch => mk (h + 1) c k n ch

/-- The update `stats_->num_cycles += now - start_time_` in unsigned 64-bit arithmetic. -/
def addCycles (now start : Nat) : ProfilingStats → ProfilingStats
  | mk h c k n ch => mk h ((c + (now + (2 ^ 64 - start % 2 ^ 64))) % 2 ^ 64) k n ch

/-- The `std::find_if` of lines 35-36: the position of the first child with
the key, `none` for `children.end()`. -/
def findChild (key : Nat) : List ProfilingStats → Option Nat
  | [] => none
  | st :: rest =>
    if st.key = key then some 0
    else
      match findChild key rest with
      | some i => some (i + 1)
      | none => none

end ProfilingStats

/-- The members of `query::ExecutionContext` that `ScopedProfile` uses
(`query/context.hpp` is not among the sources).  `stats_root` is `none` for
`nullptr`. -/
structure ExecutionContext where
  is_profile_query : Bool
  stats : ProfilingStats
  stats_root : Option (List Nat)

/-- The members of a `ScopedProfile`; `context_` is passed to the constructor
and the destructor instead. -/
structure ScopedProfile where
  root_ : Option (List Nat)
  stats_ : Option (List Nat)
  start_time_ : Nat
  deriving DecidableEq, Repr

namespace ScopedProfile

/-- The constructor (lines 20-52).  `tsc` is what `utils::ReadTSC()` returns.
`none` stands for the undefined behaviour of following a `stats_root` that
points to no node.  Outside a profiled query the members stay uninitialised
(here: null and 0) and are never read. -/
def ctor (key : Nat) (name : String) (tsc : Nat) (context : ExecutionContext) :
    Option (ScopedProfile × ExecutionContext) :=
  if context.is_profile_query then
    let root_ := context.stats_root
    let found : Option (List Nat × ProfilingStats) :=
      match root_ with
      | none => some ([], context.stats.setKeyName key name)
      | some root =>
        match context.stats.get? root with
        | none => none
        | some node =>
          match ProfilingStats.findChild key node.children with
          | none =>
            some (root ++ [node.children.length],
              context.stats.update (ProfilingStats.pushChild key name) root)
          | some i => some (root ++ [i], context.stats)
    match found with
    | none => none
    | some (stats_, stats) =>
      some ({ root_ := root_, stats_ := some stats_, start_time_ := tsc },
        { context with
          stats := stats.update ProfilingStats.hit stats_, stats_root := some stats_ })
  else some ({ root_ := none, stats_ := none, start_time_ := 0 }, context)

/-- The destructor (lines 54-61).  `tsc` is what `utils::ReadTSC()` returns;
`none` stands for the undefined behaviour of following a `stats_` that points
to no node. -/
def dtor (self : ScopedProfile) (tsc : Nat) (context : ExecutionContext) :
    Option ExecutionContext :=
  if context.is_profile_query then
    match self.stats_ with
    | none => none
    | some stats_ =>
      match context.stats.get? stats_ with
      | none => none
      | some _ =>
        some { context with
          stats := context.stats.update (ProfilingStats.addCycles tsc self.start_time_) stats_,
          stats_root := self.root_ }
  else some context

end ScopedProfile

/-- What happens to the scopes of one context, in order: a `ScopedProfile` is
constructed, or the one constructed last among those alive is destroyed (they
are automatic objects, so they are destroyed in the reverse order).  Each
event carries the reading of the time stamp counter it takes. -/
inductive ScopeEvent where
  | enter (key : Nat) (name : String) (tsc : Nat)
  | leave (tsc : Nat)
  deriving DecidableEq, Repr

/-- A context together with the scopes alive on it, the innermost first. -/
structure ScopeMachine where
  context : ExecutionContext
  alive : List ScopedProfile

namespace ScopeMachine

/-- The machine a context starts in: no scope is alive. -/
def start (context : ExecutionContext) : ScopeMachine := { context := context, alive := [] }

/-- One event.  `none` when the constructor or destructor has no defined
behaviour, and for a `leave` when no scope is alive (there is no such run). -/
def step (m : ScopeMachine) : ScopeEvent → Option ScopeMachine
  | ScopeEvent.enter key name tsc =>
    match ScopedProfile.ctor key name tsc m.context with
    | none => none
    | some (sp, context) => some { context := context, alive := sp :: m.alive }
  | ScopeEvent.leave tsc =>
    match m.alive with
    | [] => none
    | sp :: rest =>
      match ScopedProfile.dtor sp tsc m.context with
      | none => none
      | some context => some { context := context, alive := rest }

/-- A sequence of events, from the left. -/
def run : List ScopeEvent → ScopeMachine → Option ScopeMachine
  | [], m => some m
  | e :: rest, m =>
    match step m e with
    | none => none
    | some m2 => run rest m2

end ScopeMachine

/-- The number of scopes alive after the events, starting from `depth`. -/
def finalDepth : Nat → List ScopeEvent → Nat
  | depth, [] => depth
  | depth, ScopeEvent.enter _ _ _ :: rest => finalDepth (depth + 1) rest
  | depth, ScopeEvent.leave _ :: rest => finalDepth (depth - 1) rest

/-- The events never destroy a scope that is not there, starting with `depth`
scopes alive. -/
def wellBracketed : Nat → List ScopeEvent → Bool
  | _, [] => true
  | depth, ScopeEvent.enter _ _ _ :: rest => wellBracketed (depth + 1) rest
  | depth, ScopeEvent.leave _ :: rest => decide (0 < depth) && wellBracketed (depth - 1) rest

/-- A properly nested sequence of constructions and destructions: every scope
it constructs it destroys, and it destroys no other. -/
def properlyNested (events : List ScopeEvent) : Bool :=
  wellBracketed 0 events && decide (finalDepth 0 events = 0)

/-- The pointer `stats_root` is null or points to a node of the tree. -/
def ExecutionContext.Valid (context : ExecutionContext) : Prop :=
  ∀ root, context.stats_root = some root → (context.stats.get? root).isSome = true

/-- A profiled query before its first pull: a fresh `stats` and a null `stats_root`. -/
def freshProfile : ExecutionContext :=
  { is_profile_query := true, stats := ProfilingStats.mk 0 0 0 "" [], stats_root := none }

end query.plan

namespace query.plan

/-- A change of a node that keeps the children it has (and may append some). -/
def Grows (f : ProfilingStats → ProfilingStats) : Prop :=
  ∀ n, ∃ extra, (f n).children = n.children ++ extra

/-- A change of a node that keeps its key and the children it has. -/
def Gentle (f : ProfilingStats → ProfilingStats) : Prop :=
  ∀ n, (f n).key = n.key ∧ ∃ extra, (f n).children = n.children ++ extra

end query.plan

namespace query.plan

/-- The scopes `alive` (innermost first) hang together above the pointer
`base`: `stats_root` points to the node of the innermost one, the `root_` of
each is the node of the one below, that of the outermost is `base`, and every
node pointed to is in the tree `stats`. -/
def Chain (stats : ProfilingStats) (base : Option (List Nat)) :
    List ScopedProfile → Option (List Nat) → Prop
  | [], root => root = base
  | sp :: rest, root =>
    ∃ p, sp.stats_ = some p ∧ root = some p ∧ (stats.get? p).isSome = true ∧
      Chain stats base rest sp.root_

/-- The machine `m` seen from an earlier moment, when the tree was `stats0`,
`stats_root` was `base` and the scopes `baseAlive` were alive: these are still
alive below the scopes `new`, the nodes of `stats0` are still there, the node
at `base` has kept its key, and the new scopes hang together above `base`. -/
def Rel (stats0 : ProfilingStats) (base : Option (List Nat)) (baseAlive : List ScopedProfile)
    (m : ScopeMachine) (new : List ScopedProfile) : Prop :=
  m.alive = new ++ baseAlive ∧
  m.context.is_profile_query = true ∧
  (∀ q, (stats0.get? q).isSome = true → (m.context.stats.get? q).isSome = true) ∧
  (∀ b, base = some b →
    (m.context.stats.get? b).map ProfilingStats.key = (stats0.get? b).map ProfilingStats.key) ∧
  Chain m.context.stats base new m.context.stats_root

end query.plan

/-! ## Start-up code: the memory warning (`src/memgraph_init.cpp`) -/

namespace memgraph_init

/-- The two warnings of lines 184-201: "Running out of available RAM, only
... MB left." with the number it shows, and the one about the older kernel. -/
inductive LogLine where
  | RunningOut (megabytes : Nat)
  | OlderKernel
  deriving DecidableEq, Repr

/-- The lambda of lines 189-194, one periodic check.  `free_ram` is what
`utils::sysinfo::AvailableMemoryKilobytes()` returns at that moment, an
optional 64-bit unsigned number of kilobytes (`utils/sysinfo/memory.hpp` is not
among the sources), and `memory_warning_threshold` the 64-bit unsigned flag of
lines 20-23; the division and the comparison cannot overflow. -/
def memoryCheck (memory_warning_threshold : Nat) (free_ram : Option Nat) : List LogLine :=
  match free_ram with
  | some kilobytes =>
    if kilobytes / 1024 < memory_warning_threshold then
      [LogLine.RunningOut (kilobytes / 1024)]
    else []
  | none => []

/-- Lines 186-201 of `WithInit`: the function handed to the scheduler, if any,
and what is logged at once.  `free_ram` is the reading taken at start-up. -/
def startMemoryWarning (memory_warning_threshold : Nat) (free_ram : Option Nat) :
    Option (Option Nat → List LogLine) × List LogLine :=
  if memory_warning_threshold > 0 then
    match free_ram with
    | some _ => (some (memoryCheck memory_warning_threshold), [])
    | none => (none, [LogLine.OlderKernel])
  else (none, [])

/-- Everything lines 184-201 log over a run in which the scheduler
(`utils::Scheduler`, not among the sources) fires once for each element of
`readings`, the availability read at that firing. -/
def memoryLog (memory_warning_threshold : Nat) (free_ram : Option Nat)
    (readings : List (Option Nat)) : List LogLine :=
  match startMemoryWarning memory_warning_threshold free_ram with
  | (some check, atStart) => atStart ++ (readings.map check).flatten
  | (none, atStart) => atStart

end memgraph_init

/-! ## The plan printer (`src/query/plan/pretty_print.hpp`) -/

namespace query.plan

/-- The members of `PlanPrinter` that `WithPrintLn` uses: the 64-bit signed
`depth_` and the stream `out_` points to, which is the text written to it so
far. -/
structure PlanPrinter where
  depth_ : Int
  out_ : String
  deriving DecidableEq, Repr

/-- The ways a run of `WithPrintLn` ends without a result: the counter `i`, an
`int`, is incremented beyond its largest value (undefined behaviour), or the
run needs more steps than the fuel given. -/
inductive PrintError where
  | SignedOverflow
  | OutOfFuel
  deriving DecidableEq, Repr

/-- The largest `int`. -/
def INT_MAX : Int := 2147483647

/-- The loop of lines 93-95, `for (int i = 0; i < depth_; ++i) *out_ << "| "`,
from the value `i` of the counter on; the comparison is made in 64 bits, the
increment in 32. -/
def printBars (depth_ : Int) : Nat → Int → String → Except PrintError String
  | 0, _, _ => Except.error PrintError.OutOfFuel
  | fuel + 1, i, out =>
    if i < depth_ then
      if i + 1 > INT_MAX then Except.error PrintError.SignedOverflow
      else printBars depth_ fuel (i + 1) (out ++ "| ")
    else Except.ok out

/-- `PlanPrinter::WithPrintLn` (lines 90-98).  `fn` is the parameter `fun`: it
is called with the stream, its only argument, and leaves it with what it
wrote; `std::endl` writes a line feed (and flushes). -/
def PlanPrinter.WithPrintLn (fuel : Nat) (fn : String → String) (self : PlanPrinter) :
    Except PrintError PlanPrinter :=
  match printBars self.depth_ fuel 0 (self.out_ ++ " ") with
  | Except.error e => Except.error e
  | Except.ok out => Except.ok { self with out_ := fn out ++ "\n" }

/-- The text that is `n` copies of "| ". -/
def bars : Nat → String
  | 0 => ""
  | n + 1 => "| " ++ bars n

/-- The indentation of a line at depth `n`: one space followed by `n` copies of "| ". -/
def indentation (n : Nat) : String := " " ++ bars n

end query.plan

/-! ## Removing conjuncts (`src/query/plan/rewrite/index_lookup.cpp`) -/

namespace query.plan.impl

/-- An expression tree as far as `RemoveAndExpressions` looks into it: an
`AndOperator` with its two child pointers (`none` is `nullptr`), or any other
expression, into which the function does not look.  `addr` is the address of
the node, by which the set of expressions to remove refers to it. -/
inductive Expression where
  | Other (addr : Nat)
  | AndOperator (addr : Nat) (expression1_ expression2_ : Option Expression)
  deriving Repr

/-- The address of a node. -/
def Expression.addr : Expression → Nat
  | Expression.Other a => a
  | Expression.AndOperator a _ _ => a

/-- The value of a pointer: `none` for `nullptr`, else the address of the node. -/
def ptr (expr : Option Expression) : Option Nat := expr.map Expression.addr

mutual
/-- `RemoveAndExpressions` (lines 14-41) on a non-null `expr`; the result is
the pointer returned together with the tree it then points to.
`exprs_to_remove` is given by `utils::Contains(exprs_to_remove, ·)` on
pointers.  Lines 21-30 set a child that is to be removed to `nullptr` and then
call the function on it, which returns the `nullptr`: that call is the `none`
of the two conditionals.  The function updates the `AndOperator` in place; the
tree is copied here, which is the same as long as no node occurs twice. -/
def RemoveAndExpressions.node (exprs_to_remove : Option Nat → Bool) :
    Expression → Option Expression
  | Expression.Other a => some (Expression.Other a)
  | Expression.AndOperator a e1 e2 =>
    if exprs_to_remove (some a) then none
    else
      let expression1_ :=
        if exprs_to_remove (ptr e1) then none
        else RemoveAndExpressions.pointer exprs_to_remove e1
      let expression2_ :=
        if exprs_to_remove (ptr e2) then none
        else RemoveAndExpressions.pointer exprs_to_remove e2
      match expression1_, expression2_ with
      | none, none => none
      | some r1, none => some r1
      | none, some r2 => some r2
      | some r1, some r2 => some (Expression.AndOperator a (some r1) (some r2))
/-- `RemoveAndExpressions` on a pointer; `Downcast` of `nullptr` is `nullptr`,
so a null `expr` is returned as it is (line 17). -/
def RemoveAndExpressions.pointer (exprs_to_remove : Option Nat → Bool) :
    Option Expression → Option Expression
  | none => none
  | some expr => RemoveAndExpressions.node exprs_to_remove expr
end

/-- `RemoveAndExpressions(expr, exprs_to_remove)`. -/
def RemoveAndExpressions (expr : Option Expression) (exprs_to_remove : Option Nat → Bool) :
    Option Expression :=
  RemoveAndExpressions.pointer exprs_to_remove expr

mutual
/-- Every `AndOperator` of the tree has two non-null children. -/
def wellFormed : Expression → Bool
  | Expression.Other _ => true
  | Expression.AndOperator _ e1 e2 => wellFormedPointer e1 && wellFormedPointer e2
/-- The pointer is not null and the tree it points to is well formed. -/
def wellFormedPointer : Option Expression → Bool
  | none => false
  | some e => wellFormed e
end

/-- Whether the root of the tree is an `AndOperator`. -/
def Expression.isAnd : Expression → Bool
  | Expression.Other _ => false
  | Expression.AndOperator _ _ _ => true

mutual
/-- The non-And leaves of a tree, left to right: the maximal subexpressions
that are not an `AndOperator`, by their addresses. -/
def leaves : Expression → List Nat
  | Expression.Other a => [a]
  | Expression.AndOperator _ e1 e2 => leavesPointer e1 ++ leavesPointer e2
/-- The non-And leaves of the tree a pointer points to; none for `nullptr`. -/
def leavesPointer : Option Expression → List Nat
  | none => []
  | some e => leaves e
end

mutual
/-- The non-And leaves of a tree, left to right, each with the addresses of
the `AndOperator`s above it; `ancestors` are those above the tree itself. -/
def leavesUnder : List Nat → Expression → List (Nat × List Nat)
  | ancestors, Expression.Other a => [(a, ancestors)]
  | ancestors, Expression.AndOperator a e1 e2 =>
    leavesUnderPointer (a :: ancestors) e1 ++ leavesUnderPointer (a :: ancestors) e2
/-- The same for the tree a pointer points to. -/
def leavesUnderPointer : List Nat → Option Expression → List (Nat × List Nat)
  | _, none => []
  | ancestors, some e => leavesUnder ancestors e
end

/-- A leaf stays: it is not in the set and none of the `AndOperator`s above it is. -/
def stays (exprs_to_remove : Option Nat → Bool) (leaf : Nat × List Nat) : Bool :=
  !exprs_to_remove (some leaf.1) && leaf.2.all (fun a => !exprs_to_remove (some a))

/-- The left-to-right sequence of those non-And leaves of `e` that are not in
the set and have no `AndOperator` ancestor (the root included) in the set. -/
def keptLeaves (exprs_to_remove : Option Nat → Bool) (e : Expression) : List Nat :=
  ((leavesUnder [] e).filter (stays exprs_to_remove)).map Prod.fst

/-- The tree `((1 AND 2) AND (3 AND 4))`: leaves at the addresses 1 to 4, the
`AndOperator`s at 10 (root), 11 and 12. -/
def sampleAnd : Expression :=
  Expression.AndOperator 10
    (some (Expression.AndOperator 11 (some (Expression.Other 1)) (some (Expression.Other 2))))
    (some (Expression.AndOperator 12 (some (Expression.Other 3)) (some (Expression.Other 4))))

end query.plan.impl

/-! ## The audit log's JSON conversion (`src/audit/log.cpp`) -/

namespace audit

open storage

/-- The values of `nlohmann::json` (`json/json.hpp` is not among the sources)
that the conversion builds.  A float is the number it denotes, as for
`PropertyValue`; an object is the list of its members, with distinct keys (the
order, in which `std::map` and this list differ, is not part of the model). -/
inductive Json where
  | null
  | boolean (b : Bool)
  | number_integer (i : Int)
  | number_float (d : ℚ)
  | string (s : String)
  | array (elements : List Json)
  | object (members : List (String × Json))

/-- `push_back` of a key-value pair on an object, which is `std::map::insert`:
a key that is already there keeps its value. -/
def insertMember (members : List (String × Json)) (member : String × Json) :
    List (String × Json) :=
  if members.any (fun m => m.1 == member.1) then members else members ++ [member]

mutual
/-- `PropertyValueToJson` (lines 14-49).  `ret` starts as null (line 15); a
list gives `json::array()` and a map `json::object()`, filled by the loops. -/
def PropertyValueToJson : PropertyValue → Json
  | PropertyValue.null => Json.null
  | PropertyValue.bool b => Json.boolean b
  | PropertyValue.int i => Json.number_integer i
  | PropertyValue.double d => Json.number_float d
  | PropertyValue.string s => Json.string s
  | PropertyValue.list xs => Json.array (PropertyValueToJson.items xs [])
  | PropertyValue.map m => Json.object (PropertyValueToJson.entries m [])
/-- The loop of lines 33-35 over the items still to come; `ret` holds the
elements pushed so far. -/
def PropertyValueToJson.items : List PropertyValue → List Json → List Json
  | [], ret => ret
  | item :: rest, ret => PropertyValueToJson.items rest (ret ++ [PropertyValueToJson item])
/-- The loop of lines 40-44 over the entries still to come; `ret` holds the
members pushed so far. -/
def PropertyValueToJson.entries :
    List (String × PropertyValue) → List (String × Json) → List (String × Json)
  | [], ret => ret
  | (key, value) :: rest, ret =>
    PropertyValueToJson.entries rest (insertMember ret (key, PropertyValueToJson value))
end

end audit

/-! ## Theorems -/

namespace GarbageCollector

theorem filter_map_fst_of_nodup (tr : List (Nat × Nat × Bool))
    (hnd : (tr.map (fun c => c.1)).Nodup) :
    (tr.map (fun c => c.1)).filter (fun y => decide (∀ c ∈ tr, c.1 = y → c.2.2 = false))
      = (tr.filter (fun c => !c.2.2)).map (fun c => c.1) := by
  rw [List.filter_map]
  congr 1
  apply List.filter_congr
  intro c hc
  have hinj := List.inj_on_of_nodup_map hnd
  rw [Bool.eq_iff_iff]
  simp only [Function.comp_apply, decide_eq_true_eq, Bool.not_eq_true']
  constructor
  · intro h; exact h c hc rfl
  · intro h c' hc' hcc'
    have : c' = c := hinj hc' hc hcc'
    rw [this]; exact h

theorem loop_spec {σ : Type} (GcDeleted : Nat → Nat → σ → Bool × σ) (id : Nat) :
    ∀ (xs : List Nat) (st : RunResult σ), (∀ x ∈ xs, x ∈ st.skiplist) → xs.Nodup →
      st.skiplist.Nodup → st.count + xs.length < 2 ^ 64 →
      ∃ tr : List (Nat × Nat × Bool),
        (loop GcDeleted id xs st).calls = st.calls ++ tr ∧
        tr.map (fun c => c.1) = xs ∧ (∀ c ∈ tr, c.2.1 = id) ∧
        (loop GcDeleted id xs st).skiplist
          = st.skiplist.filter (fun y => decide (∀ c ∈ tr, c.1 = y → c.2.2 = false)) ∧
        (loop GcDeleted id xs st).count = st.count + (tr.filter (fun c => c.2.2)).length ∧
        (loop GcDeleted id xs st).id = st.id := by
  intro xs
  induction xs with
  | nil =>
    intro st _ _ _ _
    refine ⟨[], by simp [loop], rfl, by simp, ?_, by simp [loop], by simp [loop]⟩
    simp [loop]
  | cons x xs ih =>
    intro st hsub hnd hsl hlen
    have hx : x ∈ st.skiplist := hsub x (List.mem_cons_self _ _)
    have hxs : x ∉ xs := (List.nodup_cons.1 hnd).1
    have hnd' : xs.Nodup := (List.nodup_cons.1 hnd).2
    simp only [List.length_cons] at hlen
    cases hr : (GcDeleted id x st.records).1 with
    | true =>
      have hsub' : ∀ y ∈ xs, y ∈ st.skiplist.erase x := by
        intro y hy
        have hne : y ≠ x := fun h => hxs (h ▸ hy)
        exact (List.mem_erase_of_ne hne).2 (hsub y (List.mem_cons_of_mem _ hy))
      obtain ⟨tr, hc, hm, hid, hs, hcnt, hi⟩ :=
        ih { skiplist := st.skiplist.erase x
             records := (GcDeleted id x st.records).2
             count := (st.count + (if x ∈ st.skiplist then 1 else 0)) % 2 ^ 64
             id := st.id
             calls := st.calls ++ [(x, id, true)] } hsub' hnd' (hsl.erase x)
          (by simp only [hx, if_true]; rw [Nat.mod_eq_of_lt (by omega)]; omega)
      refine ⟨(x, id, true) :: tr, ?_, ?_, ?_, ?_, ?_, ?_⟩
      · simp only [loop, hr, if_true]; rw [hc]; simp
      · simp [hm]
      · intro c hc'
        rcases List.mem_cons.1 hc' with h | h
        · rw [h]
        · exact hid c h
      · simp only [loop, hr, if_true]; rw [hs, hsl.erase_eq_filter, List.filter_filter]
        apply List.filter_congr
        intro y _
        rw [Bool.eq_iff_iff]
        simp only [List.mem_cons, forall_eq_or_imp, Bool.and_eq_true, decide_eq_true_eq,
          bne_iff_ne, ne_eq, Bool.true_eq_false, imp_false]
        constructor
        · rintro ⟨h1, h2⟩; exact ⟨fun h => h2 h.symm, h1⟩
        · rintro ⟨h1, h2⟩; exact ⟨h2, fun h => h1 h.symm⟩
      · simp only [loop, hr, if_true]; rw [hcnt]
        simp only [hx, if_true, List.filter_cons_of_pos, List.length_cons]
        rw [Nat.mod_eq_of_lt (by omega)]; omega
      · simp only [loop, hr, if_true]; rw [hi]
    | false =>
      obtain ⟨tr, hc, hm, hid, hs, hcnt, hi⟩ :=
        ih { skiplist := st.skiplist
             records := (GcDeleted id x st.records).2
             count := st.count
             id := st.id
             calls := st.calls ++ [(x, id, false)] }
          (fun y hy => hsub y (List.mem_cons_of_mem _ hy)) hnd' hsl (by simp only; omega)
      refine ⟨(x, id, false) :: tr, ?_, ?_, ?_, ?_, ?_, ?_⟩
      · simp only [loop, hr, Bool.false_eq_true, if_false]; rw [hc]; simp
      · simp [hm]
      · intro c hc'
        rcases List.mem_cons.1 hc' with h | h
        · rw [h]
        · exact hid c h
      · simp only [loop, hr, Bool.false_eq_true, if_false]; rw [hs]
        apply List.filter_congr
        intro y _
        simp
      · simp only [loop, hr, Bool.false_eq_true, if_false]; rw [hcnt]; simp
      · simp only [loop, hr, Bool.false_eq_true, if_false]; rw [hi]

end GarbageCollector

namespace GarbageCollector

theorem loop_calls {σ : Type} (GcDeleted : Nat → Nat → σ → Bool × σ) (id : Nat) :
    ∀ (xs : List Nat) (st : RunResult σ),
      (loop GcDeleted id xs st).calls = st.calls ++ gcCalls GcDeleted id xs st.records := by
  intro xs
  induction xs with
  | nil => intro st; simp [loop, gcCalls]
  | cons x xs ih =>
    intro st
    cases hr : (GcDeleted id x st.records).1 with
    | true => simp only [loop, hr, if_true, gcCalls]; rw [ih]; simp
    | false => simp only [loop, hr, Bool.false_eq_true, if_false, gcCalls]; rw [ih]; simp

theorem gcCalls_id {σ : Type} (GcDeleted : Nat → Nat → σ → Bool × σ) (id : Nat) :
    ∀ (xs : List Nat) (records : σ), ∀ c ∈ gcCalls GcDeleted id xs records, c.2.1 = id := by
  intro xs
  induction xs with
  | nil => intro _ c hc; simp [gcCalls] at hc
  | cons x xs ih =>
    intro records c hc
    simp only [gcCalls, List.mem_cons] at hc
    rcases hc with h | h
    · rw [h]
    · exact ih _ c h

theorem loop_id {σ : Type} (GcDeleted : Nat → Nat → σ → Bool × σ) (id : Nat) :
    ∀ (xs : List Nat) (st : RunResult σ), (loop GcDeleted id xs st).id = st.id := by
  intro xs
  induction xs with
  | nil => intro st; rfl
  | cons x xs ih =>
    intro st
    cases hr : (GcDeleted id x st.records).1 with
    | true => simp only [loop, hr, if_true]; rw [ih]
    | false => simp only [loop, hr, Bool.false_eq_true, if_false]; rw [ih]

theorem gcCalls_map {σ : Type} (GcDeleted : Nat → Nat → σ → Bool × σ) (id : Nat) :
    ∀ (xs : List Nat) (records : σ),
      (gcCalls GcDeleted id xs records).map (fun c => (c.1, c.2.1))
        = xs.map (fun x => (x, id)) := by
  intro xs
  induction xs with
  | nil => intro _; rfl
  | cons x xs ih => intro records; simp only [gcCalls, List.map_cons]; rw [ih]

theorem count_filter_compl (tr : List (Nat × Nat × Bool)) :
    (tr.filter (fun c => c.2.2)).length + (tr.filter (fun c => !c.2.2)).length = tr.length := by
  induction tr with
  | nil => rfl
  | cons c tr ih =>
    cases h : c.2.2 <;> simp [List.filter_cons, h] <;> omega

/-- C1: `Run` calls `GcDeleted` once on every version list of the skiplist, in
order and with the one threshold id; afterwards the skiplist holds exactly the
version lists whose call returned false, and `count` is the number removed. -/
theorem C1_Run_removes_gc_deleted {σ : Type} (GcDeleted : Nat → Nat → σ → Bool × σ)
    (engine : tx.Engine) (skiplist : List Nat) (records : σ)
    (hnd : skiplist.Nodup) (hlen : skiplist.length < 2 ^ 64) :
    (Run GcDeleted engine skiplist records).calls
        = gcCalls GcDeleted (threshold engine) skiplist records ∧
      (Run GcDeleted engine skiplist records).calls.map (fun c => c.1) = skiplist ∧
      (∀ c ∈ (Run GcDeleted engine skiplist records).calls, c.2.1 = threshold engine) ∧
      (Run GcDeleted engine skiplist records).skiplist
        = ((Run GcDeleted engine skiplist records).calls.filter (fun c => !c.2.2)).map
            (fun c => c.1) ∧
      (Run GcDeleted engine skiplist records).count
        = ((Run GcDeleted engine skiplist records).calls.filter (fun c => c.2.2)).length ∧
      (Run GcDeleted engine skiplist records).count
        = skiplist.length - (Run GcDeleted engine skiplist records).skiplist.length := by
  obtain ⟨tr, hc, hm, hid, hs, hcnt, _⟩ :=
    loop_spec GcDeleted (threshold engine) skiplist
      { skiplist := skiplist, records := records, count := 0, id := threshold engine,
        calls := [] }
      (fun x hx => hx) hnd hnd (by simpa using hlen)
  have hcalls : (Run GcDeleted engine skiplist records).calls = tr := by
    simpa [Run] using hc
  have hskip : (Run GcDeleted engine skiplist records).skiplist
      = (tr.filter (fun c => !c.2.2)).map (fun c => c.1) := by
    have h1 : (Run GcDeleted engine skiplist records).skiplist
        = skiplist.filter (fun y => decide (∀ c ∈ tr, c.1 = y → c.2.2 = false)) := by
      simpa [Run] using hs
    rw [h1]
    have h2 := filter_map_fst_of_nodup tr (by rw [hm]; exact hnd)
    rw [hm] at h2
    exact h2
  have hcount : (Run GcDeleted engine skiplist records).count
      = (tr.filter (fun c => c.2.2)).length := by
    simpa [Run] using hcnt
  refine ⟨?_, ?_, ?_, ?_, ?_, ?_⟩
  · have := loop_calls GcDeleted (threshold engine) skiplist
      { skiplist := skiplist, records := records, count := 0, id := threshold engine,
        calls := [] }
    simpa [Run] using this
  · rw [hcalls, hm]
  · rw [hcalls]; exact hid
  · rw [hcalls]; exact hskip
  · rw [hcalls]; exact hcount
  · rw [hskip, hcount, List.length_map]
    have h3 := count_filter_compl tr
    have h4 : tr.length = skiplist.length := by rw [← hm, List.length_map]
    omega

/-- Witness of C1: three version lists, the collector deletes those below the
threshold 3 of an engine whose oldest active transaction is 3. -/
theorem C1_Run_removes_gc_deleted_witness :
    (Run (fun id x (_ : Unit) => (decide (x < id), ())) ⟨5, [3, 4], fun _ => tx.Status.Active⟩
        [1, 2, 7] ()).skiplist
      = ((Run (fun id x (_ : Unit) => (decide (x < id), ()))
            ⟨5, [3, 4], fun _ => tx.Status.Active⟩ [1, 2, 7] ()).calls.filter
          (fun c => !c.2.2)).map (fun c => c.1) :=
  (C1_Run_removes_gc_deleted (fun id x (_ : Unit) => (decide (x < id), ()))
    ⟨5, [3, 4], fun _ => tx.Status.Active⟩ [1, 2, 7] () (by decide) (by decide)).2.2.2.1

end GarbageCollector

namespace tx.Engine

theorem step_activeAllocated (e : Engine) (op : Op) (h : e.ActiveAllocated) :
    (e.step op).ActiveAllocated := by
  cases op with
  | begin =>
    intro a ha
    simp only [step, Begin, next_id, List.mem_append, List.mem_singleton] at ha ⊢
    rcases ha with ha | ha
    · have := h a ha; omega
    · omega
  | commit id =>
    simp only [step]
    split
    · intro a ha
      simp only [Commit, List.mem_filter] at ha ⊢
      have := h a ha.1; omega
    · exact h
  | abort id =>
    simp only [step]
    split
    · intro a ha
      simp only [Abort, List.mem_filter] at ha ⊢
      exact h a ha.1
    · exact h

theorem foldl_step_activeAllocated (ops : List Op) :
    ∀ e : Engine, e.ActiveAllocated → (ops.foldl step e).ActiveAllocated := by
  induction ops with
  | nil => intro e h; exact h
  | cons op ops ih => intro e h; exact ih _ (step_activeAllocated e op h)

/-- Every engine state reached by begin, commit and abort has its in-flight ids
allocated. -/
theorem run_activeAllocated (ops : List Op) : (run ops).ActiveAllocated :=
  foldl_step_activeAllocated ops init (by intro a ha; simp [init] at ha)

end tx.Engine

namespace GarbageCollector

/-- C2: `Run` calls `GcDeleted` once on every version list of the skiplist, in
order, and the calls it makes are exactly those of `gcCalls` at the threshold:
each call gets the id `threshold engine`, which is also the `id` of the run.
That id is the id of the oldest active transaction (the least in-flight id)
when there is one, and otherwise `count() + 1`, which is the id `Begin` hands
out next. -/
theorem C2_threshold_oldest_active_or_next {σ : Type}
    (GcDeleted : Nat → Nat → σ → Bool × σ) (engine : tx.Engine) (skiplist : List Nat)
    (records : σ) :
    (Run GcDeleted engine skiplist records).calls
        = gcCalls GcDeleted (threshold engine) skiplist records ∧
      (Run GcDeleted engine skiplist records).id = threshold engine ∧
      (Run GcDeleted engine skiplist records).calls.map (fun c => (c.1, c.2.1))
        = skiplist.map (fun x => (x, threshold engine)) ∧
      (∀ c ∈ (Run GcDeleted engine skiplist records).calls, c.2.1 = threshold engine) ∧
      (engine.active ≠ [] → ∃ a, engine.oldest_active = some a ∧ a ∈ engine.active ∧
        (∀ b ∈ engine.active, a ≤ b) ∧ threshold engine = a) ∧
      (engine.active = [] → engine.oldest_active = none ∧
        threshold engine = (engine.count + 1) % 2 ^ 64 ∧
        (engine.count + 1 < 2 ^ 64 → threshold engine = (engine.Begin).1)) := by
  have h := loop_calls GcDeleted (threshold engine) skiplist
    { skiplist := skiplist, records := records, count := 0, id := threshold engine,
      calls := [] }
  have h2 : (Run GcDeleted engine skiplist records).calls
      = gcCalls GcDeleted (threshold engine) skiplist records := by simpa [Run] using h
  refine ⟨h2, ?_, ?_, ?_, ?_, ?_⟩
  · exact loop_id GcDeleted (threshold engine) skiplist _
  · rw [h2]; exact gcCalls_map GcDeleted _ skiplist records
  · intro c hc
    rw [h2] at hc
    exact gcCalls_id GcDeleted _ skiplist records c hc
  · intro hne
    cases hm : engine.active.min? with
    | none => exact absurd (List.min?_eq_none_iff.1 hm) hne
    | some a =>
      have := List.min?_eq_some_iff'.1 hm
      exact ⟨a, by simp [tx.Engine.oldest_active, hm], this.1, this.2,
        by simp [threshold, tx.Engine.oldest_active, hm]⟩
  · intro he
    have hm : engine.oldest_active = none := by simp [tx.Engine.oldest_active, he]
    refine ⟨hm, by simp [threshold, hm], ?_⟩
    intro hlt
    simp only [threshold, hm, Option.getD_none, tx.Engine.Begin, tx.Engine.next_id,
      tx.Engine.count] at hlt ⊢
    exact Nat.mod_eq_of_lt hlt

/-- C3: in an engine state whose in-flight ids are allocated (every state the
engine reaches) and whose counter has not wrapped, the threshold of `Run` is
the minimum of the oldest active id and `next_id`, and `next_id` when no
transaction is active. -/
theorem C3_threshold_is_min (engine : tx.Engine) (hact : engine.ActiveAllocated)
    (hcnt : engine.count + 1 < 2 ^ 64) :
    threshold engine
      = (match engine.oldest_active with
        | some oldest => min oldest engine.next_id
        | none => engine.next_id) := by
  cases hm : engine.oldest_active with
  | none =>
    simp only [threshold, hm, Option.getD_none, tx.Engine.next_id]
    exact Nat.mod_eq_of_lt hcnt
  | some a =>
    have ha : a ∈ engine.active := by
      simp only [tx.Engine.oldest_active] at hm
      exact (List.min?_eq_some_iff'.1 hm).1
    have := hact a ha
    simp only [threshold, hm, Option.getD_some, tx.Engine.next_id]
    omega

/-- Witness of C3: after two transactions began and the first committed, the
engine has counter 3 and transaction 2 in flight. -/
theorem C3_threshold_is_min_witness :
    threshold (tx.Engine.run [tx.Engine.Op.begin, tx.Engine.Op.begin, tx.Engine.Op.commit 1])
      = (match (tx.Engine.run
            [tx.Engine.Op.begin, tx.Engine.Op.begin, tx.Engine.Op.commit 1]).oldest_active with
        | some oldest => min oldest
            (tx.Engine.run [tx.Engine.Op.begin, tx.Engine.Op.begin, tx.Engine.Op.commit 1]).next_id
        | none =>
            (tx.Engine.run [tx.Engine.Op.begin, tx.Engine.Op.begin, tx.Engine.Op.commit 1]).next_id) :=
  C3_threshold_is_min _ (tx.Engine.run_activeAllocated _) (by decide)

end GarbageCollector

namespace storage

theorem tri_then {p1 p2 p3 q1 q2 q3 : Ordering} (hp : Tri p1 p2 p3)
    (hq : p1 = Ordering.eq → p2 = Ordering.eq → Tri q1 q2 q3) :
    Tri (p1.then q1) (p2.then q2) (p3.then q3) := by
  unfold Tri at *
  cases p1 <;> cases p2 <;> cases p3 <;> simp_all [Ordering.then]

theorem ltCmp_eq_lt {α : Type} [LinearOrder α] (a b : α) :
    ltCmp a b = Ordering.lt ↔ a < b := by
  unfold ltCmp; split_ifs <;> simp_all

theorem ltCmp_eq_eq {α : Type} [LinearOrder α] (a b : α) :
    ltCmp a b = Ordering.eq ↔ a = b := by
  unfold ltCmp
  split_ifs with h1 h2
  · simp [ne_of_lt h1]
  · simp [ne_of_gt h2]
  · simp [le_antisymm (not_lt.1 h2) (not_lt.1 h1)]

theorem ltCmp_ne_gt {α : Type} [LinearOrder α] (a b : α) :
    ltCmp a b ≠ Ordering.gt ↔ a ≤ b := by
  unfold ltCmp
  split_ifs with h1 h2
  · simp [le_of_lt h1]
  · simp [h2]
  · simp [not_lt.1 h2]

theorem tri_ltCmp {α : Type} [LinearOrder α] (a b c : α) :
    Tri (ltCmp a b) (ltCmp b c) (ltCmp a c) := by
  unfold Tri
  simp only [ltCmp_eq_lt, ltCmp_eq_eq, ltCmp_ne_gt]
  exact ⟨fun h1 h2 => lt_of_lt_of_le h1 h2, fun h1 h2 => lt_of_le_of_lt h1 h2,
    fun h1 h2 => h1.trans h2⟩

theorem swap_ltCmp {α : Type} [LinearOrder α] (a b : α) :
    ltCmp b a = (ltCmp a b).swap := by
  unfold ltCmp
  split_ifs with h1 h2 h3 <;> simp [Ordering.swap]
  exact absurd (lt_trans h1 h2) (lt_irrefl b)

end storage

namespace storage.PropertyValue

theorem cmp_unfold (a b : PropertyValue) :
    cmp a b = (ltCmp (rank a) (rank b)).then
      (match a, b with
        | bool x, bool y => ltCmp x y
        | string x, string y => ltCmp x y
        | list xs, list ys => cmpList xs ys
        | map m, map n => cmpMap m n
        | a, b => ltCmp (num a) (num b)) := by
  cases a <;> cases b <;> rfl

mutual
theorem tri_cmp (a b c : PropertyValue) : Tri (cmp a b) (cmp b c) (cmp a c) := by
  rw [cmp_unfold a b, cmp_unfold b c, cmp_unfold a c]
  apply tri_then (tri_ltCmp _ _ _)
  intro h1 h2
  rw [ltCmp_eq_eq] at h1 h2
  cases a <;> cases b <;> simp [rank] at h1 <;> cases c <;> simp [rank] at h2 <;>
    first
      | exact tri_ltCmp _ _ _
      | exact tri_cmpList _ _ _
      | exact tri_cmpMap _ _ _
termination_by sizeOf a
theorem tri_cmpList (xs ys zs : List PropertyValue) :
    Tri (cmpList xs ys) (cmpList ys zs) (cmpList xs zs) := by
  match xs, ys, zs with
  | [], [], [] => unfold Tri; simp [cmpList]
  | [], [], _ :: _ => unfold Tri; simp [cmpList]
  | [], _ :: _, [] => unfold Tri; simp [cmpList]
  | [], _ :: _, _ :: _ => unfold Tri; simp [cmpList]
  | _ :: _, [], [] => unfold Tri; simp [cmpList]
  | _ :: _, [], _ :: _ => unfold Tri; simp [cmpList]
  | _ :: _, _ :: _, [] => unfold Tri; simp [cmpList]
  | x :: xs, y :: ys, z :: zs =>
    simp only [cmpList]
    exact tri_then (tri_cmp _ _ _) (fun _ _ => tri_cmpList _ _ _)
termination_by sizeOf xs
theorem tri_cmpMap (m n o : List (String × PropertyValue)) :
    Tri (cmpMap m n) (cmpMap n o) (cmpMap m o) := by
  match m, n, o with
  | [], [], [] => unfold Tri; simp [cmpMap]
  | [], [], _ :: _ => unfold Tri; simp [cmpMap]
  | [], _ :: _, [] => unfold Tri; simp [cmpMap]
  | [], _ :: _, _ :: _ => unfold Tri; simp [cmpMap]
  | _ :: _, [], [] => unfold Tri; simp [cmpMap]
  | _ :: _, [], _ :: _ => unfold Tri; simp [cmpMap]
  | _ :: _, _ :: _, [] => unfold Tri; simp [cmpMap]
  | (k1, v1) :: m, (k2, v2) :: n, (k3, v3) :: o =>
    simp only [cmpMap]
    exact tri_then (tri_ltCmp _ _ _)
      (fun _ _ => tri_then (tri_cmp _ _ _) (fun _ _ => tri_cmpMap _ _ _))
termination_by sizeOf m
end

end storage.PropertyValue

namespace storage

theorem swap_then (p q : Ordering) : (p.then q).swap = p.swap.then q.swap := by
  cases p <;> rfl

namespace PropertyValue

mutual
theorem swap_cmp (a b : PropertyValue) : cmp b a = (cmp a b).swap := by
  rw [cmp_unfold a b, cmp_unfold b a, swap_then, ← swap_ltCmp]
  congr 1
  cases a <;> cases b <;>
    first
      | exact swap_ltCmp _ _
      | exact swap_cmpList _ _
      | exact swap_cmpMap _ _
termination_by sizeOf a
theorem swap_cmpList (xs ys : List PropertyValue) :
    cmpList ys xs = (cmpList xs ys).swap := by
  match xs, ys with
  | [], [] => rfl
  | [], _ :: _ => rfl
  | _ :: _, [] => rfl
  | x :: xs, y :: ys =>
    simp only [cmpList]
    rw [swap_then, ← swap_cmp x y, ← swap_cmpList xs ys]
termination_by sizeOf xs
theorem swap_cmpMap (m n : List (String × PropertyValue)) :
    cmpMap n m = (cmpMap m n).swap := by
  match m, n with
  | [], [] => rfl
  | [], _ :: _ => rfl
  | _ :: _, [] => rfl
  | (k1, v1) :: m, (k2, v2) :: n =>
    simp only [cmpMap]
    rw [swap_then, swap_then, ← swap_ltCmp, ← swap_cmp v1 v2, ← swap_cmpMap m n]
termination_by sizeOf m
end

theorem cmp_self (a : PropertyValue) : cmp a a = Ordering.eq := by
  have h := swap_cmp a a
  cases hc : cmp a a <;> rw [hc] at h <;> simp [Ordering.swap] at h ⊢

theorem eqv_refl (a : PropertyValue) : eqv a a = true := by
  simp [eqv, cmp_self]

theorem eqv_symm {a b : PropertyValue} (h : eqv a b = true) : eqv b a = true := by
  simp only [eqv, decide_eq_true_eq] at h ⊢
  rw [swap_cmp a b, h]; rfl

theorem eqv_trans {a b c : PropertyValue} (h1 : eqv a b = true) (h2 : eqv b c = true) :
    eqv a c = true := by
  simp only [eqv, decide_eq_true_eq] at h1 h2 ⊢
  exact (tri_cmp a b c).2.2 h1 h2

/-- Comparing against equal values gives the same outcome. -/
theorem cmp_congr_left {a b : PropertyValue} (h : eqv a b = true) (c : PropertyValue) :
    cmp a c = cmp b c := by
  simp only [eqv, decide_eq_true_eq] at h
  have hba : cmp b a = Ordering.eq := by rw [swap_cmp a b, h]; rfl
  have t1 := tri_cmp a b c
  have t2 := tri_cmp b a c
  have s1 := swap_cmp a c
  have s2 := swap_cmp b c
  have t3 := tri_cmp c a b
  have t4 := tri_cmp c b a
  unfold Tri at t1 t2 t3 t4
  cases h1 : cmp a c <;> cases h2 : cmp b c <;>
    simp_all [Ordering.swap]

theorem cmp_congr_right {a b : PropertyValue} (h : eqv a b = true) (c : PropertyValue) :
    cmp c a = cmp c b := by
  rw [swap_cmp a c, swap_cmp b c, cmp_congr_left h]

end PropertyValue

end storage

namespace storage

theorem contains_iff_mem {α : Type} [BEq α] [LawfulBEq α] (l : List α) (a : α) :
    l.contains a = true ↔ a ∈ l := by
  simp

end storage

namespace storage.Storage

theorem UpdateOnSetProperty_registered (s : Storage) (label property : Nat)
    (value : PropertyValue) (gid tid : Nat) :
    (s.UpdateOnSetProperty label property value gid tid).registered = s.registered := by
  unfold UpdateOnSetProperty
  split <;> rfl

theorem backfill_registered (engine : tx.Engine) (label property : Nat)
    (chains : List VersionChain) :
    ∀ acc : Storage,
      (chains.foldl
        (fun acc ch =>
          match ch.versions.find?
              (fun v => decide (engine.GlobalInfo v.tx_created = tx.Status.Committed)) with
          | some v =>
            if v.payload.HasLabel label then
              acc.UpdateOnSetProperty label property (v.payload.GetProperty property) ch.gid
                v.tx_created
            else acc
          | none => acc) acc).registered = acc.registered := by
  induction chains with
  | nil => intro acc; rfl
  | cons ch chains ih =>
    intro acc
    simp only [List.foldl_cons]
    rw [ih]
    split
    · split
      · exact UpdateOnSetProperty_registered _ _ _ _ _ _
      · rfl
    · rfl

theorem CreateIndex_registered (s : Storage) (label property : Nat) :
    (s.CreateIndex label property).2.registered
      = if s.LabelPropertyIndexExists label property then s.registered
        else s.registered ++ [(label, property)] := by
  unfold CreateIndex
  split
  · rfl
  · simp only
    rw [backfill_registered]

/-- C10: `CreateIndex` returns true iff no index on the pair existed, and the
index exists afterwards; `DropIndex` returns true iff the index existed, and it
does not exist afterwards; neither changes the existence of an index on another
pair. -/
theorem C10_create_and_drop_index (s : Storage) (label property : Nat) :
    ((s.CreateIndex label property).1 = true
        ↔ s.LabelPropertyIndexExists label property = false) ∧
      (s.CreateIndex label property).2.LabelPropertyIndexExists label property = true ∧
      ((s.DropIndex label property).1 = true
        ↔ s.LabelPropertyIndexExists label property = true) ∧
      (s.DropIndex label property).2.LabelPropertyIndexExists label property = false ∧
      (∀ l p : Nat, (l, p) ≠ (label, property) →
        (s.CreateIndex label property).2.LabelPropertyIndexExists l p
            = s.LabelPropertyIndexExists l p ∧
          (s.DropIndex label property).2.LabelPropertyIndexExists l p
            = s.LabelPropertyIndexExists l p) := by
  refine ⟨?_, ?_, ?_, ?_, ?_⟩
  · unfold CreateIndex
    cases h : s.LabelPropertyIndexExists label property <;> simp
  · have hr := CreateIndex_registered s label property
    unfold LabelPropertyIndexExists at hr ⊢
    rw [hr]
    cases h : s.registered.contains (label, property)
    · simp
    · simpa using h
  · unfold DropIndex
    cases h : s.LabelPropertyIndexExists label property <;> simp
  · unfold DropIndex
    cases h : s.LabelPropertyIndexExists label property
    · simpa using h
    · simp [LabelPropertyIndexExists]
  · intro l p hne
    constructor
    · have hr := CreateIndex_registered s label property
      unfold LabelPropertyIndexExists at hr ⊢
      rw [hr]
      cases h : s.registered.contains (label, property)
      · simp only [Bool.false_eq_true, if_false]
        rw [Bool.eq_iff_iff, contains_iff_mem, contains_iff_mem, List.mem_append,
          List.mem_singleton]
        constructor
        · rintro (h1 | h1)
          · exact h1
          · exact absurd h1 hne
        · intro h1; exact Or.inl h1
      · simp
    · unfold DropIndex
      cases h : s.LabelPropertyIndexExists label property
      · simp
      · simp only [if_true, LabelPropertyIndexExists]
        rw [Bool.eq_iff_iff, contains_iff_mem, contains_iff_mem, List.mem_filter]
        simp only [bne_iff_ne, ne_eq]
        constructor
        · intro h1; exact h1.1
        · intro h1; exact ⟨h1, hne⟩

end storage.Storage

namespace storage

/-! ### Sorted insertion and deduplication -/

theorem mem_insertSorted {α : Type} (le : α → α → Bool) (a b : α) (l : List α) :
    b ∈ insertSorted le a l ↔ b = a ∨ b ∈ l := by
  induction l with
  | nil => simp [insertSorted]
  | cons c l ih =>
    simp only [insertSorted]
    split
    · simp
    · simp only [List.mem_cons, ih]
      constructor
      · rintro (h | h | h)
        · exact Or.inr (Or.inl h)
        · exact Or.inl h
        · exact Or.inr (Or.inr h)
      · rintro (h | h | h)
        · exact Or.inr (Or.inl h)
        · exact Or.inl h
        · exact Or.inr (Or.inr h)

theorem pairwise_insertSorted {α : Type} (le : α → α → Bool)
    (htotal : ∀ a b, le a b = true ∨ le b a = true)
    (htrans : ∀ a b c, le a b = true → le b c = true → le a c = true)
    (a : α) (l : List α) (h : l.Pairwise (fun x y => le x y = true)) :
    (insertSorted le a l).Pairwise (fun x y => le x y = true) := by
  induction l with
  | nil => simp [insertSorted]
  | cons c l ih =>
    have hc := List.pairwise_cons.1 h
    simp only [insertSorted]
    split
    · rename_i hac
      refine List.pairwise_cons.2 ⟨?_, h⟩
      intro x hx
      rcases List.mem_cons.1 hx with hx | hx
      · rw [hx]; exact hac
      · exact htrans a c x hac (hc.1 x hx)
    · rename_i hac
      have hca : le c a = true := by
        rcases htotal a c with h1 | h1
        · exact absurd h1 hac
        · exact h1
      refine List.pairwise_cons.2 ⟨?_, ih hc.2⟩
      intro x hx
      rcases (mem_insertSorted le a x l).1 hx with hx | hx
      · rw [hx]; exact hca
      · exact hc.1 x hx

theorem dedup_spec :
    ∀ (l : List Nat) (prev : Option Nat), Grouped l →
      (∀ p, prev = some p → l.head? = some p ∨ p ∉ l) →
      (dedup prev l).Nodup ∧ (∀ p, prev = some p → p ∉ dedup prev l) ∧
        (∀ g, g ∈ dedup prev l ↔ g ∈ l ∧ prev ≠ some g) := by
  intro l
  induction l with
  | nil => intro prev _ _; simp [dedup]
  | cons a rest ih =>
    intro prev hg hp
    obtain ⟨hga, hgr⟩ := hg
    by_cases hpa : prev = some a
    · subst hpa
      obtain ⟨h1, h2, h3⟩ := ih (some a) hgr (by intro p hp'; cases hp'; exact hga)
      simp only [dedup, if_true]
      refine ⟨h1, h2, ?_⟩
      intro g
      rw [h3 g]
      constructor
      · rintro ⟨hm, hne⟩; exact ⟨List.mem_cons_of_mem _ hm, hne⟩
      · rintro ⟨hm, hne⟩
        rcases List.mem_cons.1 hm with h | h
        · exact absurd (by rw [h]) hne
        · exact ⟨h, hne⟩
    · obtain ⟨h1, h2, h3⟩ := ih (some a) hgr (by intro p hp'; cases hp'; exact hga)
      simp only [dedup, hpa, if_false]
      have ha : a ∉ dedup (some a) rest := h2 a rfl
      refine ⟨List.nodup_cons.2 ⟨ha, h1⟩, ?_, ?_⟩
      · intro p hp'
        have hpl := hp p hp'
        have hne : p ≠ a := by
          intro h; apply hpa; rw [hp', h]
        have hnot : p ∉ a :: rest := by
          rcases hpl with h | h
          · simp only [List.head?_cons, Option.some.injEq] at h; exact absurd h.symm hne
          · exact h
        intro hmem
        rcases List.mem_cons.1 hmem with h | h
        · exact hne h
        · exact hnot (List.mem_cons_of_mem _ ((h3 p).1 h).1)
      · intro g
        simp only [List.mem_cons, h3 g]
        constructor
        · rintro (h | ⟨h, _⟩)
          · refine ⟨Or.inl h, ?_⟩
            rw [h]; exact hpa
          · refine ⟨Or.inr h, ?_⟩
            intro hp'
            rcases hp g hp' with h' | h'
            · simp only [List.head?_cons, Option.some.injEq] at h'
              apply hpa; rw [hp', h']
            · exact h' (List.mem_cons_of_mem _ h)
        · rintro ⟨h | h, _⟩
          · exact Or.inl h
          · by_cases hga' : g = a
            · exact Or.inl hga'
            · refine Or.inr ⟨h, ?_⟩
              intro h'; apply hga'; simp only [Option.some.injEq] at h'; exact h'.symm

theorem dedup_sublist : ∀ (l : List Nat) (prev : Option Nat), (dedup prev l).Sublist l := by
  intro l
  induction l with
  | nil => intro prev; simp [dedup]
  | cons a rest ih =>
    intro prev
    simp only [dedup]
    split
    · exact (ih prev).cons a
    · exact (ih (some a)).cons₂ a

theorem dedup_none_spec (l : List Nat) (hg : Grouped l) :
    (dedup none l).Nodup ∧ ∀ g, g ∈ dedup none l ↔ g ∈ l := by
  obtain ⟨h1, _, h3⟩ := dedup_spec l none hg (by intro p hp; cases hp)
  exact ⟨h1, fun g => by rw [h3 g]; simp⟩

end storage

namespace storage

/-! ### The order of the index entries -/

theorem labelEntryLe_total (a b : Nat × Nat) : labelEntryLe a b = true ∨ labelEntryLe b a = true := by
  simp only [labelEntryLe, Bool.or_eq_true, Bool.and_eq_true, decide_eq_true_eq, beq_iff_eq]
  omega

theorem labelEntryLe_trans (a b c : Nat × Nat) (h1 : labelEntryLe a b = true)
    (h2 : labelEntryLe b c = true) : labelEntryLe a c = true := by
  simp only [labelEntryLe, Bool.or_eq_true, Bool.and_eq_true, decide_eq_true_eq,
    beq_iff_eq] at h1 h2 ⊢
  omega

theorem labelEntryLe_fst {a b : Nat × Nat} (h : labelEntryLe a b = true) : a.1 ≤ b.1 := by
  simp only [labelEntryLe, Bool.or_eq_true, Bool.and_eq_true, decide_eq_true_eq,
    beq_iff_eq] at h
  omega

theorem tri_propEntryCmp (a b c : PropertyValue × Nat × Nat) :
    Tri (propEntryCmp a b) (propEntryCmp b c) (propEntryCmp a c) :=
  tri_then (PropertyValue.tri_cmp _ _ _)
    (fun _ _ => tri_then (tri_ltCmp _ _ _) (fun _ _ => tri_ltCmp _ _ _))

theorem swap_propEntryCmp (a b : PropertyValue × Nat × Nat) :
    propEntryCmp b a = (propEntryCmp a b).swap := by
  simp only [propEntryCmp]
  rw [swap_then, swap_then, ← PropertyValue.swap_cmp, ← swap_ltCmp, ← swap_ltCmp]

theorem propEntryLe_total (a b : PropertyValue × Nat × Nat) :
    propEntryLe a b = true ∨ propEntryLe b a = true := by
  simp only [propEntryLe, decide_eq_true_eq]
  rw [swap_propEntryCmp a b]
  cases propEntryCmp a b <;> simp [Ordering.swap]

theorem propEntryLe_trans (a b c : PropertyValue × Nat × Nat) (h1 : propEntryLe a b = true)
    (h2 : propEntryLe b c = true) : propEntryLe a c = true := by
  simp only [propEntryLe, decide_eq_true_eq] at h1 h2 ⊢
  have t := tri_propEntryCmp a b c
  unfold Tri at t
  cases h3 : propEntryCmp a b <;> cases h4 : propEntryCmp b c <;> simp_all

/-- An entry between two entries with equal keys and the same vertex has that
vertex too. -/
theorem propEntry_between {e h e2 : PropertyValue × Nat × Nat}
    (h1 : propEntryLe e h = true) (h2 : propEntryLe h e2 = true)
    (hv : PropertyValue.eqv e.1 e2.1 = true) (hr : e.2.1 = e2.2.1) : h.2.1 = e.2.1 := by
  simp only [propEntryLe, decide_eq_true_eq, propEntryCmp] at h1 h2
  simp only [PropertyValue.eqv, decide_eq_true_eq] at hv
  -- the value of `h` is equal to both
  have hv2 : PropertyValue.cmp e2.1 e.1 = Ordering.eq := by
    rw [PropertyValue.swap_cmp e.1 e2.1, hv]; rfl
  have t1 := PropertyValue.tri_cmp h.1 e2.1 e.1
  have s1 := PropertyValue.swap_cmp e.1 h.1
  unfold Tri at t1
  have hle1 : PropertyValue.cmp e.1 h.1 ≠ Ordering.gt := by
    intro hgt; rw [hgt] at h1; simp [Ordering.then] at h1
  have hle2 : PropertyValue.cmp h.1 e2.1 ≠ Ordering.gt := by
    intro hgt; rw [hgt] at h2; simp [Ordering.then] at h2
  have heq1 : PropertyValue.cmp e.1 h.1 = Ordering.eq := by
    cases hc : PropertyValue.cmp e.1 h.1 with
    | eq => rfl
    | gt => exact absurd hc hle1
    | lt =>
      rw [hc] at s1
      cases hc2 : PropertyValue.cmp h.1 e2.1 with
      | gt => exact absurd hc2 hle2
      | lt =>
        have := t1.1 hc2 (by rw [hv2]; simp)
        rw [s1] at this; simp [Ordering.swap] at this
      | eq =>
        have := t1.2.2 hc2 hv2
        rw [s1] at this; simp [Ordering.swap] at this
  have heq2 : PropertyValue.cmp h.1 e2.1 = Ordering.eq := by
    have hhe : PropertyValue.cmp h.1 e.1 = Ordering.eq := by
      rw [PropertyValue.swap_cmp e.1 h.1, heq1]; rfl
    exact (PropertyValue.tri_cmp h.1 e.1 e2.1).2.2 hhe hv
  rw [heq1] at h1
  rw [heq2] at h2
  simp only [Ordering.then] at h1 h2
  have g1 : e.2.1 ≤ h.2.1 := by
    rw [← ltCmp_ne_gt]
    intro hgt; rw [hgt] at h1; simp at h1
  have g2 : h.2.1 ≤ e2.2.1 := by
    rw [← ltCmp_ne_gt]
    intro hgt; rw [hgt] at h2; simp at h2
  omega

theorem grouped_label_refs (l : List (Nat × Nat))
    (hs : l.Pairwise (fun a b => labelEntryLe a b = true)) :
    Grouped (l.map (fun e => e.1)) := by
  induction l with
  | nil => trivial
  | cons e rest ih =>
    have hc := List.pairwise_cons.1 hs
    refine ⟨?_, ih hc.2⟩
    cases rest with
    | nil => right; simp
    | cons h rest2 =>
      by_cases hmem : e.1 ∈ (h :: rest2).map (fun e => e.1)
      · left
        obtain ⟨e2, he2, hr⟩ := List.mem_map.1 hmem
        have h1 := labelEntryLe_fst (hc.1 h (List.mem_cons_self _ _))
        have h2 : h.1 ≤ e2.1 := by
          rcases List.mem_cons.1 he2 with h' | h'
          · rw [h']
          · exact labelEntryLe_fst ((List.pairwise_cons.1 hc.2).1 e2 h')
        simp only [List.map_cons, List.head?_cons, Option.some.injEq]
        omega
      · right; exact hmem

theorem grouped_prop_refs (l : List (PropertyValue × Nat × Nat))
    (hs : l.Pairwise (fun a b => propEntryLe a b = true))
    (hm : ∀ e, e ∈ l → ∀ e2, e2 ∈ l → e.2.1 = e2.2.1 → PropertyValue.eqv e.1 e2.1 = true) :
    Grouped (l.map (fun e => e.2.1)) := by
  induction l with
  | nil => trivial
  | cons e rest ih =>
    have hc := List.pairwise_cons.1 hs
    refine ⟨?_, ih hc.2 (fun a ha b hb => hm a (List.mem_cons_of_mem _ ha) b
      (List.mem_cons_of_mem _ hb))⟩
    cases rest with
    | nil => right; simp
    | cons h rest2 =>
      by_cases hmem : e.2.1 ∈ (h :: rest2).map (fun e => e.2.1)
      · left
        obtain ⟨e2, he2, hr⟩ := List.mem_map.1 hmem
        have h1 := hc.1 h (List.mem_cons_self _ _)
        have hv := hm e (List.mem_cons_self _ _) e2 (List.mem_cons_of_mem _ he2) hr.symm
        simp only [List.map_cons, List.head?_cons, Option.some.injEq]
        rcases List.mem_cons.1 he2 with h' | h'
        · rw [← h']; exact hr
        · exact propEntry_between h1 ((List.pairwise_cons.1 hc.2).1 e2 h') hv hr.symm
      · right; exact hmem

end storage

namespace storage.Storage

/-! ### Index scans against the full scan -/

theorem chain_some {s : Storage} {gid : Nat} {ch : VersionChain} (h : s.chain gid = some ch) :
    ch ∈ s.vertices ∧ ch.gid = gid := by
  unfold chain at h
  exact ⟨List.mem_of_find?_eq_some h, by simpa using List.find?_some h⟩

theorem visibleVersion_some {s : Storage} {t : Transaction} {view : View} {gid : Nat}
    {v : Version} (h : s.visibleVersion t view gid = some v) :
    ∃ ch, s.chain gid = some ch ∧ ch ∈ s.vertices ∧ ch.gid = gid ∧
      ch.versions.find? (visible s.engine t view) = some v ∧ v ∈ ch.versions := by
  unfold visibleVersion at h
  cases hc : s.chain gid with
  | none => rw [hc] at h; simp at h
  | some ch =>
    rw [hc] at h
    simp only at h
    exact ⟨ch, rfl, (chain_some hc).1, (chain_some hc).2, h, List.mem_of_find?_eq_some h⟩

theorem mem_Vertices {s : Storage} {t : Transaction} {view : View} {gid : Nat} :
    gid ∈ s.Vertices t view ↔
      ∃ ch, ch ∈ s.vertices ∧ ch.gid = gid ∧
        (ch.versions.find? (visible s.engine t view)).isSome = true := by
  unfold Vertices
  simp only [List.mem_map, List.mem_filter]
  constructor
  · rintro ⟨ch, ⟨h1, h2⟩, h3⟩; exact ⟨ch, h1, h3, h2⟩
  · rintro ⟨ch, h1, h3, h2⟩; exact ⟨ch, ⟨h1, h2⟩, h3⟩

theorem mem_Vertices_of_visibleVersion {s : Storage} {t : Transaction} {view : View}
    {gid : Nat} {v : Version} (h : s.visibleVersion t view gid = some v) :
    gid ∈ s.Vertices t view := by
  obtain ⟨ch, _, h1, h2, h3, _⟩ := visibleVersion_some h
  exact mem_Vertices.2 ⟨ch, h1, h2, by rw [h3]; rfl⟩

theorem Vertices_sorted {s : Storage} (hinv : IndexInv s) (t : Transaction) (view : View) :
    (s.Vertices t view).Pairwise (fun a b => a < b) := by
  unfold Vertices
  rw [List.pairwise_map]
  exact hinv.gids_sorted.filter _

theorem pairwise_lt_of_le_nodup {l : List Nat} (h1 : l.Pairwise (fun a b => a ≤ b))
    (h2 : l.Nodup) : l.Pairwise (fun a b => a < b) := by
  have h3 := h1.and h2
  exact h3.imp (fun h => lt_of_le_of_ne h.1 h.2)

theorem eq_of_sorted_lt_of_mem_iff {l1 l2 : List Nat}
    (h1 : l1.Pairwise (fun a b => a < b)) (h2 : l2.Pairwise (fun a b => a < b))
    (h : ∀ a, a ∈ l1 ↔ a ∈ l2) : l1 = l2 := by
  have n1 : l1.Nodup := h1.imp (fun h => ne_of_lt h)
  have n2 : l2.Nodup := h2.imp (fun h => ne_of_lt h)
  exact List.eq_of_perm_of_sorted ((List.perm_ext_iff_of_nodup n1 n2).2 h) h1 h2

/-- The label index scan is the full scan filtered by the label, as lists. -/
theorem LabelVertices_eq_filter {s : Storage} (hinv : IndexInv s) (t : Transaction)
    (label : Nat) (view : View) :
    s.LabelVertices t label view
      = (s.Vertices t view).filter (fun g => s.HasLabel t view g label) := by
  have hsorted : ((s.label_index label).filter (fun e => s.HasLabel t view e.1 label)).Pairwise
      (fun a b => labelEntryLe a b = true) := (hinv.label_sorted label).filter _
  have hg := grouped_label_refs _ hsorted
  obtain ⟨hnd, hmem⟩ := dedup_none_spec _ hg
  have hle : (((s.label_index label).filter (fun e => s.HasLabel t view e.1 label)).map
      (fun e => e.1)).Pairwise (fun a b => a ≤ b) := by
    rw [List.pairwise_map]
    exact hsorted.imp (fun h => labelEntryLe_fst h)
  have hlt : (s.LabelVertices t label view).Pairwise (fun a b => a < b) :=
    pairwise_lt_of_le_nodup (hle.sublist (dedup_sublist _ _)) hnd
  apply eq_of_sorted_lt_of_mem_iff hlt ((Vertices_sorted hinv t view).filter _)
  intro g
  unfold LabelVertices
  rw [hmem g]
  simp only [List.mem_map, List.mem_filter]
  constructor
  · rintro ⟨e, ⟨_, h2⟩, h3⟩
    rw [h3] at h2
    refine ⟨?_, h2⟩
    unfold HasLabel at h2
    cases hv : s.visibleVersion t view g with
    | none => rw [hv] at h2; simp at h2
    | some v => exact mem_Vertices_of_visibleVersion hv
  · rintro ⟨_, h2⟩
    have h2' := h2
    unfold HasLabel at h2
    cases hv : s.visibleVersion t view g with
    | none => rw [hv] at h2; simp at h2
    | some v =>
      rw [hv] at h2
      obtain ⟨ch, _, h3, h4, _, h6⟩ := visibleVersion_some hv
      have hcov := (hinv.covered ch h3 v h6).1 label (by simpa [Vertex.HasLabel] using h2)
      obtain ⟨e, he, hge⟩ := hcov
      rw [h4] at hge
      exact ⟨e, ⟨he, by rw [hge]; exact h2'⟩, hge⟩

end storage.Storage

namespace storage.PropertyValue

theorem rank_eq_of_eqv {a b : PropertyValue} (h : eqv a b = true) : rank a = rank b := by
  simp only [eqv, decide_eq_true_eq] at h
  rw [cmp_unfold] at h
  by_contra hne
  have h1 : ltCmp (rank a) (rank b) ≠ Ordering.eq := by
    rw [Ne, ltCmp_eq_eq]; exact hne
  cases h2 : ltCmp (rank a) (rank b) <;> rw [h2] at h <;> simp [Ordering.then] at h
  exact h1 h2

theorem isNull_iff_rank (a : PropertyValue) : isNull a = true ↔ rank a = 0 := by
  cases a <;> simp [isNull, rank]

theorem isNull_eq_of_eqv {a b : PropertyValue} (h : eqv a b = true) : isNull a = isNull b := by
  rw [Bool.eq_iff_iff, isNull_iff_rank, isNull_iff_rank, rank_eq_of_eqv h]

end storage.PropertyValue

namespace storage.Storage

theorem entryMatches_iff {s : Storage} {t : Transaction} {view : View} {label property : Nat}
    {e : PropertyValue × Nat × Nat} :
    s.entryMatches t view label property e = true ↔
      ∃ v, s.visibleVersion t view e.2.1 = some v ∧ v.payload.HasLabel label = true ∧
        PropertyValue.eqv (v.payload.GetProperty property) e.1 = true := by
  unfold entryMatches
  cases hv : s.visibleVersion t view e.2.1 with
  | none => simp
  | some v => simp

/-- A label+property scan yields no vertex twice; what it yields is in the full
scan, has the label and a non-Null value that passes `keep`; and when the index
is registered it yields every such vertex. -/
theorem PropertyScan_spec {s : Storage} (hinv : IndexInv s) (t : Transaction)
    (label property : Nat) (view : View) (keep : PropertyValue → Bool)
    (hkeep : ∀ a b, PropertyValue.eqv a b = true → keep a = keep b) :
    (s.PropertyScan t label property view keep).Nodup ∧
      (∀ g, g ∈ s.PropertyScan t label property view keep →
        g ∈ s.Vertices t view ∧ s.HasLabel t view g label = true ∧
          (s.GetProperty t view g property).isNull = false ∧
          keep (s.GetProperty t view g property) = true) ∧
      ((label, property) ∈ s.registered → ∀ g, g ∈ s.Vertices t view →
        s.HasLabel t view g label = true →
        (s.GetProperty t view g property).isNull = false →
        keep (s.GetProperty t view g property) = true →
        g ∈ s.PropertyScan t label property view keep) := by
  have hsorted : ((s.label_property_index (label, property)).filter
      (fun e => keep e.1 && s.entryMatches t view label property e)).Pairwise
      (fun a b => propEntryLe a b = true) := (hinv.prop_sorted (label, property)).filter _
  have hg := grouped_prop_refs _ hsorted (by
    intro e he e2 he2 hr
    simp only [List.mem_filter, Bool.and_eq_true] at he he2
    obtain ⟨v, hv, _, h1⟩ := entryMatches_iff.1 he.2.2
    obtain ⟨v2, hv2, _, h2⟩ := entryMatches_iff.1 he2.2.2
    rw [hr, hv2] at hv
    cases hv
    exact PropertyValue.eqv_trans (PropertyValue.eqv_symm h1) h2)
  obtain ⟨hnd, hmem⟩ := dedup_none_spec _ hg
  refine ⟨hnd, ?_, ?_⟩
  · intro g hgm
    unfold PropertyScan at hgm
    rw [hmem g] at hgm
    simp only [List.mem_map, List.mem_filter, Bool.and_eq_true] at hgm
    obtain ⟨e, ⟨he, hk, hm⟩, hr⟩ := hgm
    obtain ⟨v, hv, hl, hq⟩ := entryMatches_iff.1 hm
    rw [hr] at hv
    refine ⟨mem_Vertices_of_visibleVersion hv, ?_, ?_, ?_⟩
    · simp [HasLabel, hv, hl]
    · simp only [GetProperty, hv]
      rw [PropertyValue.isNull_eq_of_eqv hq]
      exact hinv.prop_nonnull _ e he
    · simp only [GetProperty, hv]
      rw [hkeep _ _ hq]; exact hk
  · intro hreg g _ hl hn hk
    unfold PropertyScan
    rw [hmem g]
    simp only [List.mem_map, List.mem_filter, Bool.and_eq_true]
    unfold HasLabel at hl
    cases hv : s.visibleVersion t view g with
    | none => rw [hv] at hl; simp at hl
    | some v =>
      rw [hv] at hl
      simp only [GetProperty, hv] at hn hk
      obtain ⟨ch, _, h3, h4, _, h6⟩ := visibleVersion_some hv
      obtain ⟨e, he, hge, hq⟩ := (hinv.covered ch h3 v h6).2 (label, property) hreg
        (by simpa [Vertex.HasLabel] using hl) hn
      rw [h4] at hge
      refine ⟨e, ⟨he, ?_, ?_⟩, hge⟩
      · rw [← hkeep _ _ hq]; exact hk
      · exact entryMatches_iff.2 ⟨v, by rw [hge]; exact hv, hl, hq⟩

end storage.Storage

namespace storage

/-! ### The index invariant is kept by every accessor operation -/

theorem IndexExtends.refl (s : Storage) : IndexExtends s s :=
  ⟨rfl, rfl, rfl, fun _ _ h => h, fun _ _ h => h, fun h => h, fun h => h, fun h => h, rfl, rfl⟩

theorem IndexExtends.trans {s1 s2 s3 : Storage} (h12 : IndexExtends s1 s2)
    (h23 : IndexExtends s2 s3) : IndexExtends s1 s3 :=
  ⟨h23.vertices_eq.trans h12.vertices_eq, h23.next_gid_eq.trans h12.next_gid_eq,
    h23.registered_eq.trans h12.registered_eq,
    fun l e h => h23.label_mono l e (h12.label_mono l e h),
    fun lp e h => h23.prop_mono lp e (h12.prop_mono lp e h),
    fun h => h23.label_sorted (h12.label_sorted h),
    fun h => h23.prop_sorted (h12.prop_sorted h),
    fun h => h23.prop_nonnull (h12.prop_nonnull h), h23.engine_eq.trans h12.engine_eq,
    h23.accessors_eq.trans h12.accessors_eq⟩

namespace Storage

theorem UpdateOnAddLabel_extends (s : Storage) (label gid tid : Nat) :
    IndexExtends s (s.UpdateOnAddLabel label gid tid) := by
  refine ⟨rfl, rfl, rfl, ?_, fun _ _ h => h, ?_, fun h => h, fun h => h, rfl, rfl⟩
  · intro l e he
    simp only [UpdateOnAddLabel]
    by_cases hl : l = label
    · subst hl
      rw [Function.update_same]
      exact (mem_insertSorted _ _ _ _).2 (Or.inr he)
    · rw [Function.update_noteq hl]; exact he
  · intro hs l
    simp only [UpdateOnAddLabel]
    by_cases hl : l = label
    · subst hl
      rw [Function.update_same]
      exact pairwise_insertSorted _ labelEntryLe_total labelEntryLe_trans _ _ (hs l)
    · rw [Function.update_noteq hl]; exact hs l

theorem UpdateOnAddLabel_mem (s : Storage) (label gid tid : Nat) :
    (gid, tid) ∈ (s.UpdateOnAddLabel label gid tid).label_index label := by
  simp only [UpdateOnAddLabel, Function.update_same]
  exact (mem_insertSorted _ _ _ _).2 (Or.inl rfl)

theorem UpdateOnSetProperty_extends (s : Storage) (label property : Nat)
    (value : PropertyValue) (gid tid : Nat) :
    IndexExtends s (s.UpdateOnSetProperty label property value gid tid) := by
  unfold UpdateOnSetProperty
  cases hn : value.isNull with
  | true => simp only [if_true]; exact IndexExtends.refl s
  | false =>
    simp only [Bool.false_eq_true, if_false]
    refine ⟨rfl, rfl, rfl, fun _ _ h => h, ?_, fun h => h, ?_, ?_, rfl, rfl⟩
    · intro lp e he
      by_cases hl : lp = (label, property)
      · subst hl
        simp only [Function.update_same]
        exact (mem_insertSorted _ _ _ _).2 (Or.inr he)
      · simp only [Function.update_noteq hl]; exact he
    · intro hs lp
      by_cases hl : lp = (label, property)
      · subst hl
        simp only [Function.update_same]
        exact pairwise_insertSorted _ propEntryLe_total propEntryLe_trans _ _ (hs _)
      · simp only [Function.update_noteq hl]; exact hs lp
    · intro hs lp e he
      by_cases hl : lp = (label, property)
      · subst hl
        simp only [Function.update_same] at he
        rcases (mem_insertSorted _ _ _ _).1 he with h | h
        · rw [h]; exact hn
        · exact hs _ e h
      · simp only [Function.update_noteq hl] at he; exact hs lp e he

theorem UpdateOnSetProperty_mem (s : Storage) (label property : Nat)
    (value : PropertyValue) (gid tid : Nat) (hn : value.isNull = false) :
    (value, gid, tid)
      ∈ (s.UpdateOnSetProperty label property value gid tid).label_property_index
          (label, property) := by
  simp only [UpdateOnSetProperty, hn, Bool.false_eq_true, if_false, Function.update_same]
  exact (mem_insertSorted _ _ _ _).2 (Or.inl rfl)

theorem foldl_UpdateOnSetProperty (val : Nat × Nat → PropertyValue) (gid tid : Nat)
    (pairs : List (Nat × Nat)) :
    ∀ acc : Storage,
      IndexExtends acc
          (pairs.foldl (fun acc lp => acc.UpdateOnSetProperty lp.1 lp.2 (val lp) gid tid) acc) ∧
        ∀ lp, lp ∈ pairs → (val lp).isNull = false →
          (val lp, gid, tid)
            ∈ (pairs.foldl (fun acc lp => acc.UpdateOnSetProperty lp.1 lp.2 (val lp) gid tid)
                acc).label_property_index lp := by
  induction pairs with
  | nil => intro acc; exact ⟨IndexExtends.refl acc, by simp⟩
  | cons p pairs ih =>
    intro acc
    simp only [List.foldl_cons]
    obtain ⟨h1, h2⟩ := ih (acc.UpdateOnSetProperty p.1 p.2 (val p) gid tid)
    refine ⟨(UpdateOnSetProperty_extends acc p.1 p.2 (val p) gid tid).trans h1, ?_⟩
    intro lp hlp hn
    rcases List.mem_cons.1 hlp with h | h
    · subst h
      exact h1.prop_mono _ _ (UpdateOnSetProperty_mem acc lp.1 lp.2 (val lp) gid tid hn)
    · exact h2 lp h hn

end Storage

end storage

namespace storage

theorem Covered_of_eq {s : Storage} {gid : Nat} {p q : Vertex} (hl : q.labels = p.labels)
    (hp : q.properties = p.properties) (h : Covered s gid p) : Covered s gid q := by
  unfold Covered Vertex.GetProperty at *
  rw [hl, hp]; exact h

theorem Covered_mono {s s2 : Storage} {gid : Nat} {p : Vertex}
    (hl : ∀ l e, e ∈ s.label_index l → e ∈ s2.label_index l)
    (hp : ∀ lp e, e ∈ s.label_property_index lp → e ∈ s2.label_property_index lp)
    (hr : s2.registered = s.registered) (h : Covered s gid p) : Covered s2 gid p := by
  refine ⟨?_, ?_⟩
  · intro l hlm
    obtain ⟨e, he, hg⟩ := h.1 l hlm
    exact ⟨e, hl l e he, hg⟩
  · intro lp hlp hlab hn
    rw [hr] at hlp
    obtain ⟨e, he, hg⟩ := h.2 lp hlp hlab hn
    exact ⟨e, hp lp e he, hg⟩

theorem writeHead_gid (t : Transaction) (f : Vertex → Vertex) (ch : VersionChain) :
    (writeHead t f ch).gid = ch.gid := by
  unfold writeHead
  split
  · rfl
  · split <;> rfl

theorem expireHead_gid (t : Transaction) (ch : VersionChain) :
    (expireHead t ch).gid = ch.gid := by
  unfold expireHead
  split <;> rfl

theorem writeHead_versions {t : Transaction} {f : Vertex → Vertex} {ch : VersionChain}
    {v2 : Version} (h : v2 ∈ (writeHead t f ch).versions) :
    (∃ v, v ∈ ch.versions ∧ v2.payload = v.payload) ∨
      (∃ hd rest, ch.versions = hd :: rest ∧ v2.payload = f hd.payload) := by
  unfold writeHead at h
  split at h
  · exact Or.inl ⟨v2, h, rfl⟩
  · rename_i hd rest heq
    split at h
    · simp only [List.mem_cons] at h
      rcases h with h | h
      · right; exact ⟨hd, rest, heq, by rw [h]⟩
      · left; exact ⟨v2, by rw [heq]; exact List.mem_cons_of_mem _ h, rfl⟩
    · simp only [List.mem_cons] at h
      rcases h with h | h | h
      · right; exact ⟨hd, rest, heq, by rw [h]⟩
      · left; exact ⟨hd, by rw [heq]; exact List.mem_cons_self _ _, by rw [h]⟩
      · left; exact ⟨v2, by rw [heq]; exact List.mem_cons_of_mem _ h, rfl⟩

theorem expireHead_versions {t : Transaction} {ch : VersionChain}
    {v2 : Version} (h : v2 ∈ (expireHead t ch).versions) :
    ∃ v, v ∈ ch.versions ∧ v2.payload = v.payload := by
  unfold expireHead at h
  split at h
  · exact ⟨v2, h, rfl⟩
  · rename_i hd rest heq
    simp only [List.mem_cons] at h
    rcases h with h | h
    · exact ⟨hd, by rw [heq]; exact List.mem_cons_self _ _, by rw [h]⟩
    · exact ⟨v2, by rw [heq]; exact List.mem_cons_of_mem _ h, rfl⟩

theorem updateChain_map_gid (gid : Nat) (f : VersionChain → VersionChain)
    (hf : ∀ ch, (f ch).gid = ch.gid) (chains : List VersionChain) :
    (updateChain gid f chains).map (fun ch => ch.gid) = chains.map (fun ch => ch.gid) := by
  unfold updateChain
  rw [List.map_map]
  apply List.map_congr_left
  intro ch _
  simp only [Function.comp_apply]
  split
  · exact hf ch
  · rfl

theorem mem_updateChain {gid : Nat} {f : VersionChain → VersionChain}
    {chains : List VersionChain} {ch2 : VersionChain} (h : ch2 ∈ updateChain gid f chains) :
    ∃ ch, ch ∈ chains ∧ ((ch.gid = gid ∧ ch2 = f ch) ∨ (ch.gid ≠ gid ∧ ch2 = ch)) := by
  unfold updateChain at h
  obtain ⟨ch, hch, heq⟩ := List.mem_map.1 h
  refine ⟨ch, hch, ?_⟩
  by_cases hg : ch.gid = gid
  · left; simp only [hg, beq_self_eq_true, if_true] at heq; exact ⟨hg, heq.symm⟩
  · right
    have : (ch.gid == gid) = false := by simpa using hg
    simp only [this, Bool.false_eq_true, if_false] at heq
    exact ⟨hg, heq.symm⟩

/-- A transition that keeps the gids and whose versions are all covered keeps
the index invariant. -/
theorem IndexInv.transfer {s s2 : Storage} (hinv : IndexInv s)
    (hgid : s2.vertices.map (fun ch => ch.gid) = s.vertices.map (fun ch => ch.gid))
    (hnext : s2.next_gid = s.next_gid)
    (hls : ∀ l, (s2.label_index l).Pairwise (fun a b => labelEntryLe a b = true))
    (hps : ∀ lp, (s2.label_property_index lp).Pairwise (fun a b => propEntryLe a b = true))
    (hpn : ∀ lp e, e ∈ s2.label_property_index lp → e.1.isNull = false)
    (hcov : ∀ ch, ch ∈ s2.vertices → ∀ v, v ∈ ch.versions → Covered s2 ch.gid v.payload) :
    IndexInv s2 := by
  refine ⟨?_, ?_, hcov, hls, hps, hpn⟩
  · have h1 : (s.vertices.map (fun ch => ch.gid)).Pairwise (fun a b => a < b) := by
      rw [List.pairwise_map]; exact hinv.gids_sorted
    rw [← hgid, List.pairwise_map] at h1
    exact h1
  · intro ch hch
    have h1 : ch.gid ∈ s2.vertices.map (fun ch => ch.gid) := List.mem_map.2 ⟨ch, hch, rfl⟩
    rw [hgid] at h1
    obtain ⟨ch0, hch0, hg⟩ := List.mem_map.1 h1
    rw [hnext, ← hg]
    exact hinv.gids_bound ch0 hch0

theorem chain_unique {s : Storage} (hinv : IndexInv s) {ch ch2 : VersionChain}
    (h1 : ch ∈ s.vertices) (h2 : ch2 ∈ s.vertices) (hg : ch.gid = ch2.gid) : ch = ch2 := by
  have hp := hinv.gids_sorted
  generalize s.vertices = l at h1 h2 hp
  induction l with
  | nil => simp at h1
  | cons c l ih =>
    have hc := List.pairwise_cons.1 hp
    rcases List.mem_cons.1 h1 with e1 | e1 <;> rcases List.mem_cons.1 h2 with e2 | e2
    · rw [e1, e2]
    · have := hc.1 ch2 e2; rw [← e1, hg] at this; exact absurd this (lt_irrefl _)
    · have := hc.1 ch e1; rw [← e2, hg] at this; exact absurd this (lt_irrefl _)
    · exact ih e1 e2 hc.2

theorem headGuard_ok {e : tx.Engine} {t : Transaction} {ch : VersionChain} {h : Version}
    (hg : headGuard e t ch = Except.ok h) :
    (∃ rest, ch.versions = h :: rest) ∧ visible e t View.NEW h = true ∧
      (∀ owner, ch.lock = some owner → owner = t.id) := by
  unfold headGuard at hg
  split at hg
  · simp at hg
  · rename_i hd rest heq
    split at hg
    · simp at hg
    · rename_i hlock
      split at hg
      · simp at hg
      · split at hg
        · simp at hg
        · rename_i hvis
          simp only [Except.ok.injEq] at hg
          subst hg
          refine ⟨⟨rest, heq⟩, by simpa using hvis, ?_⟩
          intro owner ho
          rw [ho] at hlock
          simpa using hlock

end storage

namespace storage

theorem IndexInv.write {s s1 s2 : Storage} (hinv : IndexInv s) (t : Transaction) (gid : Nat)
    (f : Vertex → Vertex)
    (hv : s1.vertices = updateChain gid (writeHead t f) s.vertices)
    (hn : s1.next_gid = s.next_gid) (hr : s1.registered = s.registered)
    (hli : s1.label_index = s.label_index)
    (hpi : s1.label_property_index = s.label_property_index)
    (hext : IndexExtends s1 s2)
    (hnew : ∀ ch, ch ∈ s.vertices → ch.gid = gid → ∀ hd rest, ch.versions = hd :: rest →
      Covered s2 gid (f hd.payload)) : IndexInv s2 := by
  have hmono : ∀ g p, Covered s g p → Covered s2 g p := by
    intro g p hc
    exact Covered_mono (fun l e he => hext.label_mono l e (by rw [hli]; exact he))
      (fun lp e he => hext.prop_mono lp e (by rw [hpi]; exact he))
      (hext.registered_eq.trans hr) hc
  apply hinv.transfer
  · rw [hext.vertices_eq, hv]
    exact updateChain_map_gid gid _ (writeHead_gid t f) _
  · rw [hext.next_gid_eq, hn]
  · exact hext.label_sorted (by rw [hli]; exact hinv.label_sorted)
  · exact hext.prop_sorted (by rw [hpi]; exact hinv.prop_sorted)
  · exact hext.prop_nonnull (by rw [hpi]; exact hinv.prop_nonnull)
  · intro ch2 hch2 v2 hv2
    rw [hext.vertices_eq, hv] at hch2
    obtain ⟨ch, hch, hcase⟩ := mem_updateChain hch2
    rcases hcase with ⟨hg, heq⟩ | ⟨_, heq⟩
    · subst heq
      rw [writeHead_gid]
      rcases writeHead_versions hv2 with ⟨v, hvm, hpe⟩ | ⟨hd, rest, hhd, hpe⟩
      · rw [hpe]; exact hmono _ _ (hinv.covered ch hch v hvm)
      · rw [hpe, hg]; exact hnew ch hch hg hd rest hhd
    · subst heq
      exact hmono _ _ (hinv.covered ch2 hch v2 hv2)

theorem IndexInv.expire {s s1 : Storage} (hinv : IndexInv s) (t : Transaction) (gid : Nat)
    (hv : s1.vertices = updateChain gid (expireHead t) s.vertices)
    (hn : s1.next_gid = s.next_gid) (hr : s1.registered = s.registered)
    (hli : s1.label_index = s.label_index)
    (hpi : s1.label_property_index = s.label_property_index) : IndexInv s1 := by
  have hmono : ∀ g p, Covered s g p → Covered s1 g p := by
    intro g p hc
    exact Covered_mono (fun l e he => by rw [hli]; exact he)
      (fun lp e he => by rw [hpi]; exact he) hr hc
  apply hinv.transfer
  · rw [hv]
    exact updateChain_map_gid gid _ (expireHead_gid t) _
  · exact hn
  · rw [hli]; exact hinv.label_sorted
  · rw [hpi]; exact hinv.prop_sorted
  · rw [hpi]; exact hinv.prop_nonnull
  · intro ch2 hch2 v2 hv2
    rw [hv] at hch2
    obtain ⟨ch, hch, hcase⟩ := mem_updateChain hch2
    rcases hcase with ⟨_, heq⟩ | ⟨_, heq⟩
    · subst heq
      rw [expireHead_gid]
      obtain ⟨v, hvm, hpe⟩ := expireHead_versions hv2
      rw [hpe]; exact hmono _ _ (hinv.covered ch hch v hvm)
    · subst heq
      exact hmono _ _ (hinv.covered ch2 hch v2 hv2)

/-- A mutation that leaves labels and properties alone keeps the invariant. -/
theorem IndexInv.write_frame {s s1 : Storage} (hinv : IndexInv s) (t : Transaction)
    (gid : Nat) (f : Vertex → Vertex)
    (hfl : ∀ p, (f p).labels = p.labels) (hfp : ∀ p, (f p).properties = p.properties)
    (hv : s1.vertices = updateChain gid (writeHead t f) s.vertices)
    (hn : s1.next_gid = s.next_gid) (hr : s1.registered = s.registered)
    (hli : s1.label_index = s.label_index)
    (hpi : s1.label_property_index = s.label_property_index) : IndexInv s1 := by
  apply hinv.write t gid f hv hn hr hli hpi (IndexExtends.refl s1)
  intro ch hch hg hd rest hhd
  have hc := hinv.covered ch hch hd (by rw [hhd]; exact List.mem_cons_self _ _)
  rw [hg] at hc
  exact Covered_of_eq (hfl _) (hfp _)
    (Covered_mono (fun l e he => by rw [hli]; exact he)
      (fun lp e he => by rw [hpi]; exact he) hr hc)

theorem find?_filter_ne (l : List (Nat × PropertyValue)) (p q : Nat) :
    (l.filter (fun kv => kv.1 != p)).find? (fun kv => kv.1 == q)
      = if q = p then none else l.find? (fun kv => kv.1 == q) := by
  induction l with
  | nil => simp
  | cons kv l ih =>
    by_cases h1 : kv.1 = p
    · have : (kv.1 != p) = false := by simp [h1]
      rw [List.filter_cons_of_neg (by simp [h1]), ih]
      by_cases h2 : q = p
      · simp [h2]
      · have h3 : (kv.1 == q) = false := by
          rw [h1]; simpa using fun h => h2 h.symm
        simp [h2, List.find?_cons, h3]
    · rw [List.filter_cons_of_pos (by simpa using h1)]
      by_cases h2 : q = p
      · subst h2
        have h3 : (kv.1 == q) = false := by simpa using h1
        rw [List.find?_cons, h3, ih]
        simp
      · simp only [List.find?_cons, ih, h2, if_false]

theorem GetProperty_setProperty (v : Vertex) (p q : Nat) (x : PropertyValue) :
    (Vertex.setProperty p x v).GetProperty q
      = if q = p then (if x.isNull then PropertyValue.null else x) else v.GetProperty q := by
  unfold Vertex.setProperty Vertex.GetProperty
  cases hx : x.isNull
  · simp only [Bool.false_eq_true, if_false, List.find?_cons]
    by_cases h : q = p
    · subst h; simp
    · have h3 : (p == q) = false := by simpa using fun h' => h h'.symm
      simp only [h3, find?_filter_ne, h, if_false]
  · simp only [if_true, find?_filter_ne]
    by_cases h : q = p
    · simp [h]
    · simp [h]

end storage

namespace storage.Storage

theorem head_of_guard {s : Storage} (hinv : IndexInv s) {t : Transaction} {gid : Nat}
    {ch0 : VersionChain} {h : Version} (hc : s.chain gid = some ch0)
    (hg : headGuard s.engine t ch0 = Except.ok h) {ch : VersionChain} (hch : ch ∈ s.vertices)
    (hgid : ch.gid = gid) {hd : Version} {rest : List Version}
    (hv : ch.versions = hd :: rest) : ch = ch0 ∧ hd = h := by
  have h0 := chain_some hc
  have heq : ch = ch0 := chain_unique hinv hch h0.1 (by rw [hgid, h0.2])
  subst heq
  obtain ⟨⟨rest0, hr⟩, _, _⟩ := headGuard_ok hg
  rw [hv] at hr
  simp only [List.cons.injEq] at hr
  exact ⟨rfl, hr.1⟩

theorem AddLabel_inv {s : Storage} (hinv : IndexInv s) (tid gid label : Nat)
    (r : Bool × Storage) (hr : s.AddLabel tid gid label = Except.ok r) : IndexInv r.2 := by
  unfold AddLabel at hr
  cases ha : s.accessor tid with
  | none => rw [ha] at hr; simp at hr
  | some t =>
    cases hc : s.chain gid with
    | none => rw [ha, hc] at hr; simp at hr
    | some ch0 =>
      cases hg : headGuard s.engine t ch0 with
      | error err => rw [ha, hc] at hr; simp only [hg] at hr; simp at hr
      | ok h =>
        rw [ha, hc] at hr
        simp only [hg] at hr
        by_cases hl : h.payload.HasLabel label = true
        · simp only [hl, if_true, Except.ok.injEq] at hr
          rw [← hr]; exact hinv
        · simp only [hl, Bool.false_eq_true, if_false, Except.ok.injEq] at hr
          rw [← hr]
          simp only
          have hfold := foldl_UpdateOnSetProperty (fun lp => h.payload.GetProperty lp.2) gid
            t.id (s.registered.filter (fun lp => lp.1 == label))
            (UpdateOnAddLabel
              { s with vertices := updateChain gid (writeHead t (Vertex.addLabel label))
                                    s.vertices } label gid t.id)
          have hext := (UpdateOnAddLabel_extends
              { s with vertices := updateChain gid (writeHead t (Vertex.addLabel label))
                                    s.vertices } label gid t.id).trans hfold.1
          refine @IndexInv.write s
            { s with vertices := updateChain gid (writeHead t (Vertex.addLabel label))
                                  s.vertices } _ hinv t gid (Vertex.addLabel label)
            rfl rfl rfl rfl rfl hext ?_
          intro ch hch hgid hd rest hv
          obtain ⟨_, hhd⟩ := head_of_guard hinv hc hg hch hgid hv
          subst hhd
          have hold := hinv.covered ch hch hd (by rw [hv]; exact List.mem_cons_self _ _)
          rw [hgid] at hold
          refine ⟨?_, ?_⟩
          · intro l hlm
            simp only [Vertex.addLabel, List.mem_append, List.mem_singleton] at hlm
            rcases hlm with hlm | hlm
            · obtain ⟨e, he, hge⟩ := hold.1 l hlm
              exact ⟨e, hext.label_mono l e he, hge⟩
            · subst hlm
              exact ⟨(gid, t.id), hfold.1.label_mono _ _ (UpdateOnAddLabel_mem _ _ _ _), rfl⟩
          · intro lp hlp hlab hn
            rw [hext.registered_eq] at hlp
            have hgp : (Vertex.addLabel label hd.payload).GetProperty lp.2
                = hd.payload.GetProperty lp.2 := rfl
            rw [hgp] at hn ⊢
            simp only [Vertex.addLabel, List.mem_append, List.mem_singleton] at hlab
            by_cases hin : lp.1 ∈ hd.payload.labels
            · obtain ⟨e, he, hge⟩ := hold.2 lp hlp hin hn
              exact ⟨e, hext.prop_mono lp e he, hge⟩
            · have hlab2 : lp.1 = label := by
                rcases hlab with h1 | h1
                · exact absurd h1 hin
                · exact h1
              have hmem : lp ∈ s.registered.filter (fun lp => lp.1 == label) := by
                simp only [List.mem_filter, beq_iff_eq]
                exact ⟨hlp, hlab2⟩
              exact ⟨_, hfold.2 lp hmem hn, rfl, PropertyValue.eqv_refl _⟩

end storage.Storage

namespace storage.Storage

theorem RemoveLabel_inv {s : Storage} (hinv : IndexInv s) (tid gid label : Nat)
    (r : Bool × Storage) (hr : s.RemoveLabel tid gid label = Except.ok r) : IndexInv r.2 := by
  unfold RemoveLabel at hr
  cases ha : s.accessor tid with
  | none => rw [ha] at hr; simp at hr
  | some t =>
    cases hc : s.chain gid with
    | none => rw [ha, hc] at hr; simp at hr
    | some ch0 =>
      cases hg : headGuard s.engine t ch0 with
      | error err => rw [ha, hc] at hr; simp only [hg] at hr; simp at hr
      | ok h =>
        rw [ha, hc] at hr
        simp only [hg] at hr
        by_cases hl : h.payload.HasLabel label = true
        · simp only [hl, Bool.not_true, Bool.false_eq_true, if_false, Except.ok.injEq] at hr
          rw [← hr]
          refine @IndexInv.write s
            { s with
              vertices := updateChain gid (writeHead t (Vertex.removeLabel label)) s.vertices }
            _ hinv t gid (Vertex.removeLabel label) rfl rfl rfl rfl rfl (IndexExtends.refl _) ?_
          intro ch hch hgid hd rest hv
          have hold := hinv.covered ch hch hd (by rw [hv]; exact List.mem_cons_self _ _)
          rw [hgid] at hold
          refine ⟨?_, ?_⟩
          · intro l hlm
            simp only [Vertex.removeLabel, List.mem_filter] at hlm
            exact hold.1 l hlm.1
          · intro lp hlp hlab hn
            simp only [Vertex.removeLabel, List.mem_filter] at hlab
            exact hold.2 lp hlp hlab.1 hn
        · simp only [hl, Bool.not_false, if_true, Except.ok.injEq] at hr
          rw [← hr]; exact hinv

theorem SetProperty_inv {s : Storage} (hinv : IndexInv s) (tid gid property : Nat)
    (value : PropertyValue) (r : Bool × Storage)
    (hr : s.SetProperty tid gid property value = Except.ok r) : IndexInv r.2 := by
  unfold SetProperty at hr
  cases ha : s.accessor tid with
  | none => rw [ha] at hr; simp at hr
  | some t =>
    cases hc : s.chain gid with
    | none => rw [ha, hc] at hr; simp at hr
    | some ch0 =>
      cases hg : headGuard s.engine t ch0 with
      | error err => rw [ha, hc] at hr; simp only [hg] at hr; simp at hr
      | ok h =>
        rw [ha, hc] at hr
        simp only [hg] at hr
        by_cases hl : PropertyValue.eqv (h.payload.GetProperty property) value = true
        · simp only [hl, if_true, Except.ok.injEq] at hr
          rw [← hr]; exact hinv
        · simp only [hl, Bool.false_eq_true, if_false, Except.ok.injEq] at hr
          rw [← hr]
          simp only
          have hfold := foldl_UpdateOnSetProperty (fun _ => value) gid t.id
            (s.registered.filter (fun lp => lp.2 == property && h.payload.HasLabel lp.1))
            { s with vertices :=
                updateChain gid (writeHead t (Vertex.setProperty property value)) s.vertices }
          refine @IndexInv.write s
            { s with vertices :=
                updateChain gid (writeHead t (Vertex.setProperty property value)) s.vertices }
            _ hinv t gid (Vertex.setProperty property value) rfl rfl rfl rfl rfl hfold.1 ?_
          intro ch hch hgid hd rest hv
          obtain ⟨_, hhd⟩ := head_of_guard hinv hc hg hch hgid hv
          subst hhd
          have hold := hinv.covered ch hch hd (by rw [hv]; exact List.mem_cons_self _ _)
          rw [hgid] at hold
          refine ⟨?_, ?_⟩
          · intro l hlm
            obtain ⟨e, he, hge⟩ := hold.1 l hlm
            exact ⟨e, hfold.1.label_mono l e he, hge⟩
          · intro lp hlp hlab hn
            rw [hfold.1.registered_eq] at hlp
            have hlab2 : lp.1 ∈ hd.payload.labels := hlab
            rw [GetProperty_setProperty] at hn ⊢
            by_cases hq : lp.2 = property
            · simp only [hq, if_true] at hn ⊢
              cases hx : value.isNull with
              | true => rw [hx] at hn; simp [PropertyValue.isNull] at hn
              | false =>
                simp only [Bool.false_eq_true, if_false]
                have hmem : lp ∈ s.registered.filter
                    (fun lp => lp.2 == property && hd.payload.HasLabel lp.1) := by
                  simp only [List.mem_filter, Bool.and_eq_true, beq_iff_eq]
                  exact ⟨hlp, hq, by simpa [Vertex.HasLabel] using hlab2⟩
                exact ⟨_, hfold.2 lp hmem hx, rfl, PropertyValue.eqv_refl _⟩
            · simp only [hq, if_false] at hn ⊢
              obtain ⟨e, he, hge⟩ := hold.2 lp hlp hlab2 hn
              exact ⟨e, hfold.1.prop_mono lp e he, hge⟩

theorem DeleteVertex_inv {s : Storage} (hinv : IndexInv s) (tid gid : Nat)
    (r : Unit × Storage) (hr : s.DeleteVertex tid gid = Except.ok r) : IndexInv r.2 := by
  unfold DeleteVertex at hr
  cases ha : s.accessor tid with
  | none => rw [ha] at hr; simp at hr
  | some t =>
    cases hc : s.chain gid with
    | none => rw [ha, hc] at hr; simp at hr
    | some ch0 =>
      cases hg : headGuard s.engine t ch0 with
      | error err => rw [ha, hc] at hr; simp only [hg] at hr; simp at hr
      | ok h =>
        rw [ha, hc] at hr
        simp only [hg] at hr
        split at hr
        · simp at hr
        · simp only [Except.ok.injEq] at hr
          rw [← hr]
          exact @IndexInv.expire s _ hinv t gid rfl rfl rfl rfl rfl

end storage.Storage

namespace storage.Storage

theorem inv_write_vertices {s : Storage} (hinv : IndexInv s) (t : Transaction)
    (gid : Nat) (f : Vertex → Vertex)
    (hfl : ∀ p, (f p).labels = p.labels) (hfp : ∀ p, (f p).properties = p.properties) :
    IndexInv { s with vertices := updateChain gid (writeHead t f) s.vertices } :=
  hinv.write_frame t gid f hfl hfp rfl rfl rfl rfl rfl

theorem inv_same_vertices {s s2 : Storage} (hinv : IndexInv s)
    (hv : s2.vertices = s.vertices) (hn : s2.next_gid = s.next_gid)
    (hr : s2.registered = s.registered) (hli : s2.label_index = s.label_index)
    (hpi : s2.label_property_index = s.label_property_index) : IndexInv s2 := by
  apply hinv.transfer (by rw [hv]) hn
  · rw [hli]; exact hinv.label_sorted
  · rw [hpi]; exact hinv.prop_sorted
  · rw [hpi]; exact hinv.prop_nonnull
  · intro ch hch v hvm
    rw [hv] at hch
    exact Covered_mono (fun l e he => by rw [hli]; exact he)
      (fun lp e he => by rw [hpi]; exact he) hr (hinv.covered ch hch v hvm)

theorem CreateEdge_inv {s : Storage} (hinv : IndexInv s) (tid src dst edge_type : Nat)
    (r : Nat × Storage) (hr : s.CreateEdge tid src dst edge_type = Except.ok r) :
    IndexInv r.2 := by
  unfold CreateEdge at hr
  cases ha : s.accessor tid with
  | none => rw [ha] at hr; simp at hr
  | some t =>
    rw [ha] at hr
    simp only at hr
    split at hr
    · split at hr
      · simp only [Except.ok.injEq] at hr
        rw [← hr]
        have hmid := inv_write_vertices hinv t src
          (fun v => { v with out_edges := v.out_edges ++ [(edge_type, dst, s.next_edge_gid)] })
          (fun _ => rfl) (fun _ => rfl)
        have hfin := inv_write_vertices hmid t dst
          (fun v => { v with in_edges := v.in_edges ++ [(edge_type, src, s.next_edge_gid)] })
          (fun _ => rfl) (fun _ => rfl)
        exact inv_same_vertices hfin rfl rfl rfl rfl rfl
      · simp at hr
      · simp at hr
    · simp at hr

theorem DeleteEdge_inv {s : Storage} (hinv : IndexInv s) (tid src dst egid : Nat)
    (r : Unit × Storage) (hr : s.DeleteEdge tid src dst egid = Except.ok r) :
    IndexInv r.2 := by
  unfold DeleteEdge at hr
  cases ha : s.accessor tid with
  | none => rw [ha] at hr; simp at hr
  | some t =>
    rw [ha] at hr
    simp only at hr
    split at hr
    · split at hr
      · simp only [Except.ok.injEq] at hr
        rw [← hr]
        have hmid := inv_write_vertices hinv t src
          (fun v => { v with out_edges := v.out_edges.filter (fun e => e.2.2 != egid) })
          (fun _ => rfl) (fun _ => rfl)
        have hfin := inv_write_vertices hmid t dst
          (fun v => { v with in_edges := v.in_edges.filter (fun e => e.2.2 != egid) })
          (fun _ => rfl) (fun _ => rfl)
        exact inv_same_vertices hfin rfl rfl rfl rfl rfl
      · simp at hr
      · simp at hr
    · simp at hr

theorem CreateVertex_inv {s : Storage} (hinv : IndexInv s) (tid : Nat)
    (r : Nat × Storage) (hr : s.CreateVertex tid = Except.ok r) : IndexInv r.2 := by
  unfold CreateVertex at hr
  cases ha : s.accessor tid with
  | none => rw [ha] at hr; simp at hr
  | some t =>
    rw [ha] at hr
    simp only [Except.ok.injEq] at hr
    rw [← hr]
    refine ⟨?_, ?_, ?_, hinv.label_sorted, hinv.prop_sorted, hinv.prop_nonnull⟩
    · simp only
      rw [List.pairwise_append]
      refine ⟨hinv.gids_sorted, by simp, ?_⟩
      intro a ha b hb
      simp only [List.mem_singleton] at hb
      rw [hb]
      exact hinv.gids_bound a ha
    · intro ch hch
      simp only [List.mem_append, List.mem_singleton] at hch
      rcases hch with h | h
      · have := hinv.gids_bound ch h
        simp only; omega
      · rw [h]; simp
    · intro ch hch v hv
      simp only [List.mem_append, List.mem_singleton] at hch
      rcases hch with h | h
      · exact Covered_mono (fun _ _ he => he) (fun _ _ he => he) rfl (hinv.covered ch h v hv)
      · rw [h] at hv
        simp only [List.mem_singleton] at hv
        rw [hv]
        exact ⟨by intro l hl; simp at hl, by intro lp _ hl; simp at hl⟩

theorem inv_of_same_payloads {s s2 : Storage} (hinv : IndexInv s)
    (hn : s2.next_gid = s.next_gid) (hr : s2.registered = s.registered)
    (hli : s2.label_index = s.label_index)
    (hpi : s2.label_property_index = s.label_property_index)
    (hgid : s2.vertices.map (fun ch => ch.gid) = s.vertices.map (fun ch => ch.gid))
    (hsub : ∀ ch2, ch2 ∈ s2.vertices → ∃ ch, ch ∈ s.vertices ∧ ch2.gid = ch.gid ∧
      ∀ v, v ∈ ch2.versions → v ∈ ch.versions) : IndexInv s2 := by
  apply hinv.transfer hgid hn
  · rw [hli]; exact hinv.label_sorted
  · rw [hpi]; exact hinv.prop_sorted
  · rw [hpi]; exact hinv.prop_nonnull
  · intro ch2 hch2 v hv
    obtain ⟨ch, hch, hg, hvs⟩ := hsub ch2 hch2
    rw [hg]
    exact Covered_mono (fun l e he => by rw [hli]; exact he)
      (fun lp e he => by rw [hpi]; exact he) hr (hinv.covered ch hch v (hvs v hv))

theorem mem_releaseLocks {tid : Nat} {chains : List VersionChain} {ch2 : VersionChain}
    (h : ch2 ∈ releaseLocks tid chains) :
    ∃ ch, ch ∈ chains ∧ ch2.gid = ch.gid ∧ ch2.versions = ch.versions := by
  unfold releaseLocks at h
  obtain ⟨ch, hch, heq⟩ := List.mem_map.1 h
  refine ⟨ch, hch, ?_⟩
  split at heq <;> (rw [← heq]; exact ⟨rfl, rfl⟩)

theorem releaseLocks_map_gid (tid : Nat) (chains : List VersionChain) :
    (releaseLocks tid chains).map (fun ch => ch.gid) = chains.map (fun ch => ch.gid) := by
  unfold releaseLocks
  rw [List.map_map]
  apply List.map_congr_left
  intro ch _
  simp only [Function.comp_apply]
  split <;> rfl

theorem Commit_inv {s : Storage} (hinv : IndexInv s) (tid : Nat)
    (r : Unit × Storage) (hr : s.Commit tid = Except.ok r) : IndexInv r.2 := by
  unfold Commit at hr
  cases ha : s.accessor tid with
  | none => rw [ha] at hr; simp at hr
  | some t =>
    rw [ha] at hr
    simp only [Except.ok.injEq] at hr
    rw [← hr]
    refine @inv_of_same_payloads s _ hinv ?_ ?_ ?_ ?_ ?_ ?_
    · rfl
    · rfl
    · rfl
    · rfl
    · exact releaseLocks_map_gid tid _
    · intro ch2 hch2
      obtain ⟨ch, hch, hg, hv⟩ := mem_releaseLocks hch2
      exact ⟨ch, hch, hg, fun v hvm => by rw [← hv]; exact hvm⟩

theorem Abort_inv {s : Storage} (hinv : IndexInv s) (tid : Nat)
    (r : Unit × Storage) (hr : s.Abort tid = Except.ok r) : IndexInv r.2 := by
  unfold Abort at hr
  cases ha : s.accessor tid with
  | none => rw [ha] at hr; simp at hr
  | some t =>
    rw [ha] at hr
    simp only [Except.ok.injEq] at hr
    rw [← hr]
    refine @inv_of_same_payloads s _ hinv ?_ ?_ ?_ ?_ ?_ ?_
    · rfl
    · rfl
    · rfl
    · rfl
    · simp only [List.map_map]
      rw [← releaseLocks_map_gid tid s.vertices, List.map_congr_left]
      intro ch _; rfl
    · intro ch2 hch2
      simp only [List.mem_map] at hch2
      obtain ⟨ch1, hch1, heq⟩ := hch2
      obtain ⟨ch, hch, hg, hv⟩ := mem_releaseLocks hch1
      refine ⟨ch, hch, by rw [← heq]; exact hg, ?_⟩
      intro v hvm
      rw [← heq] at hvm
      simp only [List.mem_filter] at hvm
      rw [← hv]; exact hvm.1

theorem init_inv (registered : List (Nat × Nat)) : IndexInv (init registered) := by
  refine ⟨?_, ?_, ?_, ?_, ?_, ?_⟩ <;> simp [init]

theorem step_inv {s : Storage} (hinv : IndexInv s) (op : Op) : IndexInv (s.step op) := by
  cases op with
  | Access => exact inv_of_same_payloads hinv rfl rfl rfl rfl rfl (fun ch h => ⟨ch, h, rfl, fun _ hv => hv⟩)
  | CreateVertex tid =>
    simp only [step]
    cases h : s.CreateVertex tid with
    | error e => exact hinv
    | ok r => exact CreateVertex_inv hinv tid r h
  | AddLabel tid gid label =>
    simp only [step]
    cases h : s.AddLabel tid gid label with
    | error e => exact hinv
    | ok r => exact AddLabel_inv hinv tid gid label r h
  | RemoveLabel tid gid label =>
    simp only [step]
    cases h : s.RemoveLabel tid gid label with
    | error e => exact hinv
    | ok r => exact RemoveLabel_inv hinv tid gid label r h
  | SetProperty tid gid property value =>
    simp only [step]
    cases h : s.SetProperty tid gid property value with
    | error e => exact hinv
    | ok r => exact SetProperty_inv hinv tid gid property value r h
  | DeleteVertex tid gid =>
    simp only [step]
    cases h : s.DeleteVertex tid gid with
    | error e => exact hinv
    | ok r => exact DeleteVertex_inv hinv tid gid r h
  | CreateEdge tid src dst edge_type =>
    simp only [step]
    cases h : s.CreateEdge tid src dst edge_type with
    | error e => exact hinv
    | ok r => exact CreateEdge_inv hinv tid src dst edge_type r h
  | DeleteEdge tid src dst egid =>
    simp only [step]
    cases h : s.DeleteEdge tid src dst egid with
    | error e => exact hinv
    | ok r => exact DeleteEdge_inv hinv tid src dst egid r h
  | AdvanceCommand tid =>
    exact inv_of_same_payloads hinv rfl rfl rfl rfl rfl (fun ch h => ⟨ch, h, rfl, fun _ hv => hv⟩)
  | Commit tid =>
    simp only [step]
    cases h : s.Commit tid with
    | error e => exact hinv
    | ok r => exact Commit_inv hinv tid r h
  | Abort tid =>
    simp only [step]
    cases h : s.Abort tid with
    | error e => exact hinv
    | ok r => exact Abort_inv hinv tid r h

theorem foldl_step_inv (ops : List Op) :
    ∀ s : Storage, IndexInv s → IndexInv (ops.foldl step s) := by
  induction ops with
  | nil => intro s h; exact h
  | cons op ops ih => intro s h; exact ih _ (step_inv h op)

/-- After any sequence of accessor operations the index invariant holds. -/
theorem run_inv (registered : List (Nat × Nat)) (ops : List Op) :
    IndexInv (run registered ops) :=
  foldl_step_inv ops _ (init_inv registered)

end storage.Storage

namespace storage.Storage

theorem foldl_registered (val : Nat × Nat → PropertyValue) (gid tid : Nat)
    (pairs : List (Nat × Nat)) (acc : Storage) :
    (pairs.foldl (fun acc lp => acc.UpdateOnSetProperty lp.1 lp.2 (val lp) gid tid)
      acc).registered = acc.registered :=
  (foldl_UpdateOnSetProperty val gid tid pairs acc).1.registered_eq

theorem step_registered (s : Storage) (op : Op) : (s.step op).registered = s.registered := by
  cases op with
  | Access => rfl
  | CreateVertex tid =>
    simp only [step, CreateVertex]
    cases s.accessor tid <;> rfl
  | AddLabel tid gid label =>
    simp only [step, AddLabel]
    cases s.accessor tid with
    | none => rfl
    | some t =>
      simp only
      cases s.chain gid with
      | none => rfl
      | some ch =>
        simp only
        cases headGuard s.engine t ch with
        | error e => rfl
        | ok h =>
          simp only
          split
          · rfl
          · simp only [after]; rw [foldl_registered]; rfl
  | RemoveLabel tid gid label =>
    simp only [step, RemoveLabel]
    cases s.accessor tid with
    | none => rfl
    | some t =>
      simp only
      cases s.chain gid with
      | none => rfl
      | some ch =>
        simp only
        cases headGuard s.engine t ch with
        | error e => rfl
        | ok h => simp only; split <;> rfl
  | SetProperty tid gid property value =>
    simp only [step, SetProperty]
    cases s.accessor tid with
    | none => rfl
    | some t =>
      simp only
      cases s.chain gid with
      | none => rfl
      | some ch =>
        simp only
        cases headGuard s.engine t ch with
        | error e => rfl
        | ok h =>
          simp only
          split
          · rfl
          · simp only [after]; rw [foldl_registered]
  | DeleteVertex tid gid =>
    simp only [step, DeleteVertex]
    cases s.accessor tid with
    | none => rfl
    | some t =>
      simp only
      cases s.chain gid with
      | none => rfl
      | some ch =>
        simp only
        cases headGuard s.engine t ch with
        | error e => rfl
        | ok h => simp only; split <;> rfl
  | CreateEdge tid src dst edge_type =>
    simp only [step, CreateEdge]
    cases s.accessor tid with
    | none => rfl
    | some t =>
      simp only
      split
      · split <;> rfl
      · rfl
  | DeleteEdge tid src dst egid =>
    simp only [step, DeleteEdge]
    cases s.accessor tid with
    | none => rfl
    | some t =>
      simp only
      split
      · split <;> rfl
      · rfl
  | AdvanceCommand tid => rfl
  | Commit tid =>
    simp only [step, Commit]
    cases s.accessor tid <;> rfl
  | Abort tid =>
    simp only [step, Abort]
    cases s.accessor tid <;> rfl

theorem foldl_step_registered (ops : List Op) :
    ∀ s : Storage, (ops.foldl step s).registered = s.registered := by
  induction ops with
  | nil => intro s; rfl
  | cons op ops ih => intro s; simp only [List.foldl_cons]; rw [ih, step_registered]

theorem run_registered (registered : List (Nat × Nat)) (ops : List Op) :
    (run registered ops).registered = registered := by
  unfold run; rw [foldl_step_registered]; rfl

theorem inLower_congr (lower : Option Bound) {a b : PropertyValue}
    (hab : PropertyValue.eqv a b = true) : inLower lower a = inLower lower b := by
  cases lower with
  | none => rfl
  | some bd =>
    simp only [inLower, PropertyValue.le, PropertyValue.lt]
    rw [PropertyValue.cmp_congr_right hab, PropertyValue.rank_eq_of_eqv hab]

theorem inUpper_congr (upper : Option Bound) {a b : PropertyValue}
    (hab : PropertyValue.eqv a b = true) : inUpper upper a = inUpper upper b := by
  cases upper with
  | none => rfl
  | some bd =>
    simp only [inUpper, PropertyValue.le, PropertyValue.lt]
    rw [PropertyValue.cmp_congr_left hab, PropertyValue.rank_eq_of_eqv hab]

theorem range_congr (lower upper : Option Bound) (a b : PropertyValue)
    (hab : PropertyValue.eqv a b = true) :
    (inLower lower a && inUpper upper a) = (inLower lower b && inUpper upper b) := by
  rw [inLower_congr lower hab, inUpper_congr upper hab]

theorem eqv_congr (value : PropertyValue) (a b : PropertyValue)
    (hab : PropertyValue.eqv a b = true) :
    PropertyValue.eqv a value = PropertyValue.eqv b value := by
  rw [Bool.eq_iff_iff]
  exact ⟨fun h => PropertyValue.eqv_trans (PropertyValue.eqv_symm hab) h,
    fun h => PropertyValue.eqv_trans hab h⟩

/-- C7: after any sequence of accessor operations, every label index scan and
every label+property index scan (plain, by value or by range), at `OLD` and at
`NEW`, yields each vertex at most once. -/
theorem C7_index_scans_yield_no_duplicates (registered : List (Nat × Nat)) (ops : List Op)
    (t : Transaction) (label property : Nat) (view : View) (value : PropertyValue)
    (lower upper : Option Bound) :
    ((run registered ops).LabelVertices t label view).Nodup ∧
      ((run registered ops).LabelPropertyVertices t label property view).Nodup ∧
      ((run registered ops).LabelPropertyValueVertices t label property value view).Nodup ∧
      ((run registered ops).LabelPropertyRangeVertices t label property lower upper
        view).Nodup := by
  have hinv := run_inv registered ops
  refine ⟨?_, ?_, ?_, ?_⟩
  · rw [LabelVertices_eq_filter hinv]
    exact ((Vertices_sorted hinv t view).filter _).imp (fun h => ne_of_lt h)
  · exact (PropertyScan_spec hinv t label property view (fun _ => true) (fun _ _ _ => rfl)).1
  · exact (PropertyScan_spec hinv t label property view
      (fun k => PropertyValue.eqv k value) (eqv_congr value)).1
  · exact (PropertyScan_spec hinv t label property view
      (fun k => inLower lower k && inUpper upper k) (range_congr lower upper)).1

end storage.Storage

namespace storage.PropertyValue

theorem cmp_numeric {a b : PropertyValue} (ha : a.isNumeric = true) (hb : b.isNumeric = true) :
    cmp a b = ltCmp (num a) (num b) := by
  rw [cmp_unfold]
  cases a <;> simp [isNumeric] at ha <;> cases b <;> simp [isNumeric] at hb <;>
    simp [rank, ltCmp, Ordering.then]

theorem rank_numeric {a : PropertyValue} (ha : a.isNumeric = true) : a.rank = 2 := by
  cases a <;> simp [isNumeric] at ha <;> rfl

theorem isNull_numeric {a : PropertyValue} (ha : a.isNumeric = true) : a.isNull = false := by
  cases a <;> simp [isNumeric] at ha <;> rfl

theorem le_numeric {a b : PropertyValue} (ha : a.isNumeric = true) (hb : b.isNumeric = true) :
    le a b = true ↔ num a ≤ num b := by
  simp only [le, decide_eq_true_eq, cmp_numeric ha hb, ltCmp_ne_gt]

theorem lt_numeric {a b : PropertyValue} (ha : a.isNumeric = true) (hb : b.isNumeric = true) :
    lt a b = true ↔ num a < num b := by
  simp only [lt, decide_eq_true_eq, cmp_numeric ha hb, ltCmp_eq_lt]

/-- A value is equal to the Int `i` as an index key iff it is the Int `i` or
the Double `i.0`. -/
theorem eqv_int_iff (v : PropertyValue) (i : Int) :
    eqv v (int i) = true ↔ v = int i ∨ v = double (i : ℚ) := by
  simp only [eqv, decide_eq_true_eq]
  rw [cmp_unfold]
  cases v <;> simp [rank, num, ltCmp, Ordering.then]
  · omega
  · rename_i d
    exact ⟨fun h => le_antisymm h.2 h.1, fun h => ⟨le_of_eq h.symm, le_of_eq h⟩⟩

end storage.PropertyValue

namespace storage

theorem inLower_numeric (lower : Option Bound) {v : PropertyValue}
    (hv : v.isNumeric = true) (hb : ∀ b, lower = some b → b.value.isNumeric = true) :
    inLower lower v = true ↔ lowerHolds lower v.num := by
  cases lower with
  | none => simp [inLower, lowerHolds]
  | some b =>
    have hbn := hb b rfl
    simp only [inLower, lowerHolds, Bool.and_eq_true, beq_iff_eq,
      PropertyValue.rank_numeric hv, PropertyValue.rank_numeric hbn, true_and]
    cases hi : b.inclusive
    · simp only [Bool.false_eq_true, if_false]; exact PropertyValue.lt_numeric hbn hv
    · simp only [if_true]; exact PropertyValue.le_numeric hbn hv

theorem inUpper_numeric (upper : Option Bound) {v : PropertyValue}
    (hv : v.isNumeric = true) (hb : ∀ b, upper = some b → b.value.isNumeric = true) :
    inUpper upper v = true ↔ upperHolds upper v.num := by
  cases upper with
  | none => simp [inUpper, upperHolds]
  | some b =>
    have hbn := hb b rfl
    simp only [inUpper, upperHolds, Bool.and_eq_true, beq_iff_eq,
      PropertyValue.rank_numeric hv, PropertyValue.rank_numeric hbn, true_and]
    cases hi : b.inclusive
    · simp only [Bool.false_eq_true, if_false]; exact PropertyValue.lt_numeric hv hbn
    · simp only [if_true]; exact PropertyValue.le_numeric hv hbn

end storage

namespace storage.Storage

/-- C8: with the index registered, numeric bounds and numeric values of the
indexed property on the labelled vertices, the range lookup yields each vertex
once and exactly the vertices of the full scan that have the label and whose
value satisfies the lower bound (`≥` inclusive, `>` exclusive) and the upper
bound (`≤` inclusive, `<` exclusive) as numbers. -/
theorem C8_range_lookup_numeric (registered : List (Nat × Nat)) (ops : List Op)
    (t : Transaction) (label property : Nat) (lower upper : Option Bound) (view : View)
    (hreg : (label, property) ∈ registered)
    (hlo : ∀ b, lower = some b → b.value.isNumeric = true)
    (hhi : ∀ b, upper = some b → b.value.isNumeric = true)
    (hvals : ∀ g, g ∈ (run registered ops).Vertices t view →
      (run registered ops).HasLabel t view g label = true →
      ((run registered ops).GetProperty t view g property).isNumeric = true) :
    ((run registered ops).LabelPropertyRangeVertices t label property lower upper view).Nodup ∧
      ∀ g, g ∈ (run registered ops).LabelPropertyRangeVertices t label property lower upper view
        ↔ g ∈ (run registered ops).Vertices t view ∧
          (run registered ops).HasLabel t view g label = true ∧
          lowerHolds lower ((run registered ops).GetProperty t view g property).num ∧
          upperHolds upper ((run registered ops).GetProperty t view g property).num := by
  have hinv := run_inv registered ops
  obtain ⟨h1, h2, h3⟩ := PropertyScan_spec hinv t label property view
    (fun k => inLower lower k && inUpper upper k) (range_congr lower upper)
  refine ⟨h1, ?_⟩
  intro g
  constructor
  · intro hg
    obtain ⟨hv, hl, _, hk⟩ := h2 g hg
    have hnum := hvals g hv hl
    simp only [Bool.and_eq_true] at hk
    exact ⟨hv, hl, (inLower_numeric lower hnum hlo).1 hk.1,
      (inUpper_numeric upper hnum hhi).1 hk.2⟩
  · rintro ⟨hv, hl, hlow, hupp⟩
    have hnum := hvals g hv hl
    apply h3 (by rw [run_registered]; exact hreg) g hv hl
      (PropertyValue.isNull_numeric hnum)
    simp only [Bool.and_eq_true]
    exact ⟨(inLower_numeric lower hnum hlo).2 hlow, (inUpper_numeric upper hnum hhi).2 hupp⟩

/-- C9: with the index registered, the equality lookup on the Int `i` yields
each vertex once and exactly the vertices of the full scan that have the label
and whose value is the Int `i` or the Double `i.0`. -/
theorem C9_equality_lookup_int_double (registered : List (Nat × Nat)) (ops : List Op)
    (t : Transaction) (label property : Nat) (i : Int) (view : View)
    (hreg : (label, property) ∈ registered) :
    ((run registered ops).LabelPropertyValueVertices t label property (PropertyValue.int i)
        view).Nodup ∧
      ∀ g, g ∈ (run registered ops).LabelPropertyValueVertices t label property
            (PropertyValue.int i) view
        ↔ g ∈ (run registered ops).Vertices t view ∧
          (run registered ops).HasLabel t view g label = true ∧
          ((run registered ops).GetProperty t view g property = PropertyValue.int i ∨
            (run registered ops).GetProperty t view g property
              = PropertyValue.double (i : ℚ)) := by
  have hinv := run_inv registered ops
  obtain ⟨h1, h2, h3⟩ := PropertyScan_spec hinv t label property view
    (fun k => PropertyValue.eqv k (PropertyValue.int i)) (eqv_congr (PropertyValue.int i))
  refine ⟨h1, ?_⟩
  intro g
  constructor
  · intro hg
    obtain ⟨hv, hl, _, hk⟩ := h2 g hg
    exact ⟨hv, hl, (PropertyValue.eqv_int_iff _ i).1 hk⟩
  · rintro ⟨hv, hl, hval⟩
    have hk := (PropertyValue.eqv_int_iff _ i).2 hval
    apply h3 (by rw [run_registered]; exact hreg) g hv hl ?_ hk
    rw [PropertyValue.isNull_eq_of_eqv hk]; rfl

end storage.Storage

namespace storage.Storage

/-- Witness of C8: the range `[1, +∞)` in the range scenario. -/
theorem C8_range_lookup_numeric_witness :
    ((run [(1, 11)] rangeScenario).LabelPropertyRangeVertices rangeReader 1 11
        (some ⟨PropertyValue.int 1, true⟩) none View.OLD).Nodup ∧
      ∀ g, g ∈ (run [(1, 11)] rangeScenario).LabelPropertyRangeVertices rangeReader 1 11
            (some ⟨PropertyValue.int 1, true⟩) none View.OLD
        ↔ g ∈ (run [(1, 11)] rangeScenario).Vertices rangeReader View.OLD ∧
          (run [(1, 11)] rangeScenario).HasLabel rangeReader View.OLD g 1 = true ∧
          lowerHolds (some ⟨PropertyValue.int 1, true⟩)
            ((run [(1, 11)] rangeScenario).GetProperty rangeReader View.OLD g 11).num ∧
          upperHolds none
            ((run [(1, 11)] rangeScenario).GetProperty rangeReader View.OLD g 11).num :=
  C8_range_lookup_numeric [(1, 11)] rangeScenario rangeReader 1 11
    (some ⟨PropertyValue.int 1, true⟩) none View.OLD (by decide)
    (by intro b hb; cases hb; rfl) (by intro b hb; cases hb) (by decide)

/-- Witness of C9: the lookup of the value 1 in the range scenario. -/
theorem C9_equality_lookup_int_double_witness :
    ((run [(1, 11)] rangeScenario).LabelPropertyValueVertices rangeReader 1 11
        (PropertyValue.int 1) View.OLD).Nodup ∧
      ∀ g, g ∈ (run [(1, 11)] rangeScenario).LabelPropertyValueVertices rangeReader 1 11
            (PropertyValue.int 1) View.OLD
        ↔ g ∈ (run [(1, 11)] rangeScenario).Vertices rangeReader View.OLD ∧
          (run [(1, 11)] rangeScenario).HasLabel rangeReader View.OLD g 1 = true ∧
          ((run [(1, 11)] rangeScenario).GetProperty rangeReader View.OLD g 11
              = PropertyValue.int 1 ∨
            (run [(1, 11)] rangeScenario).GetProperty rangeReader View.OLD g 11
              = PropertyValue.double ((1 : Int) : ℚ)) :=
  C9_equality_lookup_int_double [(1, 11)] rangeScenario rangeReader 1 11 1 View.OLD
    (by decide)

end storage.Storage

namespace storage

/-! ### Own writes: `NEW` at once, `OLD` after `AdvanceCommand` -/

theorem notExpired_OLD_of_NEW {e : tx.Engine} {t : Transaction} {v : Version}
    (h : notExpired e t View.NEW v = true) : notExpired e t View.OLD v = true := by
  simp only [notExpired, Bool.or_eq_true, Bool.and_eq_true, beq_iff_eq, bne_iff_ne,
    decide_eq_true_eq, Bool.not_eq_true', decide_eq_false_iff_not] at h ⊢
  rcases h with ((h | h) | h) | h
  · exact Or.inl (Or.inl (Or.inl h))
  · exact Or.inl (Or.inl (Or.inr h))
  · exact Or.inl (Or.inr ⟨h.1, by omega⟩)
  · exact Or.inr h

theorem visible_advance (e : tx.Engine) (t : Transaction) (v : Version) :
    visible e { t with cmd := t.cmd + 1 } View.OLD v = visible e t View.NEW v := by
  simp only [visible, createdVisible, notExpired, Nat.lt_succ_iff]

theorem visible_stamps {e : tx.Engine} {t : Transaction} {view : View} {v w : Version}
    (h1 : w.tx_created = v.tx_created) (h2 : w.cmd_created = v.cmd_created)
    (h3 : w.tx_expired = v.tx_expired) (h4 : w.cmd_expired = v.cmd_expired) :
    visible e t view w = visible e t view v := by
  simp only [visible, createdVisible, notExpired, h1, h2, h3, h4]

theorem not_visible_OLD_current {e : tx.Engine} {t : Transaction} {v : Version}
    (h1 : v.tx_created = t.id) (h2 : v.cmd_created = t.cmd) :
    visible e t View.OLD v = false := by
  simp only [visible, createdVisible, h1, h2, lt_irrefl, decide_False, Bool.and_false,
    Bool.or_false, Bool.false_and]

/-- A write through the head leaves what the writer reads at `OLD` as it was. -/
theorem seen_OLD_writeHead {e : tx.Engine} {t : Transaction} (f : Vertex → Vertex)
    {ch : VersionChain} {h : Version} {rest : List Version} (hv : ch.versions = h :: rest)
    (hvis : visible e t View.NEW h = true) :
    seen e t View.OLD (writeHead t f ch) = seen e t View.OLD ch := by
  unfold seen writeHead
  rw [hv]
  simp only
  by_cases hc : (h.tx_created == t.id && h.cmd_created == t.cmd) = true
  · simp only [hc, if_true]
    simp only [Bool.and_eq_true, beq_iff_eq] at hc
    have h1 : visible e t View.OLD { h with payload := f h.payload } = false :=
      not_visible_OLD_current hc.1 hc.2
    have h2 : visible e t View.OLD h = false := not_visible_OLD_current hc.1 hc.2
    simp only [List.find?_cons, h1, h2]
  · simp only [hc, Bool.false_eq_true, if_false]
    have h1 : visible e t View.OLD
        { tx_created := t.id, cmd_created := t.cmd, tx_expired := 0, cmd_expired := 0,
          payload := f h.payload } = false := not_visible_OLD_current rfl rfl
    have hne : notExpired e t View.OLD h = true := by
      simp only [visible, Bool.and_eq_true] at hvis
      exact notExpired_OLD_of_NEW hvis.2
    have h2 : visible e t View.OLD { h with tx_expired := t.id, cmd_expired := t.cmd }
        = visible e t View.OLD h := by
      simp only [visible, hne, Bool.and_true]
      have : notExpired e t View.OLD { h with tx_expired := t.id, cmd_expired := t.cmd }
          = true := by
        simp [notExpired]
      rw [this, Bool.and_true]
      rfl
    simp only [List.find?_cons, h1, h2]
    cases visible e t View.OLD h <;> rfl

/-- A deletion leaves what the deleting accessor reads at `OLD` as it was. -/
theorem seen_OLD_expireHead {e : tx.Engine} {t : Transaction}
    {ch : VersionChain} {h : Version} {rest : List Version} (hv : ch.versions = h :: rest)
    (hvis : visible e t View.NEW h = true) :
    seen e t View.OLD (expireHead t ch) = seen e t View.OLD ch := by
  unfold seen expireHead
  rw [hv]
  simp only
  have hne : notExpired e t View.OLD h = true := by
    simp only [visible, Bool.and_eq_true] at hvis
    exact notExpired_OLD_of_NEW hvis.2
  have h2 : visible e t View.OLD { h with tx_expired := t.id, cmd_expired := t.cmd }
      = visible e t View.OLD h := by
    simp only [visible, hne, Bool.and_true]
    have : notExpired e t View.OLD { h with tx_expired := t.id, cmd_expired := t.cmd }
        = true := by
      simp [notExpired]
    rw [this, Bool.and_true]
    rfl
  simp only [List.find?_cons, h2]
  cases visible e t View.OLD h <;> rfl

/-- After a write through the head the writer reads the written payload at
`NEW`. -/
theorem seen_NEW_writeHead {e : tx.Engine} {t : Transaction} (f : Vertex → Vertex)
    {ch : VersionChain} {h : Version} {rest : List Version} (hv : ch.versions = h :: rest)
    (hvis : visible e t View.NEW h = true) :
    seen e t View.NEW (writeHead t f ch) = some (f h.payload) := by
  unfold seen writeHead
  rw [hv]
  simp only
  by_cases hc : (h.tx_created == t.id && h.cmd_created == t.cmd) = true
  · simp only [hc, if_true]
    have h1 : visible e t View.NEW { h with payload := f h.payload } = true := by
      rw [← hvis]; exact visible_stamps rfl rfl rfl rfl
    simp only [List.find?_cons, h1, Option.map_some']
  · simp only [hc, Bool.false_eq_true, if_false]
    have h1 : visible e t View.NEW
        { tx_created := t.id, cmd_created := t.cmd, tx_expired := 0, cmd_expired := 0,
          payload := f h.payload } = true := by
      simp [visible, createdVisible, notExpired]
    simp only [List.find?_cons, h1, Option.map_some']

end storage

namespace storage.Storage

theorem find?_map_gid (F : VersionChain → VersionChain) (g : Nat) :
    ∀ l : List VersionChain, (∀ ch, ch ∈ l → (F ch).gid = ch.gid) →
      (l.map F).find? (fun ch => ch.gid == g) = (l.find? (fun ch => ch.gid == g)).map F := by
  intro l
  induction l with
  | nil => intro _; rfl
  | cons c l ih =>
    intro h
    simp only [List.map_cons, List.find?_cons]
    rw [h c (List.mem_cons_self _ _)]
    cases c.gid == g
    · simp only; exact ih (fun ch hch => h ch (List.mem_cons_of_mem _ hch))
    · rfl

theorem visibleVersion_payload (s : Storage) (t : Transaction) (view : View) (g : Nat) :
    (s.visibleVersion t view g).map (fun v => v.payload)
      = (s.chain g).bind (seen s.engine t view) := by
  unfold visibleVersion seen
  cases s.chain g <;> rfl

theorem HasLabel_eq (s : Storage) (t : Transaction) (view : View) (g label : Nat) :
    s.HasLabel t view g label
      = match (s.visibleVersion t view g).map (fun v => v.payload) with
        | some p => p.HasLabel label
        | none => false := by
  unfold HasLabel
  cases s.visibleVersion t view g <;> rfl

/-- A transition that maps every chain to one with the same gid that reads the
same for `t` at `view` leaves the full scan and the reads of `t` at `view` as
they were. -/
theorem frame_view {s s2 : Storage} {t : Transaction} {view : View}
    (F : VersionChain → VersionChain) (he : s2.engine = s.engine)
    (hv : s2.vertices = s.vertices.map F)
    (hF : ∀ ch, ch ∈ s.vertices →
      (F ch).gid = ch.gid ∧ seen s.engine t view (F ch) = seen s.engine t view ch) :
    s2.Vertices t view = s.Vertices t view ∧
      ∀ g, (s2.visibleVersion t view g).map (fun v => v.payload)
        = (s.visibleVersion t view g).map (fun v => v.payload) := by
  constructor
  · unfold Vertices
    rw [hv, he, List.filter_map, List.map_map]
    have h1 : s.vertices.filter
        ((fun ch => (ch.versions.find? (visible s.engine t view)).isSome) ∘ F)
        = s.vertices.filter
          (fun ch => (ch.versions.find? (visible s.engine t view)).isSome) := by
      apply List.filter_congr
      intro ch hch
      have := (hF ch hch).2
      unfold seen at this
      simp only [Function.comp_apply]
      have h3 := congrArg Option.isSome this
      simpa using h3
    rw [h1]
    apply List.map_congr_left
    intro ch hch
    exact (hF ch (List.mem_filter.1 hch).1).1
  · intro g
    rw [visibleVersion_payload, visibleVersion_payload, he]
    unfold chain
    rw [hv, find?_map_gid F g _ (fun ch hch => (hF ch hch).1)]
    cases hc : s.vertices.find? (fun ch => ch.gid == g) with
    | none => rfl
    | some ch =>
      simp only [Option.map_some', Option.bind_some]
      exact (hF ch (List.mem_of_find?_eq_some hc)).2

theorem frame_LabelVertices {s s2 : Storage} (hinv : IndexInv s) (hinv2 : IndexInv s2)
    {t : Transaction} {view : View} (F : VersionChain → VersionChain)
    (he : s2.engine = s.engine) (hv : s2.vertices = s.vertices.map F)
    (hF : ∀ ch, ch ∈ s.vertices →
      (F ch).gid = ch.gid ∧ seen s.engine t view (F ch) = seen s.engine t view ch)
    (label : Nat) : s2.LabelVertices t label view = s.LabelVertices t label view := by
  obtain ⟨h1, h2⟩ := frame_view F he hv hF
  rw [LabelVertices_eq_filter hinv2, LabelVertices_eq_filter hinv, h1]
  apply List.filter_congr
  intro g _
  rw [HasLabel_eq, HasLabel_eq, h2 g]

end storage.Storage

namespace storage.Storage

theorem AddLabel_ok {s s2 : Storage} {tid gid label : Nat}
    (hr : s.AddLabel tid gid label = Except.ok (true, s2)) :
    ∃ t ch0 hd, s.accessor tid = some t ∧ s.chain gid = some ch0 ∧
      headGuard s.engine t ch0 = Except.ok hd ∧ hd.payload.HasLabel label = false ∧
      s2.engine = s.engine ∧ s2.accessors = s.accessors ∧
      s2.vertices = updateChain gid (writeHead t (Vertex.addLabel label)) s.vertices := by
  unfold AddLabel at hr
  cases ha : s.accessor tid with
  | none => rw [ha] at hr; simp at hr
  | some t =>
    cases hc : s.chain gid with
    | none => rw [ha, hc] at hr; simp at hr
    | some ch0 =>
      cases hg : headGuard s.engine t ch0 with
      | error err => rw [ha, hc] at hr; simp only [hg] at hr; simp at hr
      | ok h =>
        rw [ha, hc] at hr
        simp only [hg] at hr
        by_cases hl : h.payload.HasLabel label = true
        · simp [hl] at hr
        · simp only [hl, Bool.false_eq_true, if_false, Except.ok.injEq, Prod.mk.injEq,
            true_and] at hr
          have hfold := foldl_UpdateOnSetProperty (fun lp => h.payload.GetProperty lp.2) gid
            t.id (s.registered.filter (fun lp => lp.1 == label))
            (UpdateOnAddLabel
              { s with vertices := updateChain gid (writeHead t (Vertex.addLabel label))
                                    s.vertices } label gid t.id)
          have hext := (UpdateOnAddLabel_extends
              { s with vertices := updateChain gid (writeHead t (Vertex.addLabel label))
                                    s.vertices } label gid t.id).trans hfold.1
          rw [hr] at hext
          exact ⟨t, ch0, h, rfl, rfl, hg, by simpa using hl, hext.engine_eq, hext.accessors_eq,
            hext.vertices_eq⟩

theorem RemoveLabel_ok {s s2 : Storage} {tid gid label : Nat}
    (hr : s.RemoveLabel tid gid label = Except.ok (true, s2)) :
    ∃ t ch0 hd, s.accessor tid = some t ∧ s.chain gid = some ch0 ∧
      headGuard s.engine t ch0 = Except.ok hd ∧ hd.payload.HasLabel label = true ∧
      s2.engine = s.engine ∧ s2.accessors = s.accessors ∧
      s2.vertices = updateChain gid (writeHead t (Vertex.removeLabel label)) s.vertices := by
  unfold RemoveLabel at hr
  cases ha : s.accessor tid with
  | none => rw [ha] at hr; simp at hr
  | some t =>
    cases hc : s.chain gid with
    | none => rw [ha, hc] at hr; simp at hr
    | some ch0 =>
      cases hg : headGuard s.engine t ch0 with
      | error err => rw [ha, hc] at hr; simp only [hg] at hr; simp at hr
      | ok h =>
        rw [ha, hc] at hr
        simp only [hg] at hr
        by_cases hl : h.payload.HasLabel label = true
        · simp only [hl, Bool.not_true, Bool.false_eq_true, if_false, Except.ok.injEq,
            Prod.mk.injEq, true_and] at hr
          rw [← hr]
          exact ⟨t, ch0, h, rfl, rfl, hg, hl, rfl, rfl, rfl⟩
        · simp [hl] at hr

/-- The chains after a write through the head of `gid` read the same at `OLD`
for the writer. -/
theorem write_reads_OLD {s : Storage} (hinv : IndexInv s) {t : Transaction} {gid : Nat}
    {ch0 : VersionChain} {hd : Version} (f : Vertex → Vertex) (hc : s.chain gid = some ch0)
    (hg : headGuard s.engine t ch0 = Except.ok hd) :
    ∀ ch, ch ∈ s.vertices →
      ((fun ch => if ch.gid == gid then writeHead t f ch else ch) ch).gid = ch.gid ∧
        seen s.engine t View.OLD ((fun ch => if ch.gid == gid then writeHead t f ch else ch) ch)
          = seen s.engine t View.OLD ch := by
  intro ch hch
  simp only
  by_cases hgid : ch.gid = gid
  · have h0 := chain_some hc
    have heq : ch = ch0 := chain_unique hinv hch h0.1 (by rw [hgid, h0.2])
    subst heq
    obtain ⟨⟨rest, hv⟩, hvis, _⟩ := headGuard_ok hg
    have hb : (ch.gid == gid) = true := by simpa using hgid
    simp only [hb, if_true]
    exact ⟨writeHead_gid t f ch, seen_OLD_writeHead f hv hvis⟩
  · have : (ch.gid == gid) = false := by simpa using hgid
    simp only [this, Bool.false_eq_true, if_false, and_self]

/-- After a write through the head of `gid` the writer reads the new payload at
`NEW`. -/
theorem write_reads_NEW {s s2 : Storage} {t : Transaction} {gid : Nat}
    {ch0 : VersionChain} {hd : Version} (f : Vertex → Vertex) (hc : s.chain gid = some ch0)
    (hg : headGuard s.engine t ch0 = Except.ok hd) (he : s2.engine = s.engine)
    (hv : s2.vertices = updateChain gid (writeHead t f) s.vertices) :
    (s2.visibleVersion t View.NEW gid).map (fun v => v.payload) = some (f hd.payload) := by
  rw [visibleVersion_payload, he]
  unfold chain at hc ⊢
  rw [hv]
  unfold updateChain
  rw [find?_map_gid _ gid _ (by
    intro ch _
    split
    · exact writeHead_gid t f ch
    · rfl), hc]
  have h0 : ch0.gid = gid := by simpa using List.find?_some hc
  obtain ⟨⟨rest, hvs⟩, hvis, _⟩ := headGuard_ok hg
  simp only [Option.map_some', Option.bind_some, h0, beq_self_eq_true, if_true]
  exact seen_NEW_writeHead f hvs hvis

theorem accessor_AdvanceCommand {s : Storage} {tid : Nat} {t : Transaction}
    (h : s.accessor tid = some t) :
    (s.AdvanceCommand tid).accessor tid = some { t with cmd := t.cmd + 1 } := by
  unfold accessor AdvanceCommand at *
  simp only
  generalize s.accessors = l at h
  induction l with
  | nil => simp at h
  | cons a l ih =>
    simp only [List.map_cons, List.find?_cons] at h ⊢
    by_cases ha : a.id = tid
    · simp only [ha, beq_self_eq_true, if_true] at h ⊢
      simp only [Option.some.injEq] at h
      subst h
      rw [ha]
    · have hb : (a.id == tid) = false := by simpa using ha
      simp only [hb, Bool.false_eq_true, if_false] at h ⊢
      exact ih h

theorem LabelVertices_AdvanceCommand (s : Storage) (tid : Nat) (t : Transaction)
    (label : Nat) :
    (s.AdvanceCommand tid).LabelVertices { t with cmd := t.cmd + 1 } label View.OLD
      = s.LabelVertices t label View.NEW := by
  have hvis : visible s.engine { t with cmd := t.cmd + 1 } View.OLD
      = visible s.engine t View.NEW := funext (visible_advance s.engine t)
  simp only [LabelVertices, HasLabel, visibleVersion, chain, AdvanceCommand, hvis]

end storage.Storage

namespace storage.Storage

/-- C6: within one transaction, after any sequence of accessor operations: a
label added (removed) by the accessor shows at once in its `NEW` label scan
(is gone from it) and leaves its `OLD` label scan as it was; after
`AdvanceCommand` its `OLD` scan is the `NEW` scan from before the advance. -/
theorem C6_own_writes_NEW_then_OLD (registered : List (Nat × Nat)) (ops : List Op)
    (tid gid label : Nat) (t : Transaction)
    (ht : (run registered ops).accessor tid = some t) :
    (∀ s2, (run registered ops).AddLabel tid gid label = Except.ok (true, s2) →
        s2.accessor tid = some t ∧ gid ∈ s2.LabelVertices t label View.NEW ∧
          s2.LabelVertices t label View.OLD
            = (run registered ops).LabelVertices t label View.OLD) ∧
      (∀ s2, (run registered ops).RemoveLabel tid gid label = Except.ok (true, s2) →
        s2.accessor tid = some t ∧ gid ∉ s2.LabelVertices t label View.NEW ∧
          s2.LabelVertices t label View.OLD
            = (run registered ops).LabelVertices t label View.OLD) ∧
      ((run registered ops).AdvanceCommand tid).accessor tid
          = some { t with cmd := t.cmd + 1 } ∧
      ∀ l, ((run registered ops).AdvanceCommand tid).LabelVertices
            { t with cmd := t.cmd + 1 } l View.OLD
          = (run registered ops).LabelVertices t l View.NEW := by
  have hinv := run_inv registered ops
  refine ⟨?_, ?_, accessor_AdvanceCommand ht, fun l => LabelVertices_AdvanceCommand _ tid t l⟩
  · intro s2 hr
    have hinv2 : IndexInv s2 := AddLabel_inv hinv tid gid label (true, s2) hr
    obtain ⟨t2, ch0, hd, ha, hc, hg, _, he, hacc, hv⟩ := AddLabel_ok hr
    rw [ht] at ha
    cases ha
    refine ⟨by unfold accessor; rw [hacc]; exact ht, ?_, ?_⟩
    · have hnew := write_reads_NEW (Vertex.addLabel label) hc hg he hv
      rw [LabelVertices_eq_filter hinv2, List.mem_filter]
      cases hvv : s2.visibleVersion t View.NEW gid with
      | none => rw [hvv] at hnew; simp at hnew
      | some v =>
        refine ⟨mem_Vertices_of_visibleVersion hvv, ?_⟩
        rw [HasLabel_eq, hnew]
        simp [Vertex.HasLabel, Vertex.addLabel]
    · exact frame_LabelVertices hinv hinv2 _ he hv
        (write_reads_OLD hinv (Vertex.addLabel label) hc hg) label
  · intro s2 hr
    have hinv2 : IndexInv s2 := RemoveLabel_inv hinv tid gid label (true, s2) hr
    obtain ⟨t2, ch0, hd, ha, hc, hg, _, he, hacc, hv⟩ := RemoveLabel_ok hr
    rw [ht] at ha
    cases ha
    refine ⟨by unfold accessor; rw [hacc]; exact ht, ?_, ?_⟩
    · have hnew := write_reads_NEW (Vertex.removeLabel label) hc hg he hv
      rw [LabelVertices_eq_filter hinv2, List.mem_filter]
      intro hmem
      have h2 := hmem.2
      rw [HasLabel_eq, hnew] at h2
      simp [Vertex.HasLabel, Vertex.removeLabel] at h2
    · exact frame_LabelVertices hinv hinv2 _ he hv
        (write_reads_OLD hinv (Vertex.removeLabel label) hc hg) label

end storage.Storage

namespace storage.Storage

/-- Witness of C6: the accessor of `ownWritesScenario` labels its vertex 0. -/
theorem C6_own_writes_NEW_then_OLD_witness :
    (run [] ownWritesScenario).accessor 1 = some ownWriter ∧
      (∀ s2, (run [] ownWritesScenario).AddLabel 1 0 7 = Except.ok (true, s2) →
        s2.accessor 1 = some ownWriter ∧ 0 ∈ s2.LabelVertices ownWriter 7 View.NEW ∧
          s2.LabelVertices ownWriter 7 View.OLD
            = (run [] ownWritesScenario).LabelVertices ownWriter 7 View.OLD) :=
  ⟨rfl, (C6_own_writes_NEW_then_OLD [] ownWritesScenario 1 0 7 ownWriter rfl).1⟩

end storage.Storage

namespace storage.Storage

/-! ### Snapshot isolation of the index scans -/

/-- The operations on vertices leave the engine and the accessors alone. -/
theorem step_data (s : Storage) (op : Op) :
    ((s.step op).engine = s.engine ∧ (s.step op).accessors = s.accessors) ∨
      op = Op.Access ∨ (∃ tid, op = Op.AdvanceCommand tid) ∨ (∃ tid, op = Op.Commit tid) ∨
      (∃ tid, op = Op.Abort tid) := by
  cases op with
  | Access => exact Or.inr (Or.inl rfl)
  | AdvanceCommand tid => exact Or.inr (Or.inr (Or.inl ⟨tid, rfl⟩))
  | Commit tid => exact Or.inr (Or.inr (Or.inr (Or.inl ⟨tid, rfl⟩)))
  | Abort tid => exact Or.inr (Or.inr (Or.inr (Or.inr ⟨tid, rfl⟩)))
  | CreateVertex tid =>
    left
    simp only [step, CreateVertex]
    cases s.accessor tid <;> exact ⟨rfl, rfl⟩
  | AddLabel tid gid label =>
    left
    simp only [step]
    cases hr : s.AddLabel tid gid label with
    | error e => exact ⟨rfl, rfl⟩
    | ok r =>
      obtain ⟨b, s2⟩ := r
      cases b with
      | true =>
        obtain ⟨_, _, _, _, _, _, _, he, ha, _⟩ := AddLabel_ok hr
        exact ⟨he, ha⟩
      | false =>
        have : s2 = s := by
          unfold AddLabel at hr
          cases ha : s.accessor tid with
          | none => rw [ha] at hr; simp at hr
          | some t =>
            cases hc : s.chain gid with
            | none => rw [ha, hc] at hr; simp at hr
            | some ch0 =>
              cases hg : headGuard s.engine t ch0 with
              | error err => rw [ha, hc] at hr; simp only [hg] at hr; simp at hr
              | ok h =>
                rw [ha, hc] at hr
                simp only [hg] at hr
                split at hr
                · simp only [Except.ok.injEq, Prod.mk.injEq, true_and] at hr; exact hr.symm
                · simp at hr
        subst this
        exact ⟨rfl, rfl⟩
  | RemoveLabel tid gid label =>
    left
    simp only [step, RemoveLabel]
    cases s.accessor tid with
    | none => exact ⟨rfl, rfl⟩
    | some t =>
      simp only
      cases s.chain gid with
      | none => exact ⟨rfl, rfl⟩
      | some ch =>
        simp only
        cases headGuard s.engine t ch with
        | error e => exact ⟨rfl, rfl⟩
        | ok h => simp only; split <;> exact ⟨rfl, rfl⟩
  | SetProperty tid gid property value =>
    left
    simp only [step, SetProperty]
    cases s.accessor tid with
    | none => exact ⟨rfl, rfl⟩
    | some t =>
      simp only
      cases s.chain gid with
      | none => exact ⟨rfl, rfl⟩
      | some ch =>
        simp only
        cases headGuard s.engine t ch with
        | error e => exact ⟨rfl, rfl⟩
        | ok h =>
          simp only
          split
          · exact ⟨rfl, rfl⟩
          · simp only [after]
            have hf := (foldl_UpdateOnSetProperty (fun _ => value) gid t.id
              (s.registered.filter (fun lp => lp.2 == property && h.payload.HasLabel lp.1))
              { s with
                vertices :=
                  updateChain gid (writeHead t (Vertex.setProperty property value))
                    s.vertices }).1
            exact ⟨hf.engine_eq, hf.accessors_eq⟩
  | DeleteVertex tid gid =>
    left
    simp only [step, DeleteVertex]
    cases s.accessor tid with
    | none => exact ⟨rfl, rfl⟩
    | some t =>
      simp only
      cases s.chain gid with
      | none => exact ⟨rfl, rfl⟩
      | some ch =>
        simp only
        cases headGuard s.engine t ch with
        | error e => exact ⟨rfl, rfl⟩
        | ok h => simp only; split <;> exact ⟨rfl, rfl⟩
  | CreateEdge tid src dst edge_type =>
    left
    simp only [step, CreateEdge]
    cases s.accessor tid with
    | none => exact ⟨rfl, rfl⟩
    | some t =>
      simp only
      split
      · split <;> exact ⟨rfl, rfl⟩
      · exact ⟨rfl, rfl⟩
  | DeleteEdge tid src dst egid =>
    left
    simp only [step, DeleteEdge]
    cases s.accessor tid with
    | none => exact ⟨rfl, rfl⟩
    | some t =>
      simp only
      split
      · split <;> exact ⟨rfl, rfl⟩
      · exact ⟨rfl, rfl⟩

end storage.Storage

namespace storage.Storage

theorem accessor_some {s : Storage} {tid : Nat} {t : Transaction}
    (h : s.accessor tid = some t) : t ∈ s.accessors ∧ t.id = tid := by
  unfold accessor at h
  exact ⟨List.mem_of_find?_eq_some h, by simpa using List.find?_some h⟩

theorem TxInv_of_eq {s s2 : Storage} (h : TxInv s) (he : s2.engine = s.engine)
    (ha : s2.accessors = s.accessors) : TxInv s2 := by
  refine ⟨?_, ?_, ?_, ?_, ?_⟩
  · rw [ha]; exact h.acc_pos
  · rw [ha, he]; exact h.acc_active
  · rw [he]; exact h.active_le
  · rw [he]; exact h.active_status
  · rw [he]; exact h.log_le

theorem TxInv_Access {s : Storage} (h : TxInv s) : TxInv s.Access.2 := by
  refine ⟨?_, ?_, ?_, ?_, ?_⟩
  · intro t ht
    simp only [Access, List.mem_append, List.mem_singleton] at ht
    rcases ht with ht | ht
    · exact h.acc_pos t ht
    · rw [ht]; simp [tx.Engine.Begin, tx.Engine.next_id]
  · intro t ht
    simp only [Access, List.mem_append, List.mem_singleton, tx.Engine.Begin] at ht ⊢
    rcases ht with ht | ht
    · exact Or.inl (h.acc_active t ht)
    · rw [ht]; exact Or.inr rfl
  · intro a ha
    simp only [Access, tx.Engine.Begin, tx.Engine.next_id, List.mem_append,
      List.mem_singleton] at ha ⊢
    rcases ha with ha | ha
    · have := h.active_le a ha; omega
    · omega
  · intro a ha
    simp only [Access, tx.Engine.Begin, tx.Engine.next_id, List.mem_append,
      List.mem_singleton] at ha ⊢
    by_cases hc : a = s.engine.counter + 1
    · rw [hc, Function.update_same]
    · rw [Function.update_noteq hc]
      rcases ha with ha | ha
      · exact h.active_status a ha
      · exact absurd ha hc
  · intro id hid
    simp only [Access, tx.Engine.Begin, tx.Engine.next_id] at hid ⊢
    by_cases hc : id = s.engine.counter + 1
    · rw [hc, Function.update_same] at hid; exact absurd rfl hid
    · rw [Function.update_noteq hc] at hid
      have := h.log_le id hid; omega

theorem TxInv_AdvanceCommand {s : Storage} (h : TxInv s) (tid : Nat) :
    TxInv (s.AdvanceCommand tid) := by
  refine ⟨?_, ?_, h.active_le, h.active_status, h.log_le⟩
  · intro t ht
    simp only [AdvanceCommand, List.mem_map] at ht
    obtain ⟨t0, ht0, heq⟩ := ht
    have := h.acc_pos t0 ht0
    split at heq <;> (rw [← heq]; exact this)
  · intro t ht
    simp only [AdvanceCommand, List.mem_map] at ht ⊢
    obtain ⟨t0, ht0, heq⟩ := ht
    have := h.acc_active t0 ht0
    split at heq <;> (rw [← heq]; exact this)

theorem TxInv_finish {s s2 : Storage} (h : TxInv s) (tid : Nat) (st : tx.Status)
    (hacc : ∃ t, t ∈ s.accessors ∧ t.id = tid)
    (ha : s2.accessors = s.accessors.filter (fun t => t.id != tid))
    (hc : s.engine.counter ≤ s2.engine.counter)
    (hact : s2.engine.active = s.engine.active.filter (fun a => a != tid))
    (hlog : s2.engine.commit_log = Function.update s.engine.commit_log tid st) :
    TxInv s2 := by
  obtain ⟨t0, ht0, hid0⟩ := hacc
  refine ⟨?_, ?_, ?_, ?_, ?_⟩
  · intro t ht
    rw [ha] at ht
    exact h.acc_pos t (List.mem_filter.1 ht).1
  · intro t ht
    rw [ha] at ht
    rw [hact]
    have := List.mem_filter.1 ht
    exact List.mem_filter.2 ⟨h.acc_active t this.1, this.2⟩
  · intro a ha'
    rw [hact] at ha'
    have := h.active_le a (List.mem_filter.1 ha').1
    omega
  · intro a ha'
    rw [hact] at ha'
    have hm := List.mem_filter.1 ha'
    have hne : a ≠ tid := by simpa using hm.2
    rw [hlog, Function.update_noteq hne]
    exact h.active_status a hm.1
  · intro id hid
    rw [hlog] at hid
    by_cases hc' : id = tid
    · have := h.active_le _ (h.acc_active t0 ht0)
      rw [hc', ← hid0]; omega
    · rw [Function.update_noteq hc'] at hid
      have := h.log_le id hid; omega

theorem TxInv_step {s : Storage} (h : TxInv s) (op : Op) : TxInv (s.step op) := by
  rcases step_data s op with ⟨he, ha⟩ | hop | ⟨tid, hop⟩ | ⟨tid, hop⟩ | ⟨tid, hop⟩
  · exact TxInv_of_eq h he ha
  · subst hop; exact TxInv_Access h
  · subst hop; exact TxInv_AdvanceCommand h tid
  · subst hop
    simp only [step, Commit]
    cases hacc : s.accessor tid with
    | none => exact h
    | some t =>
      exact TxInv_finish h tid tx.Status.Committed ⟨t, accessor_some hacc⟩ rfl
        (Nat.le_succ _) rfl rfl
  · subst hop
    simp only [step, Abort]
    cases hacc : s.accessor tid with
    | none => exact h
    | some t =>
      exact TxInv_finish h tid tx.Status.Aborted ⟨t, accessor_some hacc⟩ rfl
        (Nat.le_refl _) rfl rfl

theorem TxInv_init (registered : List (Nat × Nat)) : TxInv (init registered) := by
  refine ⟨?_, ?_, ?_, ?_, ?_⟩ <;> simp [init, tx.Engine.init]

theorem TxInv_foldl (ops : List Op) : ∀ s : Storage, TxInv s → TxInv (ops.foldl step s) := by
  induction ops with
  | nil => intro s h; exact h
  | cons op ops ih => intro s h; exact ih _ (TxInv_step h op)

theorem TxInv_run (registered : List (Nat × Nat)) (ops : List Op) :
    TxInv (run registered ops) :=
  TxInv_foldl ops _ (TxInv_init registered)

end storage.Storage

namespace storage.Storage

theorem NeverCommits_step {s : Storage} (h : TxInv s) {w : Nat} (hw : NeverCommits w s)
    (op : Op) : NeverCommits w (s.step op) := by
  obtain ⟨h1, h2, h3⟩ := hw
  rcases step_data s op with ⟨he, _⟩ | hop | ⟨tid, hop⟩ | ⟨tid, hop⟩ | ⟨tid, hop⟩
  · unfold NeverCommits; rw [he]; exact ⟨h1, h2, h3⟩
  · subst hop
    have hne : w ≠ s.engine.counter + 1 := by omega
    refine ⟨?_, ?_, ?_⟩
    · simp only [step, Access, tx.Engine.Begin, tx.Engine.next_id]; omega
    · simp only [step, Access, tx.Engine.Begin, tx.Engine.next_id, List.mem_append,
        List.mem_singleton]
      rintro (h' | h')
      · exact h2 h'
      · exact hne h'
    · simp only [step, Access, tx.Engine.Begin, tx.Engine.next_id, tx.Engine.GlobalInfo]
      rw [Function.update_noteq hne]; exact h3
  · subst hop; exact ⟨h1, h2, h3⟩
  · subst hop
    simp only [step, Commit]
    cases hacc : s.accessor tid with
    | none => exact ⟨h1, h2, h3⟩
    | some t =>
      have ht := accessor_some hacc
      have hne : w ≠ tid := by
        intro hc; apply h2; rw [hc, ← ht.2]; exact h.acc_active t ht.1
      refine ⟨?_, ?_, ?_⟩
      · simp only [after, tx.Engine.Commit]; omega
      · simp only [after, tx.Engine.Commit, List.mem_filter]
        exact fun h' => h2 h'.1
      · simp only [after, tx.Engine.Commit, tx.Engine.GlobalInfo]
        rw [Function.update_noteq hne]; exact h3
  · subst hop
    simp only [step, Abort]
    cases hacc : s.accessor tid with
    | none => exact ⟨h1, h2, h3⟩
    | some t =>
      have ht := accessor_some hacc
      have hne : w ≠ tid := by
        intro hc; apply h2; rw [hc, ← ht.2]; exact h.acc_active t ht.1
      refine ⟨?_, ?_, ?_⟩
      · simp only [after, tx.Engine.Abort]; exact h1
      · simp only [after, tx.Engine.Abort, List.mem_filter]
        exact fun h' => h2 h'.1
      · simp only [after, tx.Engine.Abort, tx.Engine.GlobalInfo]
        rw [Function.update_noteq hne]; exact h3

theorem KeepsSnapshot_step {s : Storage} {rid : Nat} {snap : List Nat}
    (hk : KeepsSnapshot rid snap s) (op : Op) : KeepsSnapshot rid snap (s.step op) := by
  obtain ⟨h1, h2⟩ := hk
  rcases step_data s op with ⟨he, ha⟩ | hop | ⟨tid, hop⟩ | ⟨tid, hop⟩ | ⟨tid, hop⟩
  · unfold KeepsSnapshot; rw [he, ha]; exact ⟨h1, h2⟩
  · subst hop
    refine ⟨?_, ?_⟩
    · simp only [step, Access, tx.Engine.Begin, tx.Engine.next_id]; omega
    · intro t ht hid
      simp only [step, Access, tx.Engine.Begin, tx.Engine.next_id, List.mem_append,
        List.mem_singleton] at ht
      rcases ht with ht | ht
      · exact h2 t ht hid
      · rw [ht] at hid; simp only at hid; omega
  · subst hop
    refine ⟨h1, ?_⟩
    intro t ht hid
    simp only [step, AdvanceCommand, List.mem_map] at ht
    obtain ⟨t0, ht0, heq⟩ := ht
    split at heq
    · rw [← heq] at hid ⊢; exact h2 t0 ht0 hid
    · rw [← heq] at hid ⊢; exact h2 t0 ht0 hid
  · subst hop
    simp only [step, Commit]
    cases hacc : s.accessor tid with
    | none => exact ⟨h1, h2⟩
    | some t =>
      refine ⟨?_, ?_⟩
      · simp only [after, tx.Engine.Commit]; omega
      · intro t' ht' hid
        simp only [after, List.mem_filter] at ht'
        exact h2 t' ht'.1 hid
  · subst hop
    simp only [step, Abort]
    cases hacc : s.accessor tid with
    | none => exact ⟨h1, h2⟩
    | some t =>
      refine ⟨?_, ?_⟩
      · simp only [after, tx.Engine.Abort]; exact h1
      · intro t' ht' hid
        simp only [after, List.mem_filter] at ht'
        exact h2 t' ht'.1 hid

theorem isolation_foldl (ops : List Op) (rid : Nat) (snap : List Nat) (w : Nat) :
    ∀ s : Storage, TxInv s → KeepsSnapshot rid snap s →
      TxInv (ops.foldl step s) ∧ KeepsSnapshot rid snap (ops.foldl step s) ∧
        (NeverCommits w s → NeverCommits w (ops.foldl step s)) := by
  induction ops with
  | nil => intro s h1 h2; exact ⟨h1, h2, fun h => h⟩
  | cons op ops ih =>
    intro s h1 h2
    obtain ⟨a, b, c⟩ := ih (s.step op) (TxInv_step h1 op) (KeepsSnapshot_step h2 op)
    exact ⟨a, b, fun h => c (NeverCommits_step h1 h op)⟩

end storage.Storage

namespace storage.Storage

theorem created_ne_of_visible {e : tx.Engine} {t : Transaction} {view : View} {v : Version}
    {w : Nat} (hne : w ≠ t.id)
    (hw : w ∈ t.snapshot ∨ t.id < w ∨ e.GlobalInfo w ≠ tx.Status.Committed)
    (hv : visible e t view v = true) : v.tx_created ≠ w := by
  intro hc
  simp only [visible, createdVisible, Bool.and_eq_true, Bool.or_eq_true, decide_eq_true_eq,
    Bool.not_eq_true', beq_iff_eq] at hv
  rcases hv.1 with ⟨⟨h1, h2⟩, h3⟩ | ⟨h1, _⟩
  · rw [hc] at h1 h2 h3
    rcases hw with hw | hw | hw
    · have : t.snapshot.contains w = true := by simpa using hw
      rw [this] at h2; exact absurd h2 (by decide)
    · omega
    · exact hw h1
  · rw [hc] at h1; exact hne h1

theorem chain_of_mem {s : Storage} (hinv : IndexInv s) {ch : VersionChain}
    (hch : ch ∈ s.vertices) : s.chain ch.gid = some ch := by
  cases hc : s.chain ch.gid with
  | none =>
    unfold chain at hc
    have := List.find?_eq_none.1 hc ch hch
    simp at this
  | some ch2 =>
    have h2 := chain_some hc
    rw [chain_unique hinv h2.1 hch h2.2]

theorem HasLabel_some {s : Storage} {t : Transaction} {view : View} {g label : Nat}
    (h : s.HasLabel t view g label = true) :
    ∃ v, s.visibleVersion t view g = some v ∧ v.payload.HasLabel label = true := by
  unfold HasLabel at h
  cases hv : s.visibleVersion t view g with
  | none => rw [hv] at h; simp at h
  | some v => rw [hv] at h; exact ⟨v, rfl, h⟩

theorem visible_of_visibleVersion {s : Storage} {t : Transaction} {view : View} {g : Nat}
    {v : Version} (h : s.visibleVersion t view g = some v) :
    visible s.engine t view v = true := by
  obtain ⟨ch, _, _, _, hf, _⟩ := visibleVersion_some h
  exact List.find?_some hf

/-- What an accessor opened in `s` reads of a chain whose head was written by
the committed transaction `w` and is not expired: that head. -/
theorem Access_sees_committed_head {s : Storage} (hinv : IndexInv s) (htx : TxInv s) {w : Nat}
    (hw : s.engine.GlobalInfo w = tx.Status.Committed) (view : View) {ch : VersionChain}
    {hd : Version} {rest : List Version} (hch : ch ∈ s.vertices)
    (hv : ch.versions = hd :: rest) (hc : hd.tx_created = w) (he : hd.tx_expired = 0) :
    s.Access.2.visibleVersion s.Access.1 view ch.gid = some hd := by
  have hle : w ≤ s.engine.counter := htx.log_le w (by
    unfold tx.Engine.GlobalInfo at hw; rw [hw]; decide)
  have hna : w ∉ s.engine.active := by
    intro ha
    have := htx.active_status w ha
    unfold tx.Engine.GlobalInfo at hw
    rw [hw] at this; exact absurd this (by decide)
  have hvis : visible s.Access.2.engine s.Access.1 view hd = true := by
    have h1 : s.Access.2.engine.GlobalInfo w = tx.Status.Committed := by
      simp only [Access, tx.Engine.Begin, tx.Engine.next_id, tx.Engine.GlobalInfo]
      rw [Function.update_noteq (by omega)]
      exact hw
    have h2 : s.Access.1.snapshot.contains w = false := by
      simp only [Access, tx.Engine.Begin]
      simpa using hna
    have h3 : w < s.Access.1.id := by
      simp only [Access, tx.Engine.Begin, tx.Engine.next_id]; omega
    simp only [visible, createdVisible, notExpired, hc, he, h1, h2, h3, decide_True,
      Bool.not_false, Bool.and_self, Bool.true_or, beq_self_eq_true, Bool.and_true]
  have hchain : s.Access.2.chain ch.gid = some ch := chain_of_mem hinv hch
  unfold visibleVersion
  rw [hchain]
  simp only [hv, List.find?_cons, hvis]

end storage.Storage

namespace storage.Storage

theorem KeepsSnapshot_Access {s : Storage} (htx : TxInv s) :
    KeepsSnapshot s.Access.1.id s.Access.1.snapshot s.Access.2 := by
  refine ⟨?_, ?_⟩
  · simp only [Access, tx.Engine.Begin, tx.Engine.next_id]; omega
  · intro t ht hid
    simp only [Access, tx.Engine.Begin, tx.Engine.next_id, List.mem_append,
      List.mem_singleton] at ht hid ⊢
    rcases ht with ht | ht
    · have := htx.active_le _ (htx.acc_active t ht)
      omega
    · rw [ht]

end storage.Storage

namespace storage

/-! ### The version chains: a deleted vertex is gone at `NEW` -/

theorem settled_of_createdVisible {e : tx.Engine} {t : Transaction} {a : Version}
    (h : createdVisible e t View.NEW a = true) : Settled e t a := by
  simp only [createdVisible, Bool.or_eq_true, Bool.and_eq_true, decide_eq_true_eq,
    beq_iff_eq] at h
  rcases h with ⟨⟨h1, h2⟩, h3⟩ | ⟨h1, h2⟩
  · right; exact ⟨by omega, h1, h3, by simpa using h2⟩
  · left; exact ⟨h1, h2⟩

/-- A version expired by the stamps of a settled version is not visible at
`NEW`. -/
theorem not_visible_of_expired_by {e : tx.Engine} {t : Transaction} {a b : Version}
    (ha : Settled e t a) (hpos : 1 ≤ a.tx_created)
    (hnc : e.GlobalInfo t.id ≠ tx.Status.Committed)
    (h1 : b.tx_expired = a.tx_created) (h2 : b.cmd_expired = a.cmd_created) :
    visible e t View.NEW b = false := by
  have hne : notExpired e t View.NEW b = false := by
    simp only [notExpired, h1, h2]
    rcases ha with ⟨hc, hcc⟩ | ⟨hc, hcom, hlt, hsn⟩
    · have h0 : (a.tx_created == 0) = false := by simpa using (by omega : a.tx_created ≠ 0)
      rw [hc] at h0 ⊢
      simp [h0, hcc, hnc]
    · have h0 : (a.tx_created == 0) = false := by simpa using (by omega : a.tx_created ≠ 0)
      have h3 : (a.tx_created == t.id) = false := by simpa using hc
      have h4 : ¬ t.id < a.tx_created := by omega
      have h5 : ¬ t.id ≤ a.tx_created := by omega
      simp [h0, h3, hcom, h4, h5, hsn]
  simp only [visible, hne, Bool.and_false]

/-- Below a settled head nothing is visible at `NEW` to the reader. -/
theorem not_visible_below {e : tx.Engine} {t : Transaction}
    (hnc : e.GlobalInfo t.id ≠ tx.Status.Committed) :
    ∀ (l : List Version) (a : Version), (a :: l).Chain' (Linked e) → Settled e t a →
      (∀ v, v ∈ a :: l → 1 ≤ v.tx_created) →
      (∀ v, v ∈ a :: l → v.tx_created = t.id → v.cmd_created ≤ t.cmd) →
      (a :: l).Pairwise (fun a b => Sees t a.tx_created → Sees t b.tx_created) →
      ∀ v, v ∈ l → visible e t View.NEW v = false := by
  intro l
  induction l with
  | nil => intro a _ _ _ _ _ v hv; simp at hv
  | cons b l ih =>
    intro a hch ha hpos hcmd hcl v hv
    have hlink : Linked e a b := (List.chain'_cons.1 hch).1
    have hchb : (b :: l).Chain' (Linked e) := (List.chain'_cons.1 hch).2
    obtain ⟨l1, l2, l3, l4⟩ := hlink
    have hsa : Sees t a.tx_created := by
      rcases ha with ⟨hc, _⟩ | ⟨_, _, hlt, hsn⟩
      · exact Or.inl hc
      · exact Or.inr ⟨hlt, hsn⟩
    have hsb : Sees t b.tx_created :=
      (List.pairwise_cons.1 hcl).1 b (List.mem_cons_self _ _) hsa
    have hb : Settled e t b := by
      by_cases hbt : b.tx_created = t.id
      · left; exact ⟨hbt, hcmd b (List.mem_cons_of_mem _ (List.mem_cons_self _ _)) hbt⟩
      · right
        refine ⟨hbt, ?_, ?_, ?_⟩
        · rcases l4 with h | h
          · rcases ha with ⟨hc, _⟩ | ⟨_, hcom, _⟩
            · rw [h, hc] at hbt; exact absurd rfl hbt
            · rw [h]; exact hcom
          · exact h
        · rcases ha with ⟨hc, _⟩ | ⟨_, _, hlt, _⟩
          · rw [hc] at l3; omega
          · omega
        · rcases hsb with h | h
          · exact absurd h hbt
          · exact h.2
    rcases List.mem_cons.1 hv with h | h
    · rw [h]
      exact not_visible_of_expired_by ha (hpos a (List.mem_cons_self _ _)) hnc l1 l2
    · exact ih b hchb hb (fun x hx => hpos x (List.mem_cons_of_mem _ hx))
        (fun x hx => hcmd x (List.mem_cons_of_mem _ hx)) (List.pairwise_cons.1 hcl).2 v h

/-- After the accessor expired the head it could see, it sees no version of the
chain at `NEW`. -/
theorem seen_NEW_expireHead {s : Storage} {t : Transaction} {ch : VersionChain}
    (hok : ChainOk s ch) (ht : t ∈ s.accessors) (hpos : 1 ≤ t.id)
    (hnc : s.engine.GlobalInfo t.id ≠ tx.Status.Committed)
    (hcl : ch.versions.Pairwise (fun a b => Sees t a.tx_created → Sees t b.tx_created))
    {h : Version} {rest : List Version} (hv : ch.versions = h :: rest)
    (hvis : visible s.engine t View.NEW h = true) :
    seen s.engine t View.NEW (expireHead t ch) = none := by
  unfold seen expireHead
  rw [hv]
  simp only [Option.map_eq_none']
  rw [List.find?_eq_none]
  intro v hvm
  have hcv : createdVisible s.engine t View.NEW h = true := by
    simp only [visible, Bool.and_eq_true] at hvis; exact hvis.1
  have hset := settled_of_createdVisible hcv
  rcases List.mem_cons.1 hvm with hh | hh
  · rw [hh]
    have : notExpired s.engine t View.NEW { h with tx_expired := t.id, cmd_expired := t.cmd }
        = false := by
      have h0 : (t.id == 0) = false := by simpa using (by omega : t.id ≠ 0)
      simp [notExpired, h0, hnc]
    simp [visible, this]
  · have hadj := hok.adj
    rw [hv] at hadj
    have := not_visible_below hnc rest h hadj hset
      (fun x hx => hok.ver_pos x (by rw [hv]; exact hx))
      (fun x hx => hok.ver_cmd t ht x (by rw [hv]; exact hx)) (by rw [← hv]; exact hcl) v hh
    simp [this]

end storage

namespace storage

theorem ChainOk_congr {s s2 : Storage} {ch : VersionChain} (he : s2.engine = s.engine)
    (ha : s2.accessors = s.accessors) (h : ChainOk s ch) : ChainOk s2 ch := by
  refine ⟨h.ver_pos, ?_, ?_, ?_⟩
  · rw [he]; exact h.ver_le
  · rw [ha]; exact h.ver_cmd
  · rw [he]; exact h.adj

theorem chain'_head_stamps {e : tx.Engine} {a a2 : Version} {l : List Version}
    (h : (a :: l).Chain' (Linked e)) (h1 : a2.tx_created = a.tx_created)
    (h2 : a2.cmd_created = a.cmd_created) : (a2 :: l).Chain' (Linked e) := by
  cases l with
  | nil => exact List.chain'_singleton _
  | cons b l =>
    have hc := List.chain'_cons.1 h
    refine List.chain'_cons.2 ⟨?_, hc.2⟩
    obtain ⟨l1, l2, l3, l4⟩ := hc.1
    exact ⟨by rw [h1]; exact l1, by rw [h2]; exact l2, by rw [h1]; exact l3,
      by rw [h1]; exact l4⟩

theorem createdVisible_head_writeHead (t : Transaction) (f : Vertex → Vertex)
    (ch : VersionChain) {hd : Version} {rest : List Version}
    (hv : (writeHead t f ch).versions = hd :: rest) :
    hd.tx_created = t.id ∧ hd.cmd_created = t.cmd := by
  unfold writeHead at hv
  split at hv
  · rename_i heq; rw [heq] at hv; simp at hv
  · rename_i h0 rest0 heq
    split at hv
    · rename_i hc
      simp only [List.cons.injEq] at hv
      simp only [Bool.and_eq_true, beq_iff_eq] at hc
      rw [← hv.1]; exact hc
    · simp only [List.cons.injEq] at hv
      rw [← hv.1]; exact ⟨rfl, rfl⟩

theorem ChainOk_writeHead {s : Storage} {ch : VersionChain} {t : Transaction}
    (f : Vertex → Vertex) (hok : ChainOk s ch)
    (huniq : ∀ t2, t2 ∈ s.accessors → t2.id = t.id → t2 = t)
    (hpos : 1 ≤ t.id) (hle : t.id ≤ s.engine.counter)
    (hhead : ∀ hd rest, ch.versions = hd :: rest →
      hd.tx_created ≤ t.id ∧
        (hd.tx_created = t.id ∨ s.engine.GlobalInfo hd.tx_created = tx.Status.Committed)) :
    ChainOk s (writeHead t f ch) := by
  unfold writeHead
  split
  · exact hok
  · rename_i hd rest heq
    have hmem : ∀ v, v ∈ rest → v ∈ ch.versions := fun v hv => by
      rw [heq]; exact List.mem_cons_of_mem _ hv
    have hhd : hd ∈ ch.versions := by rw [heq]; exact List.mem_cons_self _ _
    have hadj := hok.adj
    rw [heq] at hadj
    split
    · refine ⟨?_, ?_, ?_, ?_⟩
      · intro v hv
        rcases List.mem_cons.1 hv with h | h
        · rw [h]; exact hok.ver_pos hd hhd
        · exact hok.ver_pos v (hmem v h)
      · intro v hv
        rcases List.mem_cons.1 hv with h | h
        · rw [h]; exact hok.ver_le hd hhd
        · exact hok.ver_le v (hmem v h)
      · intro t2 ht2 v hv hc
        rcases List.mem_cons.1 hv with h | h
        · rw [h] at hc ⊢; exact hok.ver_cmd t2 ht2 hd hhd hc
        · exact hok.ver_cmd t2 ht2 v (hmem v h) hc
      · exact chain'_head_stamps hadj rfl rfl
    · refine ⟨?_, ?_, ?_, ?_⟩
      · intro v hv
        simp only [List.mem_cons] at hv
        rcases hv with h | h | h
        · rw [h]; exact hpos
        · rw [h]; exact hok.ver_pos hd hhd
        · exact hok.ver_pos v (hmem v h)
      · intro v hv
        simp only [List.mem_cons] at hv
        rcases hv with h | h | h
        · rw [h]; exact hle
        · rw [h]; exact hok.ver_le hd hhd
        · exact hok.ver_le v (hmem v h)
      · intro t2 ht2 v hv hc
        simp only [List.mem_cons] at hv
        rcases hv with h | h | h
        · rw [h] at hc ⊢
          simp only at hc ⊢
          rw [huniq t2 ht2 hc.symm]
        · rw [h] at hc ⊢; exact hok.ver_cmd t2 ht2 hd hhd hc
        · exact hok.ver_cmd t2 ht2 v (hmem v h) hc
      · refine List.chain'_cons.2 ⟨?_, chain'_head_stamps hadj rfl rfl⟩
        obtain ⟨h1, h2⟩ := hhead hd rest heq
        exact ⟨rfl, rfl, h1, h2⟩

theorem ChainOk_expireHead {s : Storage} {ch : VersionChain} (t : Transaction)
    (hok : ChainOk s ch) : ChainOk s (expireHead t ch) := by
  unfold expireHead
  split
  · exact hok
  · rename_i hd rest heq
    have hmem : ∀ v, v ∈ rest → v ∈ ch.versions := fun v hv => by
      rw [heq]; exact List.mem_cons_of_mem _ hv
    have hhd : hd ∈ ch.versions := by rw [heq]; exact List.mem_cons_self _ _
    have hadj := hok.adj
    rw [heq] at hadj
    refine ⟨?_, ?_, ?_, ?_⟩
    · intro v hv
      rcases List.mem_cons.1 hv with h | h
      · rw [h]; exact hok.ver_pos hd hhd
      · exact hok.ver_pos v (hmem v h)
    · intro v hv
      rcases List.mem_cons.1 hv with h | h
      · rw [h]; exact hok.ver_le hd hhd
      · exact hok.ver_le v (hmem v h)
    · intro t2 ht2 v hv hc
      rcases List.mem_cons.1 hv with h | h
      · rw [h] at hc ⊢; exact hok.ver_cmd t2 ht2 hd hhd hc
      · exact hok.ver_cmd t2 ht2 v (hmem v h) hc
    · exact chain'_head_stamps hadj rfl rfl

theorem head_of_createdVisible {e : tx.Engine} {t : Transaction} {hd : Version}
    (h : createdVisible e t View.NEW hd = true) :
    hd.tx_created ≤ t.id ∧
      (hd.tx_created = t.id ∨ e.GlobalInfo hd.tx_created = tx.Status.Committed) := by
  rcases settled_of_createdVisible h with ⟨h1, _⟩ | ⟨_, h2, h3, _⟩
  · exact ⟨by omega, Or.inl h1⟩
  · exact ⟨by omega, Or.inr h2⟩

end storage

namespace storage.Storage

/-- Every operation on vertices changes the primary table in one of the ways of
`VerticesStep`. -/
theorem step_shape (s : Storage) (op : Op) :
    ((s.step op).engine = s.engine ∧ (s.step op).accessors = s.accessors ∧
        ∃ tid, op.actor = some tid ∧ VerticesStep s tid (s.step op).vertices) ∨
      op = Op.Access ∨ (∃ tid, op = Op.AdvanceCommand tid) ∨ (∃ tid, op = Op.Commit tid) ∨
      (∃ tid, op = Op.Abort tid) := by
  rcases step_data s op with ⟨he, ha⟩ | h
  swap
  · exact Or.inr h
  cases op with
  | Access => exact Or.inr (Or.inl rfl)
  | AdvanceCommand tid => exact Or.inr (Or.inr (Or.inl ⟨tid, rfl⟩))
  | Commit tid => exact Or.inr (Or.inr (Or.inr (Or.inl ⟨tid, rfl⟩)))
  | Abort tid => exact Or.inr (Or.inr (Or.inr (Or.inr ⟨tid, rfl⟩)))
  | CreateVertex tid =>
    left
    refine ⟨he, ha, tid, rfl, ?_⟩
    simp only [step, CreateVertex]
    cases hacc : s.accessor tid with
    | none => exact VerticesStep.same
    | some t => exact VerticesStep.create t (accessor_some hacc).1 (accessor_some hacc).2
  | AddLabel tid gid label =>
    left
    refine ⟨he, ha, tid, rfl, ?_⟩
    simp only [step]
    cases hr : s.AddLabel tid gid label with
    | error e => exact VerticesStep.same
    | ok r =>
      obtain ⟨b, s2⟩ := r
      cases b with
      | true =>
        obtain ⟨t, ch0, hd, hacc, hc, hg, _, _, _, hv⟩ := AddLabel_ok hr
        simp only [after]
        rw [hv]
        exact VerticesStep.write t ch0 hd gid _ (accessor_some hacc).1 (accessor_some hacc).2 hc hg
      | false =>
        have : s2 = s := by
          unfold AddLabel at hr
          cases ha : s.accessor tid with
          | none => rw [ha] at hr; simp at hr
          | some t =>
            cases hc : s.chain gid with
            | none => rw [ha, hc] at hr; simp at hr
            | some ch0 =>
              cases hg : headGuard s.engine t ch0 with
              | error err => rw [ha, hc] at hr; simp only [hg] at hr; simp at hr
              | ok h =>
                rw [ha, hc] at hr
                simp only [hg] at hr
                split at hr
                · simp only [Except.ok.injEq, Prod.mk.injEq, true_and] at hr; exact hr.symm
                · simp at hr
        subst this
        exact VerticesStep.same
  | RemoveLabel tid gid label =>
    left
    refine ⟨he, ha, tid, rfl, ?_⟩
    simp only [step, RemoveLabel]
    cases hacc : s.accessor tid with
    | none => exact VerticesStep.same
    | some t =>
      simp only
      cases hc : s.chain gid with
      | none => exact VerticesStep.same
      | some ch =>
        simp only
        cases hg : headGuard s.engine t ch with
        | error e => exact VerticesStep.same
        | ok h =>
          simp only
          split
          · exact VerticesStep.same
          · exact VerticesStep.write t ch h gid _ (accessor_some hacc).1 (accessor_some hacc).2 hc hg
  | SetProperty tid gid property value =>
    left
    refine ⟨he, ha, tid, rfl, ?_⟩
    simp only [step, SetProperty]
    cases hacc : s.accessor tid with
    | none => exact VerticesStep.same
    | some t =>
      simp only
      cases hc : s.chain gid with
      | none => exact VerticesStep.same
      | some ch =>
        simp only
        cases hg : headGuard s.engine t ch with
        | error e => exact VerticesStep.same
        | ok h =>
          simp only
          split
          · exact VerticesStep.same
          · simp only [after]
            rw [(foldl_UpdateOnSetProperty (fun _ => value) gid t.id _ _).1.vertices_eq]
            exact VerticesStep.write t ch h gid _ (accessor_some hacc).1 (accessor_some hacc).2 hc hg
  | DeleteVertex tid gid =>
    left
    refine ⟨he, ha, tid, rfl, ?_⟩
    simp only [step, DeleteVertex]
    cases hacc : s.accessor tid with
    | none => exact VerticesStep.same
    | some t =>
      simp only
      cases hc : s.chain gid with
      | none => exact VerticesStep.same
      | some ch =>
        simp only
        cases hg : headGuard s.engine t ch with
        | error e => exact VerticesStep.same
        | ok h =>
          simp only
          split
          · exact VerticesStep.same
          · exact VerticesStep.expire t ch h gid (accessor_some hacc).1 (accessor_some hacc).2 hc hg
  | CreateEdge tid src dst edge_type =>
    left
    refine ⟨he, ha, tid, rfl, ?_⟩
    simp only [step, CreateEdge]
    cases hacc : s.accessor tid with
    | none => exact VerticesStep.same
    | some t =>
      simp only
      split
      · rename_i c1 c2 hc1 hc2
        split
        · rename_i h1 h2 hg1 hg2
          exact VerticesStep.write2 t c1 c2 h1 h2 src dst _ _ (accessor_some hacc).1
            (accessor_some hacc).2 hc1 hg1 hc2 hg2
        · exact VerticesStep.same
        · exact VerticesStep.same
      · exact VerticesStep.same
  | DeleteEdge tid src dst egid =>
    left
    refine ⟨he, ha, tid, rfl, ?_⟩
    simp only [step, DeleteEdge]
    cases hacc : s.accessor tid with
    | none => exact VerticesStep.same
    | some t =>
      simp only
      split
      · rename_i c1 c2 hc1 hc2
        split
        · rename_i h1 h2 hg1 hg2
          exact VerticesStep.write2 t c1 c2 h1 h2 src dst _ _ (accessor_some hacc).1
            (accessor_some hacc).2 hc1 hg1 hc2 hg2
        · exact VerticesStep.same
        · exact VerticesStep.same
      · exact VerticesStep.same

end storage.Storage

namespace storage.Storage

theorem guard_head {s : Storage} {t : Transaction} {ch0 : VersionChain} {hd0 : Version}
    (hg : headGuard s.engine t ch0 = Except.ok hd0) :
    ∀ hd rest, ch0.versions = hd :: rest →
      hd.tx_created ≤ t.id ∧
        (hd.tx_created = t.id ∨ s.engine.GlobalInfo hd.tx_created = tx.Status.Committed) := by
  intro hd rest hv
  obtain ⟨⟨rest0, hr⟩, hvis, _⟩ := headGuard_ok hg
  rw [hv] at hr
  simp only [List.cons.injEq] at hr
  rw [hr.1]
  simp only [visible, Bool.and_eq_true] at hvis
  exact head_of_createdVisible hvis.1

/-- One write through a list of chains whose chains of `gid` have a suitable
head keeps every chain in order, and leaves suitable heads on the chains of any
gid that had them. -/
theorem chains_write {s : Storage} {t : Transaction} (gid : Nat) (f : Vertex → Vertex)
    (huniq : ∀ t2, t2 ∈ s.accessors → t2.id = t.id → t2 = t)
    (hpos : 1 ≤ t.id) (hle : t.id ≤ s.engine.counter) (l : List VersionChain)
    (hok : ∀ ch, ch ∈ l → ChainOk s ch)
    (hhead : ∀ ch, ch ∈ l → ch.gid = gid → ∀ hd rest, ch.versions = hd :: rest →
      hd.tx_created ≤ t.id ∧
        (hd.tx_created = t.id ∨ s.engine.GlobalInfo hd.tx_created = tx.Status.Committed)) :
    (∀ ch, ch ∈ updateChain gid (writeHead t f) l → ChainOk s ch) ∧
      ∀ g2, (∀ ch, ch ∈ l → ch.gid = g2 → ∀ hd rest, ch.versions = hd :: rest →
          hd.tx_created ≤ t.id ∧
            (hd.tx_created = t.id ∨
              s.engine.GlobalInfo hd.tx_created = tx.Status.Committed)) →
        ∀ ch, ch ∈ updateChain gid (writeHead t f) l → ch.gid = g2 →
          ∀ hd rest, ch.versions = hd :: rest →
            hd.tx_created ≤ t.id ∧
              (hd.tx_created = t.id ∨
                s.engine.GlobalInfo hd.tx_created = tx.Status.Committed) := by
  constructor
  · intro ch2 hch2
    obtain ⟨ch, hch, hcase⟩ := mem_updateChain hch2
    rcases hcase with ⟨hg, heq⟩ | ⟨_, heq⟩
    · rw [heq]
      exact ChainOk_writeHead f (hok ch hch) huniq hpos hle (hhead ch hch hg)
    · rw [heq]; exact hok ch hch
  · intro g2 h2 ch2 hch2 hg2 hd rest hv
    obtain ⟨ch, hch, hcase⟩ := mem_updateChain hch2
    rcases hcase with ⟨_, heq⟩ | ⟨_, heq⟩
    · rw [heq] at hv
      have := createdVisible_head_writeHead t f ch hv
      exact ⟨by omega, Or.inl this.1⟩
    · rw [heq] at hg2 hv
      exact h2 ch hch hg2 hd rest hv

theorem MvccInv_data {s s2 : Storage} (hinv : IndexInv s) (htx : TxInv s) (hm : MvccInv s)
    (he : s2.engine = s.engine) (ha : s2.accessors = s.accessors) {tid : Nat}
    (hv : VerticesStep s tid s2.vertices) : MvccInv s2 := by
  refine ⟨by rw [ha]; exact hm.acc_unique, ?_⟩
  intro ch2 hch2
  apply ChainOk_congr he ha
  have hfacts : ∀ t, t ∈ s.accessors →
      (∀ t2, t2 ∈ s.accessors → t2.id = t.id → t2 = t) ∧ 1 ≤ t.id ∧
        t.id ≤ s.engine.counter := fun t ht =>
    ⟨fun t2 ht2 hid => hm.acc_unique t2 ht2 t ht hid, htx.acc_pos t ht,
      htx.active_le _ (htx.acc_active t ht)⟩
  have hguard : ∀ (t : Transaction) (g : Nat) (c0 : VersionChain) (h0 : Version),
      s.chain g = some c0 → headGuard s.engine t c0 = Except.ok h0 →
      ∀ ch, ch ∈ s.vertices → ch.gid = g → ∀ hd rest, ch.versions = hd :: rest →
        hd.tx_created ≤ t.id ∧
          (hd.tx_created = t.id ∨
            s.engine.GlobalInfo hd.tx_created = tx.Status.Committed) := by
    intro t g c0 h0 hc hg ch hch hgid hd rest hvs
    have h0' := chain_some hc
    have heq : ch = c0 := chain_unique hinv hch h0'.1 (by rw [hgid, h0'.2])
    subst heq
    exact guard_head hg hd rest hvs
  generalize s2.vertices = l2 at hv hch2
  cases hv with
  | same => exact hm.chains ch2 hch2
  | write t ch0 hd gid f ht _ hc hg =>
    obtain ⟨hu, hp, hl⟩ := hfacts t ht
    exact (chains_write gid f hu hp hl s.vertices hm.chains (hguard t gid ch0 hd hc hg)).1
      ch2 hch2
  | write2 t c1 c2 h1 h2 g1 g2 f1 f2 ht _ hc1 hg1 hc2 hg2 =>
    obtain ⟨hu, hp, hl⟩ := hfacts t ht
    have st1 := chains_write g1 f1 hu hp hl s.vertices hm.chains (hguard t g1 c1 h1 hc1 hg1)
    exact (chains_write g2 f2 hu hp hl _ st1.1
      (st1.2 g2 (hguard t g2 c2 h2 hc2 hg2))).1 ch2 hch2
  | expire t ch0 hd gid ht _ hc hg =>
    obtain ⟨ch, hch, hcase⟩ := mem_updateChain hch2
    rcases hcase with ⟨_, heq⟩ | ⟨_, heq⟩
    · rw [heq]; exact ChainOk_expireHead t (hm.chains ch hch)
    · rw [heq]; exact hm.chains ch hch
  | create t ht _ =>
    obtain ⟨hu, hp, hl⟩ := hfacts t ht
    simp only [List.mem_append, List.mem_singleton] at hch2
    rcases hch2 with h | h
    · exact hm.chains ch2 h
    · rw [h]
      refine ⟨?_, ?_, ?_, ?_⟩
      · intro v hv; simp only [List.mem_singleton] at hv; rw [hv]; exact hp
      · intro v hv; simp only [List.mem_singleton] at hv; rw [hv]; exact hl
      · intro t2 ht2 v hv hc
        simp only [List.mem_singleton] at hv
        rw [hv] at hc ⊢
        simp only at hc ⊢
        rw [hu t2 ht2 hc.symm]
      · exact List.chain'_singleton _

end storage.Storage

namespace storage

theorem Linked_mono {e e2 : tx.Engine} {a b : Version}
    (h : e.GlobalInfo b.tx_created = tx.Status.Committed →
      e2.GlobalInfo b.tx_created = tx.Status.Committed)
    (hl : Linked e a b) : Linked e2 a b := by
  obtain ⟨l1, l2, l3, l4⟩ := hl
  exact ⟨l1, l2, l3, l4.imp (fun x => x) h⟩

theorem chain'_keep_all {e : tx.Engine} {tid : Nat}
    (hnc : e.GlobalInfo tid ≠ tx.Status.Committed) :
    ∀ (l : List Version) (a : Version), (a :: l).Chain' (Linked e) → a.tx_created ≠ tid →
      (a :: l).Chain' (fun x y => Linked e x y ∧ y.tx_created ≠ tid) ∧
        ∀ b, b ∈ l → b.tx_created ≠ tid := by
  intro l
  induction l with
  | nil => intro a _ _; exact ⟨List.chain'_singleton _, by simp⟩
  | cons b l ih =>
    intro a hch ha
    have hc := List.chain'_cons.1 hch
    have hb : b.tx_created ≠ tid := by
      rcases hc.1.2.2.2 with h | h
      · rw [h]; exact ha
      · intro hbt; rw [hbt] at h; exact hnc h
    obtain ⟨h1, h2⟩ := ih b hc.2 hb
    refine ⟨List.chain'_cons.2 ⟨⟨hc.1, hb⟩, h1⟩, ?_⟩
    intro x hx
    rcases List.mem_cons.1 hx with h | h
    · rw [h]; exact hb
    · exact h2 x h

theorem chain'_filter_abort {e : tx.Engine} {tid : Nat}
    (hnc : e.GlobalInfo tid ≠ tx.Status.Committed) :
    ∀ l : List Version, l.Chain' (Linked e) →
      (l.filter (fun v => v.tx_created != tid)).Chain'
        (fun x y => Linked e x y ∧ y.tx_created ≠ tid) := by
  intro l
  induction l with
  | nil => intro _; exact List.chain'_nil
  | cons a l ih =>
    intro hch
    by_cases ha : a.tx_created = tid
    · rw [List.filter_cons_of_neg (by simpa using ha)]
      cases l with
      | nil => exact List.chain'_nil
      | cons b l2 => exact ih (List.chain'_cons.1 hch).2
    · obtain ⟨h1, h2⟩ := chain'_keep_all hnc l a hch ha
      have hf : (a :: l).filter (fun v => v.tx_created != tid) = a :: l := by
        rw [List.filter_eq_self]
        intro x hx
        rcases List.mem_cons.1 hx with h | h
        · rw [h]; simpa using ha
        · simpa using h2 x h
      rw [hf]; exact h1

end storage

namespace storage.Storage

theorem MvccInv_Access {s : Storage} (htx : TxInv s) (hm : MvccInv s) :
    MvccInv s.Access.2 := by
  have hold : ∀ t, t ∈ s.accessors → t.id ≤ s.engine.counter := fun t ht =>
    htx.active_le _ (htx.acc_active t ht)
  refine ⟨?_, ?_⟩
  · intro t ht t2 ht2 hid
    simp only [Access, tx.Engine.Begin, tx.Engine.next_id, List.mem_append,
      List.mem_singleton] at ht ht2
    rcases ht with ht | ht <;> rcases ht2 with ht2 | ht2
    · exact hm.acc_unique t ht t2 ht2 hid
    · have := hold t ht; rw [ht2] at hid; simp only at hid; omega
    · have := hold t2 ht2; rw [ht] at hid; simp only at hid; omega
    · rw [ht, ht2]
  · intro ch hch
    have hok := hm.chains ch hch
    refine ⟨hok.ver_pos, ?_, ?_, ?_⟩
    · intro v hv
      have := hok.ver_le v hv
      simp only [Access, tx.Engine.Begin, tx.Engine.next_id]; omega
    · intro t ht v hv hc
      simp only [Access, tx.Engine.Begin, tx.Engine.next_id, List.mem_append,
        List.mem_singleton] at ht
      rcases ht with ht | ht
      · exact hok.ver_cmd t ht v hv hc
      · have := hok.ver_le v hv
        rw [ht] at hc; simp only at hc; omega
    · apply hok.adj.imp
      intro a b hl
      apply Linked_mono _ hl
      intro hcom
      have hle := htx.log_le b.tx_created (by
        unfold tx.Engine.GlobalInfo at hcom; rw [hcom]; decide)
      simp only [Access, tx.Engine.Begin, tx.Engine.next_id, tx.Engine.GlobalInfo]
      rw [Function.update_noteq (by omega)]
      exact hcom

theorem MvccInv_AdvanceCommand {s : Storage} (hm : MvccInv s) (tid : Nat) :
    MvccInv (s.AdvanceCommand tid) := by
  have hpre : ∀ t2, t2 ∈ (s.AdvanceCommand tid).accessors →
      ∃ t, t ∈ s.accessors ∧ t2.id = t.id ∧ t.cmd ≤ t2.cmd ∧
        t2 = (if t.id == tid then { t with cmd := t.cmd + 1 } else t) := by
    intro t2 ht2
    simp only [AdvanceCommand, List.mem_map] at ht2
    obtain ⟨t, ht, heq⟩ := ht2
    refine ⟨t, ht, ?_, ?_, heq.symm⟩
    · split at heq <;> rw [← heq]
    · split at heq
      · rw [← heq]; simp
      · rw [← heq]
  refine ⟨?_, ?_⟩
  · intro t ht t2 ht2 hid
    obtain ⟨a, ha, hia, _, hea⟩ := hpre t ht
    obtain ⟨b, hb, hib, _, heb⟩ := hpre t2 ht2
    have : a = b := hm.acc_unique a ha b hb (by rw [← hia, ← hib]; exact hid)
    rw [hea, heb, this]
  · intro ch hch
    have hok := hm.chains ch hch
    refine ⟨hok.ver_pos, hok.ver_le, ?_, hok.adj⟩
    intro t2 ht2 v hv hc
    obtain ⟨a, ha, hia, hca, _⟩ := hpre t2 ht2
    have := hok.ver_cmd a ha v hv (by rw [hc, hia])
    omega

theorem MvccInv_Commit {s : Storage} (hm : MvccInv s) (tid : Nat)
    (r : Unit × Storage) (hr : s.Commit tid = Except.ok r) : MvccInv r.2 := by
  unfold Commit at hr
  cases ha : s.accessor tid with
  | none => rw [ha] at hr; simp at hr
  | some t =>
    rw [ha] at hr
    simp only [Except.ok.injEq] at hr
    rw [← hr]
    refine ⟨?_, ?_⟩
    · intro t1 ht1 t2 ht2 hid
      simp only [List.mem_filter] at ht1 ht2
      exact hm.acc_unique t1 ht1.1 t2 ht2.1 hid
    · intro ch2 hch2
      obtain ⟨ch, hch, _, hv⟩ := mem_releaseLocks hch2
      have hok := hm.chains ch hch
      refine ⟨?_, ?_, ?_, ?_⟩
      · rw [hv]; exact hok.ver_pos
      · rw [hv]; intro v hvm
        have := hok.ver_le v hvm
        simp only [tx.Engine.Commit]; omega
      · rw [hv]; intro t1 ht1 v hvm hc
        simp only [List.mem_filter] at ht1
        exact hok.ver_cmd t1 ht1.1 v hvm hc
      · rw [hv]
        apply hok.adj.imp
        intro a b hl
        apply Linked_mono _ hl
        intro hcom
        simp only [tx.Engine.Commit, tx.Engine.GlobalInfo]
        by_cases hb : b.tx_created = tid
        · rw [hb, Function.update_same]
        · rw [Function.update_noteq hb]; exact hcom

theorem MvccInv_Abort {s : Storage} (htx : TxInv s) (hm : MvccInv s) (tid : Nat)
    (r : Unit × Storage) (hr : s.Abort tid = Except.ok r) : MvccInv r.2 := by
  unfold Abort at hr
  cases ha : s.accessor tid with
  | none => rw [ha] at hr; simp at hr
  | some t =>
    rw [ha] at hr
    simp only [Except.ok.injEq] at hr
    rw [← hr]
    have hat := accessor_some ha
    have hnc : s.engine.GlobalInfo tid ≠ tx.Status.Committed := by
      have := htx.active_status _ (htx.acc_active t hat.1)
      rw [hat.2] at this
      unfold tx.Engine.GlobalInfo; rw [this]; decide
    refine ⟨?_, ?_⟩
    · intro t1 ht1 t2 ht2 hid
      simp only [List.mem_filter] at ht1 ht2
      exact hm.acc_unique t1 ht1.1 t2 ht2.1 hid
    · intro ch2 hch2
      simp only [List.mem_map] at hch2
      obtain ⟨ch1, hch1, heq⟩ := hch2
      obtain ⟨ch, hch, _, hv⟩ := mem_releaseLocks hch1
      have hok := hm.chains ch hch
      rw [← heq]
      simp only [hv]
      refine ⟨?_, ?_, ?_, ?_⟩
      · intro v hvm; exact hok.ver_pos v (List.mem_filter.1 hvm).1
      · intro v hvm; exact hok.ver_le v (List.mem_filter.1 hvm).1
      · intro t1 ht1 v hvm hc
        simp only [List.mem_filter] at ht1
        exact hok.ver_cmd t1 ht1.1 v (List.mem_filter.1 hvm).1 hc
      · apply (chain'_filter_abort hnc ch.versions hok.adj).imp
        intro a b hl
        apply Linked_mono _ hl.1
        intro hcom
        simp only [tx.Engine.Abort, tx.Engine.GlobalInfo]
        rw [Function.update_noteq hl.2]; exact hcom

theorem MvccInv_step {s : Storage} (hinv : IndexInv s) (htx : TxInv s) (hm : MvccInv s)
    (op : Op) : MvccInv (s.step op) := by
  rcases step_shape s op with ⟨he, ha, _, _, hv⟩ | hop | ⟨tid, hop⟩ | ⟨tid, hop⟩ | ⟨tid, hop⟩
  · exact MvccInv_data hinv htx hm he ha hv
  · subst hop; exact MvccInv_Access htx hm
  · subst hop; exact MvccInv_AdvanceCommand hm tid
  · subst hop
    simp only [step]
    cases h : s.Commit tid with
    | error e => exact hm
    | ok r => exact MvccInv_Commit hm tid r h
  · subst hop
    simp only [step]
    cases h : s.Abort tid with
    | error e => exact hm
    | ok r => exact MvccInv_Abort htx hm tid r h

theorem MvccInv_foldl (ops : List Op) :
    ∀ s : Storage, IndexInv s → TxInv s → MvccInv s → MvccInv (ops.foldl step s) := by
  induction ops with
  | nil => intro s _ _ h; exact h
  | cons op ops ih =>
    intro s h1 h2 h3
    exact ih _ (step_inv h1 op) (TxInv_step h2 op) (MvccInv_step h1 h2 h3 op)

theorem MvccInv_run (registered : List (Nat × Nat)) (ops : List Op) :
    MvccInv (run registered ops) :=
  MvccInv_foldl ops _ (init_inv registered) (TxInv_init registered)
    ⟨by simp [init], by simp [init]⟩

end storage.Storage

namespace storage

/-! ### Snapshots and locks along the version chains -/

theorem writeHead_cases (t : Transaction) (f : Vertex → Vertex) (ch : VersionChain) :
    (ch.versions = [] ∧ writeHead t f ch = ch) ∨
      (∃ h rest, ch.versions = h :: rest ∧ h.tx_created = t.id ∧
        writeHead t f ch =
          { ch with lock := some t.id, versions := { h with payload := f h.payload } :: rest }) ∨
      (∃ h rest, ch.versions = h :: rest ∧
        writeHead t f ch =
          { ch with
            lock := some t.id
            versions :=
              { tx_created := t.id, cmd_created := t.cmd, tx_expired := 0, cmd_expired := 0,
                payload := f h.payload }
                :: { h with tx_expired := t.id, cmd_expired := t.cmd } :: rest }) := by
  unfold writeHead
  cases hv : ch.versions with
  | nil => exact Or.inl ⟨rfl, rfl⟩
  | cons h rest =>
    simp only
    by_cases hc : (h.tx_created == t.id && h.cmd_created == t.cmd) = true
    · rw [if_pos hc]
      simp only [Bool.and_eq_true, beq_iff_eq] at hc
      exact Or.inr (Or.inl ⟨h, rest, rfl, hc.1, rfl⟩)
    · rw [if_neg hc]
      exact Or.inr (Or.inr ⟨h, rest, rfl, rfl⟩)

theorem expireHead_cases (t : Transaction) (ch : VersionChain) :
    (ch.versions = [] ∧ expireHead t ch = ch) ∨
      (∃ h rest, ch.versions = h :: rest ∧
        expireHead t ch =
          { ch with
            lock := some t.id
            versions := { h with tx_expired := t.id, cmd_expired := t.cmd } :: rest }) := by
  unfold expireHead
  cases hv : ch.versions with
  | nil => exact Or.inl ⟨rfl, rfl⟩
  | cons h rest => exact Or.inr ⟨h, rest, rfl, rfl⟩

theorem sees_of_createdVisible {e : tx.Engine} {t : Transaction} {view : View} {v : Version}
    (h : createdVisible e t view v = true) : Sees t v.tx_created := by
  simp only [createdVisible, Bool.or_eq_true, Bool.and_eq_true, decide_eq_true_eq,
    beq_iff_eq, Bool.not_eq_true'] at h
  rcases h with ⟨⟨_, h2⟩, h3⟩ | ⟨h1, _⟩
  · exact Or.inr ⟨h3, by simpa using h2⟩
  · exact Or.inl h1

theorem WriterHead_of_guard {e : tx.Engine} {t : Transaction} {ch : VersionChain}
    {h : Version} (hg : headGuard e t ch = Except.ok h) : WriterHead e t ch := by
  unfold headGuard at hg
  split at hg
  · simp at hg
  · rename_i hd rest heq
    split at hg
    · simp at hg
    · rename_i hlock
      split at hg
      · simp at hg
      · rename_i hconf
        split at hg
        · simp at hg
        · rename_i hvis
          refine ⟨?_, ?_⟩
          · intro owner ho
            rw [ho] at hlock
            simpa using hlock
          · intro h2 rest2 hv2
            rw [heq] at hv2
            simp only [List.cons.injEq] at hv2
            rw [← hv2.1]
            have hv : visible e t View.NEW hd = true := by simpa using hvis
            simp only [visible, Bool.and_eq_true] at hv
            simp only [Bool.or_eq_true, not_or, Bool.not_eq_true] at hconf
            exact ⟨sees_of_createdVisible hv.1, Or.inr ⟨hv.2, hconf.2⟩⟩

theorem ChainSnap_congr {s s2 : Storage} {ch : VersionChain} (he : s2.engine = s.engine)
    (ha : s2.accessors = s.accessors) (h : ChainSnap s ch) : ChainSnap s2 ch := by
  refine ⟨?_, ?_, ?_⟩
  · rw [ha]; exact h.closed
  · rw [he]; exact h.exp_le
  · rw [ha]; exact h.locked

theorem pairwise_head_created {t : Transaction} (h h2 : Version) {rest : List Version}
    (hc : h2.tx_created = h.tx_created)
    (hp : (h :: rest).Pairwise (fun a b => Sees t a.tx_created → Sees t b.tx_created)) :
    (h2 :: rest).Pairwise (fun a b => Sees t a.tx_created → Sees t b.tx_created) := by
  rw [List.pairwise_cons] at hp ⊢
  refine ⟨?_, hp.2⟩
  intro b hb hs
  rw [hc] at hs
  exact hp.1 b hb hs

/-- A write through a guarded head keeps the chain in order towards the open
accessors, and leaves a head the writer may write again. -/
theorem ChainSnap_writeHead {s : Storage} {t : Transaction} {ch : VersionChain}
    (f : Vertex → Vertex) (htx : TxInv s) (hm : MvccInv s)
    (hfin : ∀ t, t ∈ s.accessors → ∀ x, x < t.id → x ∉ t.snapshot → x ∉ s.engine.active)
    (ht : t ∈ s.accessors) (hP : ChainSnap s ch) (hH : WriterHead s.engine t ch) :
    ChainSnap s (writeHead t f ch) ∧ WriterHead s.engine t (writeHead t f ch) := by
  have hact := htx.acc_active t ht
  have hle := htx.active_le _ hact
  rcases writeHead_cases t f ch with ⟨_, heq⟩ | ⟨h, rest, hv, hc, heq⟩ | ⟨h, rest, hv, heq⟩
  · rw [heq]; exact ⟨hP, hH⟩
  · rw [heq]
    have hold : ∀ t2, t2 ∈ s.accessors → ∀ v, v ∈ h :: rest →
        (v.tx_created = t2.id ∨ v.tx_expired = t2.id) → t2.id = t.id := by
      intro t2 ht2 v hvm hst
      exact (hH.1 _ (hP.locked t2 ht2 v (by rw [hv]; exact hvm) hst))
    refine ⟨⟨?_, ?_, ?_⟩, ?_, ?_⟩
    · intro t2 ht2
      have := hP.closed t2 ht2
      rw [hv] at this
      exact pairwise_head_created h _ rfl this
    · intro v hvm
      rcases List.mem_cons.1 hvm with h1 | h1
      · rw [h1]; exact hP.exp_le h (by rw [hv]; exact List.mem_cons_self _ _)
      · exact hP.exp_le v (by rw [hv]; exact List.mem_cons_of_mem _ h1)
    · intro t2 ht2 v hvm hst
      have : t2.id = t.id := by
        rcases List.mem_cons.1 hvm with h1 | h1
        · rw [h1] at hst
          exact hold t2 ht2 h (List.mem_cons_self _ _) hst
        · exact hold t2 ht2 v (List.mem_cons_of_mem _ h1) hst
      simp only [this]
    · intro owner ho
      simp only [Option.some.injEq] at ho
      exact ho.symm
    · intro h2 rest2 hv2
      simp only [List.cons.injEq] at hv2
      rw [← hv2.1]
      exact ⟨Or.inl hc, Or.inl hc⟩
  · rw [heq]
    have hold : ∀ t2, t2 ∈ s.accessors → ∀ v, v ∈ h :: rest →
        (v.tx_created = t2.id ∨ v.tx_expired = t2.id) → t2.id = t.id := by
      intro t2 ht2 v hvm hst
      exact (hH.1 _ (hP.locked t2 ht2 v (by rw [hv]; exact hvm) hst))
    refine ⟨⟨?_, ?_, ?_⟩, ?_, ?_⟩
    · intro t2 ht2
      have hcl := hP.closed t2 ht2
      rw [hv] at hcl
      have hcl2 : (({ h with tx_expired := t.id, cmd_expired := t.cmd } : Version) :: rest).Pairwise
          (fun a b => Sees t2 a.tx_created → Sees t2 b.tx_created) :=
        pairwise_head_created h _ rfl hcl
      refine List.pairwise_cons.2 ⟨?_, hcl2⟩
      intro b hb hs
      simp only at hs
      rcases hs with hs | hs
      · have ht2eq : t2 = t := hm.acc_unique t2 ht2 t ht hs.symm
        subst ht2eq
        have hsh : Sees t2 h.tx_created := (hH.2 h rest hv).1
        rcases List.mem_cons.1 hb with h1 | h1
        · rw [h1]; exact hsh
        · exact (List.pairwise_cons.1 hcl).1 b h1 hsh
      · exact absurd hact (hfin t2 ht2 t.id hs.1 hs.2)
    · intro v hvm
      simp only [List.mem_cons] at hvm
      rcases hvm with h1 | h1 | h1
      · rw [h1]; exact Nat.zero_le _
      · rw [h1]; exact hle
      · exact hP.exp_le v (by rw [hv]; exact List.mem_cons_of_mem _ h1)
    · intro t2 ht2 v hvm hst
      have hpos := htx.acc_pos t2 ht2
      have : t2.id = t.id := by
        simp only [List.mem_cons] at hvm
        rcases hvm with h1 | h1 | h1
        · rw [h1] at hst
          simp only at hst
          rcases hst with h2 | h2
          · exact h2.symm
          · omega
        · rw [h1] at hst
          simp only at hst
          rcases hst with h2 | h2
          · exact hold t2 ht2 h (List.mem_cons_self _ _) (Or.inl h2)
          · exact h2.symm
        · exact hold t2 ht2 v (List.mem_cons_of_mem _ h1) hst
      simp only [this]
    · intro owner ho
      simp only [Option.some.injEq] at ho
      exact ho.symm
    · intro h2 rest2 hv2
      simp only [List.cons.injEq] at hv2
      rw [← hv2.1]
      exact ⟨Or.inl rfl, Or.inl rfl⟩

theorem ChainSnap_expireHead {s : Storage} {t : Transaction} {ch : VersionChain}
    (htx : TxInv s) (ht : t ∈ s.accessors) (hP : ChainSnap s ch)
    (hH : WriterHead s.engine t ch) : ChainSnap s (expireHead t ch) := by
  have hle := htx.active_le _ (htx.acc_active t ht)
  rcases expireHead_cases t ch with ⟨_, heq⟩ | ⟨h, rest, hv, heq⟩
  · rw [heq]; exact hP
  · rw [heq]
    have hold : ∀ t2, t2 ∈ s.accessors → ∀ v, v ∈ h :: rest →
        (v.tx_created = t2.id ∨ v.tx_expired = t2.id) → t2.id = t.id := by
      intro t2 ht2 v hvm hst
      exact (hH.1 _ (hP.locked t2 ht2 v (by rw [hv]; exact hvm) hst))
    refine ⟨?_, ?_, ?_⟩
    · intro t2 ht2
      have := hP.closed t2 ht2
      rw [hv] at this
      exact pairwise_head_created h _ rfl this
    · intro v hvm
      rcases List.mem_cons.1 hvm with h1 | h1
      · rw [h1]; exact hle
      · exact hP.exp_le v (by rw [hv]; exact List.mem_cons_of_mem _ h1)
    · intro t2 ht2 v hvm hst
      have : t2.id = t.id := by
        rcases List.mem_cons.1 hvm with h1 | h1
        · rw [h1] at hst
          simp only at hst
          rcases hst with h2 | h2
          · exact hold t2 ht2 h (List.mem_cons_self _ _) (Or.inl h2)
          · exact h2.symm
        · exact hold t2 ht2 v (List.mem_cons_of_mem _ h1) hst
      simp only [this]

/-- Writes through the chains of one vertex, threaded through a list of
chains: what holds of every chain (`P`) and of the chains of a vertex about to
be written (`H`) still does afterwards. -/
theorem write_thread (t : Transaction) (f : Vertex → Vertex) (gid : Nat)
    (P H : VersionChain → Prop)
    (hw : ∀ ch, P ch → H ch → P (writeHead t f ch) ∧ H (writeHead t f ch))
    (l : List VersionChain) (hP : ∀ ch, ch ∈ l → P ch)
    (hH : ∀ ch, ch ∈ l → ch.gid = gid → H ch) :
    (∀ ch, ch ∈ updateChain gid (writeHead t f) l → P ch) ∧
      ∀ g2, (∀ ch, ch ∈ l → ch.gid = g2 → H ch) →
        ∀ ch, ch ∈ updateChain gid (writeHead t f) l → ch.gid = g2 → H ch := by
  constructor
  · intro ch2 hch2
    obtain ⟨ch, hch, hcase⟩ := mem_updateChain hch2
    rcases hcase with ⟨hg, heq⟩ | ⟨_, heq⟩
    · rw [heq]; exact (hw ch (hP ch hch) (hH ch hch hg)).1
    · rw [heq]; exact hP ch hch
  · intro g2 h2 ch2 hch2 hg2
    obtain ⟨ch, hch, hcase⟩ := mem_updateChain hch2
    rcases hcase with ⟨hg, heq⟩ | ⟨_, heq⟩
    · rw [heq]
      exact (hw ch (hP ch hch) (hH ch hch hg)).2
    · rw [heq] at hg2 ⊢
      exact h2 ch hch hg2

end storage

namespace storage.Storage

theorem SnapInv_data {s s2 : Storage} (hinv : IndexInv s) (htx : TxInv s) (hm : MvccInv s)
    (hs : SnapInv s) (he : s2.engine = s.engine) (ha : s2.accessors = s.accessors)
    {tid : Nat} (hv : VerticesStep s tid s2.vertices) : SnapInv s2 := by
  refine ⟨by rw [ha, he]; exact hs.finished, ?_⟩
  intro ch2 hch2
  apply ChainSnap_congr he ha
  have hguard : ∀ (t : Transaction) (g : Nat) (c0 : VersionChain) (h0 : Version),
      s.chain g = some c0 → headGuard s.engine t c0 = Except.ok h0 →
      ∀ ch, ch ∈ s.vertices → ch.gid = g → WriterHead s.engine t ch := by
    intro t g c0 h0 hc hg ch hch hgid
    have h0' := chain_some hc
    have heq : ch = c0 := chain_unique hinv hch h0'.1 (by rw [hgid, h0'.2])
    subst heq
    exact WriterHead_of_guard hg
  generalize s2.vertices = l2 at hv hch2
  cases hv with
  | same => exact hs.chains ch2 hch2
  | write t ch0 hd gid f ht _ hc hg =>
    exact (write_thread t f gid (ChainSnap s) (WriterHead s.engine t)
      (fun ch hP hH => ChainSnap_writeHead f htx hm hs.finished ht hP hH) s.vertices
      hs.chains (hguard t gid ch0 hd hc hg)).1 ch2 hch2
  | write2 t c1 c2 h1 h2 g1 g2 f1 f2 ht _ hc1 hg1 hc2 hg2 =>
    have st1 := write_thread t f1 g1 (ChainSnap s) (WriterHead s.engine t)
      (fun ch hP hH => ChainSnap_writeHead f1 htx hm hs.finished ht hP hH) s.vertices
      hs.chains (hguard t g1 c1 h1 hc1 hg1)
    exact (write_thread t f2 g2 (ChainSnap s) (WriterHead s.engine t)
      (fun ch hP hH => ChainSnap_writeHead f2 htx hm hs.finished ht hP hH) _ st1.1
      (st1.2 g2 (hguard t g2 c2 h2 hc2 hg2))).1 ch2 hch2
  | expire t ch0 hd gid ht _ hc hg =>
    obtain ⟨ch, hch, hcase⟩ := mem_updateChain hch2
    rcases hcase with ⟨hgid, heq⟩ | ⟨_, heq⟩
    · rw [heq]
      exact ChainSnap_expireHead htx ht (hs.chains ch hch) (hguard t gid ch0 hd hc hg ch hch hgid)
    · rw [heq]; exact hs.chains ch hch
  | create t ht _ =>
    simp only [List.mem_append, List.mem_singleton] at hch2
    rcases hch2 with h | h
    · exact hs.chains ch2 h
    · rw [h]
      refine ⟨?_, ?_, ?_⟩
      · intro t2 _
        exact List.pairwise_singleton _ _
      · intro v hv
        simp only [List.mem_singleton] at hv
        rw [hv]; exact Nat.zero_le _
      · intro t2 ht2 v hv hst
        simp only [List.mem_singleton] at hv
        rw [hv] at hst
        simp only at hst
        have hpos := htx.acc_pos t2 ht2
        rcases hst with h2 | h2
        · simp only [h2]
        · omega

theorem not_active_below {s : Storage} (htx : TxInv s) :
    ∀ (l : List Version) (a : Version), (a :: l).Chain' (Linked s.engine) →
      a.tx_created ∉ s.engine.active → ∀ b, b ∈ l → b.tx_created ∉ s.engine.active := by
  intro l
  induction l with
  | nil => intro a _ _ b hb; simp at hb
  | cons b0 l ih =>
    intro a hch ha b hb
    have hc := List.chain'_cons.1 hch
    have hb0 : b0.tx_created ∉ s.engine.active := by
      rcases hc.1.2.2.2 with h | h
      · rw [h]; exact ha
      · intro hact
        have := htx.active_status _ hact
        unfold tx.Engine.GlobalInfo at h
        rw [h] at this
        exact absurd this (by decide)
    rcases List.mem_cons.1 hb with h | h
    · rw [h]; exact hb0
    · exact ih b0 hc.2 hb0 b h

theorem pairwise_not_active {s : Storage} (htx : TxInv s) :
    ∀ l : List Version, l.Chain' (Linked s.engine) →
      l.Pairwise (fun a b => a.tx_created ∉ s.engine.active → b.tx_created ∉ s.engine.active) := by
  intro l
  induction l with
  | nil => intro _; exact List.Pairwise.nil
  | cons a l ih =>
    intro hch
    refine List.pairwise_cons.2 ⟨?_, ?_⟩
    · intro b hb ha
      exact not_active_below htx l a hch ha b hb
    · cases l with
      | nil => exact List.Pairwise.nil
      | cons b l2 => exact ih (List.chain'_cons.1 hch).2

theorem SnapInv_Access {s : Storage} (htx : TxInv s) (hm : MvccInv s) (hs : SnapInv s) :
    SnapInv s.Access.2 := by
  have hold : ∀ t, t ∈ s.accessors → t.id ≤ s.engine.counter := fun t ht =>
    htx.active_le _ (htx.acc_active t ht)
  refine ⟨?_, ?_⟩
  · intro t ht x hx hsn
    simp only [Access, tx.Engine.Begin, tx.Engine.next_id, List.mem_append,
      List.mem_singleton] at ht ⊢
    rcases ht with ht | ht
    · have := hold t ht
      rintro (h | h)
      · exact hs.finished t ht x hx hsn h
      · omega
    · rw [ht] at hx hsn
      simp only at hx hsn
      rintro (h | h)
      · exact hsn h
      · omega
  · intro ch hch
    have hch0 : ch ∈ s.vertices := hch
    have hok := hm.chains ch hch0
    have hcs := hs.chains ch hch0
    refine ⟨?_, ?_, ?_⟩
    · intro t ht
      simp only [Access, tx.Engine.Begin, tx.Engine.next_id, List.mem_append,
        List.mem_singleton] at ht
      rcases ht with ht | ht
      · exact hcs.closed t ht
      · rw [ht]
        apply (pairwise_not_active htx ch.versions hok.adj).imp_of_mem
        intro a b ham hbm hab hsa
        have hla := hok.ver_le a ham
        have hlb := hok.ver_le b hbm
        simp only [Sees] at hsa ⊢
        rcases hsa with h | h
        · omega
        · right
          exact ⟨by omega, hab h.2⟩
    · intro v hv
      have := hcs.exp_le v hv
      simp only [Access, tx.Engine.Begin, tx.Engine.next_id]; omega
    · intro t ht v hv hst
      simp only [Access, tx.Engine.Begin, tx.Engine.next_id, List.mem_append,
        List.mem_singleton] at ht
      rcases ht with ht | ht
      · exact hcs.locked t ht v hv hst
      · have h1 := hok.ver_le v hv
        have h2 := hcs.exp_le v hv
        rw [ht] at hst
        simp only at hst
        omega

theorem SnapInv_AdvanceCommand {s : Storage} (hs : SnapInv s) (tid : Nat) :
    SnapInv (s.AdvanceCommand tid) := by
  have hpre : ∀ t2, t2 ∈ (s.AdvanceCommand tid).accessors →
      ∃ t, t ∈ s.accessors ∧ t2.id = t.id ∧ t2.snapshot = t.snapshot := by
    intro t2 ht2
    simp only [AdvanceCommand, List.mem_map] at ht2
    obtain ⟨t, ht, heq⟩ := ht2
    refine ⟨t, ht, ?_, ?_⟩
    · split at heq <;> rw [← heq]
    · split at heq <;> rw [← heq]
  refine ⟨?_, ?_⟩
  · intro t2 ht2 x hx hsn
    obtain ⟨t, ht, hid, hsnap⟩ := hpre t2 ht2
    rw [hid] at hx
    rw [hsnap] at hsn
    exact hs.finished t ht x hx hsn
  · intro ch hch
    have hcs := hs.chains ch hch
    refine ⟨?_, hcs.exp_le, ?_⟩
    · intro t2 ht2
      obtain ⟨t, ht, hid, hsnap⟩ := hpre t2 ht2
      have := hcs.closed t ht
      simp only [Sees, hid, hsnap]
      exact this
    · intro t2 ht2 v hv hst
      obtain ⟨t, ht, hid, _⟩ := hpre t2 ht2
      rw [hid] at hst ⊢
      exact hcs.locked t ht v hv hst

theorem mem_releaseLocks_lock {tid : Nat} {chains : List VersionChain} {ch2 : VersionChain}
    (h : ch2 ∈ releaseLocks tid chains) :
    ∃ ch, ch ∈ chains ∧ ch2.versions = ch.versions ∧
      (ch.lock ≠ some tid → ch2.lock = ch.lock) := by
  unfold releaseLocks at h
  obtain ⟨ch, hch, heq⟩ := List.mem_map.1 h
  refine ⟨ch, hch, ?_⟩
  split at heq
  · rename_i hl
    rw [← heq]
    exact ⟨rfl, fun hne => absurd hl hne⟩
  · rw [← heq]
    exact ⟨rfl, fun _ => rfl⟩

theorem SnapInv_Commit {s : Storage} (hs : SnapInv s) (tid : Nat)
    (r : Unit × Storage) (hr : s.Commit tid = Except.ok r) : SnapInv r.2 := by
  unfold Commit at hr
  cases ha : s.accessor tid with
  | none => rw [ha] at hr; simp at hr
  | some t =>
    rw [ha] at hr
    simp only [Except.ok.injEq] at hr
    rw [← hr]
    refine ⟨?_, ?_⟩
    · intro t1 ht1 x hx hsn
      simp only [List.mem_filter] at ht1
      simp only [tx.Engine.Commit, List.mem_filter, not_and]
      intro hact
      exact absurd hact (hs.finished t1 ht1.1 x hx hsn)
    · intro ch2 hch2
      obtain ⟨ch, hch, hv, hl⟩ := mem_releaseLocks_lock hch2
      have hcs := hs.chains ch hch
      refine ⟨?_, ?_, ?_⟩
      · intro t1 ht1
        simp only [List.mem_filter] at ht1
        rw [hv]; exact hcs.closed t1 ht1.1
      · rw [hv]; intro v hvm
        have := hcs.exp_le v hvm
        simp only [tx.Engine.Commit]; omega
      · rw [hv]; intro t1 ht1 v hvm hst
        simp only [List.mem_filter, bne_iff_ne, ne_eq] at ht1
        have hlock := hcs.locked t1 ht1.1 v hvm hst
        rw [hl (by rw [hlock]; simpa using ht1.2), hlock]

theorem SnapInv_Abort {s : Storage} (hs : SnapInv s) (tid : Nat)
    (r : Unit × Storage) (hr : s.Abort tid = Except.ok r) : SnapInv r.2 := by
  unfold Abort at hr
  cases ha : s.accessor tid with
  | none => rw [ha] at hr; simp at hr
  | some t =>
    rw [ha] at hr
    simp only [Except.ok.injEq] at hr
    rw [← hr]
    refine ⟨?_, ?_⟩
    · intro t1 ht1 x hx hsn
      simp only [List.mem_filter] at ht1
      simp only [tx.Engine.Abort, List.mem_filter, not_and]
      intro hact
      exact absurd hact (hs.finished t1 ht1.1 x hx hsn)
    · intro ch2 hch2
      simp only [List.mem_map] at hch2
      obtain ⟨ch1, hch1, heq⟩ := hch2
      obtain ⟨ch, hch, hv, hl⟩ := mem_releaseLocks_lock hch1
      have hcs := hs.chains ch hch
      rw [← heq]
      simp only [hv]
      refine ⟨?_, ?_, ?_⟩
      · intro t1 ht1
        simp only [List.mem_filter] at ht1
        exact (hcs.closed t1 ht1.1).filter _
      · intro v hvm
        exact hcs.exp_le v (List.mem_filter.1 hvm).1
      · intro t1 ht1 v hvm hst
        simp only [List.mem_filter, bne_iff_ne, ne_eq] at ht1
        have hlock := hcs.locked t1 ht1.1 v (List.mem_filter.1 hvm).1 hst
        rw [hl (by rw [hlock]; simpa using ht1.2), hlock]

theorem SnapInv_step {s : Storage} (hinv : IndexInv s) (htx : TxInv s) (hm : MvccInv s)
    (hs : SnapInv s) (op : Op) : SnapInv (s.step op) := by
  rcases step_shape s op with ⟨he, ha, _, _, hv⟩ | hop | ⟨tid, hop⟩ | ⟨tid, hop⟩ | ⟨tid, hop⟩
  · exact SnapInv_data hinv htx hm hs he ha hv
  · subst hop; exact SnapInv_Access htx hm hs
  · subst hop; exact SnapInv_AdvanceCommand hs tid
  · subst hop
    simp only [step]
    cases h : s.Commit tid with
    | error e => exact hs
    | ok r => exact SnapInv_Commit hs tid r h
  · subst hop
    simp only [step]
    cases h : s.Abort tid with
    | error e => exact hs
    | ok r => exact SnapInv_Abort hs tid r h

theorem SnapInv_foldl (ops : List Op) :
    ∀ s : Storage, IndexInv s → TxInv s → MvccInv s → SnapInv s →
      SnapInv (ops.foldl step s) := by
  induction ops with
  | nil => intro s _ _ _ h; exact h
  | cons op ops ih =>
    intro s h1 h2 h3 h4
    exact ih _ (step_inv h1 op) (TxInv_step h2 op) (MvccInv_step h1 h2 h3 op)
      (SnapInv_step h1 h2 h3 h4 op)

theorem SnapInv_run (registered : List (Nat × Nat)) (ops : List Op) :
    SnapInv (run registered ops) :=
  SnapInv_foldl ops _ (init_inv registered) (TxInv_init registered)
    ⟨by simp [init], by simp [init]⟩ ⟨by simp [init], by simp [init]⟩

end storage.Storage

namespace storage.Storage

/-! ### Index scans are the filtered full scan -/

theorem DeleteVertex_ok {s s2 : Storage} {tid gid : Nat}
    (hr : s.DeleteVertex tid gid = Except.ok ((), s2)) :
    ∃ t ch0 hd, s.accessor tid = some t ∧ s.chain gid = some ch0 ∧
      headGuard s.engine t ch0 = Except.ok hd ∧
      s2 = { s with vertices := updateChain gid (expireHead t) s.vertices } := by
  unfold DeleteVertex at hr
  cases ha : s.accessor tid with
  | none => rw [ha] at hr; simp at hr
  | some t =>
    cases hc : s.chain gid with
    | none => rw [ha, hc] at hr; simp at hr
    | some ch0 =>
      cases hg : headGuard s.engine t ch0 with
      | error err => rw [ha, hc] at hr; simp only [hg] at hr; simp at hr
      | ok h =>
        rw [ha, hc] at hr
        simp only [hg] at hr
        split at hr
        · simp at hr
        · simp only [Except.ok.injEq, Prod.mk.injEq, true_and] at hr
          exact ⟨t, ch0, h, rfl, rfl, hg, hr.symm⟩

theorem entryMatches_eq (s : Storage) (t : Transaction) (view : View) (label property : Nat)
    (e : PropertyValue × Nat × Nat) :
    s.entryMatches t view label property e
      = match (s.visibleVersion t view e.2.1).map (fun v => v.payload) with
        | some p => p.HasLabel label && PropertyValue.eqv (p.GetProperty property) e.1
        | none => false := by
  unfold entryMatches
  cases s.visibleVersion t view e.2.1 <;> rfl

theorem frame_PropertyScan {s s2 : Storage} {t : Transaction} {view : View}
    (hidx : s2.label_property_index = s.label_property_index)
    (hview : ∀ g, (s2.visibleVersion t view g).map (fun v => v.payload)
      = (s.visibleVersion t view g).map (fun v => v.payload))
    (label property : Nat) (keep : PropertyValue → Bool) :
    s2.PropertyScan t label property view keep = s.PropertyScan t label property view keep := by
  unfold PropertyScan
  rw [hidx]
  congr 2
  apply List.filter_congr
  intro e _
  rw [entryMatches_eq, entryMatches_eq, hview]

theorem expire_reads_OLD {s : Storage} (hinv : IndexInv s) {t : Transaction} {gid : Nat}
    {ch0 : VersionChain} {hd : Version} (hc : s.chain gid = some ch0)
    (hg : headGuard s.engine t ch0 = Except.ok hd) :
    ∀ ch, ch ∈ s.vertices →
      ((fun ch => if ch.gid == gid then expireHead t ch else ch) ch).gid = ch.gid ∧
        seen s.engine t View.OLD ((fun ch => if ch.gid == gid then expireHead t ch else ch) ch)
          = seen s.engine t View.OLD ch := by
  intro ch hch
  simp only
  by_cases hgid : ch.gid = gid
  · have h0 := chain_some hc
    have heq : ch = ch0 := chain_unique hinv hch h0.1 (by rw [hgid, h0.2])
    subst heq
    obtain ⟨⟨rest, hv⟩, hvis, _⟩ := headGuard_ok hg
    have hb : (ch.gid == gid) = true := by simpa using hgid
    simp only [hb, if_true]
    exact ⟨expireHead_gid t ch, seen_OLD_expireHead hv hvis⟩
  · have : (ch.gid == gid) = false := by simpa using hgid
    simp only [this, Bool.false_eq_true, if_false, and_self]

/-- A vertex the accessor deleted is not in its full scan at `NEW`. -/
theorem deleted_not_in_NEW {s : Storage} (hinv : IndexInv s) (htx : TxInv s)
    (hm : MvccInv s) (hs : SnapInv s) {t : Transaction} {gid : Nat} {ch0 : VersionChain}
    {hd : Version}
    (ha : t ∈ s.accessors) (hc : s.chain gid = some ch0)
    (hg : headGuard s.engine t ch0 = Except.ok hd) :
    gid ∉ Vertices { s with vertices := updateChain gid (expireHead t) s.vertices } t
      View.NEW := by
  intro hmem
  obtain ⟨ch2, hch2, hgid2, hsome⟩ := mem_Vertices.1 hmem
  simp only at hch2 hsome
  obtain ⟨ch, hch, hcase⟩ := mem_updateChain hch2
  rcases hcase with ⟨hgid, heq⟩ | ⟨hne, heq⟩
  · have h0 := chain_some hc
    have hch0 : ch = ch0 := chain_unique hinv hch h0.1 (by rw [hgid, h0.2])
    subst hch0
    obtain ⟨⟨rest, hv⟩, hvis, _⟩ := headGuard_ok hg
    have hnc : s.engine.GlobalInfo t.id ≠ tx.Status.Committed := by
      have := htx.active_status _ (htx.acc_active t ha)
      unfold tx.Engine.GlobalInfo; rw [this]; decide
    have hnone := seen_NEW_expireHead (hm.chains ch hch) ha (htx.acc_pos t ha) hnc
      ((hs.chains ch hch).closed t ha) hv hvis
    unfold seen at hnone
    rw [heq] at hsome
    simp only [Option.map_eq_none'] at hnone
    rw [hnone] at hsome
    simp at hsome
  · rw [heq] at hgid2; exact hne hgid2

end storage.Storage

namespace storage.Storage

/-- C4: after any sequence of accessor operations, for every transaction, label,
property and view: the label index scan is the full scan filtered by the label
(the same list); for a registered pair the label+property scan is a permutation
of the full scan filtered by the label and a non-Null property, and the full
scan has no duplicates.  A vertex the accessor deletes is then absent from its
`NEW` scans, its `OLD` scans stay as they were, and after `AdvanceCommand` it is
absent from the `OLD` label scan as well. -/
theorem C4_index_scan_is_filtered_full_scan (registered : List (Nat × Nat)) (ops : List Op)
    (t : Transaction) (label property : Nat) (view : View) :
    (run registered ops).LabelVertices t label view
        = ((run registered ops).Vertices t view).filter
            (fun g => (run registered ops).HasLabel t view g label) ∧
      ((label, property) ∈ registered →
        ((run registered ops).LabelPropertyVertices t label property view).Perm
          (((run registered ops).Vertices t view).filter
            (fun g => (run registered ops).HasLabel t view g label
              && !((run registered ops).GetProperty t view g property).isNull))) ∧
      ((run registered ops).Vertices t view).Nodup ∧
      (∀ tid gid a s2, (run registered ops).accessor tid = some a →
        (run registered ops).DeleteVertex tid gid = Except.ok ((), s2) →
        gid ∉ s2.Vertices a View.NEW ∧ gid ∉ s2.LabelVertices a label View.NEW ∧
          gid ∉ s2.LabelPropertyVertices a label property View.NEW ∧
          s2.Vertices a View.OLD = (run registered ops).Vertices a View.OLD ∧
          s2.LabelVertices a label View.OLD
            = (run registered ops).LabelVertices a label View.OLD ∧
          s2.LabelPropertyVertices a label property View.OLD
            = (run registered ops).LabelPropertyVertices a label property View.OLD ∧
          gid ∉ (s2.AdvanceCommand tid).LabelVertices { a with cmd := a.cmd + 1 } label
            View.OLD) := by
  have hinv := run_inv registered ops
  have htx := TxInv_run registered ops
  have hm := MvccInv_run registered ops
  have hsn := SnapInv_run registered ops
  have hnd : ((run registered ops).Vertices t view).Nodup :=
    (Vertices_sorted hinv t view).imp (fun h => ne_of_lt h)
  refine ⟨LabelVertices_eq_filter hinv t label view, ?_, hnd, ?_⟩
  · intro hreg
    obtain ⟨h1, h2, h3⟩ := PropertyScan_spec hinv t label property view (fun _ => true)
      (fun _ _ _ => rfl)
    apply (List.perm_ext_iff_of_nodup h1 (hnd.filter _)).2
    intro g
    simp only [List.mem_filter, Bool.and_eq_true, Bool.not_eq_true']
    constructor
    · intro hg
      obtain ⟨a, b, c, _⟩ := h2 g hg
      exact ⟨a, b, c⟩
    · rintro ⟨a, b, c⟩
      exact h3 (by rw [run_registered]; exact hreg) g a b c rfl
  · intro tid gid a s2 hacc hdel
    have hinv2 : IndexInv s2 := DeleteVertex_inv hinv tid gid ((), s2) hdel
    obtain ⟨t2, ch0, hd, ha2, hc, hg, hs2⟩ := DeleteVertex_ok hdel
    rw [hacc] at ha2
    cases ha2
    have hnew : gid ∉ s2.Vertices a View.NEW := by
      rw [hs2]
      exact deleted_not_in_NEW hinv htx hm hsn (accessor_some hacc).1 hc hg
    have hfr := frame_view (fun ch => if ch.gid == gid then expireHead a ch else ch)
      (by rw [hs2] : s2.engine = (run registered ops).engine)
      (by rw [hs2]; rfl) (expire_reads_OLD hinv hc hg)
    have hlabNEW : gid ∉ s2.LabelVertices a label View.NEW := by
      rw [LabelVertices_eq_filter hinv2]
      exact fun h => hnew (List.mem_filter.1 h).1
    refine ⟨hnew, hlabNEW, ?_, hfr.1, ?_, ?_, ?_⟩
    · intro h
      exact hnew ((PropertyScan_spec hinv2 a label property View.NEW (fun _ => true)
        (fun _ _ _ => rfl)).2.1 gid h).1
    · exact frame_LabelVertices hinv hinv2 _ (by rw [hs2]) (by rw [hs2]; rfl)
        (expire_reads_OLD hinv hc hg) label
    · exact frame_PropertyScan (by rw [hs2]) hfr.2 label property _
    · rw [LabelVertices_AdvanceCommand]; exact hlabNEW

end storage.Storage

namespace storage

/-! ### What the operations of other transactions leave unchanged -/

/-- A version expired by a transaction that began after the reader, or was in
flight when the reader began, is not expired for the reader, whatever became
of that transaction. -/
theorem notExpired_unseen {e : tx.Engine} {R : Transaction} {w : Nat} (view : View)
    {v : Version} (hne : w ≠ R.id) (h2 : R.id < w ∨ w ∈ R.snapshot) (hx : v.tx_expired = w) :
    notExpired e R view v = true := by
  unfold notExpired
  rw [hx]
  have hid : (w != R.id) = true := by simpa using hne
  have h3 : (decide (R.id < w) || R.snapshot.contains w) = true := by
    rcases h2 with h | h
    · simp [h]
    · simp [h]
  rw [hid, Bool.or_assoc (decide (e.GlobalInfo w ≠ tx.Status.Committed)), h3]
  simp

/-- Settling or allocating the id `w`, which the reader `R` does not see and
which was not committed, changes the visibility of no version for `R`. -/
theorem visible_settle {e e2 : tx.Engine} {R : Transaction} {w : Nat} (view : View)
    (v : Version) (hlog : ∀ x, x ≠ w → e2.GlobalInfo x = e.GlobalInfo x)
    (hpre : e.GlobalInfo w ≠ tx.Status.Committed) (hne : w ≠ R.id)
    (hns : ¬ (w < R.id ∧ w ∉ R.snapshot)) :
    visible e2 R view v = visible e R view v := by
  have hc : createdVisible e2 R view v = createdVisible e R view v := by
    unfold createdVisible
    by_cases h : v.tx_created = w
    · have hid : (v.tx_created == R.id) = false := by rw [h]; simpa using hne
      have h1 : decide (e.GlobalInfo v.tx_created = tx.Status.Committed) = false := by
        rw [h]; simpa using hpre
      have h2 : (!R.snapshot.contains v.tx_created && decide (v.tx_created < R.id)) = false := by
        rw [h]
        by_cases h3 : w ∈ R.snapshot
        · simp [h3]
        · have : ¬ w < R.id := fun h4 => hns ⟨h4, h3⟩
          simp [this]
      rw [hid, h1, Bool.and_assoc, h2]
      simp
    · rw [hlog _ h]
  have hx : notExpired e2 R view v = notExpired e R view v := by
    by_cases h : v.tx_expired = w
    · have h2 : R.id < w ∨ w ∈ R.snapshot := by
        by_cases h3 : w ∈ R.snapshot
        · exact Or.inr h3
        · have : ¬ w < R.id := fun h4 => hns ⟨h4, h3⟩
          exact Or.inl (by omega)
      rw [notExpired_unseen view hne h2 h, notExpired_unseen view hne h2 h]
    · unfold notExpired
      rw [hlog _ h]
  unfold visible
  rw [hc, hx]

/-- A version written by another transaction that is not committed is invisible. -/
theorem visible_created_other {e : tx.Engine} {R : Transaction} {w : Nat} (view : View)
    {v : Version} (hne : w ≠ R.id) (hnc : e.GlobalInfo w ≠ tx.Status.Committed)
    (hc : v.tx_created = w) : visible e R view v = false := by
  unfold visible createdVisible
  rw [hc]
  have hid : (w == R.id) = false := by simpa using hne
  have h1 : decide (e.GlobalInfo w = tx.Status.Committed) = false := by simpa using hnc
  rw [hid, h1]
  simp

/-- A version expired by another transaction that is not committed is not
expired for the reader. -/
theorem notExpired_by_other {e : tx.Engine} {R : Transaction} {w : Nat} (view : View)
    {v : Version} (hne : w ≠ R.id) (hnc : e.GlobalInfo w ≠ tx.Status.Committed)
    (hx : v.tx_expired = w) : notExpired e R view v = true := by
  unfold notExpired
  rw [hx]
  have hid : (w != R.id) = true := by simpa using hne
  have h1 : decide (e.GlobalInfo w ≠ tx.Status.Committed) = true := by simpa using hnc
  rw [hid, h1]
  simp

/-- A head the writer `t` may write carries no expiry that another reader
sees: it is not expired for any reader that has not expired it itself. -/
theorem notExpired_of_writer {e : tx.Engine} {R t : Transaction} (view : View) {h : Version}
    (hnc : e.GlobalInfo t.id ≠ tx.Status.Committed) (hexp : h.tx_expired ≠ R.id)
    (hw : notExpired e t View.NEW h = true) (hcf : conflictStamp e t h.tx_expired = false) :
    notExpired e R view h = true := by
  by_cases hz : h.tx_expired = 0
  · unfold notExpired; rw [hz]; simp
  by_cases hcm : e.GlobalInfo h.tx_expired = tx.Status.Committed
  · exfalso
    have hnt : h.tx_expired ≠ t.id := by
      intro h1; rw [h1] at hcm; exact hnc hcm
    simp only [conflictStamp, Bool.and_eq_false_imp, Bool.and_eq_true, bne_iff_ne, ne_eq,
      decide_eq_true_eq, Bool.or_eq_false_iff, decide_eq_false_iff_not, and_imp] at hcf
    have h2 := hcf hnt hcm
    simp only [notExpired, Bool.or_eq_true, Bool.and_eq_true, beq_iff_eq, bne_iff_ne, ne_eq,
      decide_eq_true_eq, Bool.not_eq_true', decide_eq_false_iff_not] at hw
    have hs : ¬ (t.snapshot.contains h.tx_expired = true) := by simpa using h2.1
    rcases hw with ((hw | hw) | hw) | hw
    · exact hz hw
    · rcases hw.2 with (h3 | h3) | h3
      · exact h3 hcm
      · exact h2.2 h3
      · exact hs h3
    · exact hnt hw.1
    · have := hw.2
      have h4 := h2.2
      omega
  · exact notExpired_by_other view hexp hcm rfl

/-- The create half of the visibility rule looks at the creation stamp only. -/
theorem createdVisible_congr (e : tx.Engine) (R : Transaction) (view : View) {a b : Version}
    (h1 : a.tx_created = b.tx_created) (h2 : a.cmd_created = b.cmd_created) :
    createdVisible e R view a = createdVisible e R view b := by
  unfold createdVisible
  rw [h1, h2]

/-- A write of another transaction through a guarded head changes nothing of
what the reader `R` sees of the chain. -/
theorem seen_writeHead_other {s : Storage} {R t : Transaction} {ch : VersionChain}
    (f : Vertex → Vertex) (view : View) (hR : R ∈ s.accessors) (hne : t.id ≠ R.id)
    (hnc : s.engine.GlobalInfo t.id ≠ tx.Status.Committed) (hP : ChainSnap s ch)
    (hH : WriterHead s.engine t ch) :
    seen s.engine R view (writeHead t f ch) = seen s.engine R view ch := by
  have hexp : ∀ v, v ∈ ch.versions → v.tx_expired ≠ R.id := by
    intro v hv hx
    exact hne (hH.1 _ (hP.locked R hR v hv (Or.inr hx))).symm
  rcases writeHead_cases t f ch with ⟨_, heq⟩ | ⟨h, rest, hv, hc, heq⟩ | ⟨h, rest, hv, heq⟩
  · rw [heq]
  · rw [heq]
    unfold seen
    rw [hv]
    have h1 : visible s.engine R view h = false := visible_created_other view hne hnc hc
    have h2 : visible s.engine R view { h with payload := f h.payload } = false :=
      visible_created_other view hne hnc hc
    simp only [List.find?_cons, h1, h2]
  · rw [heq]
    unfold seen
    rw [hv]
    have h1 : visible s.engine R view
        { tx_created := t.id, cmd_created := t.cmd, tx_expired := 0, cmd_expired := 0,
          payload := f h.payload } = false := visible_created_other view hne hnc rfl
    have h2 : visible s.engine R view { h with tx_expired := t.id, cmd_expired := t.cmd }
        = visible s.engine R view h := by
      rcases (hH.2 h rest hv).2 with hc | ⟨hw, hcf⟩
      · rw [visible_created_other view hne hnc hc]
        exact visible_created_other view hne hnc hc
      · unfold visible
        rw [notExpired_of_writer view hnc (hexp h (by rw [hv]; exact List.mem_cons_self _ _))
          hw hcf, notExpired_by_other view hne hnc rfl]
        rw [@createdVisible_congr s.engine R view
          { h with tx_expired := t.id, cmd_expired := t.cmd } h rfl rfl]
    simp only [List.find?_cons, h1, h2]
    cases visible s.engine R view h <;> rfl

/-- Expiring a guarded head by another transaction changes nothing of what the
reader `R` sees of the chain. -/
theorem seen_expireHead_other {s : Storage} {R t : Transaction} {ch : VersionChain}
    (view : View) (hR : R ∈ s.accessors) (hne : t.id ≠ R.id)
    (hnc : s.engine.GlobalInfo t.id ≠ tx.Status.Committed) (hP : ChainSnap s ch)
    (hH : WriterHead s.engine t ch) :
    seen s.engine R view (expireHead t ch) = seen s.engine R view ch := by
  have hexp : ∀ v, v ∈ ch.versions → v.tx_expired ≠ R.id := by
    intro v hv hx
    exact hne (hH.1 _ (hP.locked R hR v hv (Or.inr hx))).symm
  rcases expireHead_cases t ch with ⟨_, heq⟩ | ⟨h, rest, hv, heq⟩
  · rw [heq]
  · rw [heq]
    unfold seen
    rw [hv]
    have h2 : visible s.engine R view { h with tx_expired := t.id, cmd_expired := t.cmd }
        = visible s.engine R view h := by
      rcases (hH.2 h rest hv).2 with hc | ⟨hw, hcf⟩
      · rw [visible_created_other view hne hnc hc]
        exact visible_created_other view hne hnc hc
      · unfold visible
        rw [notExpired_of_writer view hnc (hexp h (by rw [hv]; exact List.mem_cons_self _ _))
          hw hcf, notExpired_by_other view hne hnc rfl]
        rw [@createdVisible_congr s.engine R view
          { h with tx_expired := t.id, cmd_expired := t.cmd } h rfl rfl]
    simp only [List.find?_cons, h2]
    cases visible s.engine R view h <;> rfl

end storage

namespace storage

theorem find?_filter_of_neg {α : Type} (p q : α → Bool) :
    ∀ l : List α, (∀ a, a ∈ l → q a = false → p a = false) →
      (l.filter q).find? p = l.find? p := by
  intro l
  induction l with
  | nil => intro _; rfl
  | cons a l ih =>
    intro h
    have ih2 := ih (fun b hb => h b (List.mem_cons_of_mem _ hb))
    cases hq : q a with
    | true => rw [List.filter_cons_of_pos hq, List.find?_cons, List.find?_cons, ih2]
    | false =>
      rw [List.filter_cons_of_neg (by simp [hq]), List.find?_cons,
        h a (List.mem_cons_self _ _) hq, ih2]

/-- Settling or allocating an id the reader does not see changes nothing of
what the reader sees of a chain. -/
theorem seen_settle {e e2 : tx.Engine} {R : Transaction} {w : Nat} (view : View)
    (hlog : ∀ x, x ≠ w → e2.GlobalInfo x = e.GlobalInfo x)
    (hpre : e.GlobalInfo w ≠ tx.Status.Committed) (hne : w ≠ R.id)
    (hns : ¬ (w < R.id ∧ w ∉ R.snapshot)) (ch : VersionChain) :
    seen e2 R view ch = seen e R view ch := by
  have : visible e2 R view = visible e R view :=
    funext (fun v => visible_settle view v hlog hpre hne hns)
  unfold seen
  rw [this]

end storage

namespace storage.Storage

/-- A transition that maps every chain to one with the same gid that reads the
same for `t` at `view`, and appends chains of which `t` sees nothing, leaves
the full scan and the reads of `t` at `view` as they were. -/
theorem frame_reads {s s2 : Storage} {t : Transaction} {view : View}
    (F : VersionChain → VersionChain) (extra : List VersionChain)
    (hv : s2.vertices = s.vertices.map F ++ extra)
    (hF : ∀ ch, ch ∈ s.vertices →
      (F ch).gid = ch.gid ∧ seen s2.engine t view (F ch) = seen s.engine t view ch)
    (hx : ∀ ch, ch ∈ extra → seen s2.engine t view ch = none) :
    s2.Vertices t view = s.Vertices t view ∧
      ∀ g, (s2.visibleVersion t view g).map (fun v => v.payload)
        = (s.visibleVersion t view g).map (fun v => v.payload) := by
  constructor
  · unfold Vertices
    rw [hv, List.filter_append, List.map_append, List.filter_map, List.map_map]
    have hnil : extra.filter
        (fun ch => (ch.versions.find? (visible s2.engine t view)).isSome) = [] := by
      rw [List.filter_eq_nil_iff]
      intro ch hch
      have := hx ch hch
      unfold seen at this
      simpa using this
    rw [hnil, List.map_nil, List.append_nil]
    have h1 : s.vertices.filter
        ((fun ch => (ch.versions.find? (visible s2.engine t view)).isSome) ∘ F)
        = s.vertices.filter
          (fun ch => (ch.versions.find? (visible s.engine t view)).isSome) := by
      apply List.filter_congr
      intro ch hch
      have := (hF ch hch).2
      unfold seen at this
      simp only [Function.comp_apply]
      have h3 := congrArg Option.isSome this
      simpa using h3
    rw [h1]
    apply List.map_congr_left
    intro ch hch
    exact (hF ch (List.mem_filter.1 hch).1).1
  · intro g
    rw [visibleVersion_payload, visibleVersion_payload]
    unfold chain
    rw [hv, List.find?_append, find?_map_gid F g _ (fun ch hch => (hF ch hch).1)]
    cases hc : s.vertices.find? (fun ch => ch.gid == g) with
    | none =>
      simp only [Option.map_none', Option.none_or, Option.bind_none]
      cases hc2 : extra.find? (fun ch => ch.gid == g) with
      | none => rfl
      | some c => exact hx c (List.mem_of_find?_eq_some hc2)
    | some ch =>
      simp only [Option.map_some', Option.or_some, Option.bind_some]
      exact (hF ch (List.mem_of_find?_eq_some hc)).2

end storage.Storage

namespace storage.Storage

/-- An operation of the transaction `tid` on vertices leaves what another
accessor reads as it was. -/
theorem frame_data {s s2 : Storage} (hinv : IndexInv s) (htx : TxInv s) (hm : MvccInv s)
    (hs : SnapInv s) (he : s2.engine = s.engine) {tid : Nat}
    (hv : VerticesStep s tid s2.vertices) {R : Transaction} (hR : R ∈ s.accessors)
    (hne : tid ≠ R.id) (view : View) :
    s2.Vertices R view = s.Vertices R view ∧
      ∀ g, (s2.visibleVersion R view g).map (fun v => v.payload)
        = (s.visibleVersion R view g).map (fun v => v.payload) := by
  have hguard : ∀ (t : Transaction) (g : Nat) (c0 : VersionChain) (h0 : Version),
      s.chain g = some c0 → headGuard s.engine t c0 = Except.ok h0 →
      ∀ ch, ch ∈ s.vertices → ch.gid = g → WriterHead s.engine t ch := by
    intro t g c0 h0 hc hg ch hch hgid
    have h0' := chain_some hc
    have heq : ch = c0 := chain_unique hinv hch h0'.1 (by rw [hgid, h0'.2])
    subst heq
    exact WriterHead_of_guard hg
  have hnc : ∀ t : Transaction, t ∈ s.accessors →
      s.engine.GlobalInfo t.id ≠ tx.Status.Committed := by
    intro t ht
    unfold tx.Engine.GlobalInfo
    rw [htx.active_status _ (htx.acc_active t ht)]
    simp
  have key : ∀ l2, VerticesStep s tid l2 → ∃ F extra, l2 = s.vertices.map F ++ extra ∧
      (∀ ch, ch ∈ s.vertices →
        (F ch).gid = ch.gid ∧ seen s.engine R view (F ch) = seen s.engine R view ch) ∧
      (∀ ch, ch ∈ extra → seen s.engine R view ch = none) := by
    intro l2 h
    cases h with
    | same =>
      exact ⟨id, [], by simp, fun ch _ => ⟨rfl, rfl⟩, fun ch hch => by simp at hch⟩
    | write t ch0 hd gid f ht hid hc hg =>
      refine ⟨fun ch => if ch.gid == gid then writeHead t f ch else ch, [],
        by simp [updateChain], ?_, fun ch hch => by simp at hch⟩
      intro ch hch
      by_cases hgid : ch.gid = gid
      · simp only [hgid, beq_self_eq_true, if_true]
        refine ⟨by rw [writeHead_gid, hgid], ?_⟩
        exact seen_writeHead_other f view hR (by rw [hid]; exact hne) (hnc t ht)
          (hs.chains ch hch) (hguard t gid ch0 hd hc hg ch hch hgid)
      · have : (ch.gid == gid) = false := by simpa using hgid
        simp only [this, Bool.false_eq_true, if_false]
        exact ⟨trivial, trivial⟩
    | write2 t c1 c2 h1 h2 g1 g2 f1 f2 ht hid hc1 hg1 hc2 hg2 =>
      have st1 := write_thread t f1 g1 (ChainSnap s) (WriterHead s.engine t)
        (fun ch hP hH => ChainSnap_writeHead f1 htx hm hs.finished ht hP hH) s.vertices
        hs.chains (hguard t g1 c1 h1 hc1 hg1)
      have st2 := st1.2 g2 (hguard t g2 c2 h2 hc2 hg2)
      refine ⟨fun ch =>
          (fun c => if c.gid == g2 then writeHead t f2 c else c)
            (if ch.gid == g1 then writeHead t f1 ch else ch), [],
        by simp [updateChain, Function.comp_def], ?_, fun ch hch => by simp at hch⟩
      intro ch hch
      have hmem : (if ch.gid == g1 then writeHead t f1 ch else ch)
          ∈ updateChain g1 (writeHead t f1) s.vertices := by
        unfold updateChain
        exact List.mem_map.2 ⟨ch, hch, rfl⟩
      have hfirst : (if ch.gid == g1 then writeHead t f1 ch else ch).gid = ch.gid ∧
          seen s.engine R view (if ch.gid == g1 then writeHead t f1 ch else ch)
            = seen s.engine R view ch := by
        by_cases hgid : ch.gid = g1
        · simp only [hgid, beq_self_eq_true, if_true]
          refine ⟨by rw [writeHead_gid, hgid], ?_⟩
          exact seen_writeHead_other f1 view hR (by rw [hid]; exact hne) (hnc t ht)
            (hs.chains ch hch) (hguard t g1 c1 h1 hc1 hg1 ch hch hgid)
        · have : (ch.gid == g1) = false := by simpa using hgid
          simp only [this, Bool.false_eq_true, if_false]
          exact ⟨trivial, trivial⟩
      have hgoal : ∀ c, c ∈ updateChain g1 (writeHead t f1) s.vertices →
          (c.gid = ch.gid ∧ seen s.engine R view c = seen s.engine R view ch) →
          (if c.gid == g2 then writeHead t f2 c else c).gid = ch.gid ∧
            seen s.engine R view (if c.gid == g2 then writeHead t f2 c else c)
              = seen s.engine R view ch := by
        intro c hmem hfirst
        by_cases hgid : c.gid = g2
        · simp only [hgid, beq_self_eq_true, if_true]
          refine ⟨by rw [writeHead_gid, hfirst.1], ?_⟩
          rw [seen_writeHead_other f2 view hR (by rw [hid]; exact hne) (hnc t ht)
            (st1.1 c hmem) (st2 c hmem hgid)]
          exact hfirst.2
        · have : (c.gid == g2) = false := by simpa using hgid
          simp only [this, Bool.false_eq_true, if_false]
          exact hfirst
      exact hgoal _ hmem hfirst
    | expire t ch0 hd gid ht hid hc hg =>
      refine ⟨fun ch => if ch.gid == gid then expireHead t ch else ch, [],
        by simp [updateChain], ?_, fun ch hch => by simp at hch⟩
      intro ch hch
      by_cases hgid : ch.gid = gid
      · simp only [hgid, beq_self_eq_true, if_true]
        refine ⟨by rw [expireHead_gid, hgid], ?_⟩
        exact seen_expireHead_other view hR (by rw [hid]; exact hne) (hnc t ht)
          (hs.chains ch hch) (hguard t gid ch0 hd hc hg ch hch hgid)
      · have : (ch.gid == gid) = false := by simpa using hgid
        simp only [this, Bool.false_eq_true, if_false]
        exact ⟨trivial, trivial⟩
    | create t ht hid =>
      refine ⟨id, _, by rw [List.map_id], fun ch _ => ⟨rfl, rfl⟩, ?_⟩
      intro ch hch
      simp only [List.mem_singleton] at hch
      rw [hch]
      unfold seen
      have h1 : visible s.engine R view
          { tx_created := t.id, cmd_created := t.cmd, tx_expired := 0, cmd_expired := 0,
            payload := { labels := [], properties := [], out_edges := [], in_edges := [] } }
          = false :=
        visible_created_other view (by rw [hid]; exact hne) (hnc t ht) rfl
      simp only [List.find?_cons, h1, List.find?_nil, Option.map_none']
  obtain ⟨F, extra, h1, h2, h3⟩ := key _ hv
  exact frame_reads F extra h1 (by rw [he]; exact h2) (by rw [he]; exact h3)

end storage.Storage

namespace storage.Storage

/-- One operation that is not issued by the open accessor `R` leaves `R` open
and changes nothing of what it reads: the full scan and the payload it reads
of every vertex, at both views. -/
theorem frame_step {s : Storage} (hinv : IndexInv s) (htx : TxInv s) (hm : MvccInv s)
    (hs : SnapInv s) {R : Transaction} (hR : R ∈ s.accessors) (op : Op)
    (hop : op.actor ≠ some R.id) (view : View) :
    R ∈ (s.step op).accessors ∧ (s.step op).Vertices R view = s.Vertices R view ∧
      ∀ g, ((s.step op).visibleVersion R view g).map (fun v => v.payload)
        = (s.visibleVersion R view g).map (fun v => v.payload) := by
  have hRle : R.id ≤ s.engine.counter := htx.active_le _ (htx.acc_active R hR)
  have hsame : ∀ s2 : Storage, s2.engine = s.engine → s2.vertices = s.vertices →
      s2.Vertices R view = s.Vertices R view ∧
        ∀ g, (s2.visibleVersion R view g).map (fun v => v.payload)
          = (s.visibleVersion R view g).map (fun v => v.payload) := by
    intro s2 he hv
    exact frame_reads id [] (by rw [hv]; simp) (fun ch _ => ⟨rfl, by rw [he]; rfl⟩)
      (fun ch hch => by simp at hch)
  have hend : ∀ tid t, s.accessor tid = some t → tid ≠ R.id →
      s.engine.GlobalInfo tid ≠ tx.Status.Committed ∧ ¬ (tid < R.id ∧ tid ∉ R.snapshot) := by
    intro tid t ha hne
    have h1 := accessor_some ha
    have hact : tid ∈ s.engine.active := by rw [← h1.2]; exact htx.acc_active t h1.1
    refine ⟨?_, ?_⟩
    · unfold tx.Engine.GlobalInfo
      rw [htx.active_status _ hact]
      simp
    · rintro ⟨h2, h3⟩
      exact hs.finished R hR tid h2 h3 hact
  rcases step_shape s op with ⟨he, ha, tid, hact, hv⟩ | hop2 | ⟨tid, hop2⟩ | ⟨tid, hop2⟩ |
    ⟨tid, hop2⟩
  · have hne : tid ≠ R.id := by
      intro h
      rw [hact, h] at hop
      exact hop rfl
    exact ⟨by rw [ha]; exact hR, frame_data hinv htx hm hs he hv hR hne view⟩
  · subst hop2
    refine ⟨?_, ?_⟩
    · simp only [step, Access, List.mem_append]
      exact Or.inl hR
    · have hlog : ∀ x, x ≠ s.engine.counter + 1 →
          (s.step Op.Access).engine.GlobalInfo x = s.engine.GlobalInfo x := by
        intro x hx
        simp only [step, Access, tx.Engine.Begin, tx.Engine.next_id, tx.Engine.GlobalInfo,
          Function.update_noteq hx]
      have hpre : s.engine.GlobalInfo (s.engine.counter + 1) ≠ tx.Status.Committed := by
        intro h
        have := htx.log_le (s.engine.counter + 1) (by
          unfold tx.Engine.GlobalInfo at h
          rw [h]; simp)
        omega
      exact frame_reads id [] (by simp [step, Access])
        (fun ch _ => ⟨rfl, seen_settle view hlog hpre (by omega) (by omega) ch⟩)
        (fun ch hch => by simp at hch)
  · subst hop2
    have hne : tid ≠ R.id := by
      intro h
      simp only [Op.actor, h] at hop
      exact hop rfl
    refine ⟨?_, hsame _ rfl rfl⟩
    simp only [step, AdvanceCommand, List.mem_map]
    refine ⟨R, hR, ?_⟩
    have : (R.id == tid) = false := by simpa using fun h => hne h.symm
    simp [this]
  · subst hop2
    have hne : tid ≠ R.id := by
      intro h
      simp only [Op.actor, h] at hop
      exact hop rfl
    simp only [step]
    cases h : s.Commit tid with
    | error e => exact ⟨hR, rfl, fun _ => rfl⟩
    | ok r =>
      unfold Commit at h
      cases hacc : s.accessor tid with
      | none => rw [hacc] at h; simp at h
      | some t =>
        rw [hacc] at h
        simp only [Except.ok.injEq] at h
        rw [← h]
        simp only [after]
        obtain ⟨hpre, hns⟩ := hend tid t hacc hne
        refine ⟨?_, ?_⟩
        · simp only [List.mem_filter]
          exact ⟨hR, by simpa using fun h => hne h.symm⟩
        · have hlog : ∀ x, x ≠ tid →
              (s.engine.Commit tid).GlobalInfo x = s.engine.GlobalInfo x := by
            intro x hx
            simp only [tx.Engine.Commit, tx.Engine.GlobalInfo, Function.update_noteq hx]
          refine frame_reads
            (fun ch => if ch.lock = some tid then { ch with lock := none } else ch) []
            (by simp [releaseLocks]) ?_ (fun ch hch => by simp at hch)
          intro ch _
          have hseen := seen_settle view hlog hpre hne hns
          by_cases hl : ch.lock = some tid
          · simp only [hl, if_true]
            exact ⟨trivial, (hseen _).trans rfl⟩
          · simp only [hl, if_false]
            exact ⟨trivial, hseen _⟩
  · subst hop2
    have hne : tid ≠ R.id := by
      intro h
      simp only [Op.actor, h] at hop
      exact hop rfl
    simp only [step]
    cases h : s.Abort tid with
    | error e => exact ⟨hR, rfl, fun _ => rfl⟩
    | ok r =>
      unfold Abort at h
      cases hacc : s.accessor tid with
      | none => rw [hacc] at h; simp at h
      | some t =>
        rw [hacc] at h
        simp only [Except.ok.injEq] at h
        rw [← h]
        simp only [after]
        obtain ⟨hpre, hns⟩ := hend tid t hacc hne
        refine ⟨?_, ?_⟩
        · simp only [List.mem_filter]
          exact ⟨hR, by simpa using fun h => hne h.symm⟩
        · have hlog : ∀ x, x ≠ tid →
              (s.engine.Abort tid).GlobalInfo x = s.engine.GlobalInfo x := by
            intro x hx
            simp only [tx.Engine.Abort, tx.Engine.GlobalInfo, Function.update_noteq hx]
          refine frame_reads
            (fun ch =>
              (fun c : VersionChain =>
                { c with versions := c.versions.filter (fun v => v.tx_created != tid) })
                (if ch.lock = some tid then { ch with lock := none } else ch)) []
            (by simp [releaseLocks, Function.comp_def]) ?_ (fun ch hch => by simp at hch)
          intro ch _
          have hvis : visible (s.engine.Abort tid) R view = visible s.engine R view :=
            funext (fun v => visible_settle view v hlog hpre hne hns)
          have hfil : (ch.versions.filter (fun v => v.tx_created != tid)).find?
                (visible s.engine R view)
              = ch.versions.find? (visible s.engine R view) := by
            apply find?_filter_of_neg
            intro v _ hq
            have hc : v.tx_created = tid := by simpa using hq
            exact visible_created_other view hne hpre hc
          by_cases hl : ch.lock = some tid
          · simp only [hl, if_true]
            refine ⟨trivial, ?_⟩
            unfold seen
            simp only [hvis, hfil]
          · simp only [hl, if_false]
            refine ⟨trivial, ?_⟩
            unfold seen
            simp only [hvis, hfil]

end storage.Storage

namespace storage.Storage

theorem GetProperty_eq (s : Storage) (t : Transaction) (view : View) (g property : Nat) :
    s.GetProperty t view g property
      = match (s.visibleVersion t view g).map (fun v => v.payload) with
        | some p => p.GetProperty property
        | none => PropertyValue.null := by
  unfold GetProperty
  cases s.visibleVersion t view g <;> rfl

/-- Operations none of which is issued by the open accessor `R` leave `R` open
and change nothing of what it reads. -/
theorem frame_foldl (ops : List Op) :
    ∀ s : Storage, IndexInv s → TxInv s → MvccInv s → SnapInv s →
      ∀ R : Transaction, R ∈ s.accessors → (∀ op, op ∈ ops → op.actor ≠ some R.id) →
        ∀ view : View,
          R ∈ (ops.foldl step s).accessors ∧
            (ops.foldl step s).Vertices R view = s.Vertices R view ∧
            ∀ g, ((ops.foldl step s).visibleVersion R view g).map (fun v => v.payload)
              = (s.visibleVersion R view g).map (fun v => v.payload) := by
  induction ops with
  | nil => intro s _ _ _ _ R hR _ view; exact ⟨hR, rfl, fun _ => rfl⟩
  | cons op ops ih =>
    intro s h1 h2 h3 h4 R hR hops view
    obtain ⟨a1, a2, a3⟩ := frame_step h1 h2 h3 h4 hR op
      (hops op (List.mem_cons_self _ _)) view
    obtain ⟨b1, b2, b3⟩ := ih (s.step op) (step_inv h1 op) (TxInv_step h2 op)
      (MvccInv_step h1 h2 h3 op) (SnapInv_step h1 h2 h3 h4 op) R a1
      (fun o ho => hops o (List.mem_cons_of_mem _ ho)) view
    simp only [List.foldl_cons]
    exact ⟨b1, b2.trans a2, fun g => (b3 g).trans (a3 g)⟩

/-- Two states in which a transaction reads the same full scan and the same
payloads give it the same answers: `HasLabel`, `GetProperty`, the label scan
(equal lists) and, for a registered index, the label+property scans (the same
vertices, each once). -/
theorem reads_of_frame {s s2 : Storage} (hinv : IndexInv s) (hinv2 : IndexInv s2)
    (hreg : s2.registered = s.registered) {R : Transaction} {view : View}
    (h1 : s2.Vertices R view = s.Vertices R view)
    (h2 : ∀ g, (s2.visibleVersion R view g).map (fun v => v.payload)
      = (s.visibleVersion R view g).map (fun v => v.payload)) :
    (∀ g label, s2.HasLabel R view g label = s.HasLabel R view g label) ∧
      (∀ g property, s2.GetProperty R view g property = s.GetProperty R view g property) ∧
      (∀ label, s2.LabelVertices R label view = s.LabelVertices R label view) ∧
      ∀ label property, (label, property) ∈ s.registered →
        ∀ keep : PropertyValue → Bool,
          (∀ a b, PropertyValue.eqv a b = true → keep a = keep b) →
          (s2.PropertyScan R label property view keep).Perm
            (s.PropertyScan R label property view keep) := by
  have hl : ∀ g label, s2.HasLabel R view g label = s.HasLabel R view g label := by
    intro g label
    rw [HasLabel_eq, HasLabel_eq, h2 g]
  have hp : ∀ g property,
      s2.GetProperty R view g property = s.GetProperty R view g property := by
    intro g property
    rw [GetProperty_eq, GetProperty_eq, h2 g]
  refine ⟨hl, hp, ?_, ?_⟩
  · intro label
    rw [LabelVertices_eq_filter hinv2, LabelVertices_eq_filter hinv, h1]
    apply List.filter_congr
    intro g _
    exact hl g label
  · intro label property hr keep hkeep
    obtain ⟨n1, m1, c1⟩ := PropertyScan_spec hinv R label property view keep hkeep
    obtain ⟨n2, m2, c2⟩ := PropertyScan_spec hinv2 R label property view keep hkeep
    rw [List.perm_ext_iff_of_nodup n2 n1]
    intro g
    constructor
    · intro hg
      obtain ⟨a, b, c, d⟩ := m2 g hg
      rw [h1] at a
      rw [hl] at b
      rw [hp] at c d
      exact c1 hr g a b c d
    · intro hg
      obtain ⟨a, b, c, d⟩ := m1 g hg
      rw [← h1] at a
      rw [← hl] at b
      rw [← hp] at c d
      exact c2 (by rw [hreg]; exact hr) g a b c d

end storage.Storage

namespace storage

theorem find?_append_cons_of_neg {α : Type} (p : α → Bool) :
    ∀ (l1 : List α) (v : α) (l2 : List α), (∀ u, u ∈ l1 → p u = false) → p v = true →
      (l1 ++ v :: l2).find? p = some v := by
  intro l1
  induction l1 with
  | nil => intro v l2 _ hv; simp [List.find?_cons, hv]
  | cons a l1 ih =>
    intro v l2 h hv
    rw [List.cons_append, List.find?_cons, h a (List.mem_cons_self _ _)]
    exact ih v l2 (fun u hu => h u (List.mem_cons_of_mem _ hu)) hv

/-- The versions of a chain above one whose expiry is not the work of a
committed transaction were all written by the transaction that expired it. -/
theorem above_created {e : tx.Engine} :
    ∀ (l1 : List Version) (v : Version) (l2 : List Version),
      (l1 ++ v :: l2).Chain' (Linked e) →
      (∀ u, u ∈ l1 → u.tx_created = v.tx_expired →
        e.GlobalInfo u.tx_created ≠ tx.Status.Committed) →
      ∀ u, u ∈ l1 → u.tx_created = v.tx_expired := by
  intro l1
  induction l1 with
  | nil => intro v l2 _ _ u hu; simp at hu
  | cons a l1 ih =>
    intro v l2 hch hnc
    have ha : a.tx_created = v.tx_expired := by
      cases l1 with
      | nil =>
        simp only [List.cons_append, List.nil_append] at hch
        exact ((List.chain'_cons.1 hch).1.1).symm
      | cons b l1 =>
        simp only [List.cons_append] at hch
        have hc := List.chain'_cons.1 hch
        have hb := ih v l2 (by simpa using hc.2)
          (fun u hu => hnc u (List.mem_cons_of_mem _ hu)) b (List.mem_cons_self _ _)
        rcases hc.1.2.2.2 with h | h
        · rw [← h]; exact hb
        · exact absurd h (hnc b (List.mem_cons_of_mem _ (List.mem_cons_self _ _)) hb)
    intro u hu
    rcases List.mem_cons.1 hu with h | h
    · rw [h]; exact ha
    · refine ih v l2 ?_ (fun u hu => hnc u (List.mem_cons_of_mem _ hu)) u h
      rw [List.cons_append] at hch
      exact hch.tail

theorem pairwise_getLast {α : Type} {P : α → α → Prop} :
    ∀ (l : List α) (v u : α), l.Pairwise P → v ∈ l → l.getLast? = some u → v = u ∨ P v u := by
  intro l
  induction l with
  | nil => intro v u _ hv; simp at hv
  | cons a l ih =>
    intro v u hp hv hl
    cases l with
    | nil =>
      simp only [List.mem_singleton] at hv
      simp only [List.getLast?_singleton, Option.some.injEq] at hl
      left; rw [hv, hl]
    | cons b l =>
      rw [List.getLast?_cons_cons] at hl
      have hc := List.pairwise_cons.1 hp
      rcases List.mem_cons.1 hv with h | h
      · right
        rw [h]
        exact hc.1 u (List.mem_of_getLast?_eq_some hl)
      · exact ih v u hc.2 h hl

end storage

namespace storage.Storage

/-- What an accessor opened in `s` reads of a chain: a version `v` written by
a committed transaction that no committed transaction expired is the version
it reads, at both views. -/
theorem Access_reads_committed {s : Storage} (hinv : IndexInv s) (htx : TxInv s)
    (hm : MvccInv s) (hs : SnapInv s) (view : View) {ch : VersionChain} {v : Version}
    (hch : ch ∈ s.vertices) (hv : v ∈ ch.versions)
    (hc : s.engine.GlobalInfo v.tx_created = tx.Status.Committed)
    (he : v.tx_expired = 0 ∨ s.engine.GlobalInfo v.tx_expired ≠ tx.Status.Committed) :
    s.Access.2.visibleVersion s.Access.1 view ch.gid = some v := by
  have hok := hm.chains ch hch
  have hsn := hs.chains ch hch
  have hid : s.Access.1.id = s.engine.counter + 1 := rfl
  have hsnap : s.Access.1.snapshot = s.engine.active := rfl
  have hlog : ∀ x, x ≠ s.engine.counter + 1 →
      s.Access.2.engine.GlobalInfo x = s.engine.GlobalInfo x := by
    intro x hx
    simp only [Access, tx.Engine.Begin, tx.Engine.next_id, tx.Engine.GlobalInfo,
      Function.update_noteq hx]
  obtain ⟨l1, l2, hl⟩ := List.append_of_mem hv
  have hadj := hok.adj
  rw [hl] at hadj
  have hmem1 : ∀ u, u ∈ l1 → u ∈ ch.versions := by
    intro u hu; rw [hl]; exact List.mem_append_left _ hu
  have hunc : ∀ u, u ∈ l1 → u.tx_created = v.tx_expired →
      s.engine.GlobalInfo u.tx_created ≠ tx.Status.Committed := by
    intro u hu hux
    rcases he with h | h
    · have := hok.ver_pos u (hmem1 u hu)
      omega
    · rw [hux]; exact h
  have habove := above_created l1 v l2 hadj hunc
  have hchain : s.Access.2.chain ch.gid = some ch :=
    chain_of_mem (step_inv hinv Op.Access) hch
  unfold visibleVersion
  rw [hchain]
  simp only
  rw [hl]
  apply find?_append_cons_of_neg
  · intro u hu
    have hle := hok.ver_le u (hmem1 u hu)
    refine @visible_created_other _ _ u.tx_created view _ ?_ ?_ rfl
    · rw [hid]; omega
    · rw [hlog _ (by omega)]
      exact hunc u hu (habove u hu)
  · have hWle : v.tx_created ≤ s.engine.counter := hok.ver_le v hv
    have hxle : v.tx_expired ≤ s.engine.counter := hsn.exp_le v hv
    have hcv : createdVisible s.Access.2.engine s.Access.1 view v = true := by
      unfold createdVisible
      have h1 : decide (s.Access.2.engine.GlobalInfo v.tx_created = tx.Status.Committed)
          = true := by
        rw [hlog _ (by omega)]; simpa using hc
      have h2 : s.Access.1.snapshot.contains v.tx_created = false := by
        rw [hsnap]
        simp only [List.contains_eq_any_beq, List.any_eq_false, beq_iff_eq]
        intro a ha hva
        have := htx.active_status a ha
        unfold tx.Engine.GlobalInfo at hc
        rw [← hva, hc] at this
        simp at this
      have h3 : decide (v.tx_created < s.Access.1.id) = true := by
        rw [hid]; simpa using (by omega : v.tx_created < s.engine.counter + 1)
      rw [h1, h2, h3]
      rfl
    have hne : notExpired s.Access.2.engine s.Access.1 view v = true := by
      rcases he with h | h
      · unfold notExpired; rw [h]; simp
      · refine @notExpired_by_other _ _ v.tx_expired view _ ?_ ?_ rfl
        · rw [hid]; omega
        · rw [hlog _ (by omega)]; exact h
    unfold visible
    rw [hcv, hne]
    rfl

end storage.Storage

namespace storage.Storage

/-- C5: snapshot isolation of the index scans, at `OLD` and at `NEW`.
(1) Let the accessor `R` be opened while `W` has not committed (`W` may be in
flight or begin later), and let any operations follow.  Then every version `R`
reads was not written by `W`; no version that `W` expired is expired for `R`;
every vertex a label or label+property scan through `R` yields is read in a
version that has the label and was not written by `W`; if `W` commits at any
later time, no vertex the scans yield was created by `W`; and operations that
are not issued by `R` (all of `W`, its commit included) leave `R` open and
change nothing it reads: the full scan, `HasLabel`, `GetProperty` and the label
scan are the same and the label+property scan of a registered index yields the
same vertices.
(2) An accessor opened after `W` committed reads every version `W` wrote that
no committed transaction has expired, finds its vertex in the full scan and,
when the version has the label (and a non-Null value of the indexed property),
in the label scan (and the label+property scan), and goes on doing so whatever
the other transactions do. -/
theorem C5_index_scan_snapshot_isolation (registered : List (Nat × Nat))
    (ops1 ops2 ops3 : List Op) (W label property : Nat) (view : View) :
    ((run registered ops1).engine.GlobalInfo W ≠ tx.Status.Committed →
      W ≠ (run registered ops1).Access.1.id →
      ∀ R, (ops2.foldl step (run registered ops1).Access.2).accessor
          (run registered ops1).Access.1.id = some R →
        (∀ g v, (ops2.foldl step (run registered ops1).Access.2).visibleVersion R view g
            = some v → v.tx_created ≠ W) ∧
        (∀ ch v, ch ∈ (ops2.foldl step (run registered ops1).Access.2).vertices →
          v ∈ ch.versions → v.tx_expired = W →
          notExpired (ops2.foldl step (run registered ops1).Access.2).engine R view v = true) ∧
        (∀ g, g ∈ (ops2.foldl step (run registered ops1).Access.2).LabelVertices R label view →
          ∃ v, (ops2.foldl step (run registered ops1).Access.2).visibleVersion R view g = some v ∧
            v.payload.HasLabel label = true ∧ v.tx_created ≠ W) ∧
        (∀ g, g ∈ (ops2.foldl step (run registered ops1).Access.2).LabelPropertyVertices R
              label property view →
          ∃ v, (ops2.foldl step (run registered ops1).Access.2).visibleVersion R view g = some v ∧
            v.payload.HasLabel label = true ∧ v.tx_created ≠ W) ∧
        ((ops3.foldl step (ops2.foldl step (run registered ops1).Access.2)).engine.GlobalInfo W
            = tx.Status.Committed →
          ∀ g, (g ∈ (ops2.foldl step (run registered ops1).Access.2).Vertices R view ∨
              g ∈ (ops2.foldl step (run registered ops1).Access.2).LabelVertices R label view ∨
              g ∈ (ops2.foldl step (run registered ops1).Access.2).LabelPropertyVertices R
                label property view) →
            ∀ ch, (ops2.foldl step (run registered ops1).Access.2).chain g = some ch →
              ∀ u, ch.versions.getLast? = some u → u.tx_created ≠ W) ∧
        ((∀ op, op ∈ ops3 → op.actor ≠ some R.id) →
          R ∈ (ops3.foldl step (ops2.foldl step (run registered ops1).Access.2)).accessors ∧
          (ops3.foldl step (ops2.foldl step (run registered ops1).Access.2)).Vertices R view
            = (ops2.foldl step (run registered ops1).Access.2).Vertices R view ∧
          (∀ g l,
            (ops3.foldl step (ops2.foldl step (run registered ops1).Access.2)).HasLabel R view g l
              = (ops2.foldl step (run registered ops1).Access.2).HasLabel R view g l) ∧
          (∀ g p,
            (ops3.foldl step (ops2.foldl step (run registered ops1).Access.2)).GetProperty
                R view g p
              = (ops2.foldl step (run registered ops1).Access.2).GetProperty R view g p) ∧
          (ops3.foldl step (ops2.foldl step (run registered ops1).Access.2)).LabelVertices
              R label view
            = (ops2.foldl step (run registered ops1).Access.2).LabelVertices R label view ∧
          ((label, property) ∈ registered →
            ((ops3.foldl step (ops2.foldl step (run registered ops1).Access.2)).LabelPropertyVertices
                R label property view).Perm
              ((ops2.foldl step (run registered ops1).Access.2).LabelPropertyVertices
                R label property view)))) ∧
    ((run registered ops1).engine.GlobalInfo W = tx.Status.Committed →
      (∀ op, op ∈ ops2 → op.actor ≠ some (run registered ops1).Access.1.id) →
      ∀ ch v, ch ∈ (run registered ops1).vertices → v ∈ ch.versions → v.tx_created = W →
        (v.tx_expired = 0 ∨
          (run registered ops1).engine.GlobalInfo v.tx_expired ≠ tx.Status.Committed) →
        ((ops2.foldl step (run registered ops1).Access.2).visibleVersion
            (run registered ops1).Access.1 view ch.gid).map (fun x => x.payload)
          = some v.payload ∧
        ch.gid ∈ (ops2.foldl step (run registered ops1).Access.2).Vertices
          (run registered ops1).Access.1 view ∧
        (v.payload.HasLabel label = true →
          ch.gid ∈ (ops2.foldl step (run registered ops1).Access.2).LabelVertices
              (run registered ops1).Access.1 label view ∧
            ((label, property) ∈ registered →
              (v.payload.GetProperty property).isNull = false →
              ch.gid ∈ (ops2.foldl step (run registered ops1).Access.2).LabelPropertyVertices
                (run registered ops1).Access.1 label property view))) := by
  have hinv1 := run_inv registered ops1
  have htx1 := TxInv_run registered ops1
  have hm1 := MvccInv_run registered ops1
  have hs1 := SnapInv_run registered ops1
  have hinvA : IndexInv (run registered ops1).Access.2 := step_inv hinv1 Op.Access
  have htxA : TxInv (run registered ops1).Access.2 := TxInv_Access htx1
  have hmA : MvccInv (run registered ops1).Access.2 := MvccInv_step hinv1 htx1 hm1 Op.Access
  have hsA : SnapInv (run registered ops1).Access.2 := SnapInv_step hinv1 htx1 hm1 hs1 Op.Access
  have hinv2 : IndexInv (ops2.foldl step (run registered ops1).Access.2) :=
    foldl_step_inv ops2 _ hinvA
  have htx2 : TxInv (ops2.foldl step (run registered ops1).Access.2) := TxInv_foldl ops2 _ htxA
  have hm2 : MvccInv (ops2.foldl step (run registered ops1).Access.2) :=
    MvccInv_foldl ops2 _ hinvA htxA hmA
  have hs2 : SnapInv (ops2.foldl step (run registered ops1).Access.2) :=
    SnapInv_foldl ops2 _ hinvA htxA hmA hsA
  have hreg2 : (ops2.foldl step (run registered ops1).Access.2).registered = registered := by
    rw [foldl_step_registered]
    exact run_registered registered ops1
  constructor
  · intro hW hne R hR
    obtain ⟨_, hks, hnc⟩ := isolation_foldl ops2 (run registered ops1).Access.1.id
      (run registered ops1).Access.1.snapshot W _ htxA (KeepsSnapshot_Access htx1)
    have hRm := accessor_some hR
    have hsnap := hks.2 R hRm.1 hRm.2
    have hneR : W ≠ R.id := by rw [hRm.2]; exact hne
    have hnever : W ∉ (run registered ops1).engine.active →
        W ≤ (run registered ops1).engine.counter →
        NeverCommits W (ops2.foldl step (run registered ops1).Access.2) := by
      intro h1 h2
      exact hnc (NeverCommits_step htx1 ⟨h2, h1, hW⟩ Op.Access)
    have hcase : W ∈ R.snapshot ∨ R.id < W ∨
        (ops2.foldl step (run registered ops1).Access.2).engine.GlobalInfo W
          ≠ tx.Status.Committed := by
      by_cases h1 : W ∈ (run registered ops1).engine.active
      · left; rw [hsnap]; exact h1
      · by_cases h2 : W ≤ (run registered ops1).engine.counter
        · right; right
          exact (hnever h1 h2).2.2
        · right; left
          rw [hRm.2]
          simp only [Access, tx.Engine.Begin, tx.Engine.next_id] at hne ⊢
          omega
    have hscan : ∀ g, (ops2.foldl step (run registered ops1).Access.2).HasLabel R view g label
        = true →
        ∃ v, (ops2.foldl step (run registered ops1).Access.2).visibleVersion R view g = some v ∧
          v.payload.HasLabel label = true ∧ v.tx_created ≠ W := by
      intro g hg
      obtain ⟨v, hv, hl⟩ := HasLabel_some hg
      exact ⟨v, hv, hl, created_ne_of_visible hneR hcase (visible_of_visibleVersion hv)⟩
    have hprop : ∀ g, g ∈ (ops2.foldl step (run registered ops1).Access.2).LabelPropertyVertices
        R label property view →
        g ∈ (ops2.foldl step (run registered ops1).Access.2).Vertices R view ∧
          (ops2.foldl step (run registered ops1).Access.2).HasLabel R view g label = true := by
      intro g hg
      have := (PropertyScan_spec hinv2 R label property view (fun _ => true)
        (fun _ _ _ => rfl)).2.1 g hg
      exact ⟨this.1, this.2.1⟩
    refine ⟨?_, ?_, ?_, ?_, ?_, ?_⟩
    · intro g v hv
      exact created_ne_of_visible hneR hcase (visible_of_visibleVersion hv)
    · intro ch v _ _ hx
      rcases hcase with h | h | h
      · exact notExpired_unseen view hneR (Or.inr h) hx
      · exact notExpired_unseen view hneR (Or.inl h) hx
      · exact notExpired_by_other view hneR h hx
    · intro g hg
      rw [LabelVertices_eq_filter hinv2, List.mem_filter] at hg
      exact hscan g hg.2
    · intro g hg
      exact hscan g (hprop g hg).2
    · intro hW3 g hg ch hch u hu
      have hgv : g ∈ (ops2.foldl step (run registered ops1).Access.2).Vertices R view := by
        rcases hg with h | h | h
        · exact h
        · rw [LabelVertices_eq_filter hinv2, List.mem_filter] at h
          exact h.1
        · exact (hprop g h).1
      have hunseen : W ∈ R.snapshot ∨ R.id < W := by
        by_cases h1 : W ∈ (run registered ops1).engine.active
        · left; rw [hsnap]; exact h1
        · by_cases h2 : W ≤ (run registered ops1).engine.counter
          · exfalso
            have := (isolation_foldl ops3 (run registered ops1).Access.1.id
              (run registered ops1).Access.1.snapshot W _ htx2 hks).2.2 (hnever h1 h2)
            exact this.2.2 hW3
          · right
            rw [hRm.2]
            simp only [Access, tx.Engine.Begin, tx.Engine.next_id] at hne ⊢
            omega
      have hnot : ¬ Sees R W := by
        rintro (h | ⟨h1, h2⟩)
        · exact hneR h
        · rcases hunseen with h3 | h3
          · exact h2 h3
          · omega
      obtain ⟨ch2, hch2, hgid, hsome⟩ := mem_Vertices.1 hgv
      have hc := chain_some hch
      have heq : ch2 = ch := chain_unique hinv2 hch2 hc.1 (by rw [hgid, hc.2])
      subst heq
      obtain ⟨v, hv⟩ := Option.isSome_iff_exists.1 hsome
      have hvis := List.find?_some hv
      have hvm := List.mem_of_find?_eq_some hv
      have hsv : Sees R v.tx_created := by
        unfold visible at hvis
        simp only [Bool.and_eq_true] at hvis
        exact sees_of_createdVisible hvis.1
      intro hcW
      rcases pairwise_getLast _ v u ((hs2.chains ch2 hch2).closed R hRm.1) hvm hu with h | h
      · rw [h, hcW] at hsv; exact hnot hsv
      · have := h hsv
        rw [hcW] at this
        exact hnot this
    · intro hops
      obtain ⟨b1, b2, b3⟩ := frame_foldl ops3 _ hinv2 htx2 hm2 hs2 R hRm.1 hops view
      have hinv3 := foldl_step_inv ops3 _ hinv2
      obtain ⟨c1, c2, c3, c4⟩ := reads_of_frame hinv2 hinv3 (foldl_step_registered ops3 _) b2 b3
      refine ⟨b1, b2, c1, c2, c3 label, ?_⟩
      intro hr
      exact c4 label property (by rw [hreg2]; exact hr) (fun _ => true) (fun _ _ _ => rfl)
  · intro hW hops ch v hch hv hc he
    have hsee := Access_reads_committed hinv1 htx1 hm1 hs1 view hch hv (by rw [hc]; exact hW) he
    have hR0 : (run registered ops1).Access.1 ∈ (run registered ops1).Access.2.accessors := by
      simp [Access]
    obtain ⟨_, b2, b3⟩ := frame_foldl ops2 _ hinvA htxA hmA hsA _ hR0 hops view
    have hpay : ((ops2.foldl step (run registered ops1).Access.2).visibleVersion
        (run registered ops1).Access.1 view ch.gid).map (fun x => x.payload)
        = some v.payload := by
      rw [b3 ch.gid, hsee]; rfl
    have hvert : ch.gid ∈ (ops2.foldl step (run registered ops1).Access.2).Vertices
        (run registered ops1).Access.1 view := by
      rw [b2]; exact mem_Vertices_of_visibleVersion hsee
    refine ⟨hpay, hvert, ?_⟩
    intro hl
    have hlab : (ops2.foldl step (run registered ops1).Access.2).HasLabel
        (run registered ops1).Access.1 view ch.gid label = true := by
      rw [HasLabel_eq, hpay]; exact hl
    constructor
    · rw [LabelVertices_eq_filter hinv2, List.mem_filter]
      exact ⟨hvert, hlab⟩
    · intro hreg hnn
      apply (PropertyScan_spec hinv2 (run registered ops1).Access.1 label property view
        (fun _ => true) (fun _ _ _ => rfl)).2.2 ?_ ch.gid hvert hlab ?_ rfl
      · rw [hreg2]; exact hreg
      · rw [GetProperty_eq, hpay]; exact hnn

end storage.Storage

namespace storage.Storage

/-- Witness of C5.  (1) The reader 4 is opened while the writer 3 is in flight;
3 takes the label off the vertex 0, deletes the vertex and commits: the label
scan and the full scan of the reader still yield the vertex 0.  (2) The reader
3 is opened after the writer 1 committed the labelled vertex 0; transaction 4
takes the label off and commits: the label scan of the reader yields 0. -/
theorem C5_index_scan_snapshot_isolation_witness :
    ((run [] isolationScenario).engine.GlobalInfo 3 ≠ tx.Status.Committed ∧
      (run [] isolationScenario).Access.2.accessor 4 = some isolationReader ∧
      (isolationWrites.foldl step (run [] isolationScenario).Access.2).engine.GlobalInfo 3
        = tx.Status.Committed ∧
      (run [] isolationScenario).Access.2.LabelVertices isolationReader 7 View.NEW = [0] ∧
      (isolationWrites.foldl step (run [] isolationScenario).Access.2).LabelVertices
        isolationReader 7 View.NEW = [0] ∧
      (isolationWrites.foldl step (run [] isolationScenario).Access.2).Vertices
        isolationReader View.NEW = [0]) ∧
    ((run [] committedScenario).engine.GlobalInfo 1 = tx.Status.Committed ∧
      (run [] committedScenario).Access.1 = lateReader ∧
      (laterWrites.foldl step (run [] committedScenario).Access.2).engine.GlobalInfo 4
        = tx.Status.Committed ∧
      0 ∈ (laterWrites.foldl step (run [] committedScenario).Access.2).LabelVertices
        lateReader 7 View.NEW) := by
  have h1 := ((C5_index_scan_snapshot_isolation [] isolationScenario [] isolationWrites 3 7 0
    View.NEW).1 (by decide) (by decide) isolationReader rfl).2.2.2.2.2 (by decide)
  have h2 := ((C5_index_scan_snapshot_isolation [] committedScenario laterWrites [] 1 7 0
    View.NEW).2 (by decide) (by decide) committedChain committedVersion
    (List.mem_singleton.2 rfl) (List.mem_singleton.2 rfl) rfl (Or.inl rfl)).2.2 rfl
  refine ⟨⟨by decide, rfl, by decide, rfl, ?_, ?_⟩, by decide, rfl, by decide, h2.1⟩
  · exact h1.2.2.2.2.1.trans rfl
  · exact h1.2.1.trans rfl

end storage.Storage

/-! ## The Bolt session -/

namespace BoltSession

theorem refused_iff {Privilege : Type} (level : Privilege → PermissionLevel)
    (privileges : List Privilege) :
    refused level privileges = true ↔
      ∃ p ∈ privileges, level p ≠ PermissionLevel.GRANT := by
  induction privileges with
  | nil => simp [refused]
  | cons p ps ih =>
    by_cases h : level p = PermissionLevel.GRANT
    · simp [refused, h, ih]
    · simp [refused, h]

theorem refused_eq_false {Privilege : Type} (level : Privilege → PermissionLevel)
    (privileges : List Privilege) :
    refused level privileges = false ↔
      ∀ p ∈ privileges, level p = PermissionLevel.GRANT := by
  rw [← Bool.not_eq_true, refused_iff]
  push_neg
  rfl

/-- C11: for a session with an authenticated user (and parameters that
convert), `Interpret` returns a header only when the engine produced that
header together with privileges the user's permissions all grant, and then the
engine is left as its `Interpret` left it; when the engine returns and some
required privilege is not granted, the call aborts the transaction and throws
the `ClientError` "You are not authorized to execute this query! ..."; and a
`QueryException` of the engine becomes the `ClientError` with the same text. -/
theorem C11_Interpret_authorization {Engine Privilege Permission User Value PV : Type}
    (env : Env Engine Privilege Permission User Value PV) (s : Session Engine User)
    (query : String) (params : List (String × Value)) (user : User)
    (params_pv : List (String × PV))
    (huser : s.user_ = some user)
    (hparams : convertParams env.ToPropertyValue params = Except.ok params_pv) :
    (∀ header s2, Interpret env s query params = (Except.ok header, s2) →
      ∃ privileges,
        env.engineInterpret query params_pv s.transaction_engine_ =
          (Except.ok (header, privileges), s2.transaction_engine_) ∧
        s2.user_ = s.user_ ∧
        ∀ p ∈ privileges,
          env.Has user (env.PrivilegeToPermission p) = PermissionLevel.GRANT) ∧
    (∀ header privileges eng,
      env.engineInterpret query params_pv s.transaction_engine_ =
        (Except.ok (header, privileges), eng) →
      (∃ p ∈ privileges,
        env.Has user (env.PrivilegeToPermission p) ≠ PermissionLevel.GRANT) →
      Interpret env s query params =
        (Except.error (Exception.ClientError notAuthorized),
          { s with transaction_engine_ := env.engineAbort eng })) ∧
    (∀ header privileges eng,
      env.engineInterpret query params_pv s.transaction_engine_ =
        (Except.ok (header, privileges), eng) →
      (∀ p ∈ privileges,
        env.Has user (env.PrivilegeToPermission p) = PermissionLevel.GRANT) →
      Interpret env s query params =
        (Except.ok header, { s with transaction_engine_ := eng })) ∧
    (∀ what eng,
      env.engineInterpret query params_pv s.transaction_engine_ =
        (Except.error (Exception.QueryException what), eng) →
      Interpret env s query params =
        (Except.error (Exception.ClientError what),
          { s with transaction_engine_ := eng })) := by
  refine ⟨?_, ?_, ?_, ?_⟩
  · intro header s2 h
    unfold Interpret at h
    rw [hparams] at h
    simp only [huser] at h
    rcases hres : env.engineInterpret query params_pv s.transaction_engine_ with ⟨r, eng⟩
    rw [hres] at h
    cases r with
    | error e =>
      cases e <;> simp at h
    | ok result =>
      obtain ⟨hdr, privs⟩ := result
      simp only at h
      split at h
      · simp at h
      · rename_i hr
        rw [Bool.not_eq_true, refused_eq_false] at hr
        simp only [Prod.mk.injEq, Except.ok.injEq] at h
        obtain ⟨h1, h2⟩ := h
        subst h1
        subst h2
        exact ⟨privs, rfl, huser.symm ▸ rfl, hr⟩
  · intro header privileges eng hres hex
    unfold Interpret
    rw [hparams]
    simp only [huser, hres]
    rw [if_pos]
    exact (refused_iff _ _).2 hex
  · intro header privileges eng hres hall
    unfold Interpret
    rw [hparams]
    simp only [huser, hres]
    rw [if_neg]
    rw [Bool.not_eq_true]
    exact (refused_eq_false _ _).2 hall
  · intro what eng hres
    unfold Interpret
    rw [hparams]
    simp only [hres]

/-- Witness of C11: in `demoEnv` user 1 lacks privilege 2, so the query is
refused and the engine (at 5, then 6 after interpreting) is reset by `Abort`;
a query without parameters fails in the engine and the session reports its
text as a `ClientError`. -/
theorem C11_Interpret_authorization_witness :
    Interpret demoEnv { transaction_engine_ := 5, user_ := some 1 } "RETURN 1" [("x", 7)] =
        (Except.error (Exception.ClientError notAuthorized),
          { transaction_engine_ := 0, user_ := some 1 }) ∧
      Interpret demoEnv { transaction_engine_ := 5, user_ := some 1 } "RETURN" [] =
        (Except.error (Exception.ClientError "no parameters"),
          { transaction_engine_ := 5, user_ := some 1 }) :=
  ⟨(C11_Interpret_authorization demoEnv { transaction_engine_ := 5, user_ := some 1 }
      "RETURN 1" [("x", 7)] 1 [("x", 7)] rfl rfl).2.1 ["n"] [1, 2] 6 rfl
      ⟨2, by decide, by decide⟩,
    (C11_Interpret_authorization demoEnv { transaction_engine_ := 5, user_ := some 1 }
      "RETURN" [] 1 [] rfl rfl).2.2.2 "no parameters" 5 rfl⟩

end BoltSession

/-! ## The shutdown handler -/

namespace memgraph_init

theorem shutdown_set {W : Type} (shutdown_fun : List (Action W)) (fuel : Nat)
    (s : SignalState W) (h : s.is_shutting_down ≠ 0) :
    shutdown shutdown_fun (fuel + 1) s = some s := by
  simp [shutdown, h]

theorem runActions_set {W : Type} (shutdown_fun : List (Action W)) (fuel : Nat)
    (acts : List (Action W)) :
    ∀ s : SignalState W, s.is_shutting_down ≠ 0 →
      ∃ s2, runActions (shutdown shutdown_fun (fuel + 1)) acts s = some s2 ∧
        s2.is_shutting_down = s.is_shutting_down ∧ s2.shutdown_calls = s.shutdown_calls := by
  induction acts with
  | nil => intro s _; exact ⟨s, rfl, rfl, rfl⟩
  | cons a rest ih =>
    intro s h
    cases a with
    | work f =>
      obtain ⟨s2, h1, h2, h3⟩ := ih { s with world := f s.world } h
      exact ⟨s2, by simpa [runActions] using h1, h2, h3⟩
    | signal =>
      obtain ⟨s2, h1, h2, h3⟩ := ih s h
      refine ⟨s2, ?_, h2, h3⟩
      simp only [runActions, shutdown_set shutdown_fun fuel s h]
      exact h1

theorem shutdown_first {W : Type} (shutdown_fun : List (Action W)) (fuel : Nat)
    (s : SignalState W) (h : s.is_shutting_down = 0) :
    ∃ s2, shutdown shutdown_fun (fuel + 2) s = some s2 ∧
      s2.is_shutting_down = 1 ∧ s2.shutdown_calls = s.shutdown_calls + 1 := by
  obtain ⟨s2, h1, h2, h3⟩ := runActions_set shutdown_fun fuel shutdown_fun
    { s with is_shutting_down := 1, shutdown_calls := s.shutdown_calls + 1 } (by simp)
  refine ⟨s2, ?_, h2, h3⟩
  rw [shutdown]
  simp only [h, ne_eq, not_true_eq_false, if_false]
  exact h1

theorem runActions_clear {W : Type} (shutdown_fun : List (Action W)) (fuel : Nat)
    (acts : List (Action W)) :
    ∀ s : SignalState W, s.is_shutting_down = 0 →
      ∃ s2, runActions (shutdown shutdown_fun (fuel + 2)) acts s = some s2 ∧
        s2.is_shutting_down = (if acts.any Action.isSignal then 1 else 0) ∧
        s2.shutdown_calls =
          s.shutdown_calls + (if acts.any Action.isSignal then 1 else 0) := by
  induction acts with
  | nil => intro s h; exact ⟨s, rfl, by simpa using h, by simp⟩
  | cons a rest ih =>
    intro s h
    cases a with
    | work f =>
      obtain ⟨s2, h1, h2, h3⟩ := ih { s with world := f s.world } h
      exact ⟨s2, by simpa [runActions] using h1, by simpa [Action.isSignal] using h2,
        by simpa [Action.isSignal] using h3⟩
    | signal =>
      obtain ⟨s1, g1, g2, g3⟩ := shutdown_first shutdown_fun fuel s h
      obtain ⟨s2, h1, h2, h3⟩ := runActions_set shutdown_fun (fuel + 1) rest s1
        (by rw [g2]; decide)
      refine ⟨s2, ?_, ?_, ?_⟩
      · simp only [runActions, g1]
        exact h1
      · simp [Action.isSignal, h2, g2]
      · simp [Action.isSignal, h3, g3]

/-- C12: from the start of the program (flag 0) every piece of code, with
signals arriving at any of its steps and also while `shutdown_fun` runs, runs
to its end (handlers nest at most two deep) and calls `shutdown_fun` exactly
once if a signal arrived and not at all otherwise: the first invocation of the
handler calls it and no later or nested invocation does.  The flag is set from
the first invocation on. -/
theorem C12_shutdown_fun_called_at_most_once {W : Type} (shutdown_fun : List (Action W))
    (program : List (Action W)) (w : W) (fuel : Nat) (hfuel : 2 ≤ fuel) :
    ∃ s, runActions (shutdown shutdown_fun fuel) program (SignalState.initial w) = some s ∧
      s.shutdown_calls = (if program.any Action.isSignal then 1 else 0) ∧
      s.shutdown_calls ≤ 1 ∧
      s.is_shutting_down = (if program.any Action.isSignal then 1 else 0) := by
  obtain ⟨k, rfl⟩ : ∃ k, fuel = k + 2 := ⟨fuel - 2, by omega⟩
  obtain ⟨s, h1, h2, h3⟩ := runActions_clear shutdown_fun k program (SignalState.initial w) rfl
  refine ⟨s, h1, ?_, ?_, h2⟩
  · simpa [SignalState.initial] using h3
  · rw [h3]
    simp only [SignalState.initial]
    split <;> simp

/-- Witness of C12: SIGINT, some work, SIGTERM, with a `shutdown_fun` during
which a further signal arrives: one call. -/
theorem C12_shutdown_fun_called_at_most_once_witness :
    ∃ s, runActions (shutdown [Action.work (fun n => n + 10), Action.signal] 2)
          [Action.signal, Action.work (fun n => n + 1), Action.signal]
          (SignalState.initial (0 : Nat)) = some s ∧
      s.shutdown_calls =
        (if [Action.signal, Action.work (fun n : Nat => n + 1), Action.signal].any
            Action.isSignal then 1 else 0) ∧
      s.shutdown_calls ≤ 1 ∧
      s.is_shutting_down =
        (if [Action.signal, Action.work (fun n : Nat => n + 1), Action.signal].any
            Action.isSignal then 1 else 0) :=
  C12_shutdown_fun_called_at_most_once [Action.work (fun n => n + 10), Action.signal]
    [Action.signal, Action.work (fun n => n + 1), Action.signal] 0 2 (by decide)

end memgraph_init

/-! ## The dump generator's container state -/

namespace database.ContainerState

theorem GetCurrentAndAdvance_frame {α : Type} (s : ContainerState α) :
    (GetCurrentAndAdvance s).2.container_ = s.container_ ∧
      (GetCurrentAndAdvance s).2.empty_ = s.empty_ ∧
      (GetCurrentAndAdvance s).2.end_ = s.end_ := by
  unfold GetCurrentAndAdvance
  by_cases h : s.current_ = s.end_ <;> simp [h]

theorem advance_frame {α : Type} (n : Nat) :
    ∀ s : ContainerState α, (advance n s).container_ = s.container_ ∧
      (advance n s).empty_ = s.empty_ ∧ (advance n s).end_ = s.end_ := by
  induction n with
  | zero => intro s; exact ⟨rfl, rfl, rfl⟩
  | succ n ih =>
    intro s
    obtain ⟨h1, h2, h3⟩ := ih (GetCurrentAndAdvance s).2
    obtain ⟨g1, g2, g3⟩ := GetCurrentAndAdvance_frame s
    exact ⟨h1.trans g1, h2.trans g2, h3.trans g3⟩

theorem advance_current {α : Type} (n : Nat) :
    ∀ s : ContainerState α, s.current_ ≤ s.end_ →
      (advance n s).current_ = min (s.current_ + n) s.end_ := by
  induction n with
  | zero => intro s h; simp [advance, h]
  | succ n ih =>
    intro s h
    have hf := (GetCurrentAndAdvance_frame s).2.2
    by_cases hc : s.current_ = s.end_
    · have h2 : (GetCurrentAndAdvance s).2 = s := by simp [GetCurrentAndAdvance, hc]
      rw [advance, h2, ih s h]
      omega
    · have h2 : (GetCurrentAndAdvance s).2.current_ = s.current_ + 1 := by
        simp [GetCurrentAndAdvance, hc]
      rw [advance, ih _ (by rw [h2, hf]; omega), h2, hf]
      omega

/-- C13: for every container and every number `n` of `GetCurrentAndAdvance`
calls after the construction, the state still holds the container it was
constructed with, `Empty()` returns true iff that container is empty, and
`Empty()` returns what it returned right after the construction.  (The
iterator meanwhile has moved `n` places, or to the end.) -/
theorem C13_Empty_iff_container_empty {α : Type} (container : List α) (n : Nat) :
    (advance n (ctor container)).container_ = container ∧
      ((advance n (ctor container)).Empty = true ↔ container = []) ∧
      (advance n (ctor container)).Empty = (ctor container).Empty ∧
      (advance n (ctor container)).current_ = min n container.length := by
  obtain ⟨h1, h2, _⟩ := advance_frame n (ctor container)
  refine ⟨h1, ?_, h2, ?_⟩
  · unfold Empty
    rw [h2]
    simp only [ctor, decide_eq_true_eq]
    constructor
    · intro h
      exact List.length_eq_zero.1 h.symm
    · intro h
      rw [h]
      rfl
  · rw [advance_current n (ctor container) (by simp [ctor])]
    simp [ctor]

end database.ContainerState

/-! ## Profiling scopes -/

namespace query.plan

namespace ProfilingStats

theorem get?_nil (t : ProfilingStats) : t.get? [] = some t := by
  cases t; rfl

theorem update_nil (f : ProfilingStats → ProfilingStats) (t : ProfilingStats) :
    t.update f [] = f t := by
  cases t; rfl

theorem get?_cons (t : ProfilingStats) (i : Nat) (path : List Nat) :
    t.get? (i :: path) = (t.children[i]?).bind (fun child => child.get? path) := by
  cases t with
  | mk h c k n ch =>
    simp only [get?, children]
    cases ch[i]? <;> rfl

theorem getElem?_append_some {α : Type} {l : List α} {i : Nat} {c : α} (extra : List α)
    (h : l[i]? = some c) : (l ++ extra)[i]? = some c := by
  obtain ⟨hi, _⟩ := List.getElem?_eq_some_iff.1 h
  rw [List.getElem?_append_left hi, h]

theorem get?_update_self (f : ProfilingStats → ProfilingStats) :
    ∀ (path : List Nat) (t : ProfilingStats),
      (t.update f path).get? path = (t.get? path).map f := by
  intro path
  induction path with
  | nil => intro t; rw [update_nil, get?_nil, get?_nil]; rfl
  | cons i path ih =>
    intro t
    cases t with
    | mk h c k n ch =>
      cases hc : ch[i]? with
      | none => simp [update, get?, hc]
      | some child =>
        have hi : i < ch.length := (List.getElem?_eq_some_iff.1 hc).1
        simp only [update, get?, hc, List.getElem?_set_self hi]
        exact ih child

theorem get?_append : ∀ (p q : List Nat) (t : ProfilingStats),
    t.get? (p ++ q) = (t.get? p).bind (fun n => n.get? q) := by
  intro p
  induction p with
  | nil => intro q t; rw [get?_nil]; rfl
  | cons i p ih =>
    intro q t
    rw [List.cons_append, get?_cons, get?_cons]
    cases t.children[i]? with
    | none => rfl
    | some child => exact ih q child

theorem get?_grown {f : ProfilingStats → ProfilingStats} (hf : Grows f)
    (t : ProfilingStats) (i : Nat) (q : List Nat) (h : (t.get? (i :: q)).isSome = true) :
    (f t).get? (i :: q) = t.get? (i :: q) := by
  obtain ⟨extra, he⟩ := hf t
  rw [get?_cons] at h ⊢
  rw [get?_cons, he]
  cases hc : t.children[i]? with
  | none => rw [hc] at h; simp at h
  | some child => rw [getElem?_append_some extra hc]

theorem isSome_get?_update {f : ProfilingStats → ProfilingStats} (hf : Grows f) :
    ∀ (p : List Nat) (t : ProfilingStats) (q : List Nat),
      (t.get? q).isSome = true → ((t.update f p).get? q).isSome = true := by
  intro p
  induction p with
  | nil =>
    intro t q h
    cases q with
    | nil => rw [get?_nil]; rfl
    | cons i q =>
      rw [update_nil, get?_grown hf t i q h]
      exact h
  | cons j p ih =>
    intro t q h
    cases q with
    | nil => rw [get?_nil]; rfl
    | cons i q =>
      cases t with
      | mk hh c k n ch =>
        cases hc : ch[j]? with
        | none => simpa [update, hc] using h
        | some child =>
          have hj : j < ch.length := (List.getElem?_eq_some_iff.1 hc).1
          simp only [update, hc, get?]
          by_cases hij : j = i
          · subst hij
            simp only [get?, hc] at h
            rw [List.getElem?_set_self hj]
            exact ih child q h
          · rw [List.getElem?_set_ne hij]
            simpa [get?] using h

theorem key_get?_update {f : ProfilingStats → ProfilingStats} (hf : Gentle f) :
    ∀ (p : List Nat) (t : ProfilingStats) (q : List Nat),
      (t.get? q).isSome = true →
      ((t.update f p).get? q).map key = (t.get? q).map key := by
  have hg : Grows f := fun n => (hf n).2
  intro p
  induction p with
  | nil =>
    intro t q h
    cases q with
    | nil =>
      rw [update_nil, get?_nil, get?_nil]
      show some (f t).key = some t.key
      rw [(hf t).1]
    | cons i q =>
      rw [update_nil, get?_grown hg t i q h]
  | cons j p ih =>
    intro t q h
    cases q with
    | nil =>
      cases t with
      | mk hh c k n ch =>
        cases hc : ch[j]? <;> simp [update, hc, get?, key]
    | cons i q =>
      cases t with
      | mk hh c k n ch =>
        cases hc : ch[j]? with
        | none => simp [update, hc]
        | some child =>
          have hj : j < ch.length := (List.getElem?_eq_some_iff.1 hc).1
          simp only [update, hc, get?]
          by_cases hij : j = i
          · subst hij
            simp only [get?, hc] at h
            rw [List.getElem?_set_self hj, hc]
            exact ih child q h
          · rw [List.getElem?_set_ne hij]

theorem findChild_spec (key : Nat) : ∀ (ch : List ProfilingStats) (i : Nat),
    findChild key ch = some i → ∃ child, ch[i]? = some child ∧ child.key = key := by
  intro ch
  induction ch with
  | nil => intro i h; simp [findChild] at h
  | cons st rest ih =>
    intro i h
    unfold findChild at h
    by_cases hk : st.key = key
    · simp only [hk, if_true, Option.some.injEq] at h
      subst h
      exact ⟨st, by simp, hk⟩
    · simp only [hk, if_false] at h
      cases hr : findChild key rest with
      | none => rw [hr] at h; simp at h
      | some j =>
        rw [hr] at h
        simp only [Option.some.injEq] at h
        subst h
        obtain ⟨child, h1, h2⟩ := ih j hr
        exact ⟨child, by simpa using h1, h2⟩

theorem grows_setKeyName (key : Nat) (name : String) : Grows (setKeyName key name) := by
  intro n; cases n; exact ⟨[], by simp [setKeyName, children]⟩

theorem gentle_pushChild (key : Nat) (name : String) : Gentle (pushChild key name) := by
  intro n; cases n; exact ⟨rfl, [_], rfl⟩

theorem gentle_hit : Gentle hit := by
  intro n; cases n; exact ⟨rfl, [], by simp [hit, children]⟩

theorem gentle_addCycles (now start : Nat) : Gentle (addCycles now start) := by
  intro n; cases n; exact ⟨rfl, [], by simp [addCycles, children]⟩

theorem grows_of_gentle {f : ProfilingStats → ProfilingStats} (hf : Gentle f) : Grows f :=
  fun n => (hf n).2

end ProfilingStats

namespace ScopedProfile

open ProfilingStats

theorem ctor_spec (key : Nat) (name : String) (tsc : Nat) (c : ExecutionContext)
    (hp : c.is_profile_query = true) (hv : c.Valid) :
    ∃ sp c1 p node, ctor key name tsc c = some (sp, c1) ∧ sp.root_ = c.stats_root ∧
      sp.stats_ = some p ∧ c1.stats_root = some p ∧ c1.is_profile_query = true ∧
      c1.stats.get? p = some node ∧ node.key = key ∧
      (∀ q, (c.stats.get? q).isSome = true → (c1.stats.get? q).isSome = true) ∧
      (∀ b, c.stats_root ≠ none → (c.stats.get? b).isSome = true →
        (c1.stats.get? b).map ProfilingStats.key = (c.stats.get? b).map ProfilingStats.key) := by
  unfold ctor
  rw [if_pos hp]
  cases hr : c.stats_root with
  | none =>
    refine ⟨_, _, [], ProfilingStats.hit (c.stats.setKeyName key name),
      rfl, rfl, rfl, rfl, hp, ?_, ?_, ?_, ?_⟩
    · simp only [update_nil, get?_nil]
    · cases c.stats; rfl
    · intro q hq
      have h1 := isSome_get?_update (grows_setKeyName key name) [] c.stats q hq
      rw [update_nil] at h1
      exact isSome_get?_update (grows_of_gentle gentle_hit) [] _ q h1
    · intro b hb
      exact absurd rfl hb
  | some root =>
    obtain ⟨node0, hn0⟩ := Option.isSome_iff_exists.1 (hv root hr)
    simp only [hn0]
    cases hf : findChild key node0.children with
    | none =>
      have hnew : (c.stats.update (pushChild key name) root).get?
          (root ++ [node0.children.length]) = some (ProfilingStats.mk 0 0 key name []) := by
        rw [get?_append, get?_update_self, hn0]
        cases node0 with
        | mk h cy k n ch =>
          simp [pushChild, get?, children]
      refine ⟨_, _, root ++ [node0.children.length],
        ProfilingStats.hit (ProfilingStats.mk 0 0 key name []),
        rfl, rfl, rfl, rfl, hp, ?_, rfl, ?_, ?_⟩
      · simp only [get?_update_self, hnew, Option.map_some']
      · intro q hq
        exact isSome_get?_update (grows_of_gentle gentle_hit) _ _ q
          (isSome_get?_update (grows_of_gentle (gentle_pushChild key name)) _ _ q hq)
      · intro b _ hb
        have h1 := key_get?_update (gentle_pushChild key name) root c.stats b hb
        have h2 := isSome_get?_update (grows_of_gentle (gentle_pushChild key name)) root c.stats b hb
        simp only
        rw [key_get?_update gentle_hit _ _ b h2, h1]
    | some i =>
      obtain ⟨child, hc1, hc2⟩ := findChild_spec key node0.children i hf
      have hold : c.stats.get? (root ++ [i]) = some child := by
        rw [get?_append, hn0]
        simp only [Option.some_bind, get?_cons, hc1, get?_nil]
      refine ⟨_, _, root ++ [i], ProfilingStats.hit child, rfl, rfl, rfl, rfl, hp, ?_, ?_, ?_, ?_⟩
      · simp only [get?_update_self, hold, Option.map_some']
      · rw [(gentle_hit child).1, hc2]
      · intro q hq
        exact isSome_get?_update (grows_of_gentle gentle_hit) _ _ q hq
      · intro b _ hb
        exact key_get?_update gentle_hit _ _ b hb

theorem dtor_spec (sp : ScopedProfile) (tsc : Nat) (c : ExecutionContext) (p : List Nat)
    (hp : c.is_profile_query = true) (hs : sp.stats_ = some p)
    (hv : (c.stats.get? p).isSome = true) :
    ∃ c1, dtor sp tsc c = some c1 ∧ c1.stats_root = sp.root_ ∧ c1.is_profile_query = true ∧
      (∀ q, (c.stats.get? q).isSome = true → (c1.stats.get? q).isSome = true) ∧
      (∀ b, (c.stats.get? b).isSome = true →
        (c1.stats.get? b).map ProfilingStats.key = (c.stats.get? b).map ProfilingStats.key) := by
  obtain ⟨node, hn⟩ := Option.isSome_iff_exists.1 hv
  unfold dtor
  rw [if_pos hp, hs]
  simp only [hn]
  refine ⟨_, rfl, rfl, hp, ?_, ?_⟩
  · intro q hq
    exact isSome_get?_update (grows_of_gentle (gentle_addCycles _ _)) _ _ q hq
  · intro b hb
    exact key_get?_update (gentle_addCycles _ _) _ _ b hb

end ScopedProfile

theorem Chain_grown {stats stats2 : ProfilingStats} {base : Option (List Nat)}
    (hg : ∀ q, (stats.get? q).isSome = true → (stats2.get? q).isSome = true) :
    ∀ (alive : List ScopedProfile) (root : Option (List Nat)),
      Chain stats base alive root → Chain stats2 base alive root := by
  intro alive
  induction alive with
  | nil => intro root h; exact h
  | cons sp rest ih =>
    intro root h
    obtain ⟨p, h1, h2, h3, h4⟩ := h
    exact ⟨p, h1, h2, hg p h3, ih _ h4⟩

namespace ScopeMachine

theorem run_append (a b : List ScopeEvent) :
    ∀ m : ScopeMachine, run (a ++ b) m = (run a m).bind (run b) := by
  induction a with
  | nil => intro m; rfl
  | cons e a ih =>
    intro m
    simp only [List.cons_append, run]
    cases step m e with
    | none => rfl
    | some m2 => exact ih m2

theorem Rel_valid {stats0 : ProfilingStats} {base : Option (List Nat)}
    {baseAlive : List ScopedProfile} {m : ScopeMachine} {new : List ScopedProfile}
    (hbase : ∀ b, base = some b → (stats0.get? b).isSome = true)
    (h : Rel stats0 base baseAlive m new) : m.context.Valid := by
  obtain ⟨_, _, hg, _, hc⟩ := h
  intro root hr
  cases new with
  | nil =>
    have hc2 : m.context.stats_root = base := hc
    exact hg root (hbase root (hc2 ▸ hr))
  | cons sp rest =>
    obtain ⟨p, _, h2, h3, _⟩ := hc
    rw [h2] at hr
    cases hr
    exact h3

theorem Rel_root_ne_none {stats0 : ProfilingStats} {base : Option (List Nat)}
    {baseAlive : List ScopedProfile} {m : ScopeMachine} {new : List ScopedProfile}
    (h : Rel stats0 base baseAlive m new) (b : List Nat) (hb : base = some b) :
    m.context.stats_root ≠ none := by
  obtain ⟨_, _, _, _, hc⟩ := h
  cases new with
  | nil =>
    have hc2 : m.context.stats_root = base := hc
    rw [hc2, hb]
    simp
  | cons sp rest =>
    obtain ⟨p, _, h2, _, _⟩ := hc
    rw [h2]
    simp

theorem step_enter {stats0 : ProfilingStats} {base : Option (List Nat)}
    {baseAlive : List ScopedProfile} {m : ScopeMachine} {new : List ScopedProfile}
    (hbase : ∀ b, base = some b → (stats0.get? b).isSome = true)
    (h : Rel stats0 base baseAlive m new) (key : Nat) (name : String) (tsc : Nat) :
    ∃ m2 sp p node, step m (ScopeEvent.enter key name tsc) = some m2 ∧
      Rel stats0 base baseAlive m2 (sp :: new) ∧ sp.root_ = m.context.stats_root ∧
      sp.stats_ = some p ∧ m2.context.stats_root = some p ∧
      m2.context.stats.get? p = some node ∧ node.key = key := by
  have hv := Rel_valid hbase h
  have hne := Rel_root_ne_none h
  obtain ⟨ha, hp, hg, hk, hc⟩ := h
  obtain ⟨sp, c1, p, node, e1, e2, e3, e4, e5, e6, e7, e8, e9⟩ :=
    ScopedProfile.ctor_spec key name tsc m.context hp hv
  refine ⟨{ context := c1, alive := sp :: m.alive }, sp, p, node, ?_, ?_, e2, e3, e4, e6, e7⟩
  · simp only [step, e1]
  · refine ⟨by simp [ha], e5, fun q hq => e8 q (hg q hq), ?_, ?_⟩
    · intro b hb
      have h1 := e9 b (hne b hb) (hg b (hbase b hb))
      exact h1.trans (hk b hb)
    · refine ⟨p, e3, e4, ?_, ?_⟩
      · show (c1.stats.get? p).isSome = true
        rw [e6]; rfl
      · rw [e2]
        exact Chain_grown e8 new _ hc

theorem step_leave {stats0 : ProfilingStats} {base : Option (List Nat)}
    {baseAlive : List ScopedProfile} {m : ScopeMachine} {sp : ScopedProfile}
    {rest : List ScopedProfile}
    (hbase : ∀ b, base = some b → (stats0.get? b).isSome = true)
    (h : Rel stats0 base baseAlive m (sp :: rest)) (tsc : Nat) :
    ∃ m2, step m (ScopeEvent.leave tsc) = some m2 ∧ Rel stats0 base baseAlive m2 rest ∧
      m2.context.stats_root = sp.root_ := by
  obtain ⟨ha, hp, hg, hk, hc⟩ := h
  obtain ⟨p, c1, c2, c3, c4⟩ := hc
  obtain ⟨ctx, d1, d2, d3, d4, d5⟩ := ScopedProfile.dtor_spec sp tsc m.context p hp c1 c3
  refine ⟨{ context := ctx, alive := rest ++ baseAlive }, ?_, ?_, d2⟩
  · simp only [step, ha, List.cons_append, d1]
  · refine ⟨rfl, d3, fun q hq => d4 q (hg q hq), ?_, ?_⟩
    · intro b hb
      exact (d5 b (hg b (hbase b hb))).trans (hk b hb)
    · show Chain ctx.stats base rest ctx.stats_root
      rw [d2]
      exact Chain_grown d4 rest _ c4

theorem run_rel {stats0 : ProfilingStats} {base : Option (List Nat)}
    {baseAlive : List ScopedProfile}
    (hbase : ∀ b, base = some b → (stats0.get? b).isSome = true) :
    ∀ (events : List ScopeEvent) (m : ScopeMachine) (new : List ScopedProfile),
      Rel stats0 base baseAlive m new → wellBracketed new.length events = true →
      ∃ m2 new2, run events m = some m2 ∧ Rel stats0 base baseAlive m2 new2 ∧
        new2.length = finalDepth new.length events := by
  intro events
  induction events with
  | nil => intro m new h _; exact ⟨m, new, rfl, h, rfl⟩
  | cons e events ih =>
    intro m new h hw
    cases e with
    | enter key name tsc =>
      obtain ⟨m1, sp, _, _, h1, h2, _⟩ := step_enter hbase h key name tsc
      obtain ⟨m2, new2, g1, g2, g3⟩ := ih m1 (sp :: new) h2 (by simpa [wellBracketed] using hw)
      exact ⟨m2, new2, by simp only [run, h1]; exact g1, g2, by simpa [finalDepth] using g3⟩
    | leave tsc =>
      simp only [wellBracketed, Bool.and_eq_true, decide_eq_true_eq] at hw
      cases new with
      | nil => simp at hw
      | cons sp rest =>
        obtain ⟨m1, h1, h2, _⟩ := step_leave hbase h tsc
        obtain ⟨m2, new2, g1, g2, g3⟩ := ih m1 rest h2 (by simpa using hw.2)
        exact ⟨m2, new2, by simp only [run, h1]; exact g1, g2, by simpa [finalDepth] using g3⟩

theorem Rel_refl (m : ScopeMachine) (hp : m.context.is_profile_query = true) :
    Rel m.context.stats m.context.stats_root m.alive m [] :=
  ⟨rfl, hp, fun _ h => h, fun _ _ => rfl, rfl⟩

end ScopeMachine

/-- C14, as amended: in a profiled query whose `stats_root` is null or points
into the tree, take any run of constructions and destructions `before` (none
destroying a scope that is not there), then the construction of a
`ScopedProfile` with `key`, then any properly nested run `inside`, then the
destruction of that scope.  All of it has defined behaviour, and
* while the scope is alive and every scope constructed after it has been
  destroyed (after `inside`), `stats_root` points to the scope's own node
  `stats_`, which is in the tree and has the scope's key;
* its destruction sets `stats_root` back to the value it had immediately
  before the construction, which the scope kept in `root_`;
* whenever no scope is alive, `stats_root` has its initial value. -/
theorem C14_stats_root_restored (context : ExecutionContext)
    (before inside : List ScopeEvent) (key : Nat) (name : String) (tsc tsc2 : Nat)
    (hprofile : context.is_profile_query = true) (hvalid : context.Valid)
    (hbefore : wellBracketed 0 before = true) (hinside : properlyNested inside = true) :
    ∃ m1 sp m2 m3 p node,
      ScopeMachine.run before (ScopeMachine.start context) = some m1 ∧
      m1.alive.length = finalDepth 0 before ∧
      (m1.alive = [] → m1.context.stats_root = context.stats_root) ∧
      ScopeMachine.run (before ++ ScopeEvent.enter key name tsc :: inside)
        (ScopeMachine.start context) = some m2 ∧
      m2.alive = sp :: m1.alive ∧
      sp.root_ = m1.context.stats_root ∧
      sp.stats_ = some p ∧
      m2.context.stats_root = some p ∧
      m2.context.stats.get? p = some node ∧
      node.key = key ∧
      ScopeMachine.run
        (before ++ ScopeEvent.enter key name tsc :: (inside ++ [ScopeEvent.leave tsc2]))
        (ScopeMachine.start context) = some m3 ∧
      m3.alive = m1.alive ∧
      m3.context.stats_root = m1.context.stats_root := by
  have hbase0 : ∀ b, context.stats_root = some b → (context.stats.get? b).isSome = true :=
    hvalid
  obtain ⟨m1, new1, r1, R1, len1⟩ := ScopeMachine.run_rel hbase0 before
    (ScopeMachine.start context) [] (ScopeMachine.Rel_refl (ScopeMachine.start context) hprofile)
    hbefore
  have ha1 : m1.alive = new1 := by simpa [ScopeMachine.start] using R1.1
  obtain ⟨me, sp, p, node, se, Re, e2, e3, e4, e6, e7⟩ :=
    ScopeMachine.step_enter hbase0 R1 key name tsc
  have hae : me.alive = sp :: m1.alive := by
    rw [ha1]; simpa [ScopeMachine.start] using Re.1
  have hbase1 : ∀ b, me.context.stats_root = some b →
      (me.context.stats.get? b).isSome = true := by
    intro b hb
    rw [e4] at hb
    cases hb
    rw [e6]; rfl
  simp only [properlyNested, Bool.and_eq_true, decide_eq_true_eq] at hinside
  obtain ⟨m2, new2, r2, R2, len2⟩ := ScopeMachine.run_rel hbase1 inside me []
    (ScopeMachine.Rel_refl me Re.2.1) hinside.1
  have hn2 : new2 = [] := List.length_eq_zero.1 (by rw [len2]; exact hinside.2)
  subst hn2
  obtain ⟨ha2, hp2, hg2, hk2, hc2⟩ := R2
  have hroot2 : m2.context.stats_root = some p := by
    have : m2.context.stats_root = me.context.stats_root := hc2
    rw [this, e4]
  have hkey2 := hk2 p e4
  rw [e6] at hkey2
  obtain ⟨node2, hnode2, hnk⟩ := Option.map_eq_some'.1 hkey2
  have hv2 : (m2.context.stats.get? p).isSome = true := by rw [hnode2]; rfl
  obtain ⟨ctx3, d1, d2, _⟩ := ScopedProfile.dtor_spec sp tsc2 m2.context p hp2 e3 hv2
  have halive2 : m2.alive = sp :: m1.alive := by rw [← hae]; simpa using ha2
  have hrun2 : ScopeMachine.run (before ++ ScopeEvent.enter key name tsc :: inside)
      (ScopeMachine.start context) = some m2 := by
    rw [ScopeMachine.run_append, r1]
    simp only [Option.some_bind, ScopeMachine.run, se]
    exact r2
  refine ⟨m1, sp, m2, { context := ctx3, alive := m1.alive }, p, node2, r1, ?_, ?_, hrun2,
    halive2, e2, e3, hroot2, hnode2, hnk.trans e7, ?_, rfl, d2.trans e2⟩
  · rw [ha1, len1]; rfl
  · intro hnil
    rw [ha1] at hnil
    subst hnil
    exact R1.2.2.2.2
  · rw [ScopeMachine.run_append, r1]
    simp only [Option.some_bind, ScopeMachine.run, se]
    rw [ScopeMachine.run_append, r2]
    simp only [Option.some_bind, ScopeMachine.run, ScopeMachine.step, halive2, d1]

/-- Witness of C14: in a fresh profiled query the scope of key 2 is constructed
inside the scope of key 1, a scope of key 3 lives and dies inside it, and it
is destroyed. -/
theorem C14_stats_root_restored_witness :
    ∃ m1 sp m2 m3 p node,
      ScopeMachine.run [ScopeEvent.enter 1 "Produce" 10] (ScopeMachine.start freshProfile)
        = some m1 ∧
      m1.alive.length = finalDepth 0 [ScopeEvent.enter 1 "Produce" 10] ∧
      (m1.alive = [] → m1.context.stats_root = freshProfile.stats_root) ∧
      ScopeMachine.run ([ScopeEvent.enter 1 "Produce" 10] ++ ScopeEvent.enter 2 "ScanAll" 20 ::
          [ScopeEvent.enter 3 "Filter" 30, ScopeEvent.leave 35])
        (ScopeMachine.start freshProfile) = some m2 ∧
      m2.alive = sp :: m1.alive ∧
      sp.root_ = m1.context.stats_root ∧
      sp.stats_ = some p ∧
      m2.context.stats_root = some p ∧
      m2.context.stats.get? p = some node ∧
      node.key = 2 ∧
      ScopeMachine.run
        ([ScopeEvent.enter 1 "Produce" 10] ++ ScopeEvent.enter 2 "ScanAll" 20 ::
          ([ScopeEvent.enter 3 "Filter" 30, ScopeEvent.leave 35] ++ [ScopeEvent.leave 40]))
        (ScopeMachine.start freshProfile) = some m3 ∧
      m3.alive = m1.alive ∧
      m3.context.stats_root = m1.context.stats_root :=
  C14_stats_root_restored freshProfile [ScopeEvent.enter 1 "Produce" 10]
    [ScopeEvent.enter 3 "Filter" 30, ScopeEvent.leave 35] 2 "ScanAll" 20 40 rfl
    (fun _ h => nomatch h) rfl rfl

/-- Counterexample to C14 as stated ("while a ScopedProfile is alive stats_root
points to that scope's own ProfilingStats node"): after the scope of key 1 and,
inside it, the scope of key 2 were constructed in a fresh profiled query, both
are alive, the outer one's own node is `context.stats` itself (the empty
path), and `stats_root` points to the first child instead, the node of the
inner scope. -/
theorem C14_outer_scope_counterexample :
    ∃ m inner outer,
      ScopeMachine.run [ScopeEvent.enter 1 "Produce" 10, ScopeEvent.enter 2 "ScanAll" 20]
        (ScopeMachine.start freshProfile) = some m ∧
      m.alive = [inner, outer] ∧
      outer.stats_ = some [] ∧
      inner.stats_ = some [0] ∧
      m.context.stats_root = some [0] ∧
      m.context.stats_root ≠ outer.stats_ :=
  ⟨_, _, _, rfl, rfl, rfl, rfl, rfl, by decide⟩

end query.plan

/-! ## The memory warning -/

namespace memgraph_init

theorem memoryCheck_some (threshold kilobytes : Nat) :
    memoryCheck threshold (some kilobytes) =
      if kilobytes / 1024 < threshold then [LogLine.RunningOut (kilobytes / 1024)] else [] :=
  rfl

/-- The product of the claim is the exact one: computed in 64 bits it wraps for
thresholds from `2 ^ 54` on, and then differs from what the check does. -/
theorem memoryCheck_wrapped_product :
    memoryCheck (2 ^ 54) (some 0) = [LogLine.RunningOut 0] ∧
      ¬ (0 < (1024 * 2 ^ 54) % 2 ^ 64) := by
  constructor
  · rw [memoryCheck_some]
    norm_num
  · norm_num

/-- C15: one periodic check logs the warning iff the available memory is
known and `free_kilobytes / 1024 < memory_warning_threshold`, which is the
same as `free_kilobytes < 1024 * memory_warning_threshold` (exact product);
the warning shows `free_kilobytes / 1024`; the check is scheduled iff the
threshold is positive and the availability is known at start-up; and with
threshold 0 nothing is scheduled and nothing is logged, whatever is read. -/
theorem C15_memory_warning (memory_warning_threshold : Nat) (free_ram : Option Nat) :
    (memoryCheck memory_warning_threshold free_ram ≠ [] ↔
      ∃ kb, free_ram = some kb ∧ kb / 1024 < memory_warning_threshold) ∧
    (memoryCheck memory_warning_threshold free_ram ≠ [] ↔
      ∃ kb, free_ram = some kb ∧ kb < 1024 * memory_warning_threshold) ∧
    (∀ kb, free_ram = some kb → kb / 1024 < memory_warning_threshold →
      memoryCheck memory_warning_threshold free_ram = [LogLine.RunningOut (kb / 1024)]) ∧
    (((startMemoryWarning memory_warning_threshold free_ram).1).isSome = true ↔
      0 < memory_warning_threshold ∧ free_ram ≠ none) ∧
    (∀ check, (startMemoryWarning memory_warning_threshold free_ram).1 = some check →
      check = memoryCheck memory_warning_threshold) ∧
    (∀ readings, (startMemoryWarning 0 free_ram).1 = none ∧
      memoryLog 0 free_ram readings = []) := by
  have hdiv : ∀ kb : Nat, kb / 1024 < memory_warning_threshold ↔
      kb < 1024 * memory_warning_threshold := fun kb => by
    rw [Nat.div_lt_iff_lt_mul (by norm_num : 0 < 1024), Nat.mul_comm]
  have h1 : memoryCheck memory_warning_threshold free_ram ≠ [] ↔
      ∃ kb, free_ram = some kb ∧ kb / 1024 < memory_warning_threshold := by
    cases free_ram with
    | none => simp [memoryCheck]
    | some kb =>
      rw [memoryCheck_some]
      by_cases h : kb / 1024 < memory_warning_threshold <;> simp [h]
  refine ⟨h1, ?_, ?_, ?_, ?_, ?_⟩
  · rw [h1]
    constructor
    · rintro ⟨kb, a, b⟩
      exact ⟨kb, a, (hdiv kb).1 b⟩
    · rintro ⟨kb, a, b⟩
      exact ⟨kb, a, (hdiv kb).2 b⟩
  · intro kb hkb hlt
    rw [hkb, memoryCheck_some, if_pos hlt]
  · unfold startMemoryWarning
    by_cases ht : memory_warning_threshold > 0
    · cases free_ram <;> simp [ht]
    · have h0 : ¬ (0 < memory_warning_threshold) := ht
      simp [ht, h0]
  · intro check hc
    unfold startMemoryWarning at hc
    by_cases ht : memory_warning_threshold > 0
    · cases free_ram with
      | none => simp [ht] at hc
      | some kb =>
        simp only [ht, if_true, Option.some.injEq] at hc
        exact hc.symm
    · simp [ht] at hc
  · intro readings
    simp [startMemoryWarning, memoryLog]

end memgraph_init

/-! ## The plan printer -/

namespace query.plan

theorem bars_length (n : Nat) : (bars n).length = 2 * n := by
  induction n with
  | zero => rfl
  | succ n ih =>
    rw [bars, String.length_append, ih]
    have : "| ".length = 2 := rfl
    omega

theorem indentation_length (n : Nat) : (indentation n).length = 1 + 2 * n := by
  rw [indentation, String.length_append, bars_length]
  rfl

theorem printBars_ok (depth_ : Int) (hmax : depth_ ≤ INT_MAX) :
    ∀ (k fuel : Nat) (i : Int) (out : String), 0 ≤ i → i + k = depth_ → k < fuel →
      printBars depth_ fuel i out = Except.ok (out ++ bars k) := by
  intro k
  induction k with
  | zero =>
    intro fuel i out _ hk hf
    obtain ⟨fuel, rfl⟩ : ∃ n, fuel = n + 1 := ⟨fuel - 1, by omega⟩
    have : ¬ i < depth_ := by omega
    simp [printBars, this, bars]
  | succ k ih =>
    intro fuel i out hi hk hf
    obtain ⟨fuel, rfl⟩ : ∃ n, fuel = n + 1 := ⟨fuel - 1, by omega⟩
    have h1 : i < depth_ := by omega
    have h2 : ¬ i + 1 > INT_MAX := by omega
    rw [printBars, if_pos h1, if_neg h2, ih fuel (i + 1) _ (by omega) (by omega) (by omega),
      bars, String.append_assoc]

theorem printBars_negative (depth_ : Int) (hneg : depth_ ≤ 0) (fuel : Nat) (out : String) :
    printBars depth_ (fuel + 1) 0 out = Except.ok out := by
  have : ¬ (0 : Int) < depth_ := by omega
  simp [printBars, this]

theorem printBars_overflow (depth_ : Int) (hbig : INT_MAX < depth_) :
    ∀ (k fuel : Nat) (i : Int) (out : String), 0 ≤ i → i + k = INT_MAX → k < fuel →
      printBars depth_ fuel i out = Except.error PrintError.SignedOverflow := by
  intro k
  induction k with
  | zero =>
    intro fuel i out _ hk hf
    obtain ⟨fuel, rfl⟩ : ∃ n, fuel = n + 1 := ⟨fuel - 1, by omega⟩
    have h1 : i < depth_ := by omega
    have h2 : i + 1 > INT_MAX := by omega
    rw [printBars, if_pos h1, if_pos h2]
  | succ k ih =>
    intro fuel i out hi hk hf
    obtain ⟨fuel, rfl⟩ : ∃ n, fuel = n + 1 := ⟨fuel - 1, by omega⟩
    have h1 : i < depth_ := by omega
    have h2 : ¬ i + 1 > INT_MAX := by omega
    rw [printBars, if_pos h1, if_neg h2]
    exact ih fuel (i + 1) _ (by omega) (by omega) (by omega)

theorem printBars_never_ok (depth_ : Int) (hbig : INT_MAX < depth_) :
    ∀ (fuel : Nat) (i : Int) (out r : String), 0 ≤ i → i ≤ INT_MAX →
      printBars depth_ fuel i out ≠ Except.ok r := by
  intro fuel
  induction fuel with
  | zero => intro i out r _ _; simp [printBars]
  | succ fuel ih =>
    intro i out r hi hm
    have h1 : i < depth_ := by omega
    rw [printBars, if_pos h1]
    by_cases h2 : i + 1 > INT_MAX
    · simp [h2]
    · rw [if_neg h2]
      exact ih (i + 1) _ r (by omega) (by omega)

theorem WithPrintLn_overflow (self : PlanPrinter) (fn : String → String) (fuel : Nat)
    (hbig : INT_MAX < self.depth_) (hfuel : 2147483647 < fuel) :
    self.WithPrintLn fuel fn = Except.error PrintError.SignedOverflow := by
  unfold PlanPrinter.WithPrintLn
  rw [printBars_overflow _ hbig 2147483647 fuel 0 _ (le_refl 0) (by unfold INT_MAX; norm_num)
    hfuel]

theorem WithPrintLn_never_ok (self : PlanPrinter) (fn : String → String) (fuel : Nat)
    (hbig : INT_MAX < self.depth_) (r : PlanPrinter) :
    self.WithPrintLn fuel fn ≠ Except.ok r := by
  intro h
  unfold PlanPrinter.WithPrintLn at h
  cases hp : printBars self.depth_ fuel 0 (self.out_ ++ " ") with
  | error e => simp [hp] at h
  | ok out =>
    exact printBars_never_ok _ hbig fuel 0 _ out (le_refl 0) (by unfold INT_MAX; norm_num) hp

/-- While `depth_` is within the range of the counter, from 0 to the largest
`int`, `WithPrintLn` returns (given fuel for its `depth_` iterations) and the
line is the documented one: the stream `fun` leaves when called on the stream
followed by the indentation, followed by a line feed.  The indentation is one
space followed by `depth_` copies of "| ", `1 + 2 * depth_` characters, and
`depth_` is unchanged. -/
theorem WithPrintLn_line_within_int (self : PlanPrinter) (fn : String → String) (fuel : Nat)
    (h0 : 0 ≤ self.depth_) (hmax : self.depth_ ≤ INT_MAX)
    (hfuel : self.depth_.toNat < fuel) :
    self.WithPrintLn fuel fn =
        Except.ok
          { depth_ := self.depth_,
            out_ := fn (self.out_ ++ indentation self.depth_.toNat) ++ "\n" } ∧
      (∀ w : String, fn = (fun out => out ++ w) →
        self.WithPrintLn fuel fn =
          Except.ok
            { depth_ := self.depth_,
              out_ := self.out_ ++ indentation self.depth_.toNat ++ w ++ "\n" }) ∧
      indentation self.depth_.toNat = " " ++ bars self.depth_.toNat ∧
      (indentation self.depth_.toNat).length = 1 + 2 * self.depth_.toNat := by
  have h : self.WithPrintLn fuel fn =
      Except.ok
        { depth_ := self.depth_,
          out_ := fn (self.out_ ++ indentation self.depth_.toNat) ++ "\n" } := by
    unfold PlanPrinter.WithPrintLn
    rw [printBars_ok self.depth_ hmax self.depth_.toNat fuel 0 _ (le_refl 0)
      (by rw [Int.toNat_of_nonneg h0]; omega) hfuel]
    simp only [indentation, String.append_assoc]
  refine ⟨h, ?_, rfl, indentation_length _⟩
  intro w hw
  rw [h, hw]

/-- The line "* Once" at depth 2. -/
theorem WithPrintLn_line_at_depth_two :
    PlanPrinter.WithPrintLn 3 (fun out => out ++ "* Once") { depth_ := 2, out_ := "" } =
        Except.ok { depth_ := 2, out_ := " | | * Once\n" } ∧
      (indentation 2).length = 5 :=
  ⟨(WithPrintLn_line_within_int { depth_ := 2, out_ := "" } (fun out => out ++ "* Once") 3
      (by decide) (by decide) (by decide)).1,
    (WithPrintLn_line_within_int { depth_ := 2, out_ := "" } (fun out => out ++ "* Once") 3
      (by decide) (by decide) (by decide)).2.2.2⟩

/-- C16 fails in the code: `depth_` is an `int64_t` (line 104) and the loop
counter `i` of line 93 an `int`.  At `depth_ = 2 ^ 31`, a depth the claim
covers, the counter reaches 2147483647 while `i < depth_` still holds and its
increment overflows, so for every `fun` and every stream the call ends in
undefined behaviour instead of writing the line of `1 + 2 * depth_` prefix
characters; whatever the fuel, it has no result. -/
theorem C16_WithPrintLn_counter_overflow (fn : String → String) (out_ : String) :
    PlanPrinter.WithPrintLn (2 ^ 31 + 1) fn { depth_ := 2 ^ 31, out_ := out_ }
        = Except.error PrintError.SignedOverflow ∧
      ∀ fuel r,
        PlanPrinter.WithPrintLn fuel fn { depth_ := 2 ^ 31, out_ := out_ } ≠ Except.ok r :=
  ⟨WithPrintLn_overflow _ _ _ (show INT_MAX < (2 : Int) ^ 31 by unfold INT_MAX; norm_num)
      (by norm_num),
    fun fuel r => WithPrintLn_never_ok _ _ fuel
      (show INT_MAX < (2 : Int) ^ 31 by unfold INT_MAX; norm_num) r⟩

end query.plan

/-! ## Removing conjuncts -/

namespace query.plan.impl

/-- Induction over expression trees: a property of every non-And expression
that passes from the non-null children of an `AndOperator` to the operator
holds of every tree. -/
theorem Expression.induct (P : Expression → Prop) (hO : ∀ a, P (Expression.Other a))
    (hA : ∀ a e1 e2, (∀ c, e1 = some c → P c) → (∀ c, e2 = some c → P c) →
      P (Expression.AndOperator a e1 e2)) : ∀ e, P e := by
  have h : ∀ n (e : Expression), sizeOf e < n → P e := by
    intro n
    induction n with
    | zero => intro e h; omega
    | succ n ih =>
      intro e h
      cases e with
      | Other a => exact hO a
      | AndOperator a e1 e2 =>
        refine hA a e1 e2 (fun c hc => ih c ?_) (fun c hc => ih c ?_)
        · subst hc
          simp only [Expression.AndOperator.sizeOf_spec, Option.some.sizeOf_spec] at h
          omega
        · subst hc
          simp only [Expression.AndOperator.sizeOf_spec, Option.some.sizeOf_spec] at h
          omega
  exact fun e => h (sizeOf e + 1) e (Nat.lt_succ_self _)

theorem leavesUnder_ancestors (e : Expression) :
    ∀ (anc : List Nat) (x : Nat × List Nat), x ∈ leavesUnder anc e → ∀ a ∈ anc, a ∈ x.2 := by
  induction e using Expression.induct with
  | hO b =>
    intro anc x hx a ha
    simp only [leavesUnder, List.mem_singleton] at hx
    subst hx
    exact ha
  | hA b e1 e2 ih1 ih2 =>
    intro anc x hx a ha
    simp only [leavesUnder, List.mem_append] at hx
    rcases hx with hx | hx
    · cases e1 with
      | none => simp [leavesUnderPointer] at hx
      | some c => exact ih1 c rfl (b :: anc) x hx a (List.mem_cons_of_mem _ ha)
    · cases e2 with
      | none => simp [leavesUnderPointer] at hx
      | some c => exact ih2 c rfl (b :: anc) x hx a (List.mem_cons_of_mem _ ha)

theorem filter_stays_removed (S : Option Nat → Bool) (e : Expression) (anc : List Nat)
    (a : Nat) (ha : a ∈ anc) (hS : S (some a) = true) :
    (leavesUnder anc e).filter (stays S) = [] := by
  rw [List.filter_eq_nil_iff]
  intro x hx hst
  have hmem := leavesUnder_ancestors e anc x hx a ha
  simp only [stays, Bool.and_eq_true, List.all_eq_true] at hst
  have := hst.2 a hmem
  simp [hS] at this

theorem node_and (S : Option Nat → Bool) (a : Nat) (c1 c2 : Expression)
    (hS : S (some a) = false) :
    RemoveAndExpressions.node S (Expression.AndOperator a (some c1) (some c2)) =
      match (if S (some c1.addr) then none else RemoveAndExpressions.node S c1),
        (if S (some c2.addr) then none else RemoveAndExpressions.node S c2) with
      | none, none => none
      | some r1, none => some r1
      | none, some r2 => some r2
      | some r1, some r2 => some (Expression.AndOperator a (some r1) (some r2)) := by
  rw [RemoveAndExpressions.node]
  simp only [hS, Bool.false_eq_true, if_false, ptr, Option.map_some',
    RemoveAndExpressions.pointer]

theorem removed_spec (S : Option Nat → Bool) (e : Expression) :
    wellFormed e = true → ∀ anc : List Nat, (∀ a ∈ anc, S (some a) = false) →
      leavesPointer (if S (some e.addr) then none else RemoveAndExpressions.node S e) =
          ((leavesUnder anc e).filter (stays S)).map Prod.fst ∧
        (leavesPointer (if S (some e.addr) then none else RemoveAndExpressions.node S e) = [] →
          (if S (some e.addr) then none else RemoveAndExpressions.node S e) = none) ∧
        ((leavesPointer
            (if S (some e.addr) then none else RemoveAndExpressions.node S e)).length = 1 →
          ∃ a, (if S (some e.addr) then none else RemoveAndExpressions.node S e) =
            some (Expression.Other a)) := by
  induction e using Expression.induct with
  | hO b =>
    intro _ anc hanc
    have hall : (anc.all fun a => !S (some a)) = true := by
      rw [List.all_eq_true]
      intro a ha
      simp [hanc a ha]
    cases hS : S (some b) with
    | true =>
      simp [Expression.addr, hS, leavesPointer, leavesUnder, stays]
    | false =>
      simp [Expression.addr, hS, leavesPointer, leavesUnder, stays, RemoveAndExpressions.node,
        leaves, hall]
  | hA b e1 e2 ih1 ih2 =>
    intro hwf anc hanc
    cases e1 with
    | none => simp [wellFormed, wellFormedPointer] at hwf
    | some c1 =>
      cases e2 with
      | none => simp [wellFormed, wellFormedPointer] at hwf
      | some c2 =>
        simp only [wellFormed, wellFormedPointer, Bool.and_eq_true] at hwf
        cases hS : S (some b) with
        | true =>
          have h1 := filter_stays_removed S c1 (b :: anc) b (List.mem_cons_self _ _) hS
          have h2 := filter_stays_removed S c2 (b :: anc) b (List.mem_cons_self _ _) hS
          simp [Expression.addr, hS, leavesPointer, leavesUnder, leavesUnderPointer, h1, h2]
        | false =>
          have hanc2 : ∀ a ∈ b :: anc, S (some a) = false := by
            intro a ha
            rcases List.mem_cons.1 ha with rfl | ha
            · exact hS
            · exact hanc a ha
          obtain ⟨p1, p2, p3⟩ := ih1 c1 rfl hwf.1 (b :: anc) hanc2
          obtain ⟨q1, q2, q3⟩ := ih2 c2 rfl hwf.2 (b :: anc) hanc2
          have haddr : (Expression.AndOperator b (some c1) (some c2)).addr = b := rfl
          simp only [haddr, hS, Bool.false_eq_true, if_false, node_and S b c1 c2 hS,
            leavesUnder, leavesUnderPointer, List.filter_append, List.map_append]
          rw [← p1, ← q1]
          generalize (if S (some c1.addr) then none else RemoveAndExpressions.node S c1) = r1
            at p2 p3 ⊢
          generalize (if S (some c2.addr) then none else RemoveAndExpressions.node S c2) = r2
            at q2 q3 ⊢
          cases r1 with
          | none =>
            cases r2 with
            | none => simp [leavesPointer]
            | some y =>
              simp only [leavesPointer, List.nil_append] at q2 q3 ⊢
              exact ⟨trivial, q2, q3⟩
          | some x =>
            cases r2 with
            | none =>
              simp only [leavesPointer, List.append_nil] at p2 p3 ⊢
              exact ⟨trivial, p2, p3⟩
            | some y =>
              have hx : leaves x ≠ [] := fun h => by simpa using p2 h
              have hy : leaves y ≠ [] := fun h => by simpa using q2 h
              have hx1 : 0 < (leaves x).length := List.length_pos.2 hx
              have hy1 : 0 < (leaves y).length := List.length_pos.2 hy
              simp only [leavesPointer, leaves, List.length_append]
              refine ⟨trivial, ?_, ?_⟩
              · intro h
                exact absurd (List.append_eq_nil.1 h).1 hx
              · intro h
                omega

/-- C17: for every well-formed tree `e` (every `AndOperator` has two non-null
children) whose root is an `AndOperator` and every set of expressions, the
non-And leaves of `RemoveAndExpressions(e, S)`, left to right, are those
non-And leaves of `e`, in the same order, that are not in the set and have no
`AndOperator` ancestor (the root included) in it; the result is `nullptr` iff
there is no such leaf, and a single non-And expression iff there is exactly
one. -/
theorem C17_RemoveAndExpressions_leaves (e : Expression) (S : Option Nat → Bool)
    (hwf : wellFormed e = true) (hand : e.isAnd = true) :
    leavesPointer (RemoveAndExpressions (some e) S) = keptLeaves S e ∧
      (RemoveAndExpressions (some e) S = none ↔ keptLeaves S e = []) ∧
      ((∃ a, RemoveAndExpressions (some e) S = some (Expression.Other a)) ↔
        (keptLeaves S e).length = 1) := by
  have hr : RemoveAndExpressions (some e) S =
      (if S (some e.addr) then none else RemoveAndExpressions.node S e) := by
    cases e with
    | Other a => simp [Expression.isAnd] at hand
    | AndOperator a e1 e2 =>
      simp only [RemoveAndExpressions, RemoveAndExpressions.pointer, Expression.addr]
      by_cases hS : S (some a) = true
      · rw [if_pos hS, RemoveAndExpressions.node, if_pos hS]
      · rw [if_neg hS]
  obtain ⟨h1, h2, h3⟩ := removed_spec S e hwf [] (fun _ h => absurd h (List.not_mem_nil _))
  rw [← hr] at h1 h2 h3
  have h1k : leavesPointer (RemoveAndExpressions (some e) S) = keptLeaves S e := h1
  refine ⟨h1k, ⟨fun h => ?_, fun h => h2 (h1k.trans h)⟩, ⟨fun h => ?_, fun h => h3 (h1k ▸ h)⟩⟩
  · rw [← h1k, h]
    rfl
  · obtain ⟨a, ha⟩ := h
    rw [← h1k, ha]
    rfl

/-- Witness of C17: from `((1 AND 2) AND (3 AND 4))` remove the leaf 1 and the
`AndOperator` at 12: the result is the single expression 2. -/
theorem C17_RemoveAndExpressions_leaves_witness :
    leavesPointer (RemoveAndExpressions (some sampleAnd) (fun p => p == some 1 || p == some 12))
        = keptLeaves (fun p => p == some 1 || p == some 12) sampleAnd ∧
      (RemoveAndExpressions (some sampleAnd) (fun p => p == some 1 || p == some 12) = none ↔
        keptLeaves (fun p => p == some 1 || p == some 12) sampleAnd = []) ∧
      ((∃ a, RemoveAndExpressions (some sampleAnd) (fun p => p == some 1 || p == some 12) =
          some (Expression.Other a)) ↔
        (keptLeaves (fun p => p == some 1 || p == some 12) sampleAnd).length = 1) :=
  C17_RemoveAndExpressions_leaves sampleAnd (fun p => p == some 1 || p == some 12) rfl rfl

end query.plan.impl

/-! ## The audit log's JSON conversion -/

namespace audit

open storage

theorem items_eq (xs : List PropertyValue) :
    ∀ ret, PropertyValueToJson.items xs ret = ret ++ xs.map PropertyValueToJson := by
  induction xs with
  | nil => intro ret; simp [PropertyValueToJson.items]
  | cons x xs ih => intro ret; simp [PropertyValueToJson.items, ih]

theorem entries_eq (m : List (String × PropertyValue)) :
    ∀ ret, PropertyValueToJson.entries m ret =
      (m.map (fun kv => (kv.1, PropertyValueToJson kv.2))).foldl insertMember ret := by
  induction m with
  | nil => intro ret; simp [PropertyValueToJson.entries]
  | cons kv m ih =>
    intro ret
    obtain ⟨k, v⟩ := kv
    simp [PropertyValueToJson.entries, ih]

theorem lookup_append_member (members : List (String × Json)) (member : String × Json)
    (k : String) :
    (members ++ [member]).lookup k =
      (members.lookup k).orElse (fun _ => if k = member.1 then some member.2 else none) := by
  induction members with
  | nil =>
    obtain ⟨k2, v⟩ := member
    by_cases h : k = k2
    · simp [List.lookup, h]
    · have : (k == k2) = false := by simpa using h
      simp [List.lookup, h, this]
  | cons a rest ih =>
    obtain ⟨k1, v1⟩ := a
    by_cases h : k = k1
    · simp [List.lookup, h]
    · have : (k == k1) = false := by simpa using h
      simp only [List.cons_append, List.lookup, this]
      exact ih

theorem lookup_isSome_of_any (members : List (String × Json)) (k : String)
    (h : members.any (fun m => m.1 == k) = true) : (members.lookup k).isSome = true := by
  induction members with
  | nil => simp at h
  | cons a rest ih =>
    obtain ⟨k1, v1⟩ := a
    by_cases hk : k = k1
    · simp [List.lookup, hk]
    · have h1 : (k == k1) = false := by simpa using hk
      have h2 : (k1 == k) = false := by simpa using (fun h => hk h.symm)
      simp only [List.any_cons, h2, Bool.false_or] at h
      simp only [List.lookup, h1]
      exact ih h

theorem lookup_insertMember (members : List (String × Json)) (member : String × Json)
    (k : String) :
    (insertMember members member).lookup k =
      (members.lookup k).orElse (fun _ => if k = member.1 then some member.2 else none) := by
  unfold insertMember
  by_cases h : members.any (fun m => m.1 == member.1) = true
  · rw [if_pos h]
    by_cases hk : k = member.1
    · obtain ⟨v, hv⟩ := Option.isSome_iff_exists.1
        (lookup_isSome_of_any members k (by rw [hk]; exact h))
      rw [hv]; rfl
    · simp [hk]
  · rw [if_neg h]
    exact lookup_append_member members member k

theorem lookup_foldl_insertMember (l : List (String × Json)) (k : String) :
    ∀ ret : List (String × Json),
      (l.foldl insertMember ret).lookup k = (ret.lookup k).orElse (fun _ => l.lookup k) := by
  induction l with
  | nil =>
    intro ret
    rw [List.foldl_nil]
    cases List.lookup k ret <;> rfl
  | cons a l ih =>
    intro ret
    obtain ⟨k1, v1⟩ := a
    rw [List.foldl_cons, ih, lookup_insertMember]
    cases ret.lookup k with
    | some v => rfl
    | none =>
      by_cases hk : k = k1
      · simp [List.lookup, hk]
      · have h1 : (k == k1) = false := by simpa using hk
        simp [List.lookup, hk, h1]

theorem lookup_converted (m : List (String × PropertyValue)) (k : String) :
    (m.map (fun kv => (kv.1, PropertyValueToJson kv.2))).lookup k =
      (m.lookup k).map PropertyValueToJson := by
  induction m with
  | nil => rfl
  | cons a m ih =>
    obtain ⟨k1, v1⟩ := a
    by_cases hk : k = k1
    · simp [List.lookup, hk]
    · have h1 : (k == k1) = false := by simpa using hk
      simp only [List.map_cons, List.lookup, h1]
      exact ih

theorem mem_keys_iff_lookup {β : Type} (l : List (String × β)) (k : String) :
    k ∈ l.map Prod.fst ↔ (l.lookup k).isSome = true := by
  induction l with
  | nil => simp
  | cons a l ih =>
    obtain ⟨k1, v1⟩ := a
    by_cases hk : k = k1
    · simp [List.lookup, hk]
    · have h1 : (k == k1) = false := by simpa using hk
      simp only [List.map_cons, List.mem_cons, hk, false_or, List.lookup, h1]
      exact ih

theorem any_key_iff (members : List (String × Json)) (k : String) :
    members.any (fun m => m.1 == k) = true ↔ k ∈ members.map Prod.fst := by
  simp only [List.any_eq_true, beq_iff_eq, List.mem_map]

theorem nodup_insertMember (members : List (String × Json)) (member : String × Json)
    (h : (members.map Prod.fst).Nodup) : ((insertMember members member).map Prod.fst).Nodup := by
  unfold insertMember
  by_cases ha : members.any (fun m => m.1 == member.1) = true
  · rw [if_pos ha]; exact h
  · rw [if_neg ha, List.map_append, List.nodup_append]
    refine ⟨h, by simp, ?_⟩
    intro k hk1 hk2
    simp only [List.map_cons, List.map_nil, List.mem_singleton] at hk2
    subst hk2
    exact ha ((any_key_iff members _).2 hk1)

theorem nodup_foldl_insertMember (l : List (String × Json)) :
    ∀ ret : List (String × Json), (ret.map Prod.fst).Nodup →
      ((l.foldl insertMember ret).map Prod.fst).Nodup := by
  induction l with
  | nil => intro ret h; exact h
  | cons a l ih => intro ret h; exact ih _ (nodup_insertMember ret a h)

theorem foldl_insertMember_of_nodup (l : List (String × Json)) :
    ∀ ret : List (String × Json), ((ret ++ l).map Prod.fst).Nodup →
      l.foldl insertMember ret = ret ++ l := by
  induction l with
  | nil => intro ret _; simp
  | cons a l ih =>
    intro ret h
    have hnot : ¬ (ret.any (fun m => m.1 == a.1) = true) := by
      intro hany
      have hmem := (any_key_iff ret a.1).1 hany
      rw [List.map_append, List.nodup_append] at h
      exact h.2.2 hmem (by simp)
    have hins : insertMember ret a = ret ++ [a] := by
      unfold insertMember
      rw [if_neg hnot]
    rw [List.foldl_cons, hins, ih (ret ++ [a]) (by simpa using h)]
    simp

/-- C18: `PropertyValueToJson` is a function on all property values (defined
by recursion on their structure, so every call returns) that maps each of the
seven tags to the JSON value of the same shape: Null to null, Bool, Int,
Double and String to the boolean, integer, float and string with the same
content, a List of `n` values to the array of exactly `n` elements whose
`i`-th is the conversion of the `i`-th value (the empty list to the empty
array, which is not null), and a Map to an object with distinct keys whose
key set is that of the map and whose value at each key is the conversion of
the map's value there; the members are the converted entries one for one when
the keys of the map are distinct, as they are in a `std::map`. -/
theorem C18_PropertyValueToJson_structure :
    PropertyValueToJson PropertyValue.null = Json.null ∧
    (∀ b, PropertyValueToJson (PropertyValue.bool b) = Json.boolean b) ∧
    (∀ i, PropertyValueToJson (PropertyValue.int i) = Json.number_integer i) ∧
    (∀ d, PropertyValueToJson (PropertyValue.double d) = Json.number_float d) ∧
    (∀ s, PropertyValueToJson (PropertyValue.string s) = Json.string s) ∧
    (∀ xs, ∃ elements, PropertyValueToJson (PropertyValue.list xs) = Json.array elements ∧
      elements = xs.map PropertyValueToJson ∧
      elements.length = xs.length ∧
      ∀ i : Nat, elements[i]? = (xs[i]?).map PropertyValueToJson) ∧
    (PropertyValueToJson (PropertyValue.list []) = Json.array [] ∧
      Json.array [] ≠ Json.null) ∧
    (∀ m, ∃ members, PropertyValueToJson (PropertyValue.map m) = Json.object members ∧
      (members.map Prod.fst).Nodup ∧
      (∀ k, k ∈ members.map Prod.fst ↔ k ∈ m.map Prod.fst) ∧
      (∀ k, members.lookup k = (m.lookup k).map PropertyValueToJson) ∧
      ((m.map Prod.fst).Nodup →
        members = m.map (fun kv => (kv.1, PropertyValueToJson kv.2)))) := by
  refine ⟨by simp [PropertyValueToJson], fun b => by simp [PropertyValueToJson],
    fun i => by simp [PropertyValueToJson], fun d => by simp [PropertyValueToJson],
    fun s => by simp [PropertyValueToJson], ?_, ?_, ?_⟩
  · intro xs
    refine ⟨xs.map PropertyValueToJson, ?_, rfl, by simp, fun i => by simp⟩
    rw [PropertyValueToJson, items_eq]
    rfl
  · constructor
    · rw [PropertyValueToJson, items_eq]
      rfl
    · intro h
      cases h
  · intro m
    have hlook : ∀ k, ((m.map (fun kv => (kv.1, PropertyValueToJson kv.2))).foldl
        insertMember []).lookup k = (m.lookup k).map PropertyValueToJson := by
      intro k
      rw [lookup_foldl_insertMember, lookup_converted]
      rfl
    refine ⟨(m.map (fun kv => (kv.1, PropertyValueToJson kv.2))).foldl insertMember [], ?_,
      nodup_foldl_insertMember _ [] (by simp), ?_, hlook, ?_⟩
    · rw [PropertyValueToJson, entries_eq]
    · intro k
      rw [mem_keys_iff_lookup, mem_keys_iff_lookup, hlook]
      cases List.lookup k m <;> rfl
    · intro hnd
      apply foldl_insertMember_of_nodup
      simpa [List.map_map, Function.comp_def] using hnd

end audit
